import Mathlib

/-!
# Holixus/readline: a shallow embedding of `readline.c`

Bytes and glyphs are natural numbers.  A C string is the list of its bytes
before the terminating NUL; the terminator itself is implicit, one cell past
the end of the list.  Functions that in C can loop for ever, read outside a
string or write outside a buffer return `Option`, with `none` for that case.

The compile-time constants `RL_MAX_LENGTH` and `RL_HISTORY_HEIGHT` come from
`config.h`; they are parameters of the definitions that use them.

`utf8_to_glyph` returns its local `glyph` without ever assigning it when the
first byte is `10xxxxxx` or `1111xxxx`; the indeterminate value it returns
there is the parameter `junk`.

The display routines (`rl_move`, `rl_write_part`, `rl_update_tail`,
`rl_redraw`) assign no field of the state, but they format what they send in
local buffers: `buf[RL_MAX_LENGTH*2]` in `rl_write_part` and `rl_write`,
`buf[RL_MAX_LENGTH*3]` in `rl_move` and `rl_update_tail`.  `rl_write_part`,
`rl_move` and the functions whose names end in `_out` give what is sent, and
`none` when it is formatted outside the buffer.  The functions that can
overrun a display buffer in a state within the cursor invariant carry that
case: `rlc_cursor_end`, `rlc_cursor_word_right`, `rl_insert_seq`,
`rl_redraw`, `rl_dump_options`, `rl_dump_hint`, `rl_update_window` (and so
`rl_exec_seq` and `readline`) return `none` when `rl_write_part`,
`rl_update_tail` or `rl_move` does.  The other handlers are functions of the
state alone, as are `rl_update_tail(0)` at the end of `rl_insert_seq` and the
display calls of `rl_set_text`: within the cursor invariant what they format
fits its buffer (at most one glyph or `RL_MAX_LENGTH - 1` backspaces in
`RL_MAX_LENGTH*2` bytes, at most `RL_MAX_LENGTH - 1` glyphs and spaces in
`RL_MAX_LENGTH*3` bytes, a line decoded from at most `RL_MAX_LENGTH - 1`
bytes in `RL_MAX_LENGTH*2` bytes); `display_fits_within_invariant` proves it.
The buffers the edited text itself passes through are `raw[RL_MAX_LENGTH]`,
the local `uc[RL_MAX_LENGTH*2]` of `rl_insert_seq` and the local `seq[12]` of
`readline`.

The terminal attributes, the window tracker and the path for input that is
not a terminal have sections of their own; system and library calls
(`tcgetattr`, `tcsetattr`, `ioctl`, `fgets`) appear with their outcome as an
argument.
-/

namespace Readline

/-! ## Codec -/

/-- Read of the cell `raw[i]` of a C string whose bytes are `raw`: the cell
one past the bytes is the terminator, any cell further on is outside the
string. -/
def byteAt (raw : List Nat) (i : Nat) : Option Nat :=
  if i < raw.length then some (raw.getD i 0)
  else if i = raw.length then some 0
  else none

/-- Source `utf8_to_glyph(char const **utf8)`.  The result is the glyph
returned and the number of bytes by which `*utf8` was advanced (`0` on the
`return 0` paths, which leave `*utf8` alone, and on the path that assigns
`*utf8 = raw` with `raw` unchanged and returns the unassigned `glyph`). -/
def utf8_to_glyph (junk : Nat) (raw : List Nat) : Option (Nat × Nat) :=
  match byteAt raw 0 with
  | none => none
  | some b0 =>
    if b0 &&& 0x80 = 0 then some (b0, 1)
    else if b0 &&& 0xE0 = 0xC0 then
      match byteAt raw 1 with
      | none => none
      | some b1 =>
        if b1 &&& 0xC0 = 0x80 then
          some (((b0 &&& 0x1F) <<< 6) + (b1 &&& 0x3F), 2)
        else some (0, 0)
    else if b0 &&& 0xF0 = 0xE0 then
      match byteAt raw 1 with
      | none => none
      | some b1 =>
        if b1 &&& 0xC0 = 0x80 then
          match byteAt raw 2 with
          | none => none
          | some b2 =>
            if b2 &&& 0xC0 = 0x80 then
              some (((b0 &&& 0xF) <<< 12) + ((b1 &&& 0x3F) <<< 6) + (b2 &&& 0x3F), 3)
            else some (0, 0)
        else some (0, 0)
    else some (junk, 0)

/-- The `while (*raw)` loop of `utf8tog`, one unit of fuel per iteration.
When `utf8_to_glyph` returns `0` the loop steps one byte further from where
`utf8_to_glyph` left `raw`; if that is already the terminator, `raw` ends up
past the string and the next `*raw` reads outside it (`none`). -/
def utf8tog_loop (junk : Nat) : Nat → List Nat → Option (List Nat)
  | 0, _ => none
  | _ + 1, [] => some []
  | fuel + 1, b :: rest =>
    if b = 0 then some []
    else
      match utf8_to_glyph junk (b :: rest) with
      | none => none
      | some (gl, adv) =>
        if gl ≠ 0 then
          (utf8tog_loop junk fuel ((b :: rest).drop adv)).map (fun t => gl :: t)
        else if adv + 1 ≤ (b :: rest).length then
          utf8tog_loop junk fuel ((b :: rest).drop (adv + 1))
        else none

/-- Source `utf8tog(glyphs, raw)`: the glyphs written before the terminating
`0`; `none` when the loop never ends or reads outside the string.  An iteration that goes on consumes at
least one byte or leaves everything as it was, so `raw.length + 1` iterations
decide. -/
def utf8tog (junk : Nat) (raw : List Nat) : Option (List Nat) :=
  utf8tog_loop junk (raw.length + 1) raw

/-- The bytes `gtoutf8` stores for one glyph, each truncated to a `char`. -/
def glyph_bytes (uc : Nat) : List Nat :=
  if uc &&& 0xFF80 = 0 then [uc % 256]
  else if uc &&& 0xF800 = 0 then
    [(0xC0 ||| (uc >>> 6)) % 256, (0x80 ||| (uc &&& 0x3F)) % 256]
  else
    [(0xE0 ||| (uc >>> 12)) % 256, (0x80 ||| (0x3F &&& (uc >>> 6))) % 256,
      (0x80 ||| (0x3F &&& uc)) % 256]

/-- Source `gtoutf8(raw, glyphs, count)`: the bytes written before the
terminating NUL.  `glyphs` is the glyph array up to its terminating `0`;
the loop `while (*glyphs && count--)` stops at a `0` glyph or when `count`
reaches `0`, and a negative `count` never does. -/
def gtoutf8 : List Nat → Int → List Nat
  | [], _ => []
  | uc :: rest, count =>
    if uc = 0 then []
    else if count = 0 then []
    else glyph_bytes uc ++ gtoutf8 rest (count - 1)

/-- The encoding of a whole glyph sequence, glyph by glyph. -/
def encode_all : List Nat → List Nat
  | [] => []
  | uc :: rest => glyph_bytes uc ++ encode_all rest


/-- Source `utf8_width`, loop with one unit of fuel per iteration: every
iteration counts one, also the one that skips a byte. -/
def utf8_width_loop (junk : Nat) : Nat → List Nat → Option Nat
  | 0, _ => none
  | _ + 1, [] => some 0
  | fuel + 1, b :: rest =>
    if b = 0 then some 0
    else
      match utf8_to_glyph junk (b :: rest) with
      | none => none
      | some (gl, adv) =>
        if gl ≠ 0 then
          (utf8_width_loop junk fuel ((b :: rest).drop adv)).map (fun n => n + 1)
        else if adv + 1 ≤ (b :: rest).length then
          (utf8_width_loop junk fuel ((b :: rest).drop (adv + 1))).map (fun n => n + 1)
        else none

/-- Source `utf8_width(raw)`; `none` when the loop never ends or reads outside
the string. -/
def utf8_width (junk : Nat) (raw : List Nat) : Option Nat :=
  utf8_width_loop junk (raw.length + 1) raw

/-- The bytes of a `char` buffer that make up its C string: those before the
first NUL. -/
def cstr (s : List Nat) : List Nat := s.takeWhile (fun b => b ≠ 0)

/-- Source `skip_char_seq(start)`: `raw - start` for a complete token, `0`
for one that is not closed.  `start` is the C string in the sequence buffer. -/
def skip_char_seq (junk : Nat) (start : List Nat) : Option Nat :=
  match utf8_to_glyph junk start with
  | none => none
  | some (glyph, adv) =>
    if glyph ≠ 0x1B then some adv
    else
      match byteAt start adv with
      | none => none
      | some ch =>
        if ch = 0x5B ∨ ch = 0x4F then
          let n := ((start.drop (adv + 1)).takeWhile
            (fun c => (0x30 ≤ c ∧ c ≤ 0x39) ∨ c = 0x3B)).length
          match byteAt start (adv + 1 + n) with
          | none => none
          | some ch2 =>
            if 64 ≤ ch2 ∧ ch2 ≤ 126 then some (adv + 1 + n + 1) else some 0
        else if 32 ≤ ch ∧ ch ≤ 127 then some (adv + 1 + 1)
        else some 0

/-! ## Session state -/

/-- Source `rl_history_t`.  `lines` holds the entries `lines[0 .. size)`, so
`size` is `lines.length`; `line` is the stashed in-progress line (`none` for
`NULL`). -/
structure rl_history_t where
  line : Option (List Nat)
  lines : List (List Nat)
  current : Nat
deriving DecidableEq, Repr

/-- Field `size` of `rl_history_t`. -/
def rl_history_t.size (h : rl_history_t) : Nat := h.lines.length

/-- Source `rl_state_t`.  `line` holds the glyph cells `line[0 .. length)`,
the cell after them holding the terminating `0`; `length` is the number of
these cells.  `raw` is the C string in the byte buffer.  The completion
callback is passed to the functions that use it. -/
structure rl_state_t where
  raw : List Nat
  line : List Nat
  cur_pos : Nat
  finish : Nat
  history : rl_history_t
  prompt : List Nat
  prompt_width : Nat
deriving DecidableEq, Repr

/-- Field `length` of `rl_state_t`. -/
def rl_state_t.length (s : rl_state_t) : Nat := s.line.length

/-- Source `rl_get_completion_fn`: called with the bytes of the whole line and
the byte offset of the cursor in them, returns the text to insert or `NULL`. -/
abbrev rl_get_completion_fn := List Nat → Nat → Option (List Nat)

/-- The cursor invariant `0 ≤ cur_pos ≤ length ≤ RL_MAX_LENGTH - 1`. -/
def cursor_inv (RL_MAX_LENGTH : Nat) (s : rl_state_t) : Prop :=
  s.cur_pos ≤ s.length ∧ s.length + 1 ≤ RL_MAX_LENGTH

instance (RL_MAX_LENGTH : Nat) (s : rl_state_t) : Decidable (cursor_inv RL_MAX_LENGTH s) := by
  unfold cursor_inv; infer_instance

/-- `gtoutf8(rl_state->raw, rl_state->line, -1)`: the encoded line and its
terminating NUL are stored in `raw[RL_MAX_LENGTH]`; `none` when they do not
fit. -/
def rl_encode_raw (RL_MAX_LENGTH : Nat) (s : rl_state_t) : Option rl_state_t :=
  let bytes := gtoutf8 s.line (-1)
  if bytes.length + 1 ≤ RL_MAX_LENGTH then some { s with raw := cstr bytes } else none

/-! ## Output formatting

The display routines format what they send in local buffers.  Each function
below gives what the routine of that name hands to `rl_out` and `rl_printf`,
in order, in the state it is called in; `none` when it formats the bytes
outside the local buffer it uses.  `cols` is `rl_window.cols`. -/

/-- Source `rl_write_part(start, length)`: the bytes handed to `rl_out`.
`gtoutf8` first stores them and their terminating NUL in the local
`buf[RL_MAX_LENGTH*2]`; `none` when they do not fit.  No field of the state
is assigned. -/
def rl_write_part (RL_MAX_LENGTH : Nat) (start : Nat) (length : Int) (s : rl_state_t) :
    Option (List Nat) :=
  let bytes := gtoutf8 (s.line.drop start) length
  if bytes.length + 1 ≤ RL_MAX_LENGTH * 2 then some bytes else none

/-- What the editor hands to `rl_out` and `rl_printf`: bytes as they are, or
one of the four moves `rl_printf(CUR_LEFT_N, n)`, `rl_printf(CUR_RIGHT_N, n)`,
`rl_printf(CUR_UP_N, n)`, `rl_printf(CUR_DOWN_N, n)`. -/
inductive rl_out_t where
  | bytes (data : List Nat)
  | cur_left (n : Nat)
  | cur_right (n : Nat)
  | cur_up (n : Nat)
  | cur_down (n : Nat)
deriving DecidableEq, Repr

/-- Source `rl_write(code, count)` for the one-byte `code` `CUR_LEFT`
(`"\b"`), `count ≥ 1`: `count` copies are laid in the local
`buf[RL_MAX_LENGTH*2]`, each `stpcpy` storing a terminator after its copy;
`none` when they do not fit. -/
def rl_write_cur_left (RL_MAX_LENGTH count : Nat) : Option (List rl_out_t) :=
  if count + 1 ≤ RL_MAX_LENGTH * 2 then some [rl_out_t.bytes (List.replicate count 0x08)]
  else none

/-- Source `rl_move(count)`, what it emits; it assigns no field of the
session state.  `cols` is `rl_window.cols`.  With `cols = 0` a move left is
`-count` backspaces and a move right writes the `count` glyphs at the cursor
again, formatted in a local `buf[RL_MAX_LENGTH*3]`.  Otherwise the position
`cur_pos + prompt_width` and the position `count` further are split into row
and column with the C operators `/` and `%`; the horizontal move is emitted
first, then the vertical one. -/
def rl_move (RL_MAX_LENGTH cols : Nat) (count : Int) (s : rl_state_t) :
    Option (List rl_out_t) :=
  if cols = 0 then
    if count < 0 then rl_write_cur_left RL_MAX_LENGTH (-count).toNat
    else if count > 0 then
      let b := gtoutf8 (s.line.drop s.cur_pos) count
      if b.length + 1 ≤ RL_MAX_LENGTH * 3 then
        some (if b = [] then [] else [rl_out_t.bytes b])
      else none
    else some []
  else
    let pos : Int := (s.cur_pos : Int) + (s.prompt_width : Int)
    let row := pos.tdiv cols
    let col := pos.tmod cols
    let pos1 := pos + count
    let torow := pos1.tdiv cols
    let tocol := pos1.tmod cols
    some
      ((if tocol < col then [rl_out_t.cur_left (col - tocol).toNat]
        else if tocol > col then [rl_out_t.cur_right (tocol - col).toNat]
        else []) ++
       (if torow < row then [rl_out_t.cur_up (row - torow).toNat]
        else if torow > row then [rl_out_t.cur_down (torow - row).toNat]
        else []))

/-- What `rl_write_part(start, length)` emits: `rl_out` is not called for no
bytes. -/
def rl_write_part_out (RL_MAX_LENGTH : Nat) (start : Nat) (length : Int) (s : rl_state_t) :
    Option (List rl_out_t) :=
  (rl_write_part RL_MAX_LENGTH start length s).map
    (fun b => if b = [] then [] else [rl_out_t.bytes b])

/-- What `rl_update_tail(afterspace)` emits: the glyphs from the cursor on
and `afterspace` spaces, formatted in a local `buf[RL_MAX_LENGTH*3]` with a
terminator, then the move back by `c = afterspace + length - cur_pos`, which
`rl_move` computes from the position `cur_pos + c`. -/
def rl_update_tail_out (RL_MAX_LENGTH cols : Nat) (afterspace : Nat) (s : rl_state_t) :
    Option (List rl_out_t) :=
  let b := gtoutf8 (s.line.drop s.cur_pos) (-1)
  if b.length + afterspace + 1 ≤ RL_MAX_LENGTH * 3 then
    let written := b ++ List.replicate afterspace 0x20
    let c := afterspace + s.length - s.cur_pos
    match (if c > 0 then
        rl_move RL_MAX_LENGTH cols (-(c : Int)) { s with cur_pos := s.cur_pos + c }
      else some []) with
    | none => none
    | some mv => some ((if written = [] then [] else [rl_out_t.bytes written]) ++ mv)
  else none

/-! ## Edit buffer -/

/-- Source `rlc_cursor_home`. -/
def rlc_cursor_home (s : rl_state_t) : rl_state_t := { s with cur_pos := 0 }

/-- Source `rl_set_text(text, redraw)`: `strncpy` of at most
`sizeof(raw) - 1` bytes, which also fills what is left of those
`sizeof(raw) - 1` bytes with NULs, then `raw[sizeof(raw) - 1] = 0` and
`utf8tog` from `raw` into `line`. -/
def rl_set_text (RL_MAX_LENGTH junk : Nat) (text : List Nat) (redraw : Bool)
    (s : rl_state_t) : Option rl_state_t :=
  let s1 := if redraw then rlc_cursor_home s else s
  let raw := (cstr text).take (RL_MAX_LENGTH - 1)
  match utf8tog junk (raw ++ List.replicate (RL_MAX_LENGTH - 1 - raw.length) 0) with
  | none => none
  | some g => some { s1 with raw := raw, line := g, cur_pos := g.length }

/-- Source `history_pop(idx)`. -/
def history_pop (RL_MAX_LENGTH junk : Nat) (idx : Nat) (s : rl_state_t) : Option rl_state_t :=
  let h := s.history
  match (if idx = h.size then h.line else none) with
  | some l =>
    (rl_set_text RL_MAX_LENGTH junk l true s).map
      (fun s1 => { s1 with history := { s1.history with line := none } })
  | none =>
    if idx ≥ h.size then some s
    else
      let stashed : Option rl_state_t :=
        match h.line with
        | some _ => some s
        | none =>
          (rl_encode_raw RL_MAX_LENGTH s).map
            (fun s1 => { s1 with history := { s1.history with line := some s1.raw } })
      match stashed with
      | none => none
      | some s1 => rl_set_text RL_MAX_LENGTH junk (h.lines.getD idx []) true s1

/-- Source `rlc_cursor_end`: `rl_write_part(cur_pos, -1)` writes the glyphs
from the cursor to the end again, then `cur_pos = length`; `none` when
`rl_write_part` formats them outside its buffer. -/
def rlc_cursor_end (RL_MAX_LENGTH : Nat) (s : rl_state_t) : Option rl_state_t :=
  match rl_write_part RL_MAX_LENGTH s.cur_pos (-1) s with
  | none => none
  | some _ => some { s with cur_pos := s.length }

/-- Source `rlc_cursor_left`. -/
def rlc_cursor_left (s : rl_state_t) : rl_state_t :=
  if s.cur_pos ≠ 0 then { s with cur_pos := s.cur_pos - 1 } else s

/-- Source `rlc_cursor_right`. -/
def rlc_cursor_right (s : rl_state_t) : rl_state_t :=
  if s.cur_pos < s.length then { s with cur_pos := s.cur_pos + 1 } else s

/-- The loop `while (pos && P(line[pos-1])) --pos;`. -/
def scan_left (p : Nat → Bool) (line : List Nat) : Nat → Nat
  | 0 => 0
  | pos + 1 => if p (line.getD pos 0) then scan_left p line pos else pos + 1

/-- The loop `while (pos < length && P(line[pos])) ++pos;`, run on the cells
from `pos` on. -/
def scan_right (p : Nat → Bool) : List Nat → Nat → Nat
  | [], pos => pos
  | g :: t, pos => if p g then scan_right p t (pos + 1) else pos

/-- Where `rlc_cursor_word_left` puts the cursor: spaces leftwards, then
non-spaces leftwards. -/
def word_left_pos (line : List Nat) (cur : Nat) : Nat :=
  scan_left (fun g => g ≠ 0x20) line (scan_left (fun g => g = 0x20) line cur)

/-- Source `rlc_cursor_word_left`. -/
def rlc_cursor_word_left (s : rl_state_t) : rl_state_t :=
  if s.cur_pos = 0 then s
  else { s with cur_pos := word_left_pos s.line s.cur_pos }

/-- Source `rlc_next_word`: non-spaces forwards, then spaces forwards. -/
def rlc_next_word (s : rl_state_t) : Nat :=
  let pos := scan_right (fun g => g ≠ 0x20) (s.line.drop s.cur_pos) s.cur_pos
  scan_right (fun g => g = 0x20) (s.line.drop pos) pos

/-- Source `rlc_cursor_word_right`: past the end nothing; otherwise
`rl_write_part(cur_pos, pos - cur_pos)` writes the glyphs up to the next word
again, then `cur_pos = pos`; `none` when `rl_write_part` formats them outside
its buffer. -/
def rlc_cursor_word_right (RL_MAX_LENGTH : Nat) (s : rl_state_t) : Option rl_state_t :=
  if s.cur_pos ≥ s.length then some s
  else
    match rl_write_part RL_MAX_LENGTH s.cur_pos
        ((rlc_next_word s : Int) - (s.cur_pos : Int)) s with
    | none => none
    | some _ => some { s with cur_pos := rlc_next_word s }

/-- Source `rlc_delete_n(count)`, for `count ≥ 0`: the `memmove` brings the
cells from `cur_pos + count` on, terminator included, down to `cur_pos`. -/
def rlc_delete_n (count : Nat) (s : rl_state_t) : rl_state_t :=
  if s.cur_pos < s.length ∧ count ≠ 0 then
    let tail := s.length - s.cur_pos
    let count := if count > tail then tail else count
    { s with line := s.line.take s.cur_pos ++ s.line.drop (s.cur_pos + count) }
  else s

/-- Source `rlc_delete`. -/
def rlc_delete (s : rl_state_t) : rl_state_t := rlc_delete_n 1 s

/-- Source `rlc_backspace`. -/
def rlc_backspace (s : rl_state_t) : rl_state_t :=
  if s.cur_pos ≠ 0 then rlc_delete_n 1 { s with cur_pos := s.cur_pos - 1 } else s

/-- Source `rlc_backword`. -/
def rlc_backword (s : rl_state_t) : rl_state_t :=
  let e := s.cur_pos
  let s1 := rlc_cursor_word_left s
  rlc_delete_n (e - s1.cur_pos) s1

/-- Source `rlc_delete_word`. -/
def rlc_delete_word (s : rl_state_t) : rl_state_t :=
  rlc_delete_n (rlc_next_word s - s.cur_pos) s

/-- Source `rlc_delete_to_begin`. -/
def rlc_delete_to_begin (s : rl_state_t) : rl_state_t :=
  rlc_delete_n s.cur_pos (rlc_cursor_home s)

/-- Source `rlc_delete_to_end`. -/
def rlc_delete_to_end (s : rl_state_t) : rl_state_t :=
  rlc_delete_n (s.length - s.cur_pos) s

/-- Source `rlc_history_back`. -/
def rlc_history_back (RL_MAX_LENGTH junk : Nat) (s : rl_state_t) : Option rl_state_t :=
  if s.history.current ≠ 0 then
    history_pop RL_MAX_LENGTH junk (s.history.current - 1)
      { s with history := { s.history with current := s.history.current - 1 } }
  else some s

/-- Source `rlc_history_forward`. -/
def rlc_history_forward (RL_MAX_LENGTH junk : Nat) (s : rl_state_t) : Option rl_state_t :=
  if s.history.current < s.history.size then
    history_pop RL_MAX_LENGTH junk (s.history.current + 1)
      { s with history := { s.history with current := s.history.current + 1 } }
  else some s

/-- Source `rlc_history_begin`. -/
def rlc_history_begin (RL_MAX_LENGTH junk : Nat) (s : rl_state_t) : Option rl_state_t :=
  if s.history.current ≠ 0 then
    history_pop RL_MAX_LENGTH junk 0 { s with history := { s.history with current := 0 } }
  else some s

/-- Source `rlc_history_end`. -/
def rlc_history_end (RL_MAX_LENGTH junk : Nat) (s : rl_state_t) : Option rl_state_t :=
  if s.history.current < s.history.size then
    history_pop RL_MAX_LENGTH junk s.history.size
      { s with history := { s.history with current := s.history.size } }
  else some s

/-- Source `rlc_enter`. -/
def rlc_enter (s : rl_state_t) : rl_state_t := { s with finish := 1 }

/-- Source `rl_insert_seq(seq)`.  The glyphs of `seq` and their terminating
`0` are first stored in the local `uc[RL_MAX_LENGTH*2]`; the glyphs taken are
put in the line and `rl_write_part(cur_pos, count)` writes them before the
cursor goes past them.  `none` when `utf8tog` never ends, when the glyphs do
not fit `uc`, or when `rl_write_part` formats the glyphs taken outside its
buffer. -/
def rl_insert_seq (RL_MAX_LENGTH junk : Nat) (seq : List Nat) (s : rl_state_t) :
    Option rl_state_t :=
  match utf8tog junk seq with
  | none => none
  | some uc =>
    if uc.length + 1 ≤ RL_MAX_LENGTH * 2 then
      let max_count := RL_MAX_LENGTH - s.length - 1
      let count := if uc.length > max_count then max_count else uc.length
      if count = 0 then some s
      else
        let s1 := { s with
          line := s.line.take s.cur_pos ++ uc.take count ++ s.line.drop s.cur_pos }
        match rl_write_part RL_MAX_LENGTH s.cur_pos (count : Int) s1 with
        | none => none
        | some _ => some { s1 with cur_pos := s.cur_pos + count }
    else none

/-- Source `rlc_autocomplete`: the line is encoded into `raw` in two parts,
before and after the cursor, and the callback gets `raw` and the offset where
the second part starts. -/
def rlc_autocomplete (RL_MAX_LENGTH junk : Nat) (gc : Option rl_get_completion_fn)
    (s : rl_state_t) : Option rl_state_t :=
  match gc with
  | none => some s
  | some f =>
    let before := gtoutf8 s.line s.cur_pos
    let after := gtoutf8 (s.line.drop s.cur_pos) ((s.length : Int) - (s.cur_pos : Int))
    if before.length + after.length + 1 ≤ RL_MAX_LENGTH then
      let s1 := { s with raw := cstr (before ++ after) }
      match f (cstr (before ++ after)) before.length with
      | none => some s1
      | some ins => rl_insert_seq RL_MAX_LENGTH junk ins s1
    else none

/-! ## Command table and dispatcher -/

/-- The handlers that `rl_commands` binds. -/
inductive rl_handler where
  | cursor_home | cursor_left | cursor_right | cursor_end
  | cursor_word_left | cursor_word_right
  | backspace | delete | backword | delete_word | delete_to_end | delete_to_begin
  | autocomplete
  | history_back | history_forward | history_begin | history_end
  | enter
deriving DecidableEq, Repr

/-- Source `rl_commands`, in the order of the source. -/
def rl_commands : List (List Nat × rl_handler) := [
  ([0x01], .cursor_home),
  ([0x02], .cursor_left),
  ([0x06], .cursor_right),
  ([0x05], .cursor_end),
  ([0x1B, 0x62], .cursor_word_left),
  ([0x1B, 0x66], .cursor_word_right),
  ([0x08], .backspace),
  ([0x04], .delete),
  ([0x17], .backword),
  ([0x1B, 0x64], .delete_word),
  ([0x0B], .delete_to_end),
  ([0x15], .delete_to_begin),
  ([0x09], .autocomplete),
  ([0x10], .history_back),
  ([0x0E], .history_forward),
  ([0x1B, 0x3C], .history_begin),
  ([0x1B, 0x3E], .history_end),
  -- VT100
  ([0x1B, 0x4F, 0x48], .cursor_home),
  ([0x1B, 0x4F, 0x46], .cursor_end),
  ([0x1B, 0x5B, 0x41], .history_back),
  ([0x1B, 0x5B, 0x42], .history_forward),
  ([0x1B, 0x5B, 0x44], .cursor_left),
  ([0x1B, 0x5B, 0x43], .cursor_right),
  ([0x1B, 0x5B, 0x31, 0x3B, 0x35, 0x44], .cursor_word_left),
  ([0x1B, 0x5B, 0x31, 0x3B, 0x35, 0x43], .cursor_word_right),
  ([0x1B, 0x5B, 0x33, 0x7E], .delete),
  ([0x7F], .backspace),
  -- PuTTY
  ([0x1B, 0x5B, 0x31, 0x7E], .cursor_home),
  ([0x1B, 0x5B, 0x34, 0x7E], .cursor_end),
  ([0x1B, 0x4F, 0x44], .cursor_word_left),
  ([0x1B, 0x4F, 0x43], .cursor_word_right),
  -- Hyper Terminal
  ([0x1B, 0x5B, 0x48], .cursor_home),
  ([0x1B, 0x5B, 0x4B], .cursor_end),
  -- VT52
  ([0x1B, 0x48], .cursor_home),
  ([0x1B, 0x41], .history_back),
  ([0x1B, 0x42], .history_forward),
  ([0x1B, 0x44], .cursor_left),
  ([0x1B, 0x43], .cursor_right),
  ([0x1B, 0x4B], .delete_to_end),
  ([0x0A], .enter),
  ([0x0D], .enter)]

/-- The call `cmd->handler()`. -/
def rl_handler.run (RL_MAX_LENGTH junk : Nat) (gc : Option rl_get_completion_fn) :
    rl_handler → rl_state_t → Option rl_state_t
  | .cursor_home, s => some (rlc_cursor_home s)
  | .cursor_left, s => some (rlc_cursor_left s)
  | .cursor_right, s => some (rlc_cursor_right s)
  | .cursor_end, s => rlc_cursor_end RL_MAX_LENGTH s
  | .cursor_word_left, s => some (rlc_cursor_word_left s)
  | .cursor_word_right, s => rlc_cursor_word_right RL_MAX_LENGTH s
  | .backspace, s => some (rlc_backspace s)
  | .delete, s => some (rlc_delete s)
  | .backword, s => some (rlc_backword s)
  | .delete_word, s => some (rlc_delete_word s)
  | .delete_to_end, s => some (rlc_delete_to_end s)
  | .delete_to_begin, s => some (rlc_delete_to_begin s)
  | .autocomplete, s => rlc_autocomplete RL_MAX_LENGTH junk gc s
  | .history_back, s => rlc_history_back RL_MAX_LENGTH junk s
  | .history_forward, s => rlc_history_forward RL_MAX_LENGTH junk s
  | .history_begin, s => rlc_history_begin RL_MAX_LENGTH junk s
  | .history_end, s => rlc_history_end RL_MAX_LENGTH junk s
  | .enter, s => some (rlc_enter s)

/-- The search loop of `rl_exec_seq`: the handler of the first entry whose
`seq` is `strcmp`-equal to the C string `seq`. -/
def rl_find_command : List (List Nat × rl_handler) → List Nat → Option rl_handler
  | [], _ => none
  | (cs, h) :: rest, seq => if cs = seq then some h else rl_find_command rest seq

/-- Source `rl_exec_seq(seq)`, the state it leaves; the value it returns is
the field `finish` of that state.  `seq` is the content of the sequence
buffer. -/
def rl_exec_seq (RL_MAX_LENGTH junk : Nat) (gc : Option rl_get_completion_fn)
    (seq : List Nat) (s : rl_state_t) : Option rl_state_t :=
  match rl_find_command rl_commands (cstr seq) with
  | some h => h.run RL_MAX_LENGTH junk gc s
  | none =>
    if seq.headD 0 &&& 0xE0 ≠ 0 then rl_insert_seq RL_MAX_LENGTH junk seq s
    else some s

/-! ## History -/

/-- Source `history_add(string)`. -/
def history_add (RL_HISTORY_HEIGHT : Nat) (string : List Nat) (h : rl_history_t) :
    rl_history_t :=
  let h1 := { h with line := none }
  if cstr string = [] then h1
  else if h1.size ≠ 0 ∧ h1.lines.getLast? = some (cstr string) then
    { h1 with current := h1.size }
  else
    let lines := if h1.size ≥ RL_HISTORY_HEIGHT then h1.lines.drop 1 else h1.lines
    { h1 with lines := lines ++ [cstr string], current := lines.length + 1 }

/-! ## Session driver -/

/-- The read loop of `readline` on the bytes `safe_read` delivers, ending
when they run out.  `seq` is the content of `seq[0 .. seqpos)`.  The
terminator stored after the new byte goes to `seq[seqpos]`; `none` when that
is `seq[12]`, outside `char seq[12]`. -/
def readline_loop (RL_MAX_LENGTH junk : Nat) (gc : Option rl_get_completion_fn) :
    List Nat → List Nat → rl_state_t → Option rl_state_t
  | [], _, s => some s
  | ch :: rest, seq, s =>
    let seq0 := if seq.length ≥ 12 then [] else seq
    let seq1 := seq0 ++ [ch]
    if seq1.length ≥ 12 then none
    else
      match skip_char_seq junk (cstr seq1) with
      | none => none
      | some 0 => readline_loop RL_MAX_LENGTH junk gc rest seq1 s
      | some (_ + 1) =>
        match rl_exec_seq RL_MAX_LENGTH junk gc seq1 s with
        | none => none
        | some s1 =>
          if s1.finish ≠ 0 then some s1
          else readline_loop RL_MAX_LENGTH junk gc rest [] s1

/-- Source `readline(prompt, string)` when standard input is a terminal, fed
the bytes `input`: the line returned and the state left. -/
def readline (RL_MAX_LENGTH RL_HISTORY_HEIGHT junk : Nat) (gc : Option rl_get_completion_fn)
    (prompt : List Nat) (string : Option (List Nat)) (input : List Nat) (s : rl_state_t) :
    Option (List Nat × rl_state_t) :=
  match utf8_width junk prompt with
  | none => none
  | some w =>
    let s0 := { s with raw := [], line := [], cur_pos := 0, finish := 0,
                       prompt := prompt, prompt_width := w }
    match (match string with
           | none => some s0
           | some text => rl_set_text RL_MAX_LENGTH junk text true s0) with
    | none => none
    | some s1 =>
      match readline_loop RL_MAX_LENGTH junk gc input [] s1 with
      | none => none
      | some s2 =>
        match rlc_cursor_end RL_MAX_LENGTH s2 with
        | none => none
        | some s2e =>
          match rl_encode_raw RL_MAX_LENGTH s2e with
          | none => none
          | some s3 =>
            some (s3.raw,
              { s3 with history := history_add RL_HISTORY_HEIGHT s3.raw s3.history })

/-! ## The binding list of the specification -/

/-- The key binding table as the specification gives it, row by row: each
byte sequence with the operation its row names (cursor home, cursor end,
cursor left, cursor right, word left, word right, backspace, delete forward,
delete word backward, delete word forward, delete to end, delete to home,
autocomplete, history back, history forward, history begin, history end,
submit). -/
def spec_key_bindings : List (List Nat × rl_handler) := [
  -- cursor home: \001, ESC [ 1 ~, ESC [ H, ESC O H, ESC H
  ([0x01], .cursor_home), ([0x1B, 0x5B, 0x31, 0x7E], .cursor_home),
  ([0x1B, 0x5B, 0x48], .cursor_home), ([0x1B, 0x4F, 0x48], .cursor_home),
  ([0x1B, 0x48], .cursor_home),
  -- cursor end: \005, ESC [ 4 ~, ESC [ K, ESC O F
  ([0x05], .cursor_end), ([0x1B, 0x5B, 0x34, 0x7E], .cursor_end),
  ([0x1B, 0x5B, 0x4B], .cursor_end), ([0x1B, 0x4F, 0x46], .cursor_end),
  -- cursor left: \002, ESC [ D, ESC D
  ([0x02], .cursor_left), ([0x1B, 0x5B, 0x44], .cursor_left), ([0x1B, 0x44], .cursor_left),
  -- cursor right: \006, ESC [ C, ESC C
  ([0x06], .cursor_right), ([0x1B, 0x5B, 0x43], .cursor_right), ([0x1B, 0x43], .cursor_right),
  -- word left: ESC b, ESC [ 1 ; 5 D, ESC O D
  ([0x1B, 0x62], .cursor_word_left), ([0x1B, 0x5B, 0x31, 0x3B, 0x35, 0x44], .cursor_word_left),
  ([0x1B, 0x4F, 0x44], .cursor_word_left),
  -- word right: ESC f, ESC [ 1 ; 5 C, ESC O C
  ([0x1B, 0x66], .cursor_word_right),
  ([0x1B, 0x5B, 0x31, 0x3B, 0x35, 0x43], .cursor_word_right),
  ([0x1B, 0x4F, 0x43], .cursor_word_right),
  -- backspace: \010, \x7F
  ([0x08], .backspace), ([0x7F], .backspace),
  -- delete forward: \004, ESC [ 3 ~
  ([0x04], .delete), ([0x1B, 0x5B, 0x33, 0x7E], .delete),
  -- delete word backward: \027
  ([0x17], .backword),
  -- delete word forward: ESC d
  ([0x1B, 0x64], .delete_word),
  -- delete to end: \013, ESC K
  ([0x0B], .delete_to_end), ([0x1B, 0x4B], .delete_to_end),
  -- delete to home: \025
  ([0x15], .delete_to_begin),
  -- autocomplete: \t
  ([0x09], .autocomplete),
  -- history back: \020, ESC [ A, ESC A
  ([0x10], .history_back), ([0x1B, 0x5B, 0x41], .history_back), ([0x1B, 0x41], .history_back),
  -- history forward: \016, ESC [ B, ESC B
  ([0x0E], .history_forward), ([0x1B, 0x5B, 0x42], .history_forward),
  ([0x1B, 0x42], .history_forward),
  -- history begin: ESC <
  ([0x1B, 0x3C], .history_begin),
  -- history end: ESC >
  ([0x1B, 0x3E], .history_end),
  -- submit: \n, \r
  ([0x0A], .enter), ([0x0D], .enter)]

/-! ## History invariant -/

/-- No two adjacent entries of the history are byte-identical. -/
def no_adjacent_dup : List (List Nat) → Prop
  | [] => True
  | [_] => True
  | a :: b :: t => a ≠ b ∧ no_adjacent_dup (b :: t)

instance : DecidablePred no_adjacent_dup := by
  intro l
  induction l with
  | nil => exact isTrue trivial
  | cons a t ih =>
    cases t with
    | nil => exact isTrue trivial
    | cons b t1 =>
      unfold no_adjacent_dup
      exact @instDecidableAnd _ _ _ ih

/-! ## The decoder as the specification describes it -/

/-- The reference decoder of the specification, on at most `fuel` bytes: scan
left to right; stop at the terminator; emit one glyph for a well-formed
1-byte form `0xxxxxxx`, 2-byte form `110xxxxx 10xxxxxx` or 3-byte form
`1110xxxx 10xxxxxx 10xxxxxx` and go on after it; on any other byte skip
exactly that byte and emit nothing.  A byte that is not there reads as the
terminator `0`. -/
def utf8_decode_ref_go : Nat → List Nat → List Nat
  | 0, _ => []
  | _ + 1, [] => []
  | fuel + 1, b0 :: rest =>
    if b0 = 0 then []
    else if b0 / 128 = 0 then b0 :: utf8_decode_ref_go fuel rest
    else if b0 / 32 = 6 ∧ rest.getD 0 0 / 64 = 2 then
      ((b0 % 32) * 64 + rest.getD 0 0 % 64) :: utf8_decode_ref_go fuel (rest.drop 1)
    else if b0 / 16 = 14 ∧ rest.getD 0 0 / 64 = 2 ∧ rest.getD 1 0 / 64 = 2 then
      ((b0 % 16) * 4096 + (rest.getD 0 0 % 64) * 64 + rest.getD 1 0 % 64)
        :: utf8_decode_ref_go fuel (rest.drop 2)
    else utf8_decode_ref_go fuel rest

/-- The reference decoder of the specification on a whole string: every step
takes at least one byte, so as many steps as there are bytes reach the end. -/
def utf8_decode_ref (raw : List Nat) : List Nat := utf8_decode_ref_go raw.length raw

/-! ## Histories -/

/-- The history of a session that `readline_init` has just zeroed: no
entries, no stashed line, `current = 0`.  `history_empty` leaves no entries
either; it does not assign `line` or `current`, which the next `history_add`
sets. -/
def history_init : rl_history_t := ⟨none, [], 0⟩

/-- The history after the calls `history_add(s)` for the strings of `adds`,
in order, starting from the empty history. -/
def history_after (RL_HISTORY_HEIGHT : Nat) (adds : List (List Nat)) : rl_history_t :=
  adds.foldl (fun h s => history_add RL_HISTORY_HEIGHT s h) history_init

/-- The history invariant: no two adjacent entries byte-identical, no entry
empty, no more than `RL_HISTORY_HEIGHT` entries. -/
def history_inv (RL_HISTORY_HEIGHT : Nat) (h : rl_history_t) : Prop :=
  no_adjacent_dup h.lines ∧ (∀ e ∈ h.lines, e ≠ []) ∧ h.size ≤ RL_HISTORY_HEIGHT

/-! ## Display routines

`rl_update_tail`, `rl_redraw` and the two routines the completion callback
may call to print under the line.  They assign `cur_pos` only, and put it
back. -/

/-- Source `rl_update_tail(afterspace)`, the state it leaves: after writing
the tail, `c = afterspace + length - cur_pos` and, when `c > 0`,
`cur_pos += c; rl_move(-c); cur_pos -= c`.  What it writes is
`rl_update_tail_out`. -/
def rl_update_tail (afterspace : Nat) (s : rl_state_t) : rl_state_t :=
  let c := afterspace + s.length - s.cur_pos
  if c > 0 then
    let s1 := { s with cur_pos := s.cur_pos + c }
    { s1 with cur_pos := s1.cur_pos - c }
  else s

/-- Source `rl_redraw(inplace, tail)`: `rl_move(-(cur_pos + prompt_width))`
when `inplace`, the prompt, `rl_write_part(0, cur_pos)`, then
`rl_update_tail(tail)`; `none` when one of them formats what it writes
outside its local buffer.  `cols` is `rl_window.cols`. -/
def rl_redraw (RL_MAX_LENGTH cols : Nat) (inplace : Bool) (tail : Nat) (s : rl_state_t) :
    Option rl_state_t :=
  match (if inplace then
      rl_move RL_MAX_LENGTH cols (-((s.cur_pos : Int) + (s.prompt_width : Int))) s
    else some []) with
  | none => none
  | some _ =>
    match rl_write_part RL_MAX_LENGTH 0 (s.cur_pos : Int) s with
    | none => none
    | some _ =>
      match rl_update_tail_out RL_MAX_LENGTH cols tail s with
      | none => none
      | some _ => some (rl_update_tail tail s)

/-- Source `rl_dump_options(options)`, `options` being the strings of the
NULL-terminated array: nothing for an empty list; otherwise the cursor is
saved, `rlc_cursor_end` runs, the columns are printed, the cursor is put back
and `rl_redraw(0, 0)` runs. -/
def rl_dump_options (RL_MAX_LENGTH cols : Nat) (options : List (List Nat))
    (s : rl_state_t) : Option rl_state_t :=
  if options = [] then some s
  else
    let cur_pos := s.cur_pos
    match rlc_cursor_end RL_MAX_LENGTH s with
    | none => none
    | some s1 => rl_redraw RL_MAX_LENGTH cols false 0 { s1 with cur_pos := cur_pos }

/-- Source `rl_dump_hint(fmt, ...)`, `text` being the formatted hint.
`vsnprintf` stores what fits of it in the local `outbuf[4096]` and returns
its whole length; the cursor is saved, `rlc_cursor_end` runs, `rl_out` is
given `outbuf` and that length, the cursor is put back and `rl_redraw(0, 0)`
runs.  `none` also when `rl_out` is given more bytes than `outbuf` has. -/
def rl_dump_hint (RL_MAX_LENGTH cols : Nat) (text : List Nat) (s : rl_state_t) :
    Option rl_state_t :=
  let cur_pos := s.cur_pos
  match rlc_cursor_end RL_MAX_LENGTH s with
  | none => none
  | some s1 =>
    if text.length ≤ 4096 then
      rl_redraw RL_MAX_LENGTH cols false 0 { s1 with cur_pos := cur_pos }
    else none

/-! ## History navigation -/

/-- The four history navigation commands: `rlc_history_back`,
`rlc_history_forward`, `rlc_history_begin`, `rlc_history_end`. -/
inductive history_nav where
  | back | forward | to_begin | to_end
deriving DecidableEq, Repr

/-- The handler of a navigation command. -/
def history_nav.run (RL_MAX_LENGTH junk : Nat) : history_nav → rl_state_t → Option rl_state_t
  | .back, s => rlc_history_back RL_MAX_LENGTH junk s
  | .forward, s => rlc_history_forward RL_MAX_LENGTH junk s
  | .to_begin, s => rlc_history_begin RL_MAX_LENGTH junk s
  | .to_end, s => rlc_history_end RL_MAX_LENGTH junk s

/-- A sequence of navigation commands, one after the other. -/
def history_nav_seq (RL_MAX_LENGTH junk : Nat) : List history_nav → rl_state_t → Option rl_state_t
  | [], s => some s
  | op :: rest, s =>
    match op.run RL_MAX_LENGTH junk s with
    | none => none
    | some s1 => history_nav_seq RL_MAX_LENGTH junk rest s1

/-- Where navigation that started at `current = size` with the in-progress
line `line0` and the entries `entries` can be: back at `current = size` with
the line as it was and nothing stashed, or at an earlier entry with the
encoding of the line stashed. -/
def nav_inv (entries : List (List Nat)) (line0 : List Nat) (s : rl_state_t) : Prop :=
  s.history.lines = entries ∧
  ((s.history.current = entries.length ∧ s.history.line = none ∧ s.line = line0) ∨
   (s.history.current < entries.length ∧ s.history.line = some (encode_all line0)))

/-! ## Input that is not a terminal -/

/-- The bytes `fgets` stores from a stream with room for `k` of them: up to
and including the first newline. -/
def fgets_bytes : Nat → List Nat → List Nat
  | 0, _ => []
  | _, [] => []
  | k + 1, b :: rest => if b = 0x0A then [b] else b :: fgets_bytes k rest

/-- The library call `fgets(buf, n, stdin)` on the bytes `stream` left in
standard input: `none` for `NULL` at end of file, otherwise the bytes stored
before the terminating NUL, at most `n - 1`. -/
def fgets (n : Nat) (stream : List Nat) : Option (List Nat) :=
  if stream = [] then none else some (fgets_bytes (n - 1) stream)

/-- The loop `while (*end == '\r' || *end == '\n') --end;` of `readline` on
the C string `raw`, started with `end = raw + e - 1`: the value of
`end + 1 - raw` when it stops; `none` when it reads `*end` with
`end = raw - 1`, the cell before `raw`. -/
def strip_crlf_scan (raw : List Nat) : Nat → Option Nat
  | 0 => none
  | e + 1 =>
    if raw.getD e 0 = 0x0D ∨ raw.getD e 0 = 0x0A then strip_crlf_scan raw e
    else some (e + 1)

/-- Source `readline(prompt, string)` when standard input is not a terminal,
`stream` being the bytes left in it: `some none` for the return of `NULL`,
`some (some l)` for the return of `raw` holding the C string `l`, `none` when
the scan reads the cell before `raw`.  The scan starts at
`raw + strlen(raw) - 1`, and `*++end = 0` cuts the string after where it
stops. -/
def readline_not_tty (RL_MAX_LENGTH : Nat) (stream : List Nat) : Option (Option (List Nat)) :=
  match fgets RL_MAX_LENGTH stream with
  | none => some none
  | some bytes =>
    let raw := cstr bytes
    match strip_crlf_scan raw raw.length with
    | none => none
    | some e => some (some (raw.take e))

/-! ## Terminal attributes -/

/-- The terminal as `rl_term_raw` and `rl_term_unraw` see it: `attrs` are the
attributes of the terminal on standard output, which `tcgetattr` reads and
`tcsetattr` sets; `term_old`, `in_raw` and `atexit_ok` are the static
variables of the source.  `τ` is `struct termios`. -/
structure rl_term_t (τ : Type) where
  attrs : τ
  term_old : τ
  in_raw : Int
  atexit_ok : Bool
deriving DecidableEq

/-- Source `rl_term_unraw()`, the state it leaves and the value it returns.
`set_ok` tells whether its `tcsetattr` succeeds; `in_raw` is assigned what
`tcsetattr` returns. -/
def rl_term_unraw {τ : Type} (set_ok : Bool) (t : rl_term_t τ) : rl_term_t τ × Int :=
  if t.in_raw = 0 then (t, 0)
  else if set_ok then ({ t with attrs := t.term_old, in_raw := 0 }, 0)
  else ({ t with in_raw := -1 }, -1)

/-- Source `rl_term_raw()`, the state it leaves and the value it returns.
`make_raw` is the edit of the flags that takes `term_old` to `my`;
`atexit_res`, `get_ok` and `set_ok` tell whether `atexit`, `tcgetattr` and
`tcsetattr` succeed. -/
def rl_term_raw {τ : Type} (make_raw : τ → τ) (atexit_res get_ok set_ok : Bool)
    (t : rl_term_t τ) : rl_term_t τ × Int :=
  let t1 := if t.atexit_ok then t else { t with atexit_ok := atexit_res }
  if get_ok then
    let t2 := { t1 with term_old := t1.attrs }
    if set_ok then ({ t2 with attrs := make_raw t2.term_old, in_raw := 1 }, 0)
    else (t2, -1)
  else (t1, -1)

/-- Source `readline(prompt, string)` on a terminal, with the terminal:
`rl_term_raw()` before the prompt is written, `rl_term_unraw()` after the
read loop has ended and the line is encoded; nothing between them reads or
assigns the attributes or the three static variables.  `restore_ok` tells
whether the `tcsetattr` of `rl_term_unraw` succeeds. -/
def readline_tty {τ : Type} (RL_MAX_LENGTH RL_HISTORY_HEIGHT junk : Nat)
    (gc : Option rl_get_completion_fn) (make_raw : τ → τ)
    (atexit_res get_ok set_ok restore_ok : Bool)
    (prompt : List Nat) (string : Option (List Nat)) (input : List Nat)
    (s : rl_state_t) (t : rl_term_t τ) : Option (List Nat × rl_state_t × rl_term_t τ) :=
  let t1 := (rl_term_raw make_raw atexit_res get_ok set_ok t).1
  match readline RL_MAX_LENGTH RL_HISTORY_HEIGHT junk gc prompt string input s with
  | none => none
  | some (r, s1) => some (r, s1, (rl_term_unraw restore_ok t1).1)

/-! ## The window -/

/-- Source `rl_window` of the build with `RL_WINDOW_WIDTH`: the column count
and the flag the resize handler sets. -/
structure rl_window_t where
  cols : Nat
  need_update : Bool
deriving DecidableEq, Repr

/-- Source `rl_window_update()`.  `ioctl` is what `TIOCGWINSZ` reports:
`none` when the call fails, `some c` for `ws.ws_col = c`. -/
def rl_window_update (RL_WINDOW_WIDTH : Nat) (ioctl : Option Nat) (w : rl_window_t) :
    rl_window_t :=
  if w.need_update then
    { need_update := false,
      cols := match ioctl with
        | none => RL_WINDOW_WIDTH
        | some c => c }
  else w

/-- Source `rl_window_init()`, as far as it assigns `rl_window`. -/
def rl_window_init (RL_WINDOW_WIDTH : Nat) (ioctl : Option Nat) (w : rl_window_t) :
    rl_window_t :=
  rl_window_update RL_WINDOW_WIDTH ioctl { w with need_update := true }

/-- Source `sig_winch`, as far as it assigns `rl_window`. -/
def sig_winch (w : rl_window_t) : rl_window_t := { w with need_update := true }

/-- Source `rl_update_window()`, the window and the session state it leaves.
`cols` is the column count from before `rl_window_update()`, and
`tail = (1 + rl_window.cols - cols) * ((prompt_width + length) / cols)`.
`none` when it divides by zero, and when `rlc_cursor_home`, `rl_redraw(1, tail)`
or `rl_move(cur_pos)` formats what it writes outside its local buffer. -/
def rl_update_window (RL_WINDOW_WIDTH RL_MAX_LENGTH : Nat) (ioctl : Option Nat)
    (w : rl_window_t) (s : rl_state_t) : Option (rl_window_t × rl_state_t) :=
  if w.need_update then
    let cur_pos := s.cur_pos
    let cols := w.cols
    match rl_move RL_MAX_LENGTH cols (-(s.cur_pos : Int)) s with
    | none => none
    | some _ =>
      let s1 := rlc_cursor_home s
      let w1 := rl_window_update RL_WINDOW_WIDTH ioctl w
      if cols = 0 then none
      else
        let tail : Int :=
          (1 + (w1.cols : Int) - (cols : Int)) *
            (((s1.prompt_width : Int) + (s1.length : Int)).tdiv cols)
        match rl_redraw RL_MAX_LENGTH w1.cols true (if tail ≥ 0 then tail.toNat else 0) s1 with
        | none => none
        | some s2 =>
          match rl_move RL_MAX_LENGTH w1.cols (cur_pos : Int) s2 with
          | none => none
          | some _ => some (w1, { s2 with cur_pos := cur_pos })
  else some (w, s)

/-! ## What the display routines emit

Each `_out` function gives what the routine of that name hands to `rl_out`
and `rl_printf`, in order, in the state it is called in; `none` when it
formats the bytes outside the local buffer it uses.  `cols` is
`rl_window.cols`. -/

/-- What `rlc_cursor_home` emits: `rl_move(-cur_pos)`. -/
def rlc_cursor_home_out (RL_MAX_LENGTH cols : Nat) (s : rl_state_t) : Option (List rl_out_t) :=
  rl_move RL_MAX_LENGTH cols (-(s.cur_pos : Int)) s

/-- What `rlc_cursor_end` emits: `rl_write_part(cur_pos, -1)`. -/
def rlc_cursor_end_out (RL_MAX_LENGTH : Nat) (s : rl_state_t) : Option (List rl_out_t) :=
  rl_write_part_out RL_MAX_LENGTH s.cur_pos (-1) s

/-- What two steps emit, one after the other. -/
def out_seq (a b : Option (List rl_out_t)) : Option (List rl_out_t) :=
  match a, b with
  | some x, some y => some (x ++ y)
  | _, _ => none

/-- What `rlc_cursor_left` emits: `rl_move(-1)` when the cursor is not at 0. -/
def rlc_cursor_left_out (RL_MAX_LENGTH cols : Nat) (s : rl_state_t) : Option (List rl_out_t) :=
  if s.cur_pos ≠ 0 then rl_move RL_MAX_LENGTH cols (-1) s else some []

/-- What `rlc_cursor_right` emits: `rl_write_part(cur_pos, 1)` when the cursor
is before the end. -/
def rlc_cursor_right_out (RL_MAX_LENGTH : Nat) (s : rl_state_t) : Option (List rl_out_t) :=
  if s.cur_pos < s.length then rl_write_part_out RL_MAX_LENGTH s.cur_pos 1 s else some []

/-- What `rlc_cursor_word_left` emits: `rl_move(pos - cur_pos)`. -/
def rlc_cursor_word_left_out (RL_MAX_LENGTH cols : Nat) (s : rl_state_t) :
    Option (List rl_out_t) :=
  if s.cur_pos = 0 then some []
  else rl_move RL_MAX_LENGTH cols ((word_left_pos s.line s.cur_pos : Int) - (s.cur_pos : Int)) s

/-- What `rlc_cursor_word_right` emits: `rl_write_part(cur_pos, pos - cur_pos)`. -/
def rlc_cursor_word_right_out (RL_MAX_LENGTH : Nat) (s : rl_state_t) : Option (List rl_out_t) :=
  if s.cur_pos ≥ s.length then some []
  else rl_write_part_out RL_MAX_LENGTH s.cur_pos
    ((rlc_next_word s : Int) - (s.cur_pos : Int)) s

/-- What `rlc_delete_n(count)` emits, for `count ≥ 0`: `rl_update_tail` with
the clamped `count`, called when the cells are gone from the line. -/
def rlc_delete_n_out (RL_MAX_LENGTH cols : Nat) (count : Nat) (s : rl_state_t) :
    Option (List rl_out_t) :=
  if s.cur_pos < s.length ∧ count ≠ 0 then
    let tail := s.length - s.cur_pos
    let clamped := if count > tail then tail else count
    rl_update_tail_out RL_MAX_LENGTH cols clamped (rlc_delete_n count s)
  else some []

/-- What `rlc_delete` emits. -/
def rlc_delete_out (RL_MAX_LENGTH cols : Nat) (s : rl_state_t) : Option (List rl_out_t) :=
  rlc_delete_n_out RL_MAX_LENGTH cols 1 s

/-- What `rlc_backspace` emits: `rl_move(-1)`, then what `rlc_delete_n(1)`
emits one cell to the left. -/
def rlc_backspace_out (RL_MAX_LENGTH cols : Nat) (s : rl_state_t) : Option (List rl_out_t) :=
  if s.cur_pos ≠ 0 then
    out_seq (rl_move RL_MAX_LENGTH cols (-1) s)
      (rlc_delete_n_out RL_MAX_LENGTH cols 1 { s with cur_pos := s.cur_pos - 1 })
  else some []

/-- What `rlc_backword` emits: what `rlc_cursor_word_left` emits, then what
`rlc_delete_n(end - cur_pos)` emits from there. -/
def rlc_backword_out (RL_MAX_LENGTH cols : Nat) (s : rl_state_t) : Option (List rl_out_t) :=
  out_seq (rlc_cursor_word_left_out RL_MAX_LENGTH cols s)
    (rlc_delete_n_out RL_MAX_LENGTH cols (s.cur_pos - (rlc_cursor_word_left s).cur_pos)
      (rlc_cursor_word_left s))

/-- What `rlc_delete_word` emits. -/
def rlc_delete_word_out (RL_MAX_LENGTH cols : Nat) (s : rl_state_t) : Option (List rl_out_t) :=
  rlc_delete_n_out RL_MAX_LENGTH cols (rlc_next_word s - s.cur_pos) s

/-- What `rlc_delete_to_begin` emits: what `rlc_cursor_home` emits, then what
`rlc_delete_n(len)` emits from the start. -/
def rlc_delete_to_begin_out (RL_MAX_LENGTH cols : Nat) (s : rl_state_t) :
    Option (List rl_out_t) :=
  out_seq (rlc_cursor_home_out RL_MAX_LENGTH cols s)
    (rlc_delete_n_out RL_MAX_LENGTH cols s.cur_pos (rlc_cursor_home s))

/-- What `rlc_delete_to_end` emits. -/
def rlc_delete_to_end_out (RL_MAX_LENGTH cols : Nat) (s : rl_state_t) :
    Option (List rl_out_t) :=
  rlc_delete_n_out RL_MAX_LENGTH cols (s.length - s.cur_pos) s

/-- What `rl_set_text(text, redraw)` emits: nothing without `redraw`;
otherwise what `rlc_cursor_home` emits, then, the text decoded,
`rl_write_part(0, length)` and, when the line got shorter,
`rl_update_tail(oldlen - length)`. -/
def rl_set_text_out (RL_MAX_LENGTH cols junk : Nat) (text : List Nat) (redraw : Bool)
    (s : rl_state_t) : Option (List rl_out_t) :=
  match rl_set_text RL_MAX_LENGTH junk text redraw s with
  | none => none
  | some s1 =>
    if redraw then
      out_seq (rlc_cursor_home_out RL_MAX_LENGTH cols s)
        (out_seq (rl_write_part_out RL_MAX_LENGTH 0 (s1.length : Int) s1)
          (if s.length > s1.length then
            rl_update_tail_out RL_MAX_LENGTH cols (s.length - s1.length) s1
          else some []))
    else some []

/-- What `history_pop(idx)` emits. -/
def history_pop_out (RL_MAX_LENGTH cols junk : Nat) (idx : Nat) (s : rl_state_t) :
    Option (List rl_out_t) :=
  let h := s.history
  match (if idx = h.size then h.line else none) with
  | some l => rl_set_text_out RL_MAX_LENGTH cols junk l true s
  | none =>
    if idx ≥ h.size then some []
    else
      let stashed : Option rl_state_t :=
        match h.line with
        | some _ => some s
        | none =>
          (rl_encode_raw RL_MAX_LENGTH s).map
            (fun s1 => { s1 with history := { s1.history with line := some s1.raw } })
      match stashed with
      | none => none
      | some s1 => rl_set_text_out RL_MAX_LENGTH cols junk (h.lines.getD idx []) true s1

/-- What `rlc_history_back` emits. -/
def rlc_history_back_out (RL_MAX_LENGTH cols junk : Nat) (s : rl_state_t) :
    Option (List rl_out_t) :=
  if s.history.current ≠ 0 then
    history_pop_out RL_MAX_LENGTH cols junk (s.history.current - 1)
      { s with history := { s.history with current := s.history.current - 1 } }
  else some []

/-- What `rlc_history_forward` emits. -/
def rlc_history_forward_out (RL_MAX_LENGTH cols junk : Nat) (s : rl_state_t) :
    Option (List rl_out_t) :=
  if s.history.current < s.history.size then
    history_pop_out RL_MAX_LENGTH cols junk (s.history.current + 1)
      { s with history := { s.history with current := s.history.current + 1 } }
  else some []

/-- What `rlc_history_begin` emits. -/
def rlc_history_begin_out (RL_MAX_LENGTH cols junk : Nat) (s : rl_state_t) :
    Option (List rl_out_t) :=
  if s.history.current ≠ 0 then
    history_pop_out RL_MAX_LENGTH cols junk 0
      { s with history := { s.history with current := 0 } }
  else some []

/-- What `rlc_history_end` emits. -/
def rlc_history_end_out (RL_MAX_LENGTH cols junk : Nat) (s : rl_state_t) :
    Option (List rl_out_t) :=
  if s.history.current < s.history.size then
    history_pop_out RL_MAX_LENGTH cols junk s.history.size
      { s with history := { s.history with current := s.history.size } }
  else some []

/-- What `rl_insert_seq(seq)` emits: nothing when no glyph is taken;
otherwise `rl_write_part(cur_pos, count)` on the line with the glyphs in and
the cursor still before them, then `rl_update_tail(0)` with the cursor after
them. -/
def rl_insert_seq_out (RL_MAX_LENGTH cols junk : Nat) (seq : List Nat) (s : rl_state_t) :
    Option (List rl_out_t) :=
  match utf8tog junk seq with
  | none => none
  | some uc =>
    if uc.length + 1 ≤ RL_MAX_LENGTH * 2 then
      let max_count := RL_MAX_LENGTH - s.length - 1
      let count := if uc.length > max_count then max_count else uc.length
      if count = 0 then some []
      else
        let s1 := { s with
          line := s.line.take s.cur_pos ++ uc.take count ++ s.line.drop s.cur_pos }
        out_seq (rl_write_part_out RL_MAX_LENGTH s.cur_pos (count : Int) s1)
          (rl_update_tail_out RL_MAX_LENGTH cols 0 { s1 with cur_pos := s.cur_pos + count })
    else none

/-- What `rlc_autocomplete` itself emits, through `rl_insert_seq`; what the
callback prints while it runs is not part of it. -/
def rlc_autocomplete_out (RL_MAX_LENGTH cols junk : Nat) (gc : Option rl_get_completion_fn)
    (s : rl_state_t) : Option (List rl_out_t) :=
  match gc with
  | none => some []
  | some f =>
    let before := gtoutf8 s.line s.cur_pos
    let after := gtoutf8 (s.line.drop s.cur_pos) ((s.length : Int) - (s.cur_pos : Int))
    if before.length + after.length + 1 ≤ RL_MAX_LENGTH then
      let s1 := { s with raw := cstr (before ++ after) }
      match f (cstr (before ++ after)) before.length with
      | none => some []
      | some ins => rl_insert_seq_out RL_MAX_LENGTH cols junk ins s1
    else none

/-- What the call `cmd->handler()` emits. -/
def rl_handler.out (RL_MAX_LENGTH cols junk : Nat) (gc : Option rl_get_completion_fn) :
    rl_handler → rl_state_t → Option (List rl_out_t)
  | .cursor_home, s => rlc_cursor_home_out RL_MAX_LENGTH cols s
  | .cursor_left, s => rlc_cursor_left_out RL_MAX_LENGTH cols s
  | .cursor_right, s => rlc_cursor_right_out RL_MAX_LENGTH s
  | .cursor_end, s => rlc_cursor_end_out RL_MAX_LENGTH s
  | .cursor_word_left, s => rlc_cursor_word_left_out RL_MAX_LENGTH cols s
  | .cursor_word_right, s => rlc_cursor_word_right_out RL_MAX_LENGTH s
  | .backspace, s => rlc_backspace_out RL_MAX_LENGTH cols s
  | .delete, s => rlc_delete_out RL_MAX_LENGTH cols s
  | .backword, s => rlc_backword_out RL_MAX_LENGTH cols s
  | .delete_word, s => rlc_delete_word_out RL_MAX_LENGTH cols s
  | .delete_to_end, s => rlc_delete_to_end_out RL_MAX_LENGTH cols s
  | .delete_to_begin, s => rlc_delete_to_begin_out RL_MAX_LENGTH cols s
  | .autocomplete, s => rlc_autocomplete_out RL_MAX_LENGTH cols junk gc s
  | .history_back, s => rlc_history_back_out RL_MAX_LENGTH cols junk s
  | .history_forward, s => rlc_history_forward_out RL_MAX_LENGTH cols junk s
  | .history_begin, s => rlc_history_begin_out RL_MAX_LENGTH cols junk s
  | .history_end, s => rlc_history_end_out RL_MAX_LENGTH cols junk s
  | .enter, _ => some []

/-- What `rl_exec_seq(seq)` emits before `rl_out_purge()` sends it. -/
def rl_exec_seq_out (RL_MAX_LENGTH cols junk : Nat) (gc : Option rl_get_completion_fn)
    (seq : List Nat) (s : rl_state_t) : Option (List rl_out_t) :=
  match rl_find_command rl_commands (cstr seq) with
  | some h => h.out RL_MAX_LENGTH cols junk gc s
  | none =>
    if seq.headD 0 &&& 0xE0 ≠ 0 then rl_insert_seq_out RL_MAX_LENGTH cols junk seq s
    else some []

/-! ## The terminal of the screen model

The terminal is not code of the repository: it is the grid of cells with a
cursor that the specification interprets the emitted bytes on.  The cells
are numbered row by row, so that with `cols` columns the cell `k` is in row
`k / cols` and column `k % cols`; a glyph takes one cell and moves the cursor
to the next, wrapping at the end of a row; a move stops at the edge of the
grid.  `dec` is the terminal's decoder of the bytes it receives. -/

/-- The cells of the terminal and the cell the cursor is on. -/
structure term_t where
  cells : Nat → Nat
  cursor : Nat

/-- One glyph arrives: it goes to the cell under the cursor, and the cursor
moves on. -/
def term_put (t : term_t) (g : Nat) : term_t :=
  { cells := fun k => if k = t.cursor then g else t.cells k, cursor := t.cursor + 1 }

/-- The terminal takes one item of output. -/
def term_step (dec : List Nat → List Nat) (cols : Nat) (t : term_t) : rl_out_t → term_t
  | .bytes data => (dec data).foldl term_put t
  | .cur_left n => { t with cursor := t.cursor - min n (t.cursor % cols) }
  | .cur_right n => { t with cursor := t.cursor + min n (cols - 1 - t.cursor % cols) }
  | .cur_up n => { t with cursor := t.cursor - cols * min n (t.cursor / cols) }
  | .cur_down n => { t with cursor := t.cursor + cols * n }

/-- The terminal takes a sequence of output. -/
def term_run (dec : List Nat → List Nat) (cols : Nat) (t : term_t) (outs : List rl_out_t) :
    term_t :=
  outs.foldl (term_step dec cols) t

/-- The screen shows the prompt and the line of the state: the glyphs `p` of
the prompt in the first `prompt_width` cells, the glyphs of the line from
cell `prompt_width` on, blanks in every cell after them, the cursor on the
cell `prompt_width + cur_pos`. -/
def screen_shows (p : List Nat) (s : rl_state_t) (t : term_t) : Prop :=
  t.cursor = s.prompt_width + s.cur_pos ∧
  (∀ i, i < s.prompt_width → t.cells i = p.getD i 0) ∧
  (∀ i, i < s.length → t.cells (s.prompt_width + i) = s.line.getD i 0) ∧
  (∀ k, s.prompt_width + s.length ≤ k → t.cells k = 0x20)

/-- The terminal with the glyphs `w` in the cells from `a` on, the other
cells as they are, and the cursor on the cell `c`. -/
def term_paint (t : term_t) (a : Nat) (w : List Nat) (c : Nat) : term_t :=
  { cells := fun k => if a ≤ k ∧ k < a + w.length then w.getD (k - a) 0 else t.cells k,
    cursor := c }

/-- The glyphs are those of one, two or three bytes, the NUL apart. -/
def glyphs_ok (l : List Nat) : Prop := ∀ x ∈ l, 1 ≤ x ∧ x < 65536

/-- A decoder for the terminal: the decoder of the editor, with nothing shown
for bytes it does not decode. -/
def term_decode (b : List Nat) : List Nat := (utf8tog 0 b).getD []
/-! ## Codec lemmas -/

theorem and_FF80 (x : Nat) (h : x < 65536) : x &&& 0xFF80 = 0 ↔ x < 128 := by
  have h1 : x = (x &&& 0xFF80) ||| (x % 128) := by
    have e1 : x &&& 0xFFFF = x := by
      have := Nat.and_pow_two_sub_one_eq_mod x 16
      simp at this; rw [this]; exact Nat.mod_eq_of_lt h
    have e2 : x &&& 0x7F = x % 128 := by
      have := Nat.and_pow_two_sub_one_eq_mod x 7
      simpa using this
    have e3 : (0xFFFF : Nat) = 0xFF80 ||| 0x7F := by decide
    calc x = x &&& 0xFFFF := e1.symm
      _ = x &&& (0xFF80 ||| 0x7F) := by rw [← e3]
      _ = (x &&& 0xFF80) ||| (x &&& 0x7F) := Nat.and_or_distrib_left _ _ _
      _ = (x &&& 0xFF80) ||| (x % 128) := by rw [e2]
  constructor
  · intro h0
    rw [h0, Nat.zero_or] at h1
    omega
  · intro hx
    have e2 : x &&& 0x7F = x := by
      have := Nat.and_pow_two_sub_one_eq_mod x 7
      simp at this; rw [this]; exact Nat.mod_eq_of_lt hx
    calc x &&& 0xFF80 = (x &&& 0x7F) &&& 0xFF80 := by rw [e2]
      _ = x &&& (0x7F &&& 0xFF80) := Nat.and_assoc _ _ _
      _ = 0 := by rw [show (0x7F &&& 0xFF80 : Nat) = 0 by decide]; exact Nat.and_zero x

theorem and_F800 (x : Nat) (h : x < 65536) : x &&& 0xF800 = 0 ↔ x < 2048 := by
  have h1 : x = (x &&& 0xF800) ||| (x % 2048) := by
    have e1 : x &&& 0xFFFF = x := by
      have := Nat.and_pow_two_sub_one_eq_mod x 16
      simp at this; rw [this]; exact Nat.mod_eq_of_lt h
    have e2 : x &&& 0x7FF = x % 2048 := by
      have := Nat.and_pow_two_sub_one_eq_mod x 11
      simpa using this
    have e3 : (0xFFFF : Nat) = 0xF800 ||| 0x7FF := by decide
    calc x = x &&& 0xFFFF := e1.symm
      _ = x &&& (0xF800 ||| 0x7FF) := by rw [← e3]
      _ = (x &&& 0xF800) ||| (x &&& 0x7FF) := Nat.and_or_distrib_left _ _ _
      _ = (x &&& 0xF800) ||| (x % 2048) := by rw [e2]
  constructor
  · intro h0
    rw [h0, Nat.zero_or] at h1
    omega
  · intro hx
    have e2 : x &&& 0x7FF = x := by
      have := Nat.and_pow_two_sub_one_eq_mod x 11
      simp at this; rw [this]; exact Nat.mod_eq_of_lt hx
    calc x &&& 0xF800 = (x &&& 0x7FF) &&& 0xF800 := by rw [e2]
      _ = x &&& (0x7FF &&& 0xF800) := Nat.and_assoc _ _ _
      _ = 0 := by rw [show (0x7FF &&& 0xF800 : Nat) = 0 by decide]; exact Nat.and_zero x

theorem glyph_bytes_one (uc : Nat) (h : uc < 128) : glyph_bytes uc = [uc] := by
  have h0 : uc &&& 0xFF80 = 0 := (and_FF80 uc (by omega)).2 h
  simp [glyph_bytes, h0]; omega

theorem glyph_bytes_two (uc : Nat) (h1 : 128 ≤ uc) (h2 : uc < 2048) :
    glyph_bytes uc = [0xC0 ||| (uc / 64), 0x80 ||| (uc % 64)] := by
  have h0 : ¬ (uc &&& 0xFF80 = 0) := fun e => by
    have := (and_FF80 uc (by omega)).1 e; omega
  have h3 : uc &&& 0xF800 = 0 := (and_F800 uc (by omega)).2 h2
  have e1 : uc >>> 6 = uc / 64 := by rw [Nat.shiftRight_eq_div_pow]
  have e2 : uc &&& 0x3F = uc % 64 := by
    have := Nat.and_pow_two_sub_one_eq_mod uc 6
    simpa using this
  have a1 : ∀ q < 32, (0xC0 ||| q) % 256 = 0xC0 ||| q := by decide
  have a2 : ∀ r < 64, (0x80 ||| r) % 256 = 0x80 ||| r := by decide
  simp only [glyph_bytes, if_neg h0, if_pos h3, e1, e2]
  rw [a1 _ (by omega), a2 _ (Nat.mod_lt _ (by decide))]

theorem glyph_bytes_three (uc : Nat) (h1 : 2048 ≤ uc) (h2 : uc < 65536) :
    glyph_bytes uc = [0xE0 ||| (uc / 4096), 0x80 ||| (uc / 64 % 64), 0x80 ||| (uc % 64)] := by
  have h0 : ¬ (uc &&& 0xFF80 = 0) := fun e => by
    have := (and_FF80 uc h2).1 e; omega
  have h3 : ¬ (uc &&& 0xF800 = 0) := fun e => by
    have := (and_F800 uc h2).1 e; omega
  have e1 : uc >>> 12 = uc / 4096 := by rw [Nat.shiftRight_eq_div_pow]
  have e2 : 0x3F &&& uc = uc % 64 := by
    have := Nat.and_pow_two_sub_one_eq_mod uc 6
    rw [Nat.and_comm]; simpa using this
  have e3 : 0x3F &&& (uc >>> 6) = uc / 64 % 64 := by
    have := Nat.and_pow_two_sub_one_eq_mod (uc / 64) 6
    rw [Nat.and_comm, Nat.shiftRight_eq_div_pow]; simpa using this
  have a1 : ∀ q < 16, (0xE0 ||| q) % 256 = 0xE0 ||| q := by decide
  have a2 : ∀ r < 64, (0x80 ||| r) % 256 = 0x80 ||| r := by decide
  simp only [glyph_bytes, if_neg h0, if_neg h3, e1, e2, e3]
  rw [a1 _ (by omega), a2 _ (Nat.mod_lt _ (by decide)), a2 _ (Nat.mod_lt _ (by decide))]

theorem byteAt_zero_cons (b : Nat) (t : List Nat) : byteAt (b :: t) 0 = some b := by
  simp [byteAt]

theorem byteAt_one_cons (a b : Nat) (t : List Nat) : byteAt (a :: b :: t) 1 = some b := by
  simp [byteAt]

theorem byteAt_two_cons (a b c : Nat) (t : List Nat) :
    byteAt (a :: b :: c :: t) 2 = some c := by
  simp [byteAt]

set_option maxRecDepth 4000 in
theorem low_byte_bits : ∀ b < 128, b &&& 0x80 = 0 := by decide

theorem lead2_bits : ∀ q < 32, ¬ ((0xC0 ||| q) &&& 0x80 = 0) ∧ (0xC0 ||| q) &&& 0xE0 = 0xC0 ∧
    (0xC0 ||| q) &&& 0x1F = q := by decide

theorem lead3_bits : ∀ q < 16, ¬ ((0xE0 ||| q) &&& 0x80 = 0) ∧ ¬ ((0xE0 ||| q) &&& 0xE0 = 0xC0) ∧
    (0xE0 ||| q) &&& 0xF0 = 0xE0 ∧ (0xE0 ||| q) &&& 0xF = q := by decide

theorem cont_bits : ∀ r < 64, (0x80 ||| r) &&& 0xC0 = 0x80 ∧ (0x80 ||| r) &&& 0x3F = r := by
  decide

/-- Decoding the bytes of one glyph gives the glyph back and consumes exactly
those bytes, whatever follows them. -/
theorem utf8_to_glyph_glyph_bytes (junk uc : Nat) (t : List Nat) (h2 : uc < 65536) :
    utf8_to_glyph junk (glyph_bytes uc ++ t) = some (uc, (glyph_bytes uc).length) := by
  by_cases h128 : uc < 128
  · rw [glyph_bytes_one uc h128]
    simp [utf8_to_glyph, byteAt_zero_cons, low_byte_bits uc h128]
  · by_cases h2048 : uc < 2048
    · rw [glyph_bytes_two uc (by omega) h2048]
      obtain ⟨a1, a2, a3⟩ := lead2_bits (uc / 64) (by omega)
      obtain ⟨c1, c2⟩ := cont_bits (uc % 64) (Nat.mod_lt _ (by decide))
      simp only [List.cons_append, List.nil_append, utf8_to_glyph, byteAt_zero_cons,
        byteAt_one_cons, if_neg a1, if_pos a2, if_pos c1, a3, c2, Nat.shiftLeft_eq,
        List.length_cons, List.length_nil]
      congr 2
      omega
    · rw [glyph_bytes_three uc (by omega) h2]
      obtain ⟨a1, a2, a3, a4⟩ := lead3_bits (uc / 4096) (by omega)
      obtain ⟨c1, c2⟩ := cont_bits (uc / 64 % 64) (Nat.mod_lt _ (by decide))
      obtain ⟨d1, d2⟩ := cont_bits (uc % 64) (Nat.mod_lt _ (by decide))
      simp only [List.cons_append, List.nil_append, utf8_to_glyph, byteAt_zero_cons,
        byteAt_one_cons, byteAt_two_cons, if_neg a1, if_neg a2, if_pos a3, if_pos c1,
        if_pos d1, a4, c2, d2, Nat.shiftLeft_eq, List.length_cons, List.length_nil]
      congr 2
      omega

theorem glyph_bytes_length_pos (uc : Nat) : 0 < (glyph_bytes uc).length := by
  unfold glyph_bytes; split
  · simp
  · split <;> simp

theorem glyph_bytes_length_le (uc : Nat) : (glyph_bytes uc).length ≤ 3 := by
  unfold glyph_bytes; split
  · simp
  · split <;> simp

theorem glyph_bytes_head_ne_zero (uc : Nat) (h1 : 1 ≤ uc) (h2 : uc < 65536) :
    ∃ b t, glyph_bytes uc = b :: t ∧ b ≠ 0 := by
  by_cases h128 : uc < 128
  · exact ⟨uc, [], glyph_bytes_one uc h128, by omega⟩
  · by_cases h2048 : uc < 2048
    · refine ⟨_, _, glyph_bytes_two uc (by omega) h2048, ?_⟩
      intro e
      have := (lead2_bits (uc / 64) (by omega)).1
      rw [e] at this; exact this (by decide)
    · refine ⟨_, _, glyph_bytes_three uc (by omega) h2, ?_⟩
      intro e
      have := (lead3_bits (uc / 4096) (by omega)).1
      rw [e] at this; exact this (by decide)

theorem gtoutf8_eq_encode_all (g : List Nat) (hg : ∀ x ∈ g, x ≠ 0) (c : Int)
    (hc : c < 0 ∨ (g.length : Int) ≤ c) : gtoutf8 g c = encode_all g := by
  induction g generalizing c with
  | nil => simp [gtoutf8, encode_all]
  | cons uc rest ih =>
    have h0 : uc ≠ 0 := hg uc (by simp)
    have hc0 : c ≠ 0 := by
      rcases hc with h | h
      · omega
      · simp at h; omega
    rw [gtoutf8, if_neg h0, if_neg hc0, encode_all, ih (fun x hx => hg x (by simp [hx]))]
    rcases hc with h | h
    · left; omega
    · right; simp at h; omega

theorem utf8tog_loop_encode_all (junk : Nat) (g : List Nat)
    (hg : ∀ x ∈ g, 1 ≤ x ∧ x < 65536) (fuel : Nat) (hf : (encode_all g).length < fuel) :
    utf8tog_loop junk fuel (encode_all g) = some g := by
  induction g generalizing fuel with
  | nil =>
    cases fuel with
    | zero => simp at hf
    | succ n => simp [encode_all, utf8tog_loop]
  | cons uc rest ih =>
    obtain ⟨h1, h2⟩ := hg uc (by simp)
    cases fuel with
    | zero => simp at hf
    | succ n =>
      obtain ⟨b, t, hb, hb0⟩ := glyph_bytes_head_ne_zero uc h1 h2
      have hdec := utf8_to_glyph_glyph_bytes junk uc (encode_all rest) h2
      have hlen := glyph_bytes_length_pos uc
      simp only [encode_all, List.length_append] at hf
      have hrest := ih (fun x hx => hg x (by simp [hx])) n (by omega)
      have huc : uc ≠ 0 := by omega
      simp only [encode_all]
      rw [hb] at hdec ⊢
      simp only [List.cons_append] at hdec ⊢
      rw [utf8tog_loop, if_neg hb0, hdec]
      simp only [ne_eq, huc, not_false_eq_true, if_true]
      have hd : (b :: (t ++ encode_all rest)).drop (b :: t).length = encode_all rest := by
        rw [← List.cons_append, List.drop_left]
      rw [hd, hrest]; rfl

/-! ## C1: encoding round trip -/

/-- C1. Encoding round trip: for every sequence `g` of glyphs, each in
`1 .. 0xFFFF`, of length at most `RL_MAX_LENGTH - 1`, `utf8tog` run on the
bytes that `gtoutf8` produces for the whole of `g` (with the count `-1` that
the editor passes, or with the count `|g|`) ends and yields exactly `g`, so
also a sequence of the same length; the value of the unassigned `glyph` plays
no part. -/
theorem C1_encoding_round_trip (RL_MAX_LENGTH junk : Nat) (g : List Nat)
    (hg : ∀ x ∈ g, 1 ≤ x ∧ x ≤ 0xFFFF) (_hlen : g.length ≤ RL_MAX_LENGTH - 1) :
    utf8tog junk (gtoutf8 g (-1)) = some g ∧
    utf8tog junk (gtoutf8 g g.length) = some g ∧
    ∀ d, utf8tog junk (gtoutf8 g (-1)) = some d → d.length = g.length := by
  have hg1 : ∀ x ∈ g, 1 ≤ x ∧ x < 65536 := fun x hx => by
    have := hg x hx; omega
  have hg0 : ∀ x ∈ g, x ≠ 0 := fun x hx => by
    have := hg x hx; omega
  have e1 : gtoutf8 g (-1) = encode_all g :=
    gtoutf8_eq_encode_all g hg0 (-1) (Or.inl (by decide))
  have e2 : gtoutf8 g g.length = encode_all g :=
    gtoutf8_eq_encode_all g hg0 g.length (Or.inr (le_refl _))
  have h := utf8tog_loop_encode_all junk g hg1 ((encode_all g).length + 1) (Nat.lt_succ_self _)
  refine ⟨?_, ?_, ?_⟩
  · rw [e1]; exact h
  · rw [e2]; exact h
  · intro d hd
    rw [e1] at hd
    have : some d = some g := hd.symm.trans h
    rw [Option.some.inj this]

/-- C1 at the glyphs of "hé€" with `RL_MAX_LENGTH = 8`. -/
theorem C1_encoding_round_trip_witness :
    utf8tog 7 (gtoutf8 [0x68, 0xE9, 0x20AC] (-1)) = some [0x68, 0xE9, 0x20AC] ∧
    utf8tog 7 (gtoutf8 [0x68, 0xE9, 0x20AC] ([0x68, 0xE9, 0x20AC] : List Nat).length)
      = some [0x68, 0xE9, 0x20AC] ∧
    ∀ d, utf8tog 7 (gtoutf8 [0x68, 0xE9, 0x20AC] (-1)) = some d →
      d.length = ([0x68, 0xE9, 0x20AC] : List Nat).length :=
  C1_encoding_round_trip 8 7 [0x68, 0xE9, 0x20AC] (by decide) (by decide)

/-! ## C5: `rlc_delete_n` -/

theorem rlc_delete_n_line (k : Nat) (s : rl_state_t) :
    (rlc_delete_n k s).line =
      s.line.take s.cur_pos ++ s.line.drop (s.cur_pos + min k (s.length - s.cur_pos)) := by
  unfold rlc_delete_n
  by_cases h : s.cur_pos < s.length ∧ k ≠ 0
  · rw [if_pos h]
    by_cases hk : k > s.length - s.cur_pos
    · simp only [if_pos hk]
      rw [Nat.min_eq_right (by omega)]
    · simp only [if_neg hk]
      rw [Nat.min_eq_left (by omega)]
  · rw [if_neg h]
    have hm : min k (s.length - s.cur_pos) = 0 := by
      by_cases hk : k = 0
      · simp [hk]
      · have : ¬ s.cur_pos < s.length := fun hc => h ⟨hc, hk⟩
        have : s.length - s.cur_pos = 0 := by omega
        simp [this]
    rw [hm, Nat.add_zero, List.take_append_drop]

theorem rlc_delete_n_frame (k : Nat) (s : rl_state_t) :
    (rlc_delete_n k s).cur_pos = s.cur_pos ∧ (rlc_delete_n k s).raw = s.raw ∧
    (rlc_delete_n k s).finish = s.finish ∧ (rlc_delete_n k s).history = s.history ∧
    (rlc_delete_n k s).prompt = s.prompt ∧
    (rlc_delete_n k s).prompt_width = s.prompt_width := by
  unfold rlc_delete_n
  split <;> simp

theorem rlc_delete_n_length (k : Nat) (s : rl_state_t) (h : s.cur_pos ≤ s.length) :
    (rlc_delete_n k s).length = s.length - min k (s.length - s.cur_pos) := by
  unfold rl_state_t.length at *
  rw [rlc_delete_n_line]
  simp only [rl_state_t.length, List.length_append, List.length_take, List.length_drop]
  omega

/-- C5. `rlc_delete_n(k)` removes a clamped range at the cursor: for every
state that satisfies the cursor invariant and every `k ≥ 0`, with
`m = min(k, length - cur_pos)`, the line becomes
`old[0..cur) ++ old[cur+m..length)`, the length becomes `length - m`, the
cursor and every other field stay as they were; the glyph at an index below
the cursor is the old glyph at that index, and the glyph at an index `i` from
the cursor on is the old glyph at `i + m`. -/
theorem C5_delete_n_removes_clamped_range (RL_MAX_LENGTH k : Nat) (s : rl_state_t)
    (hinv : cursor_inv RL_MAX_LENGTH s) :
    (rlc_delete_n k s).line =
      s.line.take s.cur_pos ++ s.line.drop (s.cur_pos + min k (s.length - s.cur_pos)) ∧
    (rlc_delete_n k s).length = s.length - min k (s.length - s.cur_pos) ∧
    (rlc_delete_n k s).cur_pos = s.cur_pos ∧
    (∀ i, i < s.cur_pos → (rlc_delete_n k s).line.get? i = s.line.get? i) ∧
    (∀ i, s.cur_pos ≤ i →
      (rlc_delete_n k s).line.get? i = s.line.get? (i + min k (s.length - s.cur_pos))) ∧
    (rlc_delete_n k s).raw = s.raw ∧ (rlc_delete_n k s).finish = s.finish ∧
    (rlc_delete_n k s).history = s.history := by
  obtain ⟨hc, _⟩ := hinv
  have hf := rlc_delete_n_frame k s
  have hl := rlc_delete_n_line k s
  have hc1 : s.cur_pos ≤ s.line.length := hc
  refine ⟨hl, rlc_delete_n_length k s hc, hf.1, ?_, ?_, hf.2.1, hf.2.2.1, hf.2.2.2.1⟩
  · intro i hi
    rw [hl, List.get?_eq_getElem?, List.get?_eq_getElem?,
      List.getElem?_append_left (by simp; omega), List.getElem?_take_of_lt hi]
  · intro i hi
    rw [hl, List.get?_eq_getElem?, List.get?_eq_getElem?,
      List.getElem?_append_right (by simp; omega), List.getElem?_drop]
    congr 1
    simp only [List.length_take]
    omega

/-- C5 at the line "abcdef" with the cursor at 2 and `k = 3`. -/
theorem C5_delete_n_removes_clamped_range_witness :
    cursor_inv 16 ⟨[], [97, 98, 99, 100, 101, 102], 2, 0, ⟨none, [], 0⟩, [], 0⟩ ∧
    (rlc_delete_n 3 ⟨[], [97, 98, 99, 100, 101, 102], 2, 0, ⟨none, [], 0⟩, [], 0⟩).line
      = [97, 98, 102] :=
  ⟨by decide,
   (C5_delete_n_removes_clamped_range 16 3
      ⟨[], [97, 98, 99, 100, 101, 102], 2, 0, ⟨none, [], 0⟩, [], 0⟩ (by decide)).1.trans
      (by decide)⟩

/-! ## C4: `rl_insert_seq` -/

/-- The glyphs `utf8tog` stores are not `0`. -/
theorem utf8tog_loop_ne_zero (junk : Nat) (fuel : Nat) :
    ∀ (raw g : List Nat), utf8tog_loop junk fuel raw = some g → ∀ x ∈ g, x ≠ 0 := by
  induction fuel with
  | zero => intro raw g h; simp [utf8tog_loop] at h
  | succ n ih =>
    intro raw g h
    cases raw with
    | nil =>
      simp only [utf8tog_loop] at h
      rw [← Option.some.inj h]
      intro x hx
      simp at hx
    | cons b rest =>
      rw [utf8tog_loop] at h
      by_cases hb : b = 0
      · rw [if_pos hb] at h
        rw [← Option.some.inj h]
        intro x hx
        simp at hx
      · rw [if_neg hb] at h
        cases hdec : utf8_to_glyph junk (b :: rest) with
        | none => rw [hdec] at h; simp at h
        | some p =>
          obtain ⟨gl, adv⟩ := p
          rw [hdec] at h
          simp only at h
          by_cases hgl : gl = 0
          · simp only [ne_eq, hgl, not_true_eq_false, if_false] at h
            by_cases hadv : adv + 1 ≤ (b :: rest).length
            · rw [if_pos hadv] at h
              exact ih _ _ h
            · rw [if_neg hadv] at h; simp at h
          · simp only [ne_eq, hgl, not_false_eq_true, if_true] at h
            cases ht : utf8tog_loop junk n ((b :: rest).drop adv) with
            | none => rw [ht] at h; simp at h
            | some t =>
              rw [ht] at h
              simp only [Option.map_some'] at h
              rw [← Option.some.inj h]
              intro x hx
              rcases List.mem_cons.1 hx with hx | hx
              · rw [hx]; exact hgl
              · exact ih _ _ ht x hx

theorem utf8tog_ne_zero (junk : Nat) (raw g : List Nat) (h : utf8tog junk raw = some g) :
    ∀ x ∈ g, x ≠ 0 :=
  utf8tog_loop_ne_zero junk _ raw g h

/-- The loop of `gtoutf8` run for as many glyphs as a run without a `0` has
encodes that run. -/
theorem gtoutf8_prefix (a b : List Nat) (ha : ∀ x ∈ a, x ≠ 0) :
    gtoutf8 (a ++ b) (a.length : Int) = encode_all a := by
  induction a with
  | nil =>
    cases b with
    | nil => rfl
    | cons x t => simp [gtoutf8, encode_all]
  | cons uc rest ih =>
    have h0 : uc ≠ 0 := ha uc (by simp)
    have hk : (((uc :: rest).length : Nat) : Int) ≠ 0 := by
      simp only [List.length_cons]; omega
    rw [List.cons_append, gtoutf8, if_neg h0, if_neg hk, encode_all]
    have e : (((uc :: rest).length : Nat) : Int) - 1 = (rest.length : Int) := by
      simp only [List.length_cons]; omega
    rw [e, ih (fun x hx => ha x (by simp [hx]))]

/-- What `rl_write_part(cur_pos, count)` formats when `rl_insert_seq` has put
the glyphs `ins` in at the cursor: the encoding of `ins`. -/
theorem rl_write_part_inserted (RL_MAX_LENGTH : Nat) (ins : List Nat) (s : rl_state_t)
    (hc : s.cur_pos ≤ s.length) (hins : ∀ x ∈ ins, x ≠ 0) :
    rl_write_part RL_MAX_LENGTH s.cur_pos (ins.length : Int)
        { s with line := s.line.take s.cur_pos ++ ins ++ s.line.drop s.cur_pos }
      = if (encode_all ins).length + 1 ≤ RL_MAX_LENGTH * 2 then some (encode_all ins)
        else none := by
  unfold rl_write_part
  have hd : (s.line.take s.cur_pos ++ ins ++ s.line.drop s.cur_pos).drop s.cur_pos
      = ins ++ s.line.drop s.cur_pos := by
    rw [List.append_assoc, List.drop_append_of_le_length (by
      rw [List.length_take]; unfold rl_state_t.length at hc; omega)]
    rw [List.drop_eq_nil_of_le (by rw [List.length_take]; omega), List.nil_append]
  simp only [hd, gtoutf8_prefix ins _ hins]

/-- What `rl_insert_seq` does when the decoded glyphs and their terminator
fit the local array `uc` and the encoding of the glyphs taken, with its NUL,
fits the buffer of `rl_write_part`: it splices the first `n` of them in at
the cursor, `n` being what the line still has room for. -/
theorem rl_insert_seq_fits (RL_MAX_LENGTH junk : Nat) (seq g : List Nat) (s : rl_state_t)
    (hc : s.cur_pos ≤ s.length)
    (hdec : utf8tog junk seq = some g) (hfit : g.length + 1 ≤ RL_MAX_LENGTH * 2)
    (hw : (encode_all (g.take (min g.length (RL_MAX_LENGTH - 1 - s.length)))).length + 1
      ≤ RL_MAX_LENGTH * 2) :
    rl_insert_seq RL_MAX_LENGTH junk seq s =
      some (if min g.length (RL_MAX_LENGTH - 1 - s.length) = 0 then s
        else { s with
          line := s.line.take s.cur_pos ++
            g.take (min g.length (RL_MAX_LENGTH - 1 - s.length)) ++ s.line.drop s.cur_pos
          cur_pos := s.cur_pos + min g.length (RL_MAX_LENGTH - 1 - s.length) }) := by
  unfold rl_insert_seq
  rw [hdec]
  simp only [if_pos hfit]
  have e : RL_MAX_LENGTH - s.length - 1 = RL_MAX_LENGTH - 1 - s.length := by omega
  rw [e]
  have hcnt : (if g.length > RL_MAX_LENGTH - 1 - s.length then RL_MAX_LENGTH - 1 - s.length
      else g.length) = min g.length (RL_MAX_LENGTH - 1 - s.length) := by
    split <;> omega
  rw [hcnt]
  generalize hn : min g.length (RL_MAX_LENGTH - 1 - s.length) = n at hw ⊢
  by_cases h0 : n = 0
  · rw [if_pos h0, if_pos h0]
  · rw [if_neg h0, if_neg h0]
    have hlen : (g.take n).length = n := by
      rw [List.length_take]; omega
    have hwp := rl_write_part_inserted RL_MAX_LENGTH (g.take n) s hc
      (fun x hx => utf8tog_ne_zero junk seq g hdec x (List.mem_of_mem_take hx))
    rw [hlen, if_pos hw] at hwp
    rw [hwp]

theorem rl_insert_seq_fits_length (RL_MAX_LENGTH junk : Nat) (seq g : List Nat)
    (s s1 : rl_state_t) (hinv : cursor_inv RL_MAX_LENGTH s)
    (hdec : utf8tog junk seq = some g) (hfit : g.length + 1 ≤ RL_MAX_LENGTH * 2)
    (h : rl_insert_seq RL_MAX_LENGTH junk seq s = some s1) :
    s1.line = s.line.take s.cur_pos ++
        g.take (min g.length (RL_MAX_LENGTH - 1 - s.length)) ++ s.line.drop s.cur_pos ∧
    s1.length = s.length + min g.length (RL_MAX_LENGTH - 1 - s.length) ∧
    s1.cur_pos = s.cur_pos + min g.length (RL_MAX_LENGTH - 1 - s.length) ∧
    s1.raw = s.raw ∧ s1.finish = s.finish ∧ s1.history = s.history ∧
    (min g.length (RL_MAX_LENGTH - 1 - s.length) = 0 → s1 = s) := by
  unfold rl_insert_seq at h
  rw [hdec] at h
  simp only [if_pos hfit] at h
  have e : RL_MAX_LENGTH - s.length - 1 = RL_MAX_LENGTH - 1 - s.length := by omega
  rw [e] at h
  have hcnt : (if g.length > RL_MAX_LENGTH - 1 - s.length then RL_MAX_LENGTH - 1 - s.length
      else g.length) = min g.length (RL_MAX_LENGTH - 1 - s.length) := by
    split <;> omega
  rw [hcnt] at h
  obtain ⟨hc, hl⟩ := hinv
  unfold rl_state_t.length at *
  by_cases hn : min g.length (RL_MAX_LENGTH - 1 - s.line.length) = 0
  · rw [if_pos hn] at h
    have h1 := Option.some.inj h
    subst h1
    simp [hn]
  · rw [if_neg hn] at h
    split at h
    · simp at h
    · have h1 := Option.some.inj h
      subst h1
      simp only [List.length_append, List.length_take, List.length_drop, hn, false_implies,
        and_true, true_and]
      omega

theorem encode_all_replicate_ascii (n : Nat) :
    encode_all (List.replicate n 0x61) = List.replicate n 0x61 := by
  induction n with
  | zero => rfl
  | succ k ih =>
    rw [List.replicate_succ, encode_all, ih, glyph_bytes_one 0x61 (by decide)]
    rfl

theorem utf8tog_replicate_ascii (junk n : Nat) :
    utf8tog junk (List.replicate n 0x61) = some (List.replicate n 0x61) := by
  have h := utf8tog_loop_encode_all junk (List.replicate n 0x61)
    (fun x hx => by rw [List.eq_of_mem_replicate hx]; decide)
    ((encode_all (List.replicate n 0x61)).length + 1) (Nat.lt_succ_self _)
  rw [encode_all_replicate_ascii] at h
  exact h

/-- C4, failing input. Whatever `RL_MAX_LENGTH` is and whatever the state,
`rl_insert_seq` given a string of `2 * RL_MAX_LENGTH` letters `a` decodes
`2 * RL_MAX_LENGTH` glyphs and stores their terminator in
`uc[RL_MAX_LENGTH*2]`, one cell past the array: it does not get as far as
truncating to the room left in the line. -/
theorem C4_insert_overruns_uc (RL_MAX_LENGTH junk : Nat) (s : rl_state_t) :
    utf8tog junk (List.replicate (2 * RL_MAX_LENGTH) 0x61)
      = some (List.replicate (2 * RL_MAX_LENGTH) 0x61) ∧
    rl_insert_seq RL_MAX_LENGTH junk (List.replicate (2 * RL_MAX_LENGTH) 0x61) s = none := by
  refine ⟨utf8tog_replicate_ascii junk _, ?_⟩
  unfold rl_insert_seq
  rw [utf8tog_replicate_ascii]
  simp only [List.length_replicate]
  rw [if_neg (by omega)]

/-- Insert splices and truncates when the decoded text fits the scratch
array and the glyphs taken fit the echo buffer: for every state that
satisfies the cursor invariant and every byte string `seq` that `utf8tog`
decodes to `g`, with `g` and its terminator within `uc[RL_MAX_LENGTH*2]` and
the encoding of the `n = min(|g|, RL_MAX_LENGTH - 1 - length)` glyphs taken,
with its NUL, within the `buf[RL_MAX_LENGTH*2]` of `rl_write_part`,
`rl_insert_seq(seq)` returns, the line is
`old[0..cur) ++ take(n, g) ++ old[cur..length)`, the length is `length + n`,
the cursor `cur + n`, and when `n = 0` the state is unchanged. -/
theorem insert_splices_when_uc_fits (RL_MAX_LENGTH junk : Nat) (seq g : List Nat)
    (s : rl_state_t) (hinv : cursor_inv RL_MAX_LENGTH s)
    (hdec : utf8tog junk seq = some g) (hfit : g.length + 1 ≤ RL_MAX_LENGTH * 2)
    (hw : (encode_all (g.take (min g.length (RL_MAX_LENGTH - 1 - s.length)))).length + 1
      ≤ RL_MAX_LENGTH * 2) :
    ∃ s1, rl_insert_seq RL_MAX_LENGTH junk seq s = some s1 ∧
      s1.line = s.line.take s.cur_pos ++
        g.take (min g.length (RL_MAX_LENGTH - 1 - s.length)) ++ s.line.drop s.cur_pos ∧
      s1.length = s.length + min g.length (RL_MAX_LENGTH - 1 - s.length) ∧
      s1.cur_pos = s.cur_pos + min g.length (RL_MAX_LENGTH - 1 - s.length) ∧
      (min g.length (RL_MAX_LENGTH - 1 - s.length) = 0 → s1 = s) := by
  have h := rl_insert_seq_fits RL_MAX_LENGTH junk seq g s hinv.1 hdec hfit hw
  refine ⟨_, h, ?_⟩
  obtain ⟨r1, r2, r3, _, _, _, r7⟩ :=
    rl_insert_seq_fits_length RL_MAX_LENGTH junk seq g s _ hinv hdec hfit h
  exact ⟨r1, r2, r3, r7⟩

/-- Inserting "xyz" at cursor 1 of "abc" with `RL_MAX_LENGTH = 6`: two glyphs
go in, the third is dropped. -/
theorem insert_splices_when_uc_fits_witness :
    cursor_inv 6 ⟨[], [97, 98, 99], 1, 0, ⟨none, [], 0⟩, [], 0⟩ ∧
    utf8tog 0 [0x78, 0x79, 0x7A] = some [0x78, 0x79, 0x7A] ∧
    ∃ s1, rl_insert_seq 6 0 [0x78, 0x79, 0x7A] ⟨[], [97, 98, 99], 1, 0, ⟨none, [], 0⟩, [], 0⟩
        = some s1 ∧
      s1.line = List.take 1 [97, 98, 99] ++
        List.take (min 3 (6 - 1 - 3)) [0x78, 0x79, 0x7A] ++ List.drop 1 [97, 98, 99] ∧
      s1.length = 3 + min 3 (6 - 1 - 3) ∧
      s1.cur_pos = 1 + min 3 (6 - 1 - 3) ∧
      (min 3 (6 - 1 - 3) = 0 → s1 = ⟨[], [97, 98, 99], 1, 0, ⟨none, [], 0⟩, [], 0⟩) :=
  ⟨by decide, by decide,
   insert_splices_when_uc_fits 6 0 [0x78, 0x79, 0x7A] [0x78, 0x79, 0x7A]
     ⟨[], [97, 98, 99], 1, 0, ⟨none, [], 0⟩, [], 0⟩ (by decide) (by decide) (by decide)
     (by decide)⟩

/-! ## C2: the cursor invariant -/

/-- An iteration of `utf8tog` that emits a glyph without advancing repeats
for ever. -/
theorem utf8tog_loop_stuck (junk gl b : Nat) (rest : List Nat) (hb : b ≠ 0) (hgl : gl ≠ 0)
    (h : utf8_to_glyph junk (b :: rest) = some (gl, 0)) (fuel : Nat) :
    utf8tog_loop junk fuel (b :: rest) = none := by
  induction fuel with
  | zero => rfl
  | succ n ih =>
    rw [utf8tog_loop, if_neg hb, h]
    simp only [ne_eq, hgl, not_false_eq_true, if_true, List.drop_zero]
    rw [ih]; rfl

/-- The loop of `utf8tog` writes no more glyphs than the string has bytes. -/
theorem utf8tog_loop_length_le (junk : Nat) (fuel : Nat) :
    ∀ (raw g : List Nat), utf8tog_loop junk fuel raw = some g → g.length ≤ raw.length := by
  induction fuel with
  | zero => intro raw g h; simp [utf8tog_loop] at h
  | succ n ih =>
    intro raw g h
    cases raw with
    | nil =>
      simp only [utf8tog_loop] at h
      rw [← Option.some.inj h]
    | cons b rest =>
      rw [utf8tog_loop] at h
      by_cases hb : b = 0
      · rw [if_pos hb] at h
        rw [← Option.some.inj h]; simp
      · rw [if_neg hb] at h
        cases hdec : utf8_to_glyph junk (b :: rest) with
        | none => rw [hdec] at h; simp at h
        | some p =>
          obtain ⟨gl, adv⟩ := p
          rw [hdec] at h
          simp only at h
          by_cases hgl : gl = 0
          · simp only [ne_eq, hgl, not_true_eq_false, if_false] at h
            by_cases hadv : adv + 1 ≤ (b :: rest).length
            · rw [if_pos hadv] at h
              have := ih _ _ h
              simp only [List.length_drop, List.length_cons] at this ⊢
              omega
            · rw [if_neg hadv] at h; simp at h
          · simp only [ne_eq, hgl, not_false_eq_true, if_true] at h
            cases adv with
            | zero =>
              have hs := utf8tog_loop_stuck junk gl b rest hb hgl hdec n
              simp only [List.drop_zero] at h
              rw [hs] at h; simp at h
            | succ a =>
              cases ht : utf8tog_loop junk n ((b :: rest).drop (a + 1)) with
              | none => rw [ht] at h; simp at h
              | some t =>
                rw [ht] at h
                simp only [Option.map_some'] at h
                have := ih _ _ ht
                rw [← Option.some.inj h]
                simp only [List.length_drop, List.length_cons] at this ⊢
                omega

theorem utf8tog_length_le (junk : Nat) (raw g : List Nat) (h : utf8tog junk raw = some g) :
    g.length ≤ raw.length :=
  utf8tog_loop_length_le junk _ raw g h

theorem rl_set_text_inv (RL_MAX_LENGTH junk : Nat) (text : List Nat) (redraw : Bool)
    (s s1 : rl_state_t) (hM : 1 ≤ RL_MAX_LENGTH)
    (h : rl_set_text RL_MAX_LENGTH junk text redraw s = some s1) :
    cursor_inv RL_MAX_LENGTH s1 := by
  unfold rl_set_text at h
  simp only at h
  cases hg : utf8tog junk ((cstr text).take (RL_MAX_LENGTH - 1) ++
      List.replicate (RL_MAX_LENGTH - 1 - ((cstr text).take (RL_MAX_LENGTH - 1)).length) 0) with
  | none => rw [hg] at h; simp at h
  | some g =>
    rw [hg] at h
    have hl := utf8tog_length_le junk _ g hg
    simp only [List.length_append, List.length_replicate, List.length_take] at hl
    rw [← Option.some.inj h]
    simp only [cursor_inv, rl_state_t.length]
    omega

theorem rl_insert_seq_inv (RL_MAX_LENGTH junk : Nat) (seq : List Nat) (s s1 : rl_state_t)
    (hinv : cursor_inv RL_MAX_LENGTH s)
    (h : rl_insert_seq RL_MAX_LENGTH junk seq s = some s1) : cursor_inv RL_MAX_LENGTH s1 := by
  unfold rl_insert_seq at h
  cases hg : utf8tog junk seq with
  | none => rw [hg] at h; simp at h
  | some g =>
    rw [hg] at h
    simp only at h
    by_cases hfit : g.length + 1 ≤ RL_MAX_LENGTH * 2
    · exact
        ((rl_insert_seq_fits_length RL_MAX_LENGTH junk seq g s s1 hinv hg hfit
          (by unfold rl_insert_seq; rw [hg]; exact h)) |> fun r => by
            obtain ⟨_, r2, r3, _⟩ := r
            obtain ⟨hc, hl⟩ := hinv
            simp only [cursor_inv]
            omega)
    · rw [if_neg hfit] at h; simp at h

theorem rlc_delete_n_inv (RL_MAX_LENGTH k : Nat) (s : rl_state_t)
    (hinv : cursor_inv RL_MAX_LENGTH s) : cursor_inv RL_MAX_LENGTH (rlc_delete_n k s) := by
  obtain ⟨hc, hl⟩ := hinv
  have h1 := rlc_delete_n_length k s hc
  have h2 := (rlc_delete_n_frame k s).1
  simp only [cursor_inv]
  omega

theorem scan_left_le (p : Nat → Bool) (line : List Nat) (pos : Nat) :
    scan_left p line pos ≤ pos := by
  induction pos with
  | zero => simp [scan_left]
  | succ n ih =>
    rw [scan_left]
    split
    · omega
    · exact le_refl _

theorem scan_right_le (p : Nat → Bool) (l : List Nat) (pos : Nat) :
    scan_right p l pos ≤ pos + l.length := by
  induction l generalizing pos with
  | nil => simp [scan_right]
  | cons g t ih =>
    rw [scan_right]
    split
    · have := ih (pos + 1)
      simp only [List.length_cons]
      omega
    · omega

theorem scan_right_ge (p : Nat → Bool) (l : List Nat) (pos : Nat) :
    pos ≤ scan_right p l pos := by
  induction l generalizing pos with
  | nil => simp [scan_right]
  | cons g t ih =>
    rw [scan_right]
    split
    · have := ih (pos + 1)
      omega
    · exact le_refl _

theorem word_left_pos_le (line : List Nat) (cur : Nat) : word_left_pos line cur ≤ cur :=
  le_trans (scan_left_le _ _ _) (scan_left_le _ _ _)

theorem rlc_next_word_le (s : rl_state_t) (h : s.cur_pos ≤ s.length) :
    rlc_next_word s ≤ s.length := by
  unfold rlc_next_word
  simp only
  unfold rl_state_t.length at *
  have h1 := scan_right_le (fun g => g ≠ 0x20) (s.line.drop s.cur_pos) s.cur_pos
  have h2 := scan_right_le (fun g => g = 0x20)
    (s.line.drop (scan_right (fun g => g ≠ 0x20) (s.line.drop s.cur_pos) s.cur_pos))
    (scan_right (fun g => g ≠ 0x20) (s.line.drop s.cur_pos) s.cur_pos)
  simp only [List.length_drop] at h1 h2
  omega

theorem history_pop_inv (RL_MAX_LENGTH junk idx : Nat) (s s1 : rl_state_t)
    (hinv : cursor_inv RL_MAX_LENGTH s)
    (h : history_pop RL_MAX_LENGTH junk idx s = some s1) : cursor_inv RL_MAX_LENGTH s1 := by
  have hM : 1 ≤ RL_MAX_LENGTH := by
    have := hinv.2; omega
  unfold history_pop at h
  simp only at h
  split at h
  · cases hs : rl_set_text RL_MAX_LENGTH junk _ true s with
    | none => rw [hs] at h; simp at h
    | some s2 =>
      rw [hs] at h
      simp only [Option.map_some'] at h
      have := rl_set_text_inv RL_MAX_LENGTH junk _ true s s2 hM hs
      rw [← Option.some.inj h]
      exact this
  · split at h
    · rw [← Option.some.inj h]; exact hinv
    · split at h
      · simp at h
      · exact rl_set_text_inv RL_MAX_LENGTH junk _ true _ s1 hM h

theorem cursor_inv_history (RL_MAX_LENGTH : Nat) (s : rl_state_t) (h : rl_history_t)
    (hinv : cursor_inv RL_MAX_LENGTH s) :
    cursor_inv RL_MAX_LENGTH { s with history := h } := hinv

/-- What `rlc_cursor_end` returns when it returns. -/
theorem rlc_cursor_end_some (RL_MAX_LENGTH : Nat) (s s1 : rl_state_t)
    (h : rlc_cursor_end RL_MAX_LENGTH s = some s1) :
    s1 = { s with cur_pos := s.length } := by
  unfold rlc_cursor_end at h
  split at h
  · simp at h
  · exact (Option.some.inj h).symm

/-- `rlc_cursor_end` returns when `rl_write_part(cur_pos, -1)` does. -/
theorem rlc_cursor_end_of_write (RL_MAX_LENGTH : Nat) (s : rl_state_t) (b : List Nat)
    (h : rl_write_part RL_MAX_LENGTH s.cur_pos (-1) s = some b) :
    rlc_cursor_end RL_MAX_LENGTH s = some { s with cur_pos := s.length } := by
  unfold rlc_cursor_end
  rw [h]

/-- With the cursor at the end, `rlc_cursor_end` writes nothing and leaves
the state as it is. -/
theorem rlc_cursor_end_at_end (RL_MAX_LENGTH : Nat) (s : rl_state_t)
    (hM : 1 ≤ RL_MAX_LENGTH) (hc : s.cur_pos = s.length) :
    rlc_cursor_end RL_MAX_LENGTH s = some s := by
  unfold rlc_cursor_end rl_write_part
  have hd : s.line.drop s.cur_pos = [] := by
    rw [hc]
    exact List.drop_length _
  simp only [hd]
  rw [show gtoutf8 [] (-1) = [] from rfl, if_pos (by simp only [List.length_nil]; omega)]
  simp only
  rw [← hc]

/-- What `rlc_cursor_word_right` returns when it returns. -/
theorem rlc_cursor_word_right_some (RL_MAX_LENGTH : Nat) (s s1 : rl_state_t)
    (h : rlc_cursor_word_right RL_MAX_LENGTH s = some s1) :
    s1 = if s.cur_pos ≥ s.length then s else { s with cur_pos := rlc_next_word s } := by
  unfold rlc_cursor_word_right at h
  by_cases hc : s.cur_pos ≥ s.length
  · rw [if_pos hc] at h
    rw [if_pos hc]
    exact (Option.some.inj h).symm
  · rw [if_neg hc] at h
    rw [if_neg hc]
    split at h
    · simp at h
    · exact (Option.some.inj h).symm

/-- `rlc_cursor_word_right` returns when its `rl_write_part` does. -/
theorem rlc_cursor_word_right_of_write (RL_MAX_LENGTH : Nat) (s : rl_state_t) (b : List Nat)
    (hc : s.cur_pos < s.length)
    (h : rl_write_part RL_MAX_LENGTH s.cur_pos
      ((rlc_next_word s : Int) - (s.cur_pos : Int)) s = some b) :
    rlc_cursor_word_right RL_MAX_LENGTH s = some { s with cur_pos := rlc_next_word s } := by
  unfold rlc_cursor_word_right
  rw [if_neg (by omega), h]

theorem rl_handler_run_inv (RL_MAX_LENGTH junk : Nat) (gc : Option rl_get_completion_fn)
    (c : rl_handler) (s s1 : rl_state_t) (hinv : cursor_inv RL_MAX_LENGTH s)
    (h : c.run RL_MAX_LENGTH junk gc s = some s1) : cursor_inv RL_MAX_LENGTH s1 := by
  have hc := hinv.1
  have hl := hinv.2
  unfold rl_state_t.length at hc hl
  cases c <;> simp only [rl_handler.run] at h
  case cursor_home =>
    rw [← Option.some.inj h]
    simp only [rlc_cursor_home, cursor_inv, rl_state_t.length]; omega
  case cursor_left =>
    rw [← Option.some.inj h]
    unfold rlc_cursor_left
    split
    · simp only [cursor_inv, rl_state_t.length]; omega
    · exact hinv
  case cursor_right =>
    rw [← Option.some.inj h]
    unfold rlc_cursor_right
    split
    · rename_i hlt
      simp only [cursor_inv, rl_state_t.length] at hlt ⊢; omega
    · exact hinv
  case cursor_end =>
    rw [rlc_cursor_end_some RL_MAX_LENGTH s s1 h]
    simp only [cursor_inv, rl_state_t.length]; omega
  case cursor_word_left =>
    rw [← Option.some.inj h]
    unfold rlc_cursor_word_left
    split
    · exact hinv
    · have := word_left_pos_le s.line s.cur_pos
      simp only [cursor_inv, rl_state_t.length]; omega
  case cursor_word_right =>
    rw [rlc_cursor_word_right_some RL_MAX_LENGTH s s1 h]
    split
    · exact hinv
    · have := rlc_next_word_le s hinv.1
      simp only [cursor_inv, rl_state_t.length] at this ⊢; omega
  case backspace =>
    rw [← Option.some.inj h]
    unfold rlc_backspace
    split
    · apply rlc_delete_n_inv
      simp only [cursor_inv, rl_state_t.length]; omega
    · exact hinv
  case delete =>
    rw [← Option.some.inj h]
    exact rlc_delete_n_inv _ _ _ hinv
  case backword =>
    rw [← Option.some.inj h]
    unfold rlc_backword
    apply rlc_delete_n_inv
    unfold rlc_cursor_word_left
    split
    · exact hinv
    · have := word_left_pos_le s.line s.cur_pos
      simp only [cursor_inv, rl_state_t.length]; omega
  case delete_word =>
    rw [← Option.some.inj h]
    exact rlc_delete_n_inv _ _ _ hinv
  case delete_to_end =>
    rw [← Option.some.inj h]
    exact rlc_delete_n_inv _ _ _ hinv
  case delete_to_begin =>
    rw [← Option.some.inj h]
    unfold rlc_delete_to_begin
    apply rlc_delete_n_inv
    simp only [rlc_cursor_home, cursor_inv, rl_state_t.length]; omega
  case autocomplete =>
    unfold rlc_autocomplete at h
    split at h
    · rw [← Option.some.inj h]; exact hinv
    · simp only at h
      split at h
      · split at h
        · rw [← Option.some.inj h]; exact hinv
        · exact rl_insert_seq_inv RL_MAX_LENGTH junk _ _ s1 (by exact hinv) h
      · simp at h
  case history_back =>
    unfold rlc_history_back at h
    split at h
    · exact history_pop_inv RL_MAX_LENGTH junk _ _ s1 (by exact hinv) h
    · rw [← Option.some.inj h]; exact hinv
  case history_forward =>
    unfold rlc_history_forward at h
    split at h
    · exact history_pop_inv RL_MAX_LENGTH junk _ _ s1 (by exact hinv) h
    · rw [← Option.some.inj h]; exact hinv
  case history_begin =>
    unfold rlc_history_begin at h
    split at h
    · exact history_pop_inv RL_MAX_LENGTH junk _ _ s1 (by exact hinv) h
    · rw [← Option.some.inj h]; exact hinv
  case history_end =>
    unfold rlc_history_end at h
    split at h
    · exact history_pop_inv RL_MAX_LENGTH junk _ _ s1 (by exact hinv) h
    · rw [← Option.some.inj h]; exact hinv
  case enter =>
    rw [← Option.some.inj h]; exact hinv

theorem rl_exec_seq_inv (RL_MAX_LENGTH junk : Nat) (gc : Option rl_get_completion_fn)
    (seq : List Nat) (s s1 : rl_state_t) (hinv : cursor_inv RL_MAX_LENGTH s)
    (h : rl_exec_seq RL_MAX_LENGTH junk gc seq s = some s1) : cursor_inv RL_MAX_LENGTH s1 := by
  unfold rl_exec_seq at h
  split at h
  · exact rl_handler_run_inv RL_MAX_LENGTH junk gc _ s s1 hinv h
  · split at h
    · exact rl_insert_seq_inv RL_MAX_LENGTH junk seq s s1 hinv h
    · rw [← Option.some.inj h]; exact hinv

theorem readline_loop_inv (RL_MAX_LENGTH junk : Nat) (gc : Option rl_get_completion_fn)
    (input : List Nat) : ∀ (seq : List Nat) (s s1 : rl_state_t),
    cursor_inv RL_MAX_LENGTH s →
    readline_loop RL_MAX_LENGTH junk gc input seq s = some s1 →
    cursor_inv RL_MAX_LENGTH s1 := by
  induction input with
  | nil =>
    intro seq s s1 hinv h
    simp only [readline_loop] at h
    rw [← Option.some.inj h]; exact hinv
  | cons ch rest ih =>
    intro seq s s1 hinv h
    rw [readline_loop] at h
    try dsimp only at h
    generalize (if seq.length ≥ 12 then [] else seq) ++ [ch] = seq1 at h
    by_cases h12 : seq1.length ≥ 12
    · rw [if_pos h12] at h; simp at h
    · rw [if_neg h12] at h
      cases hk : skip_char_seq junk (cstr seq1) with
      | none => rw [hk] at h; simp at h
      | some n =>
        rw [hk] at h
        cases n with
        | zero => exact ih _ s s1 hinv h
        | succ m =>
          try dsimp only at h
          cases hs2 : rl_exec_seq RL_MAX_LENGTH junk gc seq1 s with
          | none => rw [hs2] at h; simp at h
          | some s2 =>
            rw [hs2] at h
            try dsimp only at h
            have hinv2 := rl_exec_seq_inv RL_MAX_LENGTH junk gc _ s s2 hinv hs2
            by_cases hf : s2.finish ≠ 0
            · rw [if_pos hf] at h
              rw [← Option.some.inj h]; exact hinv2
            · rw [if_neg hf] at h
              exact ih _ s2 s1 hinv2 h

/-- The cursor invariant in every state an operation returns with.  With
`RL_MAX_LENGTH ≥ 1`, the invariant `0 ≤ cur_pos ≤ length ≤ RL_MAX_LENGTH - 1`
holds in the state `readline` resets the session to, and every operation the
dispatcher can run leaves it standing in the state it returns with: each
bound command handler, text insertion by `rl_insert_seq`, `rl_set_text` (from
any state, as used for the seed text and by history navigation), a whole
dispatch `rl_exec_seq` on any sequence of bytes, and hence the read loop on
any input.  The handlers that move the cursor with `rl_move` or delete
return in every state. -/
theorem cursor_invariant_on_return (RL_MAX_LENGTH junk : Nat)
    (gc : Option rl_get_completion_fn) (hM : 1 ≤ RL_MAX_LENGTH) :
    (∀ (s : rl_state_t) (prompt : List Nat) (w : Nat),
      cursor_inv RL_MAX_LENGTH
        { s with raw := [], line := [], cur_pos := 0, finish := 0,
                 prompt := prompt, prompt_width := w }) ∧
    (∀ (c : rl_handler) (s s1 : rl_state_t), cursor_inv RL_MAX_LENGTH s →
      c.run RL_MAX_LENGTH junk gc s = some s1 → cursor_inv RL_MAX_LENGTH s1) ∧
    (∀ (seq : List Nat) (s s1 : rl_state_t), cursor_inv RL_MAX_LENGTH s →
      rl_insert_seq RL_MAX_LENGTH junk seq s = some s1 → cursor_inv RL_MAX_LENGTH s1) ∧
    (∀ (text : List Nat) (redraw : Bool) (s s1 : rl_state_t),
      rl_set_text RL_MAX_LENGTH junk text redraw s = some s1 → cursor_inv RL_MAX_LENGTH s1) ∧
    (∀ (seq : List Nat) (s s1 : rl_state_t), cursor_inv RL_MAX_LENGTH s →
      rl_exec_seq RL_MAX_LENGTH junk gc seq s = some s1 → cursor_inv RL_MAX_LENGTH s1) ∧
    (∀ (input seq : List Nat) (s s1 : rl_state_t), cursor_inv RL_MAX_LENGTH s →
      readline_loop RL_MAX_LENGTH junk gc input seq s = some s1 →
      cursor_inv RL_MAX_LENGTH s1) ∧
    (∀ (c : rl_handler) (s : rl_state_t),
      c ∈ [rl_handler.cursor_home, rl_handler.cursor_left, rl_handler.cursor_right,
        rl_handler.cursor_word_left, rl_handler.backspace, rl_handler.delete,
        rl_handler.backword, rl_handler.delete_word, rl_handler.delete_to_end,
        rl_handler.delete_to_begin, rl_handler.enter] →
      ∃ s1, c.run RL_MAX_LENGTH junk gc s = some s1) := by
  refine ⟨?_, ?_, ?_, ?_, ?_, ?_, ?_⟩
  · intro s prompt w
    simp only [cursor_inv, rl_state_t.length, List.length_nil]
    omega
  · intro c s s1 hinv h
    exact rl_handler_run_inv RL_MAX_LENGTH junk gc c s s1 hinv h
  · intro seq s s1 hinv h
    exact rl_insert_seq_inv RL_MAX_LENGTH junk seq s s1 hinv h
  · intro text redraw s s1 h
    exact rl_set_text_inv RL_MAX_LENGTH junk text redraw s s1 hM h
  · intro seq s s1 hinv h
    exact rl_exec_seq_inv RL_MAX_LENGTH junk gc seq s s1 hinv h
  · intro input seq s s1 hinv h
    exact readline_loop_inv RL_MAX_LENGTH junk gc input seq s s1 hinv h
  · intro c s hc
    simp only [List.mem_cons, List.mem_singleton, List.not_mem_nil, or_false] at hc
    rcases hc with h | h | h | h | h | h | h | h | h | h | h <;> subst h <;> exact ⟨_, rfl⟩

/-- With `RL_MAX_LENGTH = 4` the line "abc" is full, the cursor is at 1, and
the bytes `x`, `C-w`, `ESC [ D` are typed. -/
theorem cursor_invariant_on_return_witness :
    1 ≤ 4 ∧
    readline_loop 4 0 none [0x78, 0x17, 0x1B, 0x5B, 0x44] []
        ⟨[], [97, 98, 99], 1, 0, ⟨none, [], 0⟩, [], 0⟩
      = some ⟨[], [98, 99], 0, 0, ⟨none, [], 0⟩, [], 0⟩ ∧
    cursor_inv 4 ⟨[], [98, 99], 0, 0, ⟨none, [], 0⟩, [], 0⟩ :=
  ⟨by decide, by decide,
   (cursor_invariant_on_return 4 0 none (by decide)).2.2.2.2.2.1
     [0x78, 0x17, 0x1B, 0x5B, 0x44] [] ⟨[], [97, 98, 99], 1, 0, ⟨none, [], 0⟩, [], 0⟩
     ⟨[], [98, 99], 0, 0, ⟨none, [], 0⟩, [], 0⟩ (by decide) (by decide)⟩

/-! ## C6: key bindings -/

set_option maxRecDepth 100000 in
theorem spec_bindings_found :
    ∀ p ∈ spec_key_bindings, rl_find_command rl_commands (cstr p.1) = some p.2 := by
  decide

set_option maxRecDepth 100000 in
theorem rl_commands_unambiguous :
    ∀ p ∈ rl_commands, ∀ q ∈ rl_commands, p.1 = q.1 → p.2 = q.2 := by
  decide

set_option maxRecDepth 100000 in
theorem rl_commands_in_spec :
    spec_key_bindings.length = 41 ∧ rl_commands.length = 41 ∧
    (rl_commands.map (fun p => p.1)).Nodup ∧
    (∀ p ∈ rl_commands, p ∈ spec_key_bindings) := by
  decide

/-- C6. Key bindings: the binding table of the specification has 41 byte
sequences; dispatching any of them with `rl_exec_seq` runs, on every state,
exactly the handler of the operation the table names for it (so
`ESC [ 1 ; 5 D` runs word left, `\x7F` backspace, `ESC K` delete to end, `\r`
submit); and the first-match search shadows nothing, because no byte sequence
occurs twice in `rl_commands`, and `rl_commands` has no entry outside the
table. -/
theorem C6_key_bindings (RL_MAX_LENGTH junk : Nat) (gc : Option rl_get_completion_fn) :
    spec_key_bindings.length = 41 ∧
    (∀ p ∈ spec_key_bindings, ∀ s : rl_state_t,
      rl_exec_seq RL_MAX_LENGTH junk gc p.1 s = p.2.run RL_MAX_LENGTH junk gc s) ∧
    (∀ s : rl_state_t,
      rl_exec_seq RL_MAX_LENGTH junk gc [0x1B, 0x5B, 0x31, 0x3B, 0x35, 0x44] s
        = some (rlc_cursor_word_left s) ∧
      rl_exec_seq RL_MAX_LENGTH junk gc [0x7F] s = some (rlc_backspace s) ∧
      rl_exec_seq RL_MAX_LENGTH junk gc [0x1B, 0x4B] s = some (rlc_delete_to_end s) ∧
      rl_exec_seq RL_MAX_LENGTH junk gc [0x0D] s = some (rlc_enter s)) ∧
    (∀ p ∈ rl_commands, ∀ q ∈ rl_commands, p.1 = q.1 → p.2 = q.2) ∧
    (rl_commands.map (fun p => p.1)).Nodup ∧
    (∀ p ∈ rl_commands, p ∈ spec_key_bindings) := by
  have hrun : ∀ p ∈ spec_key_bindings, ∀ s : rl_state_t,
      rl_exec_seq RL_MAX_LENGTH junk gc p.1 s = p.2.run RL_MAX_LENGTH junk gc s := by
    intro p hp s
    unfold rl_exec_seq
    rw [spec_bindings_found p hp]
  refine ⟨rl_commands_in_spec.1, hrun, ?_, rl_commands_unambiguous,
    rl_commands_in_spec.2.2.1, rl_commands_in_spec.2.2.2⟩
  intro s
  refine ⟨?_, ?_, ?_, ?_⟩
  · exact hrun ([0x1B, 0x5B, 0x31, 0x3B, 0x35, 0x44], .cursor_word_left) (by decide) s
  · exact hrun ([0x7F], .backspace) (by decide) s
  · exact hrun ([0x1B, 0x4B], .delete_to_end) (by decide) s
  · exact hrun ([0x0D], .enter) (by decide) s

/-! ## C7: every binding is reachable -/

theorem cstr_eq_self (l : List Nat) (h : ∀ b ∈ l, b ≠ 0) : cstr l = l := by
  unfold cstr
  rw [List.takeWhile_eq_self_iff]
  intro b hb
  simpa using h b hb

theorem utf8_to_glyph_ascii (junk b : Nat) (t : List Nat) (h : b < 128) :
    utf8_to_glyph junk (b :: t) = some (b, 1) := by
  simp [utf8_to_glyph, byteAt_zero_cons, low_byte_bits b h]

/-- On a string that starts with a byte below `0x80` the recogniser does not
look at the unassigned `glyph`. -/
theorem skip_char_seq_ascii (junk b : Nat) (t : List Nat) (h : b < 128) :
    skip_char_seq junk (b :: t) = skip_char_seq 0 (b :: t) := by
  unfold skip_char_seq
  rw [utf8_to_glyph_ascii junk b t h, utf8_to_glyph_ascii 0 b t h]

set_option maxRecDepth 100000 in
theorem rl_commands_shape :
    ∀ p ∈ rl_commands, p.1 ≠ [] ∧ p.1.length < 12 ∧ (∀ b ∈ p.1, b ≠ 0 ∧ b < 128) ∧
      rl_find_command rl_commands (cstr p.1) = some p.2 := by
  decide

set_option maxRecDepth 100000 in
theorem rl_commands_prefixes_open :
    ∀ p ∈ rl_commands, ∀ k < p.1.length, 0 < k → skip_char_seq 0 (p.1.take k) = some 0 := by
  decide

set_option maxRecDepth 100000 in
theorem rl_commands_closed :
    ∀ p ∈ rl_commands, 0 < (skip_char_seq 0 p.1).getD 0 := by
  decide

/-- The read loop fed the rest `suf` of a token of which `pre` is in the
sequence buffer: when every proper prefix is reported not closed and the
whole token closed, the loop dispatches the whole token, and only that. -/
theorem readline_loop_feed (RL_MAX_LENGTH junk : Nat) (gc : Option rl_get_completion_fn)
    (rest : List Nat) (s : rl_state_t) (suf : List Nat) :
    ∀ (pre : List Nat), suf ≠ [] → pre.length + suf.length < 12 →
    (∀ b ∈ pre ++ suf, b ≠ 0) →
    (∀ k, pre.length < k → k < (pre ++ suf).length →
      skip_char_seq junk ((pre ++ suf).take k) = some 0) →
    (∃ n, skip_char_seq junk (pre ++ suf) = some (n + 1)) →
    readline_loop RL_MAX_LENGTH junk gc (suf ++ rest) pre s =
      (match rl_exec_seq RL_MAX_LENGTH junk gc (pre ++ suf) s with
       | none => none
       | some s1 =>
         if s1.finish ≠ 0 then some s1
         else readline_loop RL_MAX_LENGTH junk gc rest [] s1) := by
  induction suf with
  | nil => intro pre h; exact absurd rfl h
  | cons ch suf1 ih =>
    intro pre _ hlen hnz hopen hclosed
    simp only [List.length_cons] at hlen
    have hpre : ¬ pre.length ≥ 12 := by omega
    have h12 : ¬ (pre ++ [ch]).length ≥ 12 := by simp; omega
    have hcs : cstr (pre ++ [ch]) = pre ++ [ch] :=
      cstr_eq_self _ (fun b hb => hnz b (by
        simp only [List.mem_append, List.mem_singleton, List.mem_cons] at hb ⊢
        tauto))
    rw [List.cons_append, readline_loop]
    simp only [if_neg hpre, if_neg h12, hcs]
    by_cases hs : suf1 = []
    · subst hs
      obtain ⟨n, hn⟩ := hclosed
      rw [hn]
      simp only [List.nil_append]
    · have htake : (pre ++ ch :: suf1).take (pre.length + 1) = pre ++ [ch] := by
        rw [List.take_append_eq_append_take]
        simp
      have hlt : pre.length + 1 < (pre ++ ch :: suf1).length := by
        have : 0 < suf1.length := List.length_pos.mpr hs
        simp only [List.length_append, List.length_cons]
        omega
      have h0 := hopen (pre.length + 1) (by omega) hlt
      rw [htake] at h0
      rw [h0]
      simp only
      have happ : pre ++ [ch] ++ suf1 = pre ++ ch :: suf1 := by simp
      have := ih (pre ++ [ch]) hs (by simp; omega) (by rw [happ]; exact hnz)
        (by
          intro k hk1 hk2
          rw [happ] at hk2 ⊢
          exact hopen k (by simp at hk1; omega) hk2)
        (by rw [happ]; exact hclosed)
      rw [this, happ]

/-- C7. Every binding is reachable without ambiguity: for every entry of the
command table, `skip_char_seq` returns `0` (not closed) on each non-empty
proper prefix of its byte sequence and a non-zero value (closed) on the whole
sequence; so the read loop, given the bytes of the sequence one at a time
with an empty sequence buffer, dispatches nothing shorter and then runs the
handler bound to exactly that sequence, after which it stops if `finish` is
set and goes on with an empty buffer otherwise. -/
theorem C7_bindings_reachable (RL_MAX_LENGTH junk : Nat) (gc : Option rl_get_completion_fn)
    (p : List Nat × rl_handler) (hp : p ∈ rl_commands) :
    (∀ k, 0 < k → k < p.1.length → skip_char_seq junk (p.1.take k) = some 0) ∧
    (∃ n, skip_char_seq junk p.1 = some (n + 1)) ∧
    (∀ (rest : List Nat) (s : rl_state_t),
      readline_loop RL_MAX_LENGTH junk gc (p.1 ++ rest) [] s =
        (match p.2.run RL_MAX_LENGTH junk gc s with
         | none => none
         | some s1 =>
           if s1.finish ≠ 0 then some s1
           else readline_loop RL_MAX_LENGTH junk gc rest [] s1)) := by
  obtain ⟨hne, hlen, hbytes, hfind⟩ := rl_commands_shape p hp
  obtain ⟨seq, c⟩ := p
  simp only at hne hlen hbytes hfind ⊢
  cases seq with
  | nil => exact absurd rfl hne
  | cons b t =>
    have hb : b < 128 := (hbytes b (by simp)).2
    have hopen : ∀ k, 0 < k → k < (b :: t).length →
        skip_char_seq junk ((b :: t).take k) = some 0 := by
      intro k hk0 hk
      have h0 := rl_commands_prefixes_open (b :: t, c) hp k hk hk0
      simp only at h0
      cases k with
      | zero => omega
      | succ j =>
        rw [List.take_succ_cons] at h0 ⊢
        rw [skip_char_seq_ascii junk b _ hb]
        exact h0
    have hclosed : ∃ n, skip_char_seq junk (b :: t) = some (n + 1) := by
      have h0 := rl_commands_closed (b :: t, c) hp
      simp only at h0
      rw [skip_char_seq_ascii junk b t hb]
      cases hv : skip_char_seq 0 (b :: t) with
      | none => rw [hv] at h0; simp at h0
      | some v =>
        rw [hv] at h0
        simp only [Option.getD_some] at h0
        exact ⟨v - 1, by congr 1; omega⟩
    refine ⟨hopen, hclosed, ?_⟩
    intro rest s
    have hfeed := readline_loop_feed RL_MAX_LENGTH junk gc rest s (b :: t) []
      (by simp) (by simpa using hlen)
      (fun x hx => (hbytes x (by simpa using hx)).1)
      (fun k hk1 hk2 => by
        simp only [List.nil_append] at hk2 ⊢
        exact hopen k (by simpa using hk1) hk2)
      (by simpa using hclosed)
    simp only [List.nil_append] at hfeed
    rw [hfeed]
    unfold rl_exec_seq
    rw [hfind]

/-- C7 at the binding `ESC [ 1 ; 5 D` of word left: the prefix `ESC [ 1` is
not closed. -/
theorem C7_bindings_reachable_witness :
    (([0x1B, 0x5B, 0x31, 0x3B, 0x35, 0x44], rl_handler.cursor_word_left) ∈ rl_commands) ∧
    skip_char_seq 9 [0x1B, 0x5B, 0x31] = some 0 :=
  ⟨by decide,
   (C7_bindings_reachable 16 9 none
      ([0x1B, 0x5B, 0x31, 0x3B, 0x35, 0x44], rl_handler.cursor_word_left) (by decide)).1 3
      (by decide) (by decide)⟩

/-! ## C8: dispatch on a table miss -/

theorem rl_find_command_none (cmds : List (List Nat × rl_handler)) (x : List Nat)
    (h : ∀ p ∈ cmds, p.1 ≠ x) : rl_find_command cmds x = none := by
  induction cmds with
  | nil => rfl
  | cons p rest ih =>
    obtain ⟨cs, c⟩ := p
    rw [rl_find_command, if_neg (h (cs, c) (by simp))]
    exact ih (fun q hq => h q (by simp [hq]))

set_option maxRecDepth 100000 in
theorem top_bits_iff : ∀ b < 256, (b &&& 0xE0 ≠ 0 ↔ 0x20 ≤ b) := by decide

/-- C8. Dispatch on a table miss: for every content `seq` of the sequence
buffer (bytes below 256) whose C string equals the sequence of no entry of
the command table, if the first byte has its high three bits equal to `111`
or is at least `0x20`, `rl_exec_seq` does exactly what `rl_insert_seq` does
with the accumulated bytes (the same state, or the same failure); and if the
first byte is below `0x20` the state, so the line, the length and the cursor,
is returned unchanged. -/
theorem C8_dispatch_on_miss (RL_MAX_LENGTH junk : Nat) (gc : Option rl_get_completion_fn)
    (seq : List Nat) (s : rl_state_t) (hbytes : ∀ b ∈ seq, b < 256)
    (hmiss : ∀ p ∈ rl_commands, p.1 ≠ cstr seq) :
    ((seq.headD 0 &&& 0xE0 = 0xE0 ∨ 0x20 ≤ seq.headD 0) →
      rl_exec_seq RL_MAX_LENGTH junk gc seq s = rl_insert_seq RL_MAX_LENGTH junk seq s) ∧
    (seq.headD 0 < 0x20 → rl_exec_seq RL_MAX_LENGTH junk gc seq s = some s) := by
  have hnone := rl_find_command_none rl_commands (cstr seq) hmiss
  have hlt : seq.headD 0 < 256 := by
    cases seq with
    | nil => simp
    | cons b t => simpa using hbytes b (by simp)
  have hiff := top_bits_iff (seq.headD 0) hlt
  constructor
  · intro h
    have h20 : 0x20 ≤ seq.headD 0 := by
      rcases h with h | h
      · apply hiff.1
        rw [h]; decide
      · exact h
    unfold rl_exec_seq
    rw [hnone]
    simp only
    rw [if_pos (hiff.2 h20)]
  · intro h
    unfold rl_exec_seq
    rw [hnone]
    simp only
    rw [if_neg (fun hc => by have := hiff.1 hc; omega)]

set_option maxRecDepth 100000 in
/-- C8 at the unbound sequence `ESC Z`, which is discarded. -/
theorem C8_dispatch_on_miss_witness :
    (∀ p ∈ rl_commands, p.1 ≠ cstr [0x1B, 0x5A]) ∧
    rl_exec_seq 16 0 none [0x1B, 0x5A] ⟨[], [97, 98], 1, 0, ⟨none, [], 0⟩, [], 0⟩
      = some ⟨[], [97, 98], 1, 0, ⟨none, [], 0⟩, [], 0⟩ :=
  ⟨by decide,
   (C8_dispatch_on_miss 16 0 none [0x1B, 0x5A] ⟨[], [97, 98], 1, 0, ⟨none, [], 0⟩, [], 0⟩
      (by decide) (by decide)).2 (by decide)⟩

/-! ## C10: history idempotence -/

theorem no_adjacent_dup_last (init : List (List Nat)) (x y : List Nat)
    (h : no_adjacent_dup (init ++ [x, y])) : x ≠ y := by
  induction init with
  | nil => exact h.1
  | cons a t ih =>
    cases t with
    | nil => exact h.2.1
    | cons b t1 => exact ih h.2

theorem getLast?_drop_one (l : List (List Nat)) (x : List Nat)
    (h : (l.drop 1).getLast? = some x) : l.getLast? = some x := by
  cases l with
  | nil => simp at h
  | cons a t =>
    simp only [List.drop_succ_cons, List.drop_zero] at h
    cases t with
    | nil => simp at h
    | cons b t1 => rw [List.getLast?_cons_cons]; exact h

theorem history_add_last (RL_HISTORY_HEIGHT : Nat) (line : List Nat) (h : rl_history_t)
    (hne : cstr line ≠ []) :
    (history_add RL_HISTORY_HEIGHT line h).lines.getLast? = some (cstr line) ∧
    (history_add RL_HISTORY_HEIGHT line h).lines ≠ [] ∧
    (history_add RL_HISTORY_HEIGHT line h).current
      = (history_add RL_HISTORY_HEIGHT line h).size ∧
    (history_add RL_HISTORY_HEIGHT line h).line = none := by
  unfold history_add
  simp only [if_neg hne]
  split
  · rename_i hc
    obtain ⟨h1, h2⟩ := hc
    refine ⟨h2, ?_, rfl, rfl⟩
    intro he
    apply h1
    show h.lines.length = 0
    rw [show h.lines = [] from he]; rfl
  · simp [rl_history_t.size]

/-- C10. History idempotence: for every history and every non-empty line,
`history_add` of the line twice in a row leaves exactly the history that one
`history_add` of it leaves (the same entries, `current` and scratch slot);
when no two adjacent entries of the history were byte-identical, the entries
after the add are `init ++ [line]` with the last entry of `init` different
from the line, so the line has exactly one entry at the end; and adding the
empty line leaves the entries and their count unchanged. -/
theorem C10_history_idempotence (RL_HISTORY_HEIGHT : Nat) (h : rl_history_t) (line : List Nat) :
    (cstr line ≠ [] →
      history_add RL_HISTORY_HEIGHT line (history_add RL_HISTORY_HEIGHT line h)
        = history_add RL_HISTORY_HEIGHT line h ∧
      (no_adjacent_dup h.lines → ∃ init,
        (history_add RL_HISTORY_HEIGHT line h).lines = init ++ [cstr line] ∧
        init.getLast? ≠ some (cstr line))) ∧
    (cstr line = [] →
      (history_add RL_HISTORY_HEIGHT line h).lines = h.lines ∧
      (history_add RL_HISTORY_HEIGHT line h).size = h.size) := by
  constructor
  · intro hne
    constructor
    · obtain ⟨h1, h2, h3, h4⟩ := history_add_last RL_HISTORY_HEIGHT line h hne
      generalize history_add RL_HISTORY_HEIGHT line h = h' at h1 h2 h3 h4
      unfold history_add
      simp only [if_neg hne]
      have hs : h'.size ≠ 0 := by
        simp only [rl_history_t.size]
        intro he
        exact h2 (List.length_eq_zero.mp he)
      rw [if_pos ⟨hs, h1⟩]
      obtain ⟨l, ls, c⟩ := h'
      simp only at h3 h4 ⊢
      simp only [rl_history_t.size] at h3 ⊢
      rw [h3, h4]
    · intro hadj
      unfold history_add
      simp only [if_neg hne]
      split
      · rename_i hc
        obtain ⟨_, h2⟩ := hc
        simp only at h2 ⊢
        refine ⟨h.lines.dropLast, ?_, ?_⟩
        · exact (List.dropLast_append_getLast? _ (by simpa using h2)).symm
        · intro hl
          have e1 : h.lines = h.lines.dropLast ++ [cstr line] :=
            (List.dropLast_append_getLast? _ (by simpa using h2)).symm
          have e2 : h.lines.dropLast = h.lines.dropLast.dropLast ++ [cstr line] :=
            (List.dropLast_append_getLast? _ (by simpa using hl)).symm
          rw [e1, e2, List.append_assoc] at hadj
          exact no_adjacent_dup_last _ _ _ hadj rfl
      · rename_i hc
        simp only [rl_history_t.size] at hc ⊢
        have hlast : h.lines.getLast? ≠ some (cstr line) := by
          intro hl
          apply hc
          refine ⟨?_, hl⟩
          intro he
          rw [List.length_eq_zero.mp he] at hl
          simp at hl
        refine ⟨_, rfl, ?_⟩
        split
        · intro hd
          exact hlast (getLast?_drop_one _ _ hd)
        · exact hlast
  · intro he
    unfold history_add
    simp [if_pos he, rl_history_t.size]

/-- C10 at the history "one", "two" with capacity 2: adding "two" changes
nothing, adding "six" twice evicts "one" once. -/
theorem C10_history_idempotence_witness :
    cstr [115, 105, 120] ≠ [] ∧
    history_add 2 [115, 105, 120]
        (history_add 2 [115, 105, 120] ⟨none, [[111, 110, 101], [116, 119, 111]], 2⟩)
      = history_add 2 [115, 105, 120] ⟨none, [[111, 110, 101], [116, 119, 111]], 2⟩ ∧
    history_add 2 [115, 105, 120] ⟨none, [[111, 110, 101], [116, 119, 111]], 2⟩
      = ⟨none, [[116, 119, 111], [115, 105, 120]], 2⟩ :=
  ⟨by decide,
   ((C10_history_idempotence 2 ⟨none, [[111, 110, 101], [116, 119, 111]], 2⟩
      [115, 105, 120]).1 (by decide)).1,
   by decide⟩

/-! ## C9: decoding with skip-one recovery -/

/-- C9, failing inputs. On the string of the one stray continuation byte
`0x80`, and on the string of the one lead byte `0xF0`, `utf8_to_glyph`
returns its unassigned `glyph` without advancing; when that value is not `0`
(written `junk + 1`) `utf8tog` stores it as a glyph and meets the same byte
again, so that no number of iterations ends the loop. On the string
`0xC0 0x80` (the over-long form of NUL) `utf8_to_glyph` consumes both bytes
and returns `0`, `utf8tog` then skips one byte more, the terminator, and its
next `*raw` reads the cell after the terminator. -/
theorem C9_utf8tog_fails_to_skip_one :
    (∀ junk, utf8_to_glyph (junk + 1) [0x80] = some (junk + 1, 0)) ∧
    (∀ junk fuel, utf8tog_loop (junk + 1) fuel [0x80] = none) ∧
    (∀ junk fuel, utf8tog_loop (junk + 1) fuel [0xF0] = none) ∧
    (∀ junk, utf8_to_glyph junk [0xC0, 0x80] = some (0, 2)) ∧
    (∀ junk, utf8tog junk [0xC0, 0x80] = none) := by
  refine ⟨fun junk => rfl, ?_, ?_, fun junk => rfl, fun junk => rfl⟩
  · intro junk fuel
    exact utf8tog_loop_stuck (junk + 1) (junk + 1) 0x80 [] (by decide) (by omega) rfl fuel
  · intro junk fuel
    exact utf8tog_loop_stuck (junk + 1) (junk + 1) 0xF0 [] (by decide) (by omega) rfl fuel

/-! ## Typed text -/

theorem byteAt_end (l : List Nat) : byteAt l l.length = some 0 := by
  simp [byteAt]

theorem lead2_ne_esc : ∀ q < 32, 0xC0 ||| q ≠ 0 ∧ 0x20 ≤ (0xC0 ||| q) ∧ (0xC0 ||| q) ≠ 0x7F ∧
    (0xC0 ||| q) < 256 := by decide

theorem lead3_ne_esc : ∀ q < 16, 0xE0 ||| q ≠ 0 ∧ 0x20 ≤ (0xE0 ||| q) ∧ (0xE0 ||| q) ≠ 0x7F ∧
    (0xE0 ||| q) < 256 := by decide

theorem cont_ne_zero : ∀ r < 64, 0x80 ||| r ≠ 0 ∧ (0x80 ||| r) < 256 := by decide

/-- A lead byte of a two-byte form with nothing after it is not a glyph yet. -/
theorem utf8_to_glyph_lead2_alone (junk q : Nat) (hq : q < 32) :
    utf8_to_glyph junk [0xC0 ||| q] = some (0, 0) := by
  obtain ⟨a1, a2, _⟩ := lead2_bits q hq
  have e1 : byteAt [0xC0 ||| q] 1 = some 0 := byteAt_end [0xC0 ||| q]
  simp only [utf8_to_glyph, byteAt_zero_cons, if_neg a1, if_pos a2, e1]
  rfl

theorem utf8_to_glyph_lead3_alone (junk q : Nat) (hq : q < 16) :
    utf8_to_glyph junk [0xE0 ||| q] = some (0, 0) := by
  obtain ⟨a1, a2, a3, _⟩ := lead3_bits q hq
  have e1 : byteAt [0xE0 ||| q] 1 = some 0 := byteAt_end [0xE0 ||| q]
  simp only [utf8_to_glyph, byteAt_zero_cons, if_neg a1, if_neg a2, if_pos a3, e1]
  rfl

theorem utf8_to_glyph_lead3_one (junk q r : Nat) (hq : q < 16) (hr : r < 64) :
    utf8_to_glyph junk [0xE0 ||| q, 0x80 ||| r] = some (0, 0) := by
  obtain ⟨a1, a2, a3, _⟩ := lead3_bits q hq
  obtain ⟨c1, _⟩ := cont_bits r hr
  have e2 : byteAt [0xE0 ||| q, 0x80 ||| r] 2 = some 0 := byteAt_end [0xE0 ||| q, 0x80 ||| r]
  simp only [utf8_to_glyph, byteAt_zero_cons, byteAt_one_cons, if_neg a1, if_neg a2, if_pos a3,
    if_pos c1, e2]
  rfl

theorem skip_char_seq_of_glyph (junk : Nat) (l : List Nat) (gl adv : Nat)
    (h : utf8_to_glyph junk l = some (gl, adv)) (hgl : gl ≠ 0x1B) :
    skip_char_seq junk l = some adv := by
  unfold skip_char_seq
  rw [h]
  simp only [ne_eq, hgl, not_false_eq_true, if_true]

/-- The recogniser on the bytes of one typed glyph: not closed on every
proper prefix, closed on the whole. -/
theorem skip_char_seq_glyph_bytes (junk uc : Nat) (h1 : 0x20 ≤ uc) (h2 : uc < 65536) :
    (∀ k, 0 < k → k < (glyph_bytes uc).length →
      skip_char_seq junk ((glyph_bytes uc).take k) = some 0) ∧
    (∃ n, skip_char_seq junk (glyph_bytes uc) = some (n + 1)) := by
  have hwhole : skip_char_seq junk (glyph_bytes uc) = some (glyph_bytes uc).length := by
    have := utf8_to_glyph_glyph_bytes junk uc [] h2
    rw [List.append_nil] at this
    exact skip_char_seq_of_glyph junk _ uc _ this (by omega)
  refine ⟨?_, ⟨(glyph_bytes uc).length - 1, ?_⟩⟩
  · by_cases h128 : uc < 128
    · rw [glyph_bytes_one uc h128]
      intro k hk0 hk
      simp at hk; omega
    · by_cases h2048 : uc < 2048
      · rw [glyph_bytes_two uc (by omega) h2048]
        intro k hk0 hk
        simp only [List.length_cons, List.length_nil] at hk
        have hk1 : k = 1 := by omega
        subst hk1
        simp only [List.take_succ_cons, List.take_zero]
        exact skip_char_seq_of_glyph junk _ 0 0
          (utf8_to_glyph_lead2_alone junk (uc / 64) (by omega)) (by decide)
      · rw [glyph_bytes_three uc (by omega) h2]
        intro k hk0 hk
        simp only [List.length_cons, List.length_nil] at hk
        have hk12 : k = 1 ∨ k = 2 := by omega
        rcases hk12 with hk1 | hk1
        · subst hk1
          simp only [List.take_succ_cons, List.take_zero]
          exact skip_char_seq_of_glyph junk _ 0 0
            (utf8_to_glyph_lead3_alone junk (uc / 4096) (by omega)) (by decide)
        · subst hk1
          simp only [List.take_succ_cons, List.take_zero]
          exact skip_char_seq_of_glyph junk _ 0 0
            (utf8_to_glyph_lead3_one junk (uc / 4096) (uc / 64 % 64) (by omega)
              (Nat.mod_lt _ (by decide))) (by decide)
  · rw [hwhole]
    have := glyph_bytes_length_pos uc
    congr 1; omega

/-- The bytes of a typed glyph: none is NUL, all are below 256, and the
first is at least `0x20` and, the glyph not being `0x7F`, not `0x7F`. -/
theorem glyph_bytes_typed (uc : Nat) (h1 : 0x20 ≤ uc) (h2 : uc < 65536) (h3 : uc ≠ 0x7F) :
    (∀ b ∈ glyph_bytes uc, b ≠ 0 ∧ b < 256) ∧
    (∃ b t, glyph_bytes uc = b :: t ∧ 0x20 ≤ b ∧ b ≠ 0x7F) := by
  by_cases h128 : uc < 128
  · rw [glyph_bytes_one uc h128]
    refine ⟨?_, uc, [], rfl, h1, h3⟩
    intro b hb
    simp only [List.mem_singleton] at hb
    omega
  · by_cases h2048 : uc < 2048
    · rw [glyph_bytes_two uc (by omega) h2048]
      obtain ⟨a1, a2, a3, a4⟩ := lead2_ne_esc (uc / 64) (by omega)
      obtain ⟨c1, c2⟩ := cont_ne_zero (uc % 64) (Nat.mod_lt _ (by decide))
      refine ⟨?_, _, _, rfl, a2, a3⟩
      intro b hb
      simp only [List.mem_cons, List.mem_singleton, List.not_mem_nil, or_false] at hb
      rcases hb with hb | hb <;> subst hb
      · exact ⟨a1, a4⟩
      · exact ⟨c1, c2⟩
    · rw [glyph_bytes_three uc (by omega) h2]
      obtain ⟨a1, a2, a3, a4⟩ := lead3_ne_esc (uc / 4096) (by omega)
      obtain ⟨c1, c2⟩ := cont_ne_zero (uc / 64 % 64) (Nat.mod_lt _ (by decide))
      obtain ⟨d1, d2⟩ := cont_ne_zero (uc % 64) (Nat.mod_lt _ (by decide))
      refine ⟨?_, _, _, rfl, a2, a3⟩
      intro b hb
      simp only [List.mem_cons, List.mem_singleton, List.not_mem_nil, or_false] at hb
      rcases hb with hb | hb | hb <;> subst hb
      · exact ⟨a1, a4⟩
      · exact ⟨c1, c2⟩
      · exact ⟨d1, d2⟩

set_option maxRecDepth 100000 in
theorem rl_commands_heads :
    ∀ p ∈ rl_commands, p.1.headD 0 < 0x20 ∨ p.1.headD 0 = 0x7F := by
  decide

/-- Dispatching the bytes of one typed glyph with the cursor at the end of a
line that has room appends the glyph. -/
theorem rl_exec_seq_typed (RL_MAX_LENGTH junk : Nat) (gc : Option rl_get_completion_fn)
    (uc : Nat) (s : rl_state_t) (h1 : 0x20 ≤ uc) (h2 : uc < 65536) (h3 : uc ≠ 0x7F)
    (hcur : s.cur_pos = s.length) (hroom : s.length + 2 ≤ RL_MAX_LENGTH) :
    rl_exec_seq RL_MAX_LENGTH junk gc (glyph_bytes uc) s =
      some { s with line := s.line ++ [uc], cur_pos := s.cur_pos + 1 } := by
  obtain ⟨hb, b, t, hbt, hb20, hb7f⟩ := glyph_bytes_typed uc h1 h2 h3
  have hcs : cstr (glyph_bytes uc) = glyph_bytes uc :=
    cstr_eq_self _ (fun x hx => (hb x hx).1)
  have hmiss : ∀ p ∈ rl_commands, p.1 ≠ cstr (glyph_bytes uc) := by
    intro p hp he
    have := rl_commands_heads p hp
    rw [he, hcs, hbt] at this
    simp only [List.headD_cons] at this
    omega
  have hb256 : b < 256 := (hb b (by rw [hbt]; simp)).2
  have htop : (glyph_bytes uc).headD 0 &&& 0xE0 ≠ 0 := by
    rw [hbt]
    exact (top_bits_iff b hb256).2 hb20
  have hdec : utf8tog junk (glyph_bytes uc) = some [uc] := by
    have := utf8tog_loop_encode_all junk [uc]
      (fun x hx => by simp only [List.mem_singleton] at hx; omega)
      ((encode_all [uc]).length + 1) (Nat.lt_succ_self _)
    simpa [encode_all, utf8tog] using this
  unfold rl_exec_seq
  rw [rl_find_command_none rl_commands _ hmiss]
  simp only
  have hmin : min [uc].length (RL_MAX_LENGTH - 1 - s.length) = 1 := by
    simp only [List.length_singleton]
    omega
  have hgl := glyph_bytes_length_le uc
  rw [if_pos htop, rl_insert_seq_fits RL_MAX_LENGTH junk _ [uc] s (by omega) hdec
    (by simp only [List.length_singleton]; omega)
    (by
      rw [hmin]
      simp only [List.take_succ_cons, List.take_zero, encode_all, List.append_nil]
      omega)]
  rw [hmin]
  simp only [Nat.one_ne_zero, if_false]
  have hc : s.cur_pos = s.line.length := hcur
  rw [hc, List.take_length, List.drop_length]
  simp

/-- The read loop on the bytes of one typed glyph, one byte at a time. -/
theorem readline_loop_typed_step (RL_MAX_LENGTH junk : Nat)
    (gc : Option rl_get_completion_fn) (uc : Nat) (rest : List Nat) (s : rl_state_t)
    (h1 : 0x20 ≤ uc) (h2 : uc < 65536) (h3 : uc ≠ 0x7F)
    (hcur : s.cur_pos = s.length) (hroom : s.length + 2 ≤ RL_MAX_LENGTH)
    (hfin : s.finish = 0) :
    readline_loop RL_MAX_LENGTH junk gc (glyph_bytes uc ++ rest) [] s =
      readline_loop RL_MAX_LENGTH junk gc rest []
        { s with line := s.line ++ [uc], cur_pos := s.cur_pos + 1 } := by
  obtain ⟨hb, _⟩ := glyph_bytes_typed uc h1 h2 h3
  obtain ⟨hopen, hclosed⟩ := skip_char_seq_glyph_bytes junk uc h1 h2
  have hlen := glyph_bytes_length_le uc
  have hpos := glyph_bytes_length_pos uc
  have hfeed := readline_loop_feed RL_MAX_LENGTH junk gc rest s (glyph_bytes uc) []
    (by intro he; rw [he] at hpos; simp at hpos)
    (by simp only [List.length_nil]; omega)
    (fun x hx => (hb x (by simpa using hx)).1)
    (fun k hk1 hk2 => by
      simp only [List.nil_append] at hk2 ⊢
      exact hopen k (by simpa using hk1) hk2)
    (by simpa using hclosed)
  simp only [List.nil_append] at hfeed
  rw [hfeed, rl_exec_seq_typed RL_MAX_LENGTH junk gc uc s h1 h2 h3 hcur hroom]
  simp only [hfin, ne_eq, not_true_eq_false, if_false]

/-- The read loop on the bytes of a typed glyph sequence: the glyphs are
appended to the line, in order. -/
theorem readline_loop_typed (RL_MAX_LENGTH junk : Nat) (gc : Option rl_get_completion_fn)
    (rest : List Nat) (g : List Nat) :
    ∀ (s : rl_state_t), (∀ x ∈ g, 0x20 ≤ x ∧ x < 65536 ∧ x ≠ 0x7F) →
    s.cur_pos = s.length → s.length + g.length + 1 ≤ RL_MAX_LENGTH → s.finish = 0 →
    readline_loop RL_MAX_LENGTH junk gc (encode_all g ++ rest) [] s =
      readline_loop RL_MAX_LENGTH junk gc rest []
        { s with line := s.line ++ g, cur_pos := s.cur_pos + g.length } := by
  induction g with
  | nil =>
    intro s _ _ _ _
    simp [encode_all]
  | cons uc t ih =>
    intro s hg hcur hroom hfin
    obtain ⟨h1, h2, h3⟩ := hg uc (by simp)
    simp only [List.length_cons] at hroom
    rw [encode_all, List.append_assoc,
      readline_loop_typed_step RL_MAX_LENGTH junk gc uc _ s h1 h2 h3 hcur (by omega) hfin]
    have hih := ih { s with line := s.line ++ [uc], cur_pos := s.cur_pos + 1 }
      (fun x hx => hg x (by simp [hx]))
      (by simp only [rl_state_t.length, List.length_append, List.length_singleton] at hcur ⊢
          omega)
      (by simp only [rl_state_t.length, List.length_append, List.length_singleton] at hroom ⊢
          omega)
      hfin
    rw [hih]
    simp only [List.append_assoc, List.singleton_append, List.length_cons]
    congr 2
    omega

theorem readline_loop_enter (RL_MAX_LENGTH junk : Nat) (gc : Option rl_get_completion_fn)
    (s : rl_state_t) :
    readline_loop RL_MAX_LENGTH junk gc [0x0D] [] s = some (rlc_enter s) := by
  have hc : cstr [0x0D] = [0x0D] := by decide
  have hk : skip_char_seq junk [0x0D] = some 1 := by
    rw [skip_char_seq_ascii junk 0x0D [] (by decide)]
    decide
  have hf : rl_find_command rl_commands [0x0D] = some rl_handler.enter := by
    decide
  have he : rl_exec_seq RL_MAX_LENGTH junk gc [0x0D] s = some (rlc_enter s) := by
    unfold rl_exec_seq
    rw [hc, hf]
    rfl
  have h12 : ¬ (([0x0D] : List Nat).length ≥ 12) := by decide
  have hfin : (rlc_enter s).finish ≠ 0 := by simp [rlc_enter]
  rw [readline_loop]
  simp only [ite_self, List.nil_append, if_neg h12, hc, hk, he, if_pos hfin]

theorem encode_all_typed_nonzero (g : List Nat)
    (hg : ∀ x ∈ g, 0x20 ≤ x ∧ x < 65536 ∧ x ≠ 0x7F) : ∀ b ∈ encode_all g, b ≠ 0 := by
  induction g with
  | nil => intro b hb; simp [encode_all] at hb
  | cons uc t ih =>
    intro b hb
    obtain ⟨h1, h2, h3⟩ := hg uc (by simp)
    simp only [encode_all, List.mem_append] at hb
    rcases hb with hb | hb
    · exact ((glyph_bytes_typed uc h1 h2 h3).1 b hb).1
    · exact ih (fun x hx => hg x (by simp [hx])) b hb

/-- What `readline` does on a terminal with no seed text when the bytes of
the encoding of the glyphs `g` are typed and then `\r`: if the encoded line
and its terminator fit `raw[RL_MAX_LENGTH]`, it returns those bytes with the
line holding the glyphs and the bytes added to the history; if they do not
fit, the final `gtoutf8` writes past the end of `raw`. -/
theorem readline_typed (RL_MAX_LENGTH RL_HISTORY_HEIGHT junk : Nat)
    (gc : Option rl_get_completion_fn) (prompt : List Nat) (w : Nat) (g : List Nat)
    (s : rl_state_t) (hw : utf8_width junk prompt = some w)
    (hg : ∀ x ∈ g, 0x20 ≤ x ∧ x < 65536 ∧ x ≠ 0x7F)
    (hlen : g.length + 1 ≤ RL_MAX_LENGTH) :
    readline RL_MAX_LENGTH RL_HISTORY_HEIGHT junk gc prompt none (encode_all g ++ [0x0D]) s =
      if (encode_all g).length + 1 ≤ RL_MAX_LENGTH then
        some (encode_all g,
          { raw := encode_all g, line := g, cur_pos := g.length, finish := 1,
            history := history_add RL_HISTORY_HEIGHT (encode_all g) s.history,
            prompt := prompt, prompt_width := w })
      else none := by
  have hloop := readline_loop_typed RL_MAX_LENGTH junk gc [0x0D] g
    { s with raw := [], line := [], cur_pos := 0, finish := 0,
             prompt := prompt, prompt_width := w }
    hg rfl (by simp only [rl_state_t.length, List.length_nil]; omega) rfl
  have henc : gtoutf8 g (-1) = encode_all g :=
    gtoutf8_eq_encode_all g (fun x hx => by have := hg x hx; omega) (-1) (Or.inl (by decide))
  have hcs : cstr (encode_all g) = encode_all g :=
    cstr_eq_self _ (encode_all_typed_nonzero g hg)
  unfold readline
  rw [hw]
  dsimp only
  rw [hloop, readline_loop_enter]
  dsimp only
  rw [rlc_cursor_end_at_end RL_MAX_LENGTH _ (by omega)
    (by simp [rlc_enter, rl_state_t.length])]
  dsimp only [rl_encode_raw, rlc_enter, rl_state_t.length]
  simp only [List.nil_append, henc, hcs]
  by_cases hfit : (encode_all g).length + 1 ≤ RL_MAX_LENGTH
  · simp only [if_pos hfit, Nat.zero_add]
  · simp only [if_neg hfit]

theorem encode_all_replicate_euro (k : Nat) :
    (encode_all (List.replicate k 0x20AC)).length = 3 * k := by
  induction k with
  | zero => rfl
  | succ j ih =>
    have hb : glyph_bytes 0x20AC = [0xE2, 0x82, 0xAC] := by decide
    rw [List.replicate_succ, encode_all, List.length_append, ih, hb]
    simp only [List.length_cons, List.length_nil]
    omega

theorem encode_all_length_ge (g : List Nat) : g.length ≤ (encode_all g).length := by
  induction g with
  | nil => simp [encode_all]
  | cons uc t ih =>
    have := glyph_bytes_length_pos uc
    simp only [encode_all, List.length_append, List.length_cons]
    omega

/-- Typed text is returned unchanged when it fits the byte buffer: for every
sequence `g` of glyphs, each in `0x20 .. 0xFFFF` and different from `0x7F`,
whose UTF-8 encoding and its terminator fit `raw[RL_MAX_LENGTH]`, and every
prompt whose width `utf8_width` computes, `readline` on a terminal without
seed text, fed the bytes of the encoding one at a time and then `\r`, returns
exactly those bytes; the line then holds the glyphs `g`, so `length` is the
number of glyphs, and the history is the old one after `history_add` of the
returned bytes. -/
theorem typed_text_returned_when_it_fits (RL_MAX_LENGTH RL_HISTORY_HEIGHT junk : Nat)
    (gc : Option rl_get_completion_fn) (prompt : List Nat) (w : Nat) (g : List Nat)
    (s : rl_state_t) (hw : utf8_width junk prompt = some w)
    (hg : ∀ x ∈ g, 0x20 ≤ x ∧ x ≤ 0xFFFF ∧ x ≠ 0x7F)
    (hfit : (gtoutf8 g (-1)).length + 1 ≤ RL_MAX_LENGTH) :
    ∃ s1, readline RL_MAX_LENGTH RL_HISTORY_HEIGHT junk gc prompt none
        (gtoutf8 g (-1) ++ [0x0D]) s = some (gtoutf8 g (-1), s1) ∧
      s1.line = g ∧ s1.length = g.length ∧ s1.raw = gtoutf8 g (-1) ∧
      s1.history = history_add RL_HISTORY_HEIGHT (gtoutf8 g (-1)) s.history := by
  have hg1 : ∀ x ∈ g, 0x20 ≤ x ∧ x < 65536 ∧ x ≠ 0x7F := fun x hx => by
    have := hg x hx; omega
  have henc : gtoutf8 g (-1) = encode_all g :=
    gtoutf8_eq_encode_all g (fun x hx => by have := hg x hx; omega) (-1) (Or.inl (by decide))
  rw [henc] at hfit ⊢
  have hlen := encode_all_length_ge g
  rw [readline_typed RL_MAX_LENGTH RL_HISTORY_HEIGHT junk gc prompt w g s hw hg1 (by omega),
    if_pos hfit]
  exact ⟨_, rfl, rfl, rfl, rfl, rfl⟩

/-- The scenarios E1 and E5: "hi" then `\r` returns "hi", and the two bytes
of "é" then `\r` return those two bytes with one glyph in the line. -/
theorem typed_text_returned_when_it_fits_witness :
    (∃ s1, readline 16 8 3 none [0x3E] none ([0x68, 0x69] ++ [0x0D])
        ⟨[], [], 0, 0, ⟨none, [], 0⟩, [], 0⟩ = some ([0x68, 0x69], s1) ∧
      s1.line = [0x68, 0x69] ∧ s1.length = 2 ∧ s1.raw = [0x68, 0x69] ∧
      s1.history = ⟨none, [[0x68, 0x69]], 1⟩) ∧
    (∃ s1, readline 16 8 3 none [0x3E] none ([0xC3, 0xA9] ++ [0x0D])
        ⟨[], [], 0, 0, ⟨none, [], 0⟩, [], 0⟩ = some ([0xC3, 0xA9], s1) ∧
      s1.line = [0xE9] ∧ s1.length = 1 ∧ s1.raw = [0xC3, 0xA9] ∧
      s1.history = ⟨none, [[0xC3, 0xA9]], 1⟩) :=
  ⟨typed_text_returned_when_it_fits 16 8 3 none [0x3E] 1 [0x68, 0x69]
      ⟨[], [], 0, 0, ⟨none, [], 0⟩, [], 0⟩ (by decide) (by decide) (by decide),
   typed_text_returned_when_it_fits 16 8 3 none [0x3E] 1 [0xE9]
      ⟨[], [], 0, 0, ⟨none, [], 0⟩, [], 0⟩ (by decide) (by decide) (by decide)⟩

/-! ## `utf8tog` against the reference decoder -/

set_option maxRecDepth 100000 in
theorem byte_patterns : ∀ b < 256,
    (b &&& 0x80 = 0 ↔ b / 128 = 0) ∧ (b &&& 0xE0 = 0xC0 ↔ b / 32 = 6) ∧
    (b &&& 0xF0 = 0xE0 ↔ b / 16 = 14) ∧ (b &&& 0xC0 = 0x80 ↔ b / 64 = 2) := by
  decide

theorem low_bits_mod (b : Nat) :
    b &&& 0x1F = b % 32 ∧ b &&& 0x3F = b % 64 ∧ b &&& 0xF = b % 16 := by
  have h5 := Nat.and_pow_two_sub_one_eq_mod b 5
  have h6 := Nat.and_pow_two_sub_one_eq_mod b 6
  have h4 := Nat.and_pow_two_sub_one_eq_mod b 4
  simp at h5 h6 h4
  exact ⟨h5, h6, h4⟩

theorem byteAt_le (l : List Nat) (i : Nat) (h : i ≤ l.length) :
    byteAt l i = some (l.getD i 0) := by
  unfold byteAt
  by_cases hi : i < l.length
  · rw [if_pos hi]
  · have : i = l.length := by omega
    rw [if_neg hi, if_pos this, this]
    simp [List.getD_eq_default]

/-- What `utf8_to_glyph` returns when the unassigned `glyph` is `0`, in the
terms of the reference decoder. -/
theorem utf8_to_glyph_zero_junk (b0 : Nat) (rest : List Nat) (hb0 : b0 < 256)
    (hr : ∀ b ∈ rest, b < 256) :
    utf8_to_glyph 0 (b0 :: rest) =
      some (if b0 / 128 = 0 then (b0, 1)
        else if b0 / 32 = 6 ∧ rest.getD 0 0 / 64 = 2 then
          ((b0 % 32) * 64 + rest.getD 0 0 % 64, 2)
        else if b0 / 16 = 14 ∧ rest.getD 0 0 / 64 = 2 ∧ rest.getD 1 0 / 64 = 2 then
          ((b0 % 16) * 4096 + (rest.getD 0 0 % 64) * 64 + rest.getD 1 0 % 64, 3)
        else (0, 0)) := by
  have hget : ∀ i, rest.getD i 0 < 256 := by
    intro i
    by_cases hi : i < rest.length
    · rw [List.getD_eq_getElem _ _ hi]
      exact hr _ (List.getElem_mem _)
    · rw [List.getD_eq_default _ _ (by omega)]
      decide
  obtain ⟨p1, p2, p3, _⟩ := byte_patterns b0 hb0
  obtain ⟨_, _, _, q1⟩ := byte_patterns (rest.getD 0 0) (hget 0)
  obtain ⟨_, _, _, q2⟩ := byte_patterns (rest.getD 1 0) (hget 1)
  have e1 : byteAt (b0 :: rest) 1 = some (rest.getD 0 0) := by
    rw [byteAt_le _ 1 (by simp)]; rfl
  have m1 := (low_bits_mod b0).1
  have m2 := (low_bits_mod b0).2.2
  have m3 := (low_bits_mod (rest.getD 0 0)).2.1
  have m4 := (low_bits_mod (rest.getD 1 0)).2.1
  unfold utf8_to_glyph
  rw [byteAt_zero_cons]
  simp only [e1, p1, p2, p3, q1]
  by_cases c1 : b0 / 128 = 0
  · rw [if_pos c1, if_pos c1]
  · rw [if_neg c1, if_neg c1]
    by_cases c2 : b0 / 32 = 6
    · rw [if_pos c2]
      by_cases c3 : rest.getD 0 0 / 64 = 2
      · rw [if_pos c3, if_pos (show b0 / 32 = 6 ∧ rest.getD 0 0 / 64 = 2 from ⟨c2, c3⟩),
          m1, m3, Nat.shiftLeft_eq]
      · rw [if_neg c3,
          if_neg (show ¬ (b0 / 32 = 6 ∧ rest.getD 0 0 / 64 = 2) from fun h => c3 h.2),
          if_neg (show ¬ (b0 / 16 = 14 ∧ rest.getD 0 0 / 64 = 2 ∧ rest.getD 1 0 / 64 = 2)
            from fun h => c3 h.2.1)]
    · rw [if_neg c2,
        if_neg (show ¬ (b0 / 32 = 6 ∧ rest.getD 0 0 / 64 = 2) from fun h => c2 h.1)]
      by_cases c4 : b0 / 16 = 14
      · rw [if_pos c4]
        by_cases c3 : rest.getD 0 0 / 64 = 2
        · have hne : rest ≠ [] := by
            intro he; rw [he] at c3; simp at c3
          have e2 : byteAt (b0 :: rest) 2 = some (rest.getD 1 0) := by
            rw [byteAt_le _ 2 (by
              have := List.length_pos.mpr hne
              simp only [List.length_cons]; omega)]
            rfl
          rw [if_pos c3]
          simp only [e2, q2]
          by_cases c5 : rest.getD 1 0 / 64 = 2
          · rw [if_pos c5,
              if_pos (show b0 / 16 = 14 ∧ rest.getD 0 0 / 64 = 2 ∧ rest.getD 1 0 / 64 = 2
                from ⟨c4, c3, c5⟩),
              m2, m3, m4, Nat.shiftLeft_eq, Nat.shiftLeft_eq]
          · rw [if_neg c5,
              if_neg (show ¬ (b0 / 16 = 14 ∧ rest.getD 0 0 / 64 = 2 ∧ rest.getD 1 0 / 64 = 2)
                from fun h => c5 h.2.2)]
        · rw [if_neg c3,
            if_neg (show ¬ (b0 / 16 = 14 ∧ rest.getD 0 0 / 64 = 2 ∧ rest.getD 1 0 / 64 = 2)
              from fun h => c3 h.2.1)]
      · rw [if_neg c4,
          if_neg (show ¬ (b0 / 16 = 14 ∧ rest.getD 0 0 / 64 = 2 ∧ rest.getD 1 0 / 64 = 2)
            from fun h => c4 h.1)]

theorem getD_zero_ne_zero (rest : List Nat) (x : Nat) (h : rest.getD 0 0 = x) (hx : x ≠ 0) :
    ∃ r1, rest = x :: r1 := by
  cases rest with
  | nil => simp at h; omega
  | cons a r1 => simp at h; exact ⟨r1, by rw [h]⟩

theorem not_infix_drop (p s : List Nat) (k : Nat) (h : ¬ p <:+: s) : ¬ p <:+: s.drop k :=
  fun hp => h (hp.trans (List.drop_suffix k s).isInfix)

/-- With the unassigned `glyph` taken as `0`, and on a string in which the
over-long forms of NUL do not occur, the loop of `utf8tog` ends and yields
what the reference decoder yields. -/
theorem utf8tog_loop_eq_ref (fuel : Nat) : ∀ (s : List Nat), s.length ≤ fuel →
    (∀ b ∈ s, b < 256) → ¬ [0xC0, 0x80] <:+: s → ¬ [0xE0, 0x80, 0x80] <:+: s →
    utf8tog_loop 0 (fuel + 1) s = some (utf8_decode_ref_go fuel s) := by
  induction fuel with
  | zero =>
    intro s hl _ _ _
    have : s = [] := List.length_eq_zero.mp (by omega)
    subst this
    rfl
  | succ n ih =>
    intro s hl hb h2 h3
    cases s with
    | nil => rfl
    | cons b0 rest =>
      simp only [List.length_cons] at hl
      have hb0 : b0 < 256 := hb b0 (by simp)
      have hr : ∀ b ∈ rest, b < 256 := fun b hm => hb b (by simp [hm])
      have hrest2 : ¬ [0xC0, 0x80] <:+: rest := not_infix_drop _ (b0 :: rest) 1 h2
      have hrest3 : ¬ [0xE0, 0x80, 0x80] <:+: rest := not_infix_drop _ (b0 :: rest) 1 h3
      have ihrest := ih rest (by omega) hr hrest2 hrest3
      rw [utf8tog_loop, utf8_decode_ref_go]
      by_cases hz : b0 = 0
      · rw [if_pos hz, if_pos hz]
      · rw [if_neg hz, if_neg hz, utf8_to_glyph_zero_junk b0 rest hb0 hr]
        by_cases c1 : b0 / 128 = 0
        · simp only [if_pos c1, ne_eq, hz, not_false_eq_true, if_true, List.drop_succ_cons,
            List.drop_zero, ihrest, Option.map_some']
        · simp only [if_neg c1]
          by_cases c2 : b0 / 32 = 6 ∧ rest.getD 0 0 / 64 = 2
          · simp only [if_pos c2]
            have hg : b0 % 32 * 64 + rest.getD 0 0 % 64 ≠ 0 := by
              intro he
              have e0 : b0 = 0xC0 := by omega
              have e1 : rest.getD 0 0 = 0x80 := by omega
              obtain ⟨r1, hr1⟩ := getD_zero_ne_zero rest 0x80 e1 (by decide)
              apply h2
              rw [e0, hr1]
              exact (List.prefix_append [0xC0, 0x80] r1).isInfix
            have ihd := ih (rest.drop 1) (by simp only [List.length_drop]; omega)
              (fun b hm => hr b (List.mem_of_mem_drop hm))
              (not_infix_drop _ rest 1 hrest2) (not_infix_drop _ rest 1 hrest3)
            simp only [ne_eq, hg, not_false_eq_true, if_true, List.drop_succ_cons, ihd,
              Option.map_some']
          · simp only [if_neg c2]
            by_cases c3 : b0 / 16 = 14 ∧ rest.getD 0 0 / 64 = 2 ∧ rest.getD 1 0 / 64 = 2
            · simp only [if_pos c3]
              have hg : b0 % 16 * 4096 + rest.getD 0 0 % 64 * 64 + rest.getD 1 0 % 64 ≠ 0 := by
                intro he
                have e0 : b0 = 0xE0 := by omega
                have e1 : rest.getD 0 0 = 0x80 := by omega
                have e2 : rest.getD 1 0 = 0x80 := by omega
                obtain ⟨r1, hr1⟩ := getD_zero_ne_zero rest 0x80 e1 (by decide)
                rw [hr1, List.getD_cons_succ] at e2
                obtain ⟨r2, hr2⟩ := getD_zero_ne_zero r1 0x80 e2 (by decide)
                apply h3
                rw [e0, hr1, hr2]
                exact (List.prefix_append [0xE0, 0x80, 0x80] r2).isInfix
              have ihd := ih (rest.drop 2) (by simp only [List.length_drop]; omega)
                (fun b hm => hr b (List.mem_of_mem_drop hm))
                (not_infix_drop _ rest 2 hrest2) (not_infix_drop _ rest 2 hrest3)
              simp only [ne_eq, hg, not_false_eq_true, if_true, List.drop_succ_cons, ihd,
                Option.map_some']
            · simp only [if_neg c3, ne_eq, not_true_eq_false, if_false, Nat.zero_add,
                List.length_cons, Nat.le_add_left, if_true, List.drop_succ_cons,
                List.drop_zero, ihrest]

/-- Decoding with skip-one recovery, where the code does it: when the value
`utf8_to_glyph` returns from its unassigned `glyph` is `0`, for every
NUL-terminated string of bytes in which the over-long forms of NUL
(`C0 80`, `E0 80 80`) do not occur, `utf8tog` ends without reading past the
terminator and yields exactly what the reference decoder yields: one glyph
for each well-formed 1-, 2- or 3-byte form, nothing for any other byte, which
is skipped alone; and it writes no more glyphs than the string has bytes. -/
theorem utf8tog_eq_reference_decoder (s : List Nat) (hb : ∀ b ∈ s, b < 256)
    (h2 : ¬ [0xC0, 0x80] <:+: s) (h3 : ¬ [0xE0, 0x80, 0x80] <:+: s) :
    utf8tog 0 s = some (utf8_decode_ref s) ∧ (utf8_decode_ref s).length ≤ s.length := by
  have h := utf8tog_loop_eq_ref s.length s (le_refl _) hb h2 h3
  exact ⟨h, utf8tog_length_le 0 s _ h⟩

/-- The bytes `h`, a stray `0x80`, `é`, a lead byte `0xE2` cut short by `i`,
and `0xF5` decode to "héi". -/
theorem utf8tog_eq_reference_decoder_witness :
    utf8_decode_ref [0x68, 0x80, 0xC3, 0xA9, 0xE2, 0x82, 0x69, 0xF5] = [0x68, 0xE9, 0x69] ∧
    utf8tog 0 [0x68, 0x80, 0xC3, 0xA9, 0xE2, 0x82, 0x69, 0xF5]
      = some (utf8_decode_ref [0x68, 0x80, 0xC3, 0xA9, 0xE2, 0x82, 0x69, 0xF5]) ∧
    (utf8_decode_ref [0x68, 0x80, 0xC3, 0xA9, 0xE2, 0x82, 0x69, 0xF5]).length
      ≤ ([0x68, 0x80, 0xC3, 0xA9, 0xE2, 0x82, 0x69, 0xF5] : List Nat).length :=
  ⟨by decide,
   utf8tog_eq_reference_decoder [0x68, 0x80, 0xC3, 0xA9, 0xE2, 0x82, 0x69, 0xF5]
     (by decide) (by decide) (by decide)⟩

/-! ## C11, C12: history append, eviction and invariant -/

theorem history_add_new (RL_HISTORY_HEIGHT : Nat) (line : List Nat) (h : rl_history_t)
    (hne : cstr line ≠ []) (hlast : h.lines.getLast? ≠ some (cstr line)) :
    history_add RL_HISTORY_HEIGHT line h =
      { line := none,
        lines := (if h.size ≥ RL_HISTORY_HEIGHT then h.lines.drop 1 else h.lines) ++ [cstr line],
        current := (if h.size ≥ RL_HISTORY_HEIGHT then h.lines.drop 1 else h.lines).length + 1 } := by
  unfold history_add
  simp only [if_neg hne]
  rw [if_neg (fun hc => hlast hc.2)]
  rfl

/-- C11. History append and eviction: with `RL_HISTORY_HEIGHT ≥ 1`, for every
history of size at most `RL_HISTORY_HEIGHT` and every non-empty line
different from the most recent entry, `history_add` yields the entries
followed by the line when the size is below `RL_HISTORY_HEIGHT`, and the
entries without their first (oldest) one, in their order, followed by the
line when the size is `RL_HISTORY_HEIGHT`; in both cases `current` is the new
size, which is `size + 1` in the first case and `RL_HISTORY_HEIGHT` in the
second. -/
theorem C11_history_append_and_eviction (RL_HISTORY_HEIGHT : Nat) (h : rl_history_t)
    (line : List Nat) (hH : 0 < RL_HISTORY_HEIGHT) (_hsize : h.size ≤ RL_HISTORY_HEIGHT)
    (hne : cstr line ≠ []) (hlast : h.lines.getLast? ≠ some (cstr line)) :
    (h.size < RL_HISTORY_HEIGHT →
      (history_add RL_HISTORY_HEIGHT line h).lines = h.lines ++ [cstr line] ∧
      (history_add RL_HISTORY_HEIGHT line h).size = h.size + 1) ∧
    (h.size = RL_HISTORY_HEIGHT →
      (history_add RL_HISTORY_HEIGHT line h).lines = h.lines.drop 1 ++ [cstr line] ∧
      (history_add RL_HISTORY_HEIGHT line h).size = RL_HISTORY_HEIGHT) ∧
    (history_add RL_HISTORY_HEIGHT line h).current
      = (history_add RL_HISTORY_HEIGHT line h).size := by
  rw [history_add_new RL_HISTORY_HEIGHT line h hne hlast]
  simp only [rl_history_t.size]
  refine ⟨?_, ?_, ?_⟩
  · intro hlt
    rw [if_neg (by omega)]
    simp
  · intro heq
    rw [if_pos (by omega)]
    simp only [List.length_append, List.length_drop, List.length_singleton, true_and]
    omega
  · simp

/-- C11 with capacity 2: adding "c" to "a", "b" evicts "a"; adding "b" to
"a" appends. -/
theorem C11_history_append_and_eviction_witness :
    (history_add 2 [0x63] ⟨none, [[0x61], [0x62]], 2⟩).lines = [[0x62], [0x63]] ∧
    (history_add 2 [0x62] ⟨none, [[0x61]], 1⟩).lines = [[0x61], [0x62]] ∧
    (history_add 2 [0x63] ⟨none, [[0x61], [0x62]], 2⟩).current
      = (history_add 2 [0x63] ⟨none, [[0x61], [0x62]], 2⟩).size :=
  ⟨((C11_history_append_and_eviction 2 ⟨none, [[0x61], [0x62]], 2⟩ [0x63]
      (by decide) (by decide) (by decide) (by decide)).2.1 (by decide)).1,
   by decide,
   (C11_history_append_and_eviction 2 ⟨none, [[0x61], [0x62]], 2⟩ [0x63]
      (by decide) (by decide) (by decide) (by decide)).2.2⟩

theorem no_adjacent_dup_tail (a : List Nat) (t : List (List Nat))
    (h : no_adjacent_dup (a :: t)) : no_adjacent_dup t := by
  cases t with
  | nil => trivial
  | cons b t1 => exact h.2

theorem no_adjacent_dup_drop_one (l : List (List Nat)) (h : no_adjacent_dup l) :
    no_adjacent_dup (l.drop 1) := by
  cases l with
  | nil => trivial
  | cons a t => exact no_adjacent_dup_tail a t h

theorem no_adjacent_dup_snoc (l : List (List Nat)) (x : List Nat) (h : no_adjacent_dup l)
    (hlast : l.getLast? ≠ some x) : no_adjacent_dup (l ++ [x]) := by
  induction l with
  | nil => trivial
  | cons a t ih =>
    cases t with
    | nil =>
      refine ⟨?_, trivial⟩
      intro he
      apply hlast
      simp [he]
    | cons b t1 =>
      refine ⟨h.1, ?_⟩
      apply ih h.2
      rw [List.getLast?_cons_cons] at hlast
      exact hlast

/-- One `history_add` keeps the history invariant, whatever `current` and
the scratch slot hold. -/
theorem history_add_inv (RL_HISTORY_HEIGHT : Nat) (line : List Nat) (h : rl_history_t)
    (hH : 0 < RL_HISTORY_HEIGHT) (hinv : history_inv RL_HISTORY_HEIGHT h) :
    history_inv RL_HISTORY_HEIGHT (history_add RL_HISTORY_HEIGHT line h) := by
  obtain ⟨h1, h2, h3⟩ := hinv
  by_cases hne : cstr line = []
  · unfold history_add
    simp only [if_pos hne]
    exact ⟨h1, h2, h3⟩
  · by_cases hlast : h.lines.getLast? = some (cstr line)
    · unfold history_add
      simp only [if_neg hne]
      split
      · exact ⟨h1, h2, h3⟩
      · rename_i hc
        exfalso
        apply hc
        refine ⟨?_, hlast⟩
        simp only [rl_history_t.size]
        intro he
        rw [List.length_eq_zero.mp he] at hlast
        simp at hlast
    · rw [history_add_new RL_HISTORY_HEIGHT line h hne hlast]
      simp only [history_inv, rl_history_t.size] at h3 ⊢
      by_cases hfull : h.lines.length ≥ RL_HISTORY_HEIGHT
      · simp only [if_pos hfull]
        refine ⟨?_, ?_, ?_⟩
        · apply no_adjacent_dup_snoc _ _ (no_adjacent_dup_drop_one _ h1)
          intro hd
          exact hlast (getLast?_drop_one _ _ hd)
        · intro e he
          simp only [List.mem_append, List.mem_singleton] at he
          rcases he with he | he
          · exact h2 e (List.mem_of_mem_drop he)
          · rw [he]; exact hne
        · simp only [List.length_append, List.length_drop, List.length_singleton]
          omega
      · simp only [if_neg hfull]
        refine ⟨no_adjacent_dup_snoc _ _ h1 hlast, ?_, ?_⟩
        · intro e he
          simp only [List.mem_append, List.mem_singleton] at he
          rcases he with he | he
          · exact h2 e he
          · rw [he]; exact hne
        · simp only [List.length_append, List.length_singleton]
          omega

theorem history_foldl_inv (RL_HISTORY_HEIGHT : Nat) (hH : 0 < RL_HISTORY_HEIGHT)
    (adds : List (List Nat)) : ∀ (h : rl_history_t), history_inv RL_HISTORY_HEIGHT h →
    history_inv RL_HISTORY_HEIGHT
      (adds.foldl (fun h s => history_add RL_HISTORY_HEIGHT s h) h) := by
  induction adds with
  | nil => intro h hinv; exact hinv
  | cons a t ih =>
    intro h hinv
    exact ih _ (history_add_inv RL_HISTORY_HEIGHT a h hH hinv)

/-- C12. History invariant: with `RL_HISTORY_HEIGHT ≥ 1`, in the history
reached from the empty history by any sequence of `history_add` calls (the
adds of submissions and those `history_restore` makes for the lines of the
file), no two adjacent entries are byte-identical, no entry is empty and the
size does not exceed `RL_HISTORY_HEIGHT`; and one more `history_add` keeps
this, whatever navigation did to `current` and the scratch slot meanwhile. -/
theorem C12_history_invariant (RL_HISTORY_HEIGHT : Nat) (hH : 0 < RL_HISTORY_HEIGHT) :
    (∀ adds : List (List Nat),
      no_adjacent_dup (history_after RL_HISTORY_HEIGHT adds).lines ∧
      (∀ e ∈ (history_after RL_HISTORY_HEIGHT adds).lines, e ≠ []) ∧
      (history_after RL_HISTORY_HEIGHT adds).size ≤ RL_HISTORY_HEIGHT) ∧
    (∀ (h : rl_history_t) (line : List Nat), history_inv RL_HISTORY_HEIGHT h →
      history_inv RL_HISTORY_HEIGHT (history_add RL_HISTORY_HEIGHT line h)) := by
  refine ⟨?_, fun h line hinv => history_add_inv RL_HISTORY_HEIGHT line h hH hinv⟩
  intro adds
  exact history_foldl_inv RL_HISTORY_HEIGHT hH adds history_init
    ⟨trivial, by intro e he; simp [history_init] at he, by simp [history_init, rl_history_t.size]⟩

/-- C12 with capacity 2 and the adds "a", "a", "", "b", "c", "c". -/
theorem C12_history_invariant_witness :
    (history_after 2 [[0x61], [0x61], [], [0x62], [0x63], [0x63]]).lines = [[0x62], [0x63]] ∧
    no_adjacent_dup (history_after 2 [[0x61], [0x61], [], [0x62], [0x63], [0x63]]).lines ∧
    (∀ e ∈ (history_after 2 [[0x61], [0x61], [], [0x62], [0x63], [0x63]]).lines, e ≠ []) ∧
    (history_after 2 [[0x61], [0x61], [], [0x62], [0x63], [0x63]]).size ≤ 2 :=
  ⟨by decide,
   (C12_history_invariant 2 (by decide)).1 [[0x61], [0x61], [], [0x62], [0x63], [0x63]]⟩

/-! ## C15: backspace -/

/-- C15. Backspace: for every state that satisfies the cursor invariant,
`rlc_backspace` with the cursor at 0 returns the state as it is, whatever the
length; with the cursor at `c > 0` it removes exactly the glyph at index
`c - 1`: the line is `old[0..c-1) ++ old[c..length)`, the length is one less,
the cursor is `c - 1`, every glyph below index `c - 1` stays at its index and
every glyph from index `c` on moves down by one; nothing else changes. -/
theorem C15_backspace (RL_MAX_LENGTH : Nat) (s : rl_state_t)
    (hinv : cursor_inv RL_MAX_LENGTH s) :
    (s.cur_pos = 0 → rlc_backspace s = s) ∧
    (0 < s.cur_pos →
      (rlc_backspace s).line = s.line.take (s.cur_pos - 1) ++ s.line.drop s.cur_pos ∧
      (rlc_backspace s).length + 1 = s.length ∧
      (rlc_backspace s).cur_pos = s.cur_pos - 1 ∧
      (∀ i, i < s.cur_pos - 1 → (rlc_backspace s).line.get? i = s.line.get? i) ∧
      (∀ i, s.cur_pos - 1 ≤ i → (rlc_backspace s).line.get? i = s.line.get? (i + 1)) ∧
      (rlc_backspace s).raw = s.raw ∧ (rlc_backspace s).finish = s.finish ∧
      (rlc_backspace s).history = s.history) := by
  obtain ⟨hc, hl⟩ := hinv
  have hc1 : s.cur_pos ≤ s.line.length := hc
  constructor
  · intro h0
    unfold rlc_backspace
    rw [if_neg (by simpa using h0)]
  · intro hpos
    have hb : rlc_backspace s = rlc_delete_n 1 { s with cur_pos := s.cur_pos - 1 } := by
      unfold rlc_backspace
      rw [if_pos (by omega)]
    have hline := rlc_delete_n_line 1 { s with cur_pos := s.cur_pos - 1 }
    have hframe := rlc_delete_n_frame 1 { s with cur_pos := s.cur_pos - 1 }
    have hmin : min 1 (s.line.length - (s.cur_pos - 1)) = 1 := by omega
    simp only [rl_state_t.length, hmin] at hline
    have he : s.cur_pos - 1 + 1 = s.cur_pos := by omega
    rw [he] at hline
    rw [hb]
    refine ⟨hline, ?_, hframe.1, ?_, ?_, hframe.2.1, hframe.2.2.1, hframe.2.2.2.1⟩
    · simp only [rl_state_t.length, hline, List.length_append, List.length_take,
        List.length_drop]
      omega
    · intro i hi
      rw [hline, List.get?_eq_getElem?, List.get?_eq_getElem?,
        List.getElem?_append_left (by simp; omega), List.getElem?_take_of_lt hi]
    · intro i hi
      rw [hline, List.get?_eq_getElem?, List.get?_eq_getElem?,
        List.getElem?_append_right (by simp; omega), List.getElem?_drop]
      congr 1
      simp only [List.length_take]
      omega

/-- C15 on "abc": at cursor 2 the "b" goes, at cursor 0 nothing does. -/
theorem C15_backspace_witness :
    cursor_inv 8 ⟨[], [97, 98, 99], 2, 0, ⟨none, [], 0⟩, [], 0⟩ ∧
    (rlc_backspace ⟨[], [97, 98, 99], 2, 0, ⟨none, [], 0⟩, [], 0⟩).line = [97, 99] ∧
    rlc_backspace ⟨[], [97, 98, 99], 0, 0, ⟨none, [], 0⟩, [], 0⟩
      = ⟨[], [97, 98, 99], 0, 0, ⟨none, [], 0⟩, [], 0⟩ :=
  ⟨by decide,
   ((C15_backspace 8 ⟨[], [97, 98, 99], 2, 0, ⟨none, [], 0⟩, [], 0⟩ (by decide)).2
      (by decide)).1.trans (by decide),
   (C15_backspace 8 ⟨[], [97, 98, 99], 0, 0, ⟨none, [], 0⟩, [], 0⟩ (by decide)).1 rfl⟩

/-! ## What fits the buffer of `rl_write_part` -/

theorem glyph_bytes_length_le_two (uc : Nat) (h : uc < 2048) : (glyph_bytes uc).length ≤ 2 := by
  by_cases h1 : uc < 128
  · rw [glyph_bytes_one uc h1]; simp
  · rw [glyph_bytes_two uc (by omega) h]; simp

theorem gtoutf8_length_le_two (l : List Nat) (hl : ∀ x ∈ l, x < 2048) :
    ∀ c : Int, (gtoutf8 l c).length ≤ 2 * l.length := by
  induction l with
  | nil => intro c; simp [gtoutf8]
  | cons uc rest ih =>
    intro c
    have h1 := glyph_bytes_length_le_two uc (hl uc (by simp))
    have h2 := ih (fun x hx => hl x (by simp [hx])) (c - 1)
    unfold gtoutf8
    split
    · simp
    · split
      · simp
      · simp only [List.length_append, List.length_cons]
        omega

/-- In a state within the cursor invariant whose glyphs are all below
`0x800`, what `rl_write_part` formats fits its buffer. -/
theorem rl_write_part_two_bytes (RL_MAX_LENGTH : Nat) (s : rl_state_t) (start : Nat)
    (length : Int) (hl : s.length + 1 ≤ RL_MAX_LENGTH) (hg : ∀ x ∈ s.line, x < 0x800) :
    rl_write_part RL_MAX_LENGTH start length s = some (gtoutf8 (s.line.drop start) length) := by
  have h1 := gtoutf8_length_le_two (s.line.drop start)
    (fun x hx => hg x (List.mem_of_mem_drop hx)) length
  have h2 : (s.line.drop start).length ≤ s.line.length := by
    rw [List.length_drop]; omega
  simp only [rl_state_t.length] at hl
  unfold rl_write_part
  simp only
  rw [if_pos (by omega)]

/-- A line of `n + 2` glyphs U+20AC written whole does not fit the buffer of
`rl_write_part` when `RL_MAX_LENGTH = n + 3`: `3 * (n + 2) + 1` bytes for
`2 * (n + 3)`. -/
theorem rl_write_part_euro (n : Nat) (c : Int) (hc : c < 0 ∨ ((n + 2 : Nat) : Int) ≤ c)
    (raw : List Nat) (cur fin : Nat) (h : rl_history_t) (p : List Nat) (pw : Nat) :
    rl_write_part (n + 3) 0 c ⟨raw, List.replicate (n + 2) 0x20AC, cur, fin, h, p, pw⟩
      = none := by
  have hne : ∀ x ∈ List.replicate (n + 2) 0x20AC, x ≠ 0 := fun x hx => by
    rw [List.eq_of_mem_replicate hx]; decide
  have e1 : gtoutf8 (List.replicate (n + 2) 0x20AC) c =
      encode_all (List.replicate (n + 2) 0x20AC) :=
    gtoutf8_eq_encode_all _ hne c (by
      rcases hc with h | h
      · exact Or.inl h
      · exact Or.inr (by simpa using h))
  have hl := encode_all_replicate_euro (n + 2)
  unfold rl_write_part
  simp only [List.drop_zero, e1]
  rw [if_neg (by omega)]

theorem scan_right_all (p : Nat → Bool) (l : List Nat) (h : ∀ x ∈ l, p x = true) :
    ∀ pos, scan_right p l pos = pos + l.length := by
  induction l with
  | nil => intro pos; rfl
  | cons g t ih =>
    intro pos
    rw [scan_right, if_pos (h g (by simp)), ih (fun x hx => h x (by simp [hx]))]
    simp only [List.length_cons]
    omega

/-! ## C16, C17: word motions and delete word backward -/

/-- What the leftward scan stops at: every cell it passed satisfies the
test, and it stopped at the start of the line or below a cell that fails
it. -/
theorem scan_left_spec (p : Nat → Bool) (line : List Nat) (pos : Nat) :
    (∀ i, scan_left p line pos ≤ i → i < pos → p (line.getD i 0) = true) ∧
    (scan_left p line pos = 0 ∨ p (line.getD (scan_left p line pos - 1) 0) = false) := by
  induction pos with
  | zero =>
    refine ⟨fun i _ hi => by omega, Or.inl rfl⟩
  | succ n ih =>
    rw [scan_left]
    by_cases hp : p (line.getD n 0) = true
    · rw [if_pos hp]
      refine ⟨?_, ih.2⟩
      intro i h1 h2
      by_cases hin : i = n
      · rw [hin]; exact hp
      · exact ih.1 i h1 (by omega)
    · rw [if_neg hp]
      refine ⟨fun i h1 h2 => by omega, Or.inr ?_⟩
      simpa using hp

/-- What the rightward scan stops at, in the cells `l` from `pos` on. -/
theorem scan_right_spec (p : Nat → Bool) (l : List Nat) : ∀ (pos : Nat),
    (∀ j, pos + j < scan_right p l pos → p (l.getD j 0) = true) ∧
    (scan_right p l pos = pos + l.length ∨ p (l.getD (scan_right p l pos - pos) 0) = false) := by
  induction l with
  | nil =>
    intro pos
    refine ⟨fun j hj => ?_, Or.inl rfl⟩
    simp only [scan_right] at hj
    omega
  | cons g t ih =>
    intro pos
    rw [scan_right]
    by_cases hp : p g = true
    · rw [if_pos hp]
      obtain ⟨h1, h2⟩ := ih (pos + 1)
      refine ⟨?_, ?_⟩
      · intro j hj
        cases j with
        | zero => simpa using hp
        | succ k =>
          rw [List.getD_cons_succ]
          exact h1 k (by omega)
      · rcases h2 with h2 | h2
        · left
          rw [h2]
          simp only [List.length_cons]
          omega
        · right
          have hge := scan_right_ge p t (pos + 1)
          have e : scan_right p t (pos + 1) - pos = (scan_right p t (pos + 1) - (pos + 1)) + 1 := by
            omega
          rw [e, List.getD_cons_succ]
          exact h2
    · rw [if_neg hp]
      refine ⟨fun j hj => by omega, Or.inr ?_⟩
      simpa using hp

theorem getD_drop (l : List Nat) (n j : Nat) : (l.drop n).getD j 0 = l.getD (n + j) 0 := by
  simp only [List.getD_eq_getElem?_getD, List.getElem?_drop]

theorem word_left_pos_zero (line : List Nat) : word_left_pos line 0 = 0 := rfl

/-- The position `rlc_cursor_word_left` reaches from `c`: below it a space
or the start of the line, then non-spaces up to some `m`, then spaces up to
`c`. -/
theorem word_left_pos_spec (line : List Nat) (c : Nat) :
    word_left_pos line c ≤ c ∧
    (∃ m, word_left_pos line c ≤ m ∧ m ≤ c ∧
      (∀ i, word_left_pos line c ≤ i → i < m → line.getD i 0 ≠ 0x20) ∧
      (∀ i, m ≤ i → i < c → line.getD i 0 = 0x20)) ∧
    (word_left_pos line c = 0 ∨ line.getD (word_left_pos line c - 1) 0 = 0x20) := by
  have h1 := scan_left_spec (fun g => g = 0x20) line c
  have h2 := scan_left_spec (fun g => g ≠ 0x20) line (scan_left (fun g => g = 0x20) line c)
  have l1 := scan_left_le (fun g => g = 0x20) line c
  have l2 := scan_left_le (fun g => g ≠ 0x20) line (scan_left (fun g => g = 0x20) line c)
  refine ⟨word_left_pos_le line c, ⟨scan_left (fun g => g = 0x20) line c, l2, l1, ?_, ?_⟩, ?_⟩
  · intro i hi1 hi2
    have := h2.1 i hi1 hi2
    simpa using this
  · intro i hi1 hi2
    have := h1.1 i hi1 hi2
    simpa using this
  · rcases h2.2 with h0 | h0
    · exact Or.inl h0
    · right
      simpa [word_left_pos] using h0

/-- The position `rlc_next_word` computes from a cursor inside the line: past
non-spaces up to some `m`, then past spaces, up to the end of the line or a
cell that is not a space. -/
theorem rlc_next_word_spec (s : rl_state_t) (hc : s.cur_pos ≤ s.length) :
    s.cur_pos ≤ rlc_next_word s ∧ rlc_next_word s ≤ s.length ∧
    (∃ m, s.cur_pos ≤ m ∧ m ≤ rlc_next_word s ∧
      (∀ i, s.cur_pos ≤ i → i < m → s.line.getD i 0 ≠ 0x20) ∧
      (∀ i, m ≤ i → i < rlc_next_word s → s.line.getD i 0 = 0x20)) ∧
    (rlc_next_word s = s.length ∨ s.line.getD (rlc_next_word s) 0 ≠ 0x20) := by
  have hle := rlc_next_word_le s hc
  unfold rlc_next_word at hle ⊢
  simp only at hle ⊢
  unfold rl_state_t.length at *
  generalize hq1 : scan_right (fun g => g ≠ 0x20) (s.line.drop s.cur_pos) s.cur_pos = q1 at hle ⊢
  have a := scan_right_spec (fun g => g ≠ 0x20) (s.line.drop s.cur_pos) s.cur_pos
  have age := scan_right_ge (fun g => g ≠ 0x20) (s.line.drop s.cur_pos) s.cur_pos
  have ale := scan_right_le (fun g => g ≠ 0x20) (s.line.drop s.cur_pos) s.cur_pos
  rw [hq1] at a age ale
  have b := scan_right_spec (fun g => g = 0x20) (s.line.drop q1) q1
  have bge := scan_right_ge (fun g => g = 0x20) (s.line.drop q1) q1
  generalize hq : scan_right (fun g => g = 0x20) (s.line.drop q1) q1 = q at hle b bge ⊢
  simp only [List.length_drop] at ale b
  refine ⟨by omega, hle, ⟨q1, age, bge, ?_, ?_⟩, ?_⟩
  · intro i hi1 hi2
    have := a.1 (i - s.cur_pos) (by omega)
    rw [getD_drop] at this
    have e : s.cur_pos + (i - s.cur_pos) = i := by omega
    rw [e] at this
    simpa using this
  · intro i hi1 hi2
    have := b.1 (i - q1) (by omega)
    rw [getD_drop] at this
    have e : q1 + (i - q1) = i := by omega
    rw [e] at this
    simpa using this
  · rcases b.2 with h | h
    · left; omega
    · right
      rw [getD_drop] at h
      have e : q1 + (q - q1) = q := by omega
      rw [e] at h
      simpa using h

/-- C17, failing input.  With `RL_MAX_LENGTH = n + 3`, a line of `n + 2`
glyphs U+20AC and the cursor at the start satisfy the cursor invariant.  The
next word boundary is the end of the line, and `rlc_cursor_word_right`, run
by itself or dispatched as `ESC f`, has `rl_write_part(0, n + 2)` format
`3 * (n + 2)` bytes and a NUL in its `buf[RL_MAX_LENGTH*2]` of `2 * (n + 3)`
bytes: it writes past the buffer before it assigns the cursor. -/
theorem C17_word_right_echo_overruns (n junk : Nat) (gc : Option rl_get_completion_fn) :
    cursor_inv (n + 3) ⟨[], List.replicate (n + 2) 0x20AC, 0, 0, ⟨none, [], 0⟩, [], 0⟩ ∧
    rlc_next_word ⟨[], List.replicate (n + 2) 0x20AC, 0, 0, ⟨none, [], 0⟩, [], 0⟩ = n + 2 ∧
    rlc_cursor_word_right (n + 3)
      ⟨[], List.replicate (n + 2) 0x20AC, 0, 0, ⟨none, [], 0⟩, [], 0⟩ = none ∧
    rl_exec_seq (n + 3) junk gc [0x1B, 0x66]
      ⟨[], List.replicate (n + 2) 0x20AC, 0, 0, ⟨none, [], 0⟩, [], 0⟩ = none := by
  have hnw : rlc_next_word ⟨[], List.replicate (n + 2) 0x20AC, 0, 0, ⟨none, [], 0⟩, [], 0⟩
      = n + 2 := by
    unfold rlc_next_word
    simp only [List.drop_zero]
    rw [scan_right_all (fun g => g ≠ 0x20) (List.replicate (n + 2) 0x20AC)
      (fun x hx => by rw [List.eq_of_mem_replicate hx]; decide)]
    simp only [List.length_replicate, Nat.zero_add]
    rw [List.drop_eq_nil_of_le (by simp)]
    rfl
  have hwr : rlc_cursor_word_right (n + 3)
      ⟨[], List.replicate (n + 2) 0x20AC, 0, 0, ⟨none, [], 0⟩, [], 0⟩ = none := by
    unfold rlc_cursor_word_right
    rw [if_neg (by simp [rl_state_t.length]), hnw]
    have := rl_write_part_euro n (((n + 2 : Nat) : Int) - ((0 : Nat) : Int))
      (Or.inr (by simp)) [] 0 0 ⟨none, [], 0⟩ [] 0
    simp only [this]
  refine ⟨⟨by simp [rl_state_t.length], by simp [rl_state_t.length]⟩, hnw, hwr, ?_⟩
  unfold rl_exec_seq
  rw [show rl_find_command rl_commands (cstr [0x1B, 0x66]) = some rl_handler.cursor_word_right
    by decide]
  exact hwr

/-- Word motions land on word boundaries and do not edit, where the echo of
the glyphs passed fits its buffer.  For every state that satisfies the cursor
invariant, with the cursor at `c`: `rlc_cursor_word_left` leaves the line,
the length and every field but the cursor as they are and puts the cursor at
some `p ≤ c` such that `old[p..c)` is non-space glyphs followed by spaces and
`p = 0` or `line[p-1]` is a space; `rlc_cursor_word_right`, when it returns,
leaves the line, the length and every field but the cursor as they are and
puts the cursor at some `q` with `c ≤ q ≤ length` such that `old[c..q)` is
non-space glyphs followed by spaces and `q = length` or `line[q]` is not a
space; and it returns when all glyphs of the line are below `0x800`. -/
theorem word_motions_when_echo_fits (RL_MAX_LENGTH : Nat) (s : rl_state_t)
    (hinv : cursor_inv RL_MAX_LENGTH s) :
    ((rlc_cursor_word_left s).line = s.line ∧ (rlc_cursor_word_left s).length = s.length ∧
      (rlc_cursor_word_left s).raw = s.raw ∧ (rlc_cursor_word_left s).finish = s.finish ∧
      (rlc_cursor_word_left s).history = s.history ∧
      (rlc_cursor_word_left s).cur_pos ≤ s.cur_pos ∧
      (∃ m, (rlc_cursor_word_left s).cur_pos ≤ m ∧ m ≤ s.cur_pos ∧
        (∀ i, (rlc_cursor_word_left s).cur_pos ≤ i → i < m → s.line.getD i 0 ≠ 0x20) ∧
        (∀ i, m ≤ i → i < s.cur_pos → s.line.getD i 0 = 0x20)) ∧
      ((rlc_cursor_word_left s).cur_pos = 0 ∨
        s.line.getD ((rlc_cursor_word_left s).cur_pos - 1) 0 = 0x20)) ∧
    (∀ s1, rlc_cursor_word_right RL_MAX_LENGTH s = some s1 →
      s1.line = s.line ∧ s1.length = s.length ∧
      s1.raw = s.raw ∧ s1.finish = s.finish ∧ s1.history = s.history ∧
      s.cur_pos ≤ s1.cur_pos ∧ s1.cur_pos ≤ s.length ∧
      (∃ m, s.cur_pos ≤ m ∧ m ≤ s1.cur_pos ∧
        (∀ i, s.cur_pos ≤ i → i < m → s.line.getD i 0 ≠ 0x20) ∧
        (∀ i, m ≤ i → i < s1.cur_pos → s.line.getD i 0 = 0x20)) ∧
      (s1.cur_pos = s.length ∨ s.line.getD s1.cur_pos 0 ≠ 0x20)) ∧
    ((∀ x ∈ s.line, x < 0x800) →
      ∃ s1, rlc_cursor_word_right RL_MAX_LENGTH s = some s1) := by
  obtain ⟨hc, hl⟩ := hinv
  refine ⟨?_, ?_, ?_⟩
  · unfold rlc_cursor_word_left
    by_cases h0 : s.cur_pos = 0
    · rw [if_pos h0]
      refine ⟨rfl, rfl, rfl, rfl, rfl, le_refl _, ⟨0, by omega, by omega, ?_, ?_⟩, Or.inl h0⟩
      · intro i _ hi; omega
      · intro i _ hi; omega
    · rw [if_neg h0]
      obtain ⟨w1, w2, w3⟩ := word_left_pos_spec s.line s.cur_pos
      exact ⟨rfl, rfl, rfl, rfl, rfl, w1, w2, w3⟩
  · intro s1 h1
    rw [rlc_cursor_word_right_some RL_MAX_LENGTH s s1 h1]
    by_cases hge : s.cur_pos ≥ s.length
    · rw [if_pos hge]
      have he : s.cur_pos = s.length := by omega
      refine ⟨rfl, rfl, rfl, rfl, rfl, le_refl _, hc, ⟨s.cur_pos, le_refl _, le_refl _, ?_, ?_⟩,
        Or.inl he⟩
      · intro i h1 h2; omega
      · intro i h1 h2; omega
    · rw [if_neg hge]
      obtain ⟨n1, n2, n3, n4⟩ := rlc_next_word_spec s hc
      exact ⟨rfl, rfl, rfl, rfl, rfl, n1, n2, n3, n4⟩
  · intro hg
    by_cases hge : s.cur_pos ≥ s.length
    · exact ⟨s, by unfold rlc_cursor_word_right; rw [if_pos hge]⟩
    · exact ⟨_, rlc_cursor_word_right_of_write RL_MAX_LENGTH s _ (by omega)
        (rl_write_part_two_bytes RL_MAX_LENGTH s _ _ hl hg)⟩

/-- On "ab  cd e": word left from 6 lands on 4, word right from 1 on 4. -/
theorem word_motions_when_echo_fits_witness :
    cursor_inv 16 ⟨[], [97, 98, 32, 32, 99, 100, 32, 101], 6, 0, ⟨none, [], 0⟩, [], 0⟩ ∧
    (rlc_cursor_word_left
      ⟨[], [97, 98, 32, 32, 99, 100, 32, 101], 6, 0, ⟨none, [], 0⟩, [], 0⟩).cur_pos = 4 ∧
    rlc_cursor_word_right 16
      ⟨[], [97, 98, 32, 32, 99, 100, 32, 101], 1, 0, ⟨none, [], 0⟩, [], 0⟩
      = some ⟨[], [97, 98, 32, 32, 99, 100, 32, 101], 4, 0, ⟨none, [], 0⟩, [], 0⟩ ∧
    (rlc_cursor_word_left
      ⟨[], [97, 98, 32, 32, 99, 100, 32, 101], 6, 0, ⟨none, [], 0⟩, [], 0⟩).line
      = [97, 98, 32, 32, 99, 100, 32, 101] :=
  ⟨by decide, by decide, by decide,
   (word_motions_when_echo_fits 16
      ⟨[], [97, 98, 32, 32, 99, 100, 32, 101], 6, 0, ⟨none, [], 0⟩, [], 0⟩
      (by decide)).1.1⟩

/-- C16. Delete word backward: for every state that satisfies the cursor
invariant, with the cursor at `c` and `p` the position `rlc_cursor_word_left`
reaches from `c` (spaces leftwards, then non-spaces leftwards),
`rlc_backword` yields the line `old[0..p) ++ old[c..length)` with the cursor
at `p` and `c - p` glyphs fewer; the glyphs below `p` stay, and the glyphs at
and after the original cursor are preserved, in order, from `p` on; on
"foo bar baz" with the cursor at the end the result is "foo bar ". -/
theorem C16_delete_word_backward (RL_MAX_LENGTH : Nat) (s : rl_state_t)
    (hinv : cursor_inv RL_MAX_LENGTH s) :
    (rlc_backword s).line =
      s.line.take (word_left_pos s.line s.cur_pos) ++ s.line.drop s.cur_pos ∧
    (rlc_backword s).cur_pos = word_left_pos s.line s.cur_pos ∧
    (rlc_backword s).cur_pos = (rlc_cursor_word_left s).cur_pos ∧
    (rlc_backword s).length + (s.cur_pos - word_left_pos s.line s.cur_pos) = s.length ∧
    (∀ i, i < word_left_pos s.line s.cur_pos → (rlc_backword s).line.get? i = s.line.get? i) ∧
    (∀ j, (rlc_backword s).line.get? (word_left_pos s.line s.cur_pos + j)
      = s.line.get? (s.cur_pos + j)) ∧
    (rlc_backword ⟨[], [102, 111, 111, 32, 98, 97, 114, 32, 98, 97, 122], 11, 0,
        ⟨none, [], 0⟩, [], 0⟩).line = [102, 111, 111, 32, 98, 97, 114, 32] := by
  obtain ⟨hc, _⟩ := hinv
  have hc1 : s.cur_pos ≤ s.line.length := hc
  have hp := word_left_pos_le s.line s.cur_pos
  have hwl : rlc_cursor_word_left s = { s with cur_pos := word_left_pos s.line s.cur_pos } := by
    unfold rlc_cursor_word_left
    by_cases h0 : s.cur_pos = 0
    · rw [if_pos h0, h0, word_left_pos_zero, ← h0]
    · rw [if_neg h0]
  have hb : rlc_backword s = rlc_delete_n (s.cur_pos - word_left_pos s.line s.cur_pos)
      { s with cur_pos := word_left_pos s.line s.cur_pos } := by
    unfold rlc_backword
    simp only [hwl]
  have hline := rlc_delete_n_line (s.cur_pos - word_left_pos s.line s.cur_pos)
    { s with cur_pos := word_left_pos s.line s.cur_pos }
  have hframe := rlc_delete_n_frame (s.cur_pos - word_left_pos s.line s.cur_pos)
    { s with cur_pos := word_left_pos s.line s.cur_pos }
  simp only [rl_state_t.length] at hline
  have hmin : min (s.cur_pos - word_left_pos s.line s.cur_pos)
      (s.line.length - word_left_pos s.line s.cur_pos)
      = s.cur_pos - word_left_pos s.line s.cur_pos := by omega
  have he : word_left_pos s.line s.cur_pos + (s.cur_pos - word_left_pos s.line s.cur_pos)
      = s.cur_pos := by omega
  rw [hmin, he] at hline
  rw [hb, hwl]
  refine ⟨hline, hframe.1, hframe.1, ?_, ?_, ?_, by decide⟩
  · simp only [rl_state_t.length, hline, List.length_append, List.length_take,
      List.length_drop]
    omega
  · intro i hi
    rw [hline, List.get?_eq_getElem?, List.get?_eq_getElem?,
      List.getElem?_append_left (by simp; omega), List.getElem?_take_of_lt hi]
  · intro j
    rw [hline, List.get?_eq_getElem?, List.get?_eq_getElem?,
      List.getElem?_append_right (by simp only [List.length_take]; omega),
      List.getElem?_drop]
    congr 1
    simp only [List.length_take]
    omega

/-- C16 on "ab cd" with the cursor at 4. -/
theorem C16_delete_word_backward_witness :
    cursor_inv 16 ⟨[], [97, 98, 32, 99, 100], 4, 0, ⟨none, [], 0⟩, [], 0⟩ ∧
    (rlc_backword ⟨[], [97, 98, 32, 99, 100], 4, 0, ⟨none, [], 0⟩, [], 0⟩).line
      = [97, 98, 32, 100] :=
  ⟨by decide,
   (C16_delete_word_backward 16 ⟨[], [97, 98, 32, 99, 100], 4, 0, ⟨none, [], 0⟩, [], 0⟩
      (by decide)).1.trans (by decide)⟩
/-! ## C20: the completion menu -/

theorem rl_update_tail_eq (afterspace : Nat) (s : rl_state_t) :
    rl_update_tail afterspace s = s := by
  unfold rl_update_tail
  simp only
  split
  · obtain ⟨raw, line, cur, fin, hist, pr, pw⟩ := s
    simp only [rl_state_t.mk.injEq, true_and, and_true]
    omega
  · rfl

/-- What `rl_redraw` returns when it returns: the state it was called in. -/
theorem rl_redraw_some (RL_MAX_LENGTH cols : Nat) (inplace : Bool) (tail : Nat)
    (s s1 : rl_state_t) (h : rl_redraw RL_MAX_LENGTH cols inplace tail s = some s1) :
    s1 = s := by
  unfold rl_redraw at h
  split at h
  · simp at h
  · split at h
    · simp at h
    · split at h
      · simp at h
      · rw [rl_update_tail_eq] at h
        exact (Option.some.inj h).symm

/-- A move to the left by no more than `2 * RL_MAX_LENGTH - 1` cells is
formatted inside its buffer, whatever the column count. -/
theorem rl_move_left_some (RL_MAX_LENGTH cols c : Nat) (s : rl_state_t)
    (hc : c + 1 ≤ RL_MAX_LENGTH * 2) :
    ∃ o, rl_move RL_MAX_LENGTH cols (-(c : Int)) s = some o := by
  unfold rl_move
  by_cases h0 : cols = 0
  · rw [if_pos h0]
    by_cases hneg : -(c : Int) < 0
    · rw [if_pos hneg]
      unfold rl_write_cur_left
      rw [if_pos (by simp only [neg_neg, Int.toNat_ofNat]; exact hc)]
      exact ⟨_, rfl⟩
    · rw [if_neg hneg, if_neg (by omega)]
      exact ⟨_, rfl⟩
  · rw [if_neg h0]
    exact ⟨_, rfl⟩

/-- What `rl_update_tail(afterspace)` formats fits its buffer when the tail
and the spaces take no more than `3 * RL_MAX_LENGTH - 1` bytes and the way
back is no longer than `2 * RL_MAX_LENGTH - 1` cells. -/
theorem rl_update_tail_out_some (RL_MAX_LENGTH cols a : Nat) (s : rl_state_t)
    (hb : (gtoutf8 (s.line.drop s.cur_pos) (-1)).length + a + 1 ≤ RL_MAX_LENGTH * 3)
    (hc : a + s.length - s.cur_pos + 1 ≤ RL_MAX_LENGTH * 2) :
    ∃ o, rl_update_tail_out RL_MAX_LENGTH cols a s = some o := by
  unfold rl_update_tail_out
  simp only
  rw [if_pos hb]
  by_cases hpos : a + s.length - s.cur_pos > 0
  · rw [if_pos hpos]
    obtain ⟨o, ho⟩ := rl_move_left_some RL_MAX_LENGTH cols (a + s.length - s.cur_pos)
      { s with cur_pos := s.cur_pos + (a + s.length - s.cur_pos) } hc
    rw [ho]
    exact ⟨_, rfl⟩
  · rw [if_neg hpos]
    exact ⟨_, rfl⟩

/-- In a state within the cursor invariant whose glyphs are all below
`0x800`, `rl_redraw(0, 0)` formats everything inside its buffers. -/
theorem rl_redraw_two_bytes (RL_MAX_LENGTH cols : Nat) (s : rl_state_t)
    (hinv : cursor_inv RL_MAX_LENGTH s) (hg : ∀ x ∈ s.line, x < 0x800) :
    rl_redraw RL_MAX_LENGTH cols false 0 s = some s := by
  obtain ⟨hc, hl⟩ := hinv
  have hL : s.length = s.line.length := rfl
  have h1 := gtoutf8_length_le_two (s.line.drop s.cur_pos)
    (fun x hx => hg x (List.mem_of_mem_drop hx)) (-1)
  have h2 : (s.line.drop s.cur_pos).length ≤ s.line.length := by
    rw [List.length_drop]; omega
  obtain ⟨o, ho⟩ := rl_update_tail_out_some RL_MAX_LENGTH cols 0 s (by omega) (by omega)
  unfold rl_redraw
  simp only [Bool.false_eq_true, if_false]
  rw [rl_write_part_two_bytes RL_MAX_LENGTH s 0 _ hl hg, ho]
  simp only [rl_update_tail_eq]

/-- C20, failing input.  With `RL_MAX_LENGTH = n + 3`, a line of `n + 2`
glyphs U+20AC satisfies the cursor invariant with the cursor at the start
and with the cursor at the end.  With the cursor at the start
`rl_dump_options` with a list that is not empty and `rl_dump_hint` run
`rlc_cursor_end`, whose `rl_write_part(0, -1)` formats `3 * (n + 2)` bytes
and a NUL in its `buf[RL_MAX_LENGTH*2]` of `2 * (n + 3)` bytes; with the
cursor at the end it is the `rl_write_part(0, cur_pos)` of `rl_redraw(0, 0)`
that does.  A hint of more than 4096 bytes has `rl_out` read past
`outbuf[4096]` in any state with the cursor at the end. -/
theorem C20_menu_output_overruns (n cols : Nat) (opt : List Nat) (opts : List (List Nat))
    (text : List Nat) :
    cursor_inv (n + 3) ⟨[], List.replicate (n + 2) 0x20AC, 0, 0, ⟨none, [], 0⟩, [], 0⟩ ∧
    rl_dump_options (n + 3) cols (opt :: opts)
      ⟨[], List.replicate (n + 2) 0x20AC, 0, 0, ⟨none, [], 0⟩, [], 0⟩ = none ∧
    rl_dump_hint (n + 3) cols text
      ⟨[], List.replicate (n + 2) 0x20AC, 0, 0, ⟨none, [], 0⟩, [], 0⟩ = none ∧
    cursor_inv (n + 3) ⟨[], List.replicate (n + 2) 0x20AC, n + 2, 0, ⟨none, [], 0⟩, [], 0⟩ ∧
    rl_dump_options (n + 3) cols (opt :: opts)
      ⟨[], List.replicate (n + 2) 0x20AC, n + 2, 0, ⟨none, [], 0⟩, [], 0⟩ = none ∧
    rl_dump_hint (n + 3) cols text
      ⟨[], List.replicate (n + 2) 0x20AC, n + 2, 0, ⟨none, [], 0⟩, [], 0⟩ = none ∧
    (∀ s : rl_state_t, s.cur_pos = s.length → 4096 < text.length →
      rl_dump_hint (n + 1) cols text s = none) := by
  have hend0 : rlc_cursor_end (n + 3)
      ⟨[], List.replicate (n + 2) 0x20AC, 0, 0, ⟨none, [], 0⟩, [], 0⟩ = none := by
    unfold rlc_cursor_end
    rw [rl_write_part_euro n (-1) (Or.inl (by decide))]
  have hend1 : rlc_cursor_end (n + 3)
      ⟨[], List.replicate (n + 2) 0x20AC, n + 2, 0, ⟨none, [], 0⟩, [], 0⟩
      = some ⟨[], List.replicate (n + 2) 0x20AC, n + 2, 0, ⟨none, [], 0⟩, [], 0⟩ :=
    rlc_cursor_end_at_end (n + 3) _ (by omega) (by simp [rl_state_t.length])
  have hred : rl_redraw (n + 3) cols false 0
      ⟨[], List.replicate (n + 2) 0x20AC, n + 2, 0, ⟨none, [], 0⟩, [], 0⟩ = none := by
    unfold rl_redraw
    simp only [Bool.false_eq_true, if_false]
    rw [rl_write_part_euro n ((n + 2 : Nat) : Int) (Or.inr (le_refl _))]
  refine ⟨⟨by simp [rl_state_t.length], by simp [rl_state_t.length]⟩, ?_, ?_,
    ⟨by simp [rl_state_t.length], by simp [rl_state_t.length]⟩, ?_, ?_, ?_⟩
  · unfold rl_dump_options
    rw [if_neg (by simp)]
    simp only [hend0]
  · unfold rl_dump_hint
    simp only [hend0]
  · unfold rl_dump_options
    rw [if_neg (by simp)]
    simp only [hend1, hred]
  · unfold rl_dump_hint
    simp only [hend1, hred]
    split <;> rfl
  · intro s hc ht
    unfold rl_dump_hint
    rw [rlc_cursor_end_at_end (n + 1) s (by omega) hc]
    simp only
    rw [if_neg (by omega)]

/-- Completion menu non-destruction, where the menu routines format their
output inside their buffers.  For every state, every option list and every
hint text: when `rl_dump_options` or `rl_dump_hint` returns, the glyph line,
its length, the cursor position and every other field of the session state
are exactly as before the call; and they do return in every state that
satisfies the cursor invariant and has all its glyphs below `0x800`, the
hint being of at most 4096 bytes. -/
theorem completion_menu_when_output_fits (RL_MAX_LENGTH cols : Nat) (s : rl_state_t)
    (options : List (List Nat)) (text : List Nat) :
    (∀ s1, rl_dump_options RL_MAX_LENGTH cols options s = some s1 → s1 = s) ∧
    (∀ s1, rl_dump_hint RL_MAX_LENGTH cols text s = some s1 → s1 = s) ∧
    (cursor_inv RL_MAX_LENGTH s → (∀ x ∈ s.line, x < 0x800) →
      rl_dump_options RL_MAX_LENGTH cols options s = some s ∧
      (text.length ≤ 4096 → rl_dump_hint RL_MAX_LENGTH cols text s = some s)) := by
  have hback : ∀ s1, rlc_cursor_end RL_MAX_LENGTH s = some s1 →
      { s1 with cur_pos := s.cur_pos } = s := by
    intro s1 h1
    rw [rlc_cursor_end_some RL_MAX_LENGTH s s1 h1]
  refine ⟨?_, ?_, ?_⟩
  · intro s1 h
    unfold rl_dump_options at h
    split at h
    · exact (Option.some.inj h).symm
    · simp only at h
      cases he : rlc_cursor_end RL_MAX_LENGTH s with
      | none => rw [he] at h; simp at h
      | some s2 =>
        rw [he] at h
        simp only at h
        rw [hback s2 he] at h
        exact rl_redraw_some RL_MAX_LENGTH cols false 0 s s1 h
  · intro s1 h
    unfold rl_dump_hint at h
    simp only at h
    cases he : rlc_cursor_end RL_MAX_LENGTH s with
    | none => rw [he] at h; simp at h
    | some s2 =>
      rw [he] at h
      simp only at h
      split at h
      · rw [hback s2 he] at h
        exact rl_redraw_some RL_MAX_LENGTH cols false 0 s s1 h
      · simp at h
  · intro hinv hg
    have he : rlc_cursor_end RL_MAX_LENGTH s = some { s with cur_pos := s.length } :=
      rlc_cursor_end_of_write RL_MAX_LENGTH s _
        (rl_write_part_two_bytes RL_MAX_LENGTH s _ _ hinv.2 hg)
    have hr := rl_redraw_two_bytes RL_MAX_LENGTH cols s hinv hg
    constructor
    · unfold rl_dump_options
      split
      · rfl
      · simp only [he]
        exact hr
    · intro ht
      unfold rl_dump_hint
      simp only [he, if_pos ht]
      exact hr

/-- The line "hé" with the cursor at 1, `RL_MAX_LENGTH = 16`: both routines
return and leave the state as it is. -/
theorem completion_menu_when_output_fits_witness :
    cursor_inv 16 ⟨[], [0x68, 0xE9], 1, 0, ⟨none, [], 0⟩, [], 0⟩ ∧
    rl_dump_options 16 80 [[0x61], [0x62]] ⟨[], [0x68, 0xE9], 1, 0, ⟨none, [], 0⟩, [], 0⟩
      = some ⟨[], [0x68, 0xE9], 1, 0, ⟨none, [], 0⟩, [], 0⟩ ∧
    rl_dump_hint 16 80 [0x61] ⟨[], [0x68, 0xE9], 1, 0, ⟨none, [], 0⟩, [], 0⟩
      = some ⟨[], [0x68, 0xE9], 1, 0, ⟨none, [], 0⟩, [], 0⟩ :=
  ⟨by decide,
   ((completion_menu_when_output_fits 16 80 ⟨[], [0x68, 0xE9], 1, 0, ⟨none, [], 0⟩, [], 0⟩
      [[0x61], [0x62]] [0x61]).2.2 (by decide) (by decide)).1,
   ((completion_menu_when_output_fits 16 80 ⟨[], [0x68, 0xE9], 1, 0, ⟨none, [], 0⟩, [], 0⟩
      [[0x61], [0x62]] [0x61]).2.2 (by decide) (by decide)).2 (by decide)⟩

/-! ## C18: `rl_set_text` -/

theorem utf8_to_glyph_stray (junk : Nat) (rest : List Nat) :
    utf8_to_glyph junk (0x80 :: rest) = some (junk, 0) := by
  have h1 : ¬ ((0x80 : Nat) &&& 0x80 = 0) := by decide
  have h2 : ¬ ((0x80 : Nat) &&& 0xE0 = 0xC0) := by decide
  have h3 : ¬ ((0x80 : Nat) &&& 0xF0 = 0xE0) := by decide
  simp only [utf8_to_glyph, byteAt_zero_cons, if_neg h1, if_neg h2, if_neg h3]

theorem utf8_to_glyph_stray_82 (junk : Nat) (rest : List Nat) :
    utf8_to_glyph junk (0x82 :: rest) = some (junk, 0) := by
  have h1 : ¬ ((0x82 : Nat) &&& 0x80 = 0) := by decide
  have h2 : ¬ ((0x82 : Nat) &&& 0xE0 = 0xC0) := by decide
  have h3 : ¬ ((0x82 : Nat) &&& 0xF0 = 0xE0) := by decide
  simp only [utf8_to_glyph, byteAt_zero_cons, if_neg h1, if_neg h2, if_neg h3]

theorem utf8tog_cut_euro (junk : Nat) : utf8tog (junk + 1) [0x61, 0xE2, 0x82] = none := by
  have hE2 : utf8_to_glyph (junk + 1) [0xE2, 0x82] = some (0, 0) :=
    utf8_to_glyph_lead3_one (junk + 1) 2 2 (by decide) (by decide)
  have h3 : utf8tog_loop (junk + 1) 2 [0x82] = none :=
    utf8tog_loop_stuck (junk + 1) (junk + 1) 0x82 [] (by decide) (by omega)
      (utf8_to_glyph_stray_82 (junk + 1) []) 2
  have h2 : utf8tog_loop (junk + 1) 3 [0xE2, 0x82] = none := by
    rw [utf8tog_loop, if_neg (by decide), hE2]
    simp only [ne_eq, not_true_eq_false, if_false]
    rw [if_pos (by decide)]
    exact h3
  unfold utf8tog
  show utf8tog_loop (junk + 1) 4 [0x61, 0xE2, 0x82] = none
  rw [utf8tog_loop, if_neg (by decide), utf8_to_glyph_ascii (junk + 1) 0x61 _ (by decide)]
  simp only [ne_eq]
  rw [if_pos (by decide)]
  show (utf8tog_loop (junk + 1) 3 [0xE2, 0x82]).map _ = none
  rw [h2]
  rfl

/-- With `RL_MAX_LENGTH = 4`, `rl_set_text` on the text "a€" (`61 E2 82 AC`)
copies `61 E2 82` and its `utf8tog` does not get past the stray `82` when
the unassigned `glyph` is not `0`. -/
theorem rl_set_text_cut_euro (junk : Nat) (redraw : Bool) (s : rl_state_t) :
    rl_set_text 4 (junk + 1) [0x61, 0xE2, 0x82, 0xAC] redraw s = none := by
  have hc : (cstr [0x61, 0xE2, 0x82, 0xAC]).take (4 - 1) = [0x61, 0xE2, 0x82] := by decide
  unfold rl_set_text
  simp only [hc]
  have hs : utf8tog (junk + 1)
      ([0x61, 0xE2, 0x82] ++ List.replicate (4 - 1 - [0x61, 0xE2, 0x82].length) 0) = none :=
    utf8tog_cut_euro junk
  rw [hs]

/-- C18, failing inputs.  With `RL_MAX_LENGTH = n + 2` for any `n`, in any
state: `rl_set_text` given the text of the one stray continuation byte `0x80`
copies it into `raw`, and `utf8tog` on `raw` gets from `utf8_to_glyph` the
unassigned `glyph` with the pointer not advanced; when that value is not `0`
(written `junk + 1`) it stores it in `line` and meets the same byte again, so
that the call never leaves the line equal to a decoded content.  The same
happens with well-formed text that is cut inside a glyph: with
`RL_MAX_LENGTH = 4` the text "a€" (`61 E2 82 AC`) is copied as `61 E2 82`;
`E2` is skipped as a wrong sequence and `82` is then a stray byte. -/
theorem C18_set_text_stray_byte (n junk : Nat) (redraw : Bool) (s : rl_state_t) :
    rl_set_text (n + 2) (junk + 1) [0x80] redraw s = none ∧
    rl_set_text 4 (junk + 1) [0x61, 0xE2, 0x82, 0xAC] redraw s = none := by
  constructor
  · have hc : (cstr [0x80]).take (n + 2 - 1) = [0x80] := by
      have : cstr [0x80] = [0x80] := by decide
      rw [this]
      simp
    unfold rl_set_text
    simp only [hc]
    have hs : utf8tog (junk + 1)
        ([0x80] ++ List.replicate (n + 2 - 1 - [0x80].length) 0) = none := by
      unfold utf8tog
      exact utf8tog_loop_stuck (junk + 1) (junk + 1) 0x80 _ (by decide) (by omega)
        (utf8_to_glyph_stray (junk + 1) _) _
    rw [hs]
  · exact rl_set_text_cut_euro junk redraw s


/-! ## C2: the cursor invariant where an operation does not return -/

/-- C2, failing input.  With `RL_MAX_LENGTH = 4`, the seed text "a€"
(`61 E2 82 AC`) and the unassigned `glyph` of `utf8_to_glyph` not `0`
(written `junk + 1`): the state `readline` resets the session to satisfies
the cursor invariant; `rl_set_text`, run on it for the seed text, copies
`61 E2 82` into `raw`, and its `utf8tog` meets the stray `82` at every turn,
storing one more glyph in `line` each time.  The call returns no state, so
no state within the invariant follows it and no dispatch boundary is reached:
`readline` returns nothing, whatever is typed. -/
theorem C2_seed_text_leaves_no_state (junk RL_HISTORY_HEIGHT : Nat)
    (gc : Option rl_get_completion_fn) (input : List Nat) (s : rl_state_t) :
    cursor_inv 4 { s with raw := [], line := [], cur_pos := 0, finish := 0,
                          prompt := [], prompt_width := 0 } ∧
    rl_set_text 4 (junk + 1) [0x61, 0xE2, 0x82, 0xAC] true
      { s with raw := [], line := [], cur_pos := 0, finish := 0,
               prompt := [], prompt_width := 0 } = none ∧
    (¬ ∃ s1, rl_set_text 4 (junk + 1) [0x61, 0xE2, 0x82, 0xAC] true
      { s with raw := [], line := [], cur_pos := 0, finish := 0,
               prompt := [], prompt_width := 0 } = some s1 ∧ cursor_inv 4 s1) ∧
    readline 4 RL_HISTORY_HEIGHT (junk + 1) gc [] (some [0x61, 0xE2, 0x82, 0xAC]) input s
      = none := by
  refine ⟨?_, rl_set_text_cut_euro junk true _, ?_, ?_⟩
  · simp only [cursor_inv, rl_state_t.length, List.length_nil]
    omega
  · intro hex
    obtain ⟨s1, h, _⟩ := hex
    rw [rl_set_text_cut_euro junk true _] at h
    exact absurd h (by simp)
  · have hw0 : utf8_width (junk + 1) [] = some 0 := rfl
    unfold readline
    rw [hw0]
    dsimp only
    rw [rl_set_text_cut_euro junk true _]

/-! ## C19: the completion protocol -/

theorem gtoutf8_nat_count (l : List Nat) (hl : ∀ x ∈ l, x ≠ 0) :
    ∀ (c : Nat), gtoutf8 l (c : Int) = encode_all (l.take c) := by
  induction l with
  | nil => intro c; simp [gtoutf8, encode_all]
  | cons uc rest ih =>
    intro c
    have h0 : uc ≠ 0 := hl uc (by simp)
    cases c with
    | zero => simp [gtoutf8, encode_all, h0]
    | succ k =>
      have hk : ((k + 1 : Nat) : Int) ≠ 0 := by omega
      rw [gtoutf8, if_neg h0, if_neg hk, List.take_succ_cons, encode_all]
      have e : ((k + 1 : Nat) : Int) - 1 = (k : Int) := by omega
      rw [e, ih (fun x hx => hl x (by simp [hx]))]

theorem encode_all_append (a b : List Nat) :
    encode_all (a ++ b) = encode_all a ++ encode_all b := by
  induction a with
  | nil => simp [encode_all]
  | cons x t ih => simp [encode_all, ih]

theorem glyph_bytes_nonzero (uc : Nat) (h1 : 1 ≤ uc) (h2 : uc < 65536) :
    ∀ b ∈ glyph_bytes uc, b ≠ 0 := by
  by_cases h128 : uc < 128
  · rw [glyph_bytes_one uc h128]
    intro b hb
    simp only [List.mem_singleton] at hb
    omega
  · by_cases h2048 : uc < 2048
    · rw [glyph_bytes_two uc (by omega) h2048]
      intro b hb
      simp only [List.mem_cons, List.mem_singleton, List.not_mem_nil, or_false] at hb
      rcases hb with hb | hb <;> subst hb
      · exact (lead2_ne_esc (uc / 64) (by omega)).1
      · exact (cont_ne_zero (uc % 64) (Nat.mod_lt _ (by decide))).1
    · rw [glyph_bytes_three uc (by omega) h2]
      intro b hb
      simp only [List.mem_cons, List.mem_singleton, List.not_mem_nil, or_false] at hb
      rcases hb with hb | hb | hb <;> subst hb
      · exact (lead3_ne_esc (uc / 4096) (by omega)).1
      · exact (cont_ne_zero (uc / 64 % 64) (Nat.mod_lt _ (by decide))).1
      · exact (cont_ne_zero (uc % 64) (Nat.mod_lt _ (by decide))).1

theorem encode_all_nonzero (g : List Nat) (hg : ∀ x ∈ g, 1 ≤ x ∧ x ≤ 0xFFFF) :
    ∀ b ∈ encode_all g, b ≠ 0 := by
  induction g with
  | nil => intro b hb; simp [encode_all] at hb
  | cons uc t ih =>
    intro b hb
    obtain ⟨h1, h2⟩ := hg uc (by simp)
    simp only [encode_all, List.mem_append] at hb
    rcases hb with hb | hb
    · exact glyph_bytes_nonzero uc h1 (by omega) b hb
    · exact ih (fun x hx => hg x (by simp [hx])) b hb

/-- The two `gtoutf8` calls of `rlc_autocomplete`, on a line of non-zero
glyphs with the cursor inside it: the encoding of the glyphs before the
cursor, then that of the rest. -/
theorem autocomplete_parts (s : rl_state_t) (hc : s.cur_pos ≤ s.length)
    (hl : ∀ x ∈ s.line, x ≠ 0) :
    gtoutf8 s.line s.cur_pos = encode_all (s.line.take s.cur_pos) ∧
    gtoutf8 (s.line.drop s.cur_pos) ((s.length : Int) - (s.cur_pos : Int))
      = encode_all (s.line.drop s.cur_pos) ∧
    encode_all (s.line.take s.cur_pos) ++ encode_all (s.line.drop s.cur_pos)
      = encode_all s.line := by
  refine ⟨gtoutf8_nat_count s.line hl s.cur_pos, ?_, ?_⟩
  · have e : (s.length : Int) - (s.cur_pos : Int) = ((s.length - s.cur_pos : Nat) : Int) := by
      omega
    rw [e, gtoutf8_nat_count _ (fun x hx => hl x (List.mem_of_mem_drop hx))]
    congr 1
    apply List.take_of_length_le
    simp only [List.length_drop, rl_state_t.length]
    exact le_refl _
  · rw [← encode_all_append, List.take_append_drop]

/-- C19, failing input. With `RL_MAX_LENGTH = n + 2` for any `n`, a callback
installed, and the line of `n + 1` glyphs U+20AC with the cursor at its end
(a state that satisfies the cursor invariant): `rlc_autocomplete` encodes the
line into `raw[RL_MAX_LENGTH]` before it calls the callback, `3 * (n + 1)`
bytes and a terminator, more than `raw` holds; the callback is not handed the
encoding of the line in `raw`. -/
theorem C19_autocomplete_overruns_raw (n junk : Nat) (f : rl_get_completion_fn)
    (hist : rl_history_t) :
    cursor_inv (n + 2) ⟨[], List.replicate (n + 1) 0x20AC, n + 1, 0, hist, [], 0⟩ ∧
    (gtoutf8 (List.replicate (n + 1) 0x20AC) (-1)).length = 3 * (n + 1) ∧
    rlc_autocomplete (n + 2) junk (some f)
      ⟨[], List.replicate (n + 1) 0x20AC, n + 1, 0, hist, [], 0⟩ = none := by
  have hl : ∀ x ∈ List.replicate (n + 1) 0x20AC, x ≠ 0 := by
    intro x hx
    rw [List.eq_of_mem_replicate hx]
    decide
  have henc : gtoutf8 (List.replicate (n + 1) 0x20AC) (-1)
      = encode_all (List.replicate (n + 1) 0x20AC) :=
    gtoutf8_eq_encode_all _ hl (-1) (Or.inl (by decide))
  have hlen := encode_all_replicate_euro (n + 1)
  refine ⟨by simp [cursor_inv, rl_state_t.length], by rw [henc]; exact hlen, ?_⟩
  obtain ⟨p1, p2, p3⟩ := autocomplete_parts
    ⟨[], List.replicate (n + 1) 0x20AC, n + 1, 0, hist, [], 0⟩
    (by simp [rl_state_t.length]) hl
  unfold rlc_autocomplete
  simp only [p1, p2]
  rw [if_neg]
  rw [← List.length_append, p3, hlen]
  omega

/-- The completion protocol when the encoded line fits the byte buffer: for
every state that satisfies the cursor invariant, with glyphs in `1 .. 0xFFFF`
and the UTF-8 encoding of the line and its terminator within
`raw[RL_MAX_LENGTH]`, `rlc_autocomplete` calls the callback with the encoding
of the whole line and the byte length of the encoding of the first `cur_pos`
glyphs, and then does what `rl_insert_seq` does with the reply at the cursor;
when the reply is absent or empty, or no callback is installed, the line, the
length, the cursor, `finish` and the history are unchanged. -/
theorem completion_protocol_when_line_fits (RL_MAX_LENGTH junk : Nat)
    (f : rl_get_completion_fn) (s : rl_state_t) (hinv : cursor_inv RL_MAX_LENGTH s)
    (hg : ∀ x ∈ s.line, 1 ≤ x ∧ x ≤ 0xFFFF)
    (hfit : (gtoutf8 s.line (-1)).length + 1 ≤ RL_MAX_LENGTH) :
    rlc_autocomplete RL_MAX_LENGTH junk (some f) s =
      (match f (gtoutf8 s.line (-1)) (gtoutf8 (s.line.take s.cur_pos) (-1)).length with
       | none => some { s with raw := gtoutf8 s.line (-1) }
       | some ins =>
         rl_insert_seq RL_MAX_LENGTH junk ins { s with raw := gtoutf8 s.line (-1) }) ∧
    (∀ ins, (f (gtoutf8 s.line (-1)) (gtoutf8 (s.line.take s.cur_pos) (-1)).length = none ∨
        (f (gtoutf8 s.line (-1)) (gtoutf8 (s.line.take s.cur_pos) (-1)).length = some ins ∧
          cstr ins = [])) →
      rlc_autocomplete RL_MAX_LENGTH junk (some f) s
        = some { s with raw := gtoutf8 s.line (-1) }) ∧
    rlc_autocomplete RL_MAX_LENGTH junk none s = some s := by
  obtain ⟨hc, hM⟩ := hinv
  have hl : ∀ x ∈ s.line, x ≠ 0 := fun x hx => by have := hg x hx; omega
  obtain ⟨p1, p2, p3⟩ := autocomplete_parts s hc hl
  have henc : gtoutf8 s.line (-1) = encode_all s.line :=
    gtoutf8_eq_encode_all _ hl (-1) (Or.inl (by decide))
  have henc2 : gtoutf8 (s.line.take s.cur_pos) (-1) = encode_all (s.line.take s.cur_pos) :=
    gtoutf8_eq_encode_all _ (fun x hx => hl x (List.mem_of_mem_take hx)) (-1)
      (Or.inl (by decide))
  have hcs : cstr (encode_all s.line) = encode_all s.line :=
    cstr_eq_self _ (encode_all_nonzero s.line hg)
  rw [henc] at hfit
  have hmain : rlc_autocomplete RL_MAX_LENGTH junk (some f) s =
      (match f (gtoutf8 s.line (-1)) (gtoutf8 (s.line.take s.cur_pos) (-1)).length with
       | none => some { s with raw := gtoutf8 s.line (-1) }
       | some ins =>
         rl_insert_seq RL_MAX_LENGTH junk ins { s with raw := gtoutf8 s.line (-1) }) := by
    unfold rlc_autocomplete
    simp only [p1, p2]
    rw [if_pos (by rw [← List.length_append, p3]; exact hfit)]
    simp only [p3, hcs, henc, henc2]
  refine ⟨hmain, ?_, rfl⟩
  intro ins hcase
  rw [hmain]
  rcases hcase with h | ⟨h, hempty⟩
  · rw [h]
  · rw [h]
    simp only
    have hdec : utf8tog junk ins = some [] := by
      unfold utf8tog
      cases ins with
      | nil => rfl
      | cons b t =>
        have hb : b = 0 := by
          by_contra hne
          simp [cstr, List.takeWhile, hne] at hempty
        rw [utf8tog_loop, if_pos hb]
    rw [rl_insert_seq_fits RL_MAX_LENGTH junk ins [] { s with raw := gtoutf8 s.line (-1) } hc
      hdec (by simp; omega)
      (by simp only [List.take_nil, encode_all, List.length_nil]; omega)]
    simp

/-- The scenario E6: the line is "sys" with the cursor at its end, and the
callback replies "status " when it is called with the bytes "sys" and the
offset 3. -/
theorem completion_protocol_when_line_fits_witness :
    rlc_autocomplete 32 0
        (some (fun line off =>
          if line = [0x73, 0x79, 0x73] ∧ off = 3
          then some [0x73, 0x74, 0x61, 0x74, 0x75, 0x73, 0x20] else none))
        ⟨[], [0x73, 0x79, 0x73], 3, 0, ⟨none, [], 0⟩, [], 0⟩
      = some ⟨[0x73, 0x79, 0x73], [0x73, 0x79, 0x73, 0x73, 0x74, 0x61, 0x74, 0x75, 0x73, 0x20],
          10, 0, ⟨none, [], 0⟩, [], 0⟩ :=
  (completion_protocol_when_line_fits 32 0
      (fun line off =>
        if line = [0x73, 0x79, 0x73] ∧ off = 3
        then some [0x73, 0x74, 0x61, 0x74, 0x75, 0x73, 0x20] else none)
      ⟨[], [0x73, 0x79, 0x73], 3, 0, ⟨none, [], 0⟩, [], 0⟩
      (by decide) (by decide) (by decide)).1.trans (by decide)

/-! ## `rl_set_text` on encoded lines -/

/-- Decoding the encoding of glyphs in `1 .. 0xFFFF` followed by NULs, as
`strncpy` leaves it in `raw`, gives the glyphs back. -/
theorem utf8tog_loop_encode_all_pad (junk : Nat) (g : List Nat)
    (hg : ∀ x ∈ g, 1 ≤ x ∧ x < 65536) (k : Nat) (fuel : Nat)
    (hf : (encode_all g).length < fuel) :
    utf8tog_loop junk fuel (encode_all g ++ List.replicate k 0) = some g := by
  induction g generalizing fuel with
  | nil =>
    cases fuel with
    | zero => simp at hf
    | succ n =>
      cases k with
      | zero => simp [encode_all, utf8tog_loop]
      | succ j => simp [encode_all, utf8tog_loop, List.replicate_succ]
  | cons uc rest ih =>
    obtain ⟨h1, h2⟩ := hg uc (by simp)
    cases fuel with
    | zero => simp at hf
    | succ n =>
      obtain ⟨b, t, hb, hb0⟩ := glyph_bytes_head_ne_zero uc h1 h2
      have hdec := utf8_to_glyph_glyph_bytes junk uc (encode_all rest ++ List.replicate k 0) h2
      have hlen := glyph_bytes_length_pos uc
      simp only [encode_all, List.length_append] at hf
      have hrest := ih (fun x hx => hg x (by simp [hx])) n (by omega)
      have huc : uc ≠ 0 := by omega
      simp only [encode_all, List.append_assoc]
      rw [hb] at hdec ⊢
      simp only [List.cons_append] at hdec ⊢
      rw [utf8tog_loop, if_neg hb0, hdec]
      simp only [ne_eq, huc, not_false_eq_true, if_true]
      have hd : (b :: (t ++ (encode_all rest ++ List.replicate k 0))).drop (b :: t).length
          = encode_all rest ++ List.replicate k 0 := by
        rw [← List.cons_append, List.drop_left]
      rw [hd, hrest]; rfl

/-- What `rl_set_text` does with the encoding of a line of glyphs in
`1 .. 0xFFFF` that fits `raw`: the line becomes those glyphs. -/
theorem rl_set_text_encoded (RL_MAX_LENGTH junk : Nat) (g : List Nat) (redraw : Bool)
    (s : rl_state_t) (hg : ∀ x ∈ g, 1 ≤ x ∧ x ≤ 0xFFFF)
    (hfit : (encode_all g).length + 1 ≤ RL_MAX_LENGTH) :
    rl_set_text RL_MAX_LENGTH junk (encode_all g) redraw s =
      some { raw := encode_all g, line := g, cur_pos := g.length, finish := s.finish,
             history := s.history, prompt := s.prompt, prompt_width := s.prompt_width } := by
  have hcs : cstr (encode_all g) = encode_all g := cstr_eq_self _ (encode_all_nonzero g hg)
  have htake : (encode_all g).take (RL_MAX_LENGTH - 1) = encode_all g :=
    List.take_of_length_le (by omega)
  have hdec : utf8tog junk (encode_all g ++
      List.replicate (RL_MAX_LENGTH - 1 - (encode_all g).length) 0) = some g := by
    unfold utf8tog
    apply utf8tog_loop_encode_all_pad junk g (fun x hx => by have := hg x hx; omega)
    simp only [List.length_append, List.length_replicate]
    omega
  unfold rl_set_text
  simp only [hcs, htake, hdec]
  cases redraw <;> rfl

/-- What `rl_set_text` does with text that decodes.  For every line `g` of
glyphs in `1 .. 0xFFFF` whose encoding and its terminator fit
`raw[RL_MAX_LENGTH]`, `rl_set_text` on that encoding returns, whatever the
prior state and the unassigned `glyph`: the line is `g`, the length the
number of glyphs, the cursor at the end, `raw` the text; nothing of the
previous line, cursor or `raw` remains; `finish`, the history and the prompt
stay.  For any text, when `utf8tog` decodes the copy in `raw` (the first
`RL_MAX_LENGTH - 1` bytes, NUL-padded as `strncpy` leaves them) to `g1`, the
same holds with `g1` and the copied bytes, and `g1` has at most
`RL_MAX_LENGTH - 1` glyphs. -/
theorem set_text_replaces_line_when_decoded (RL_MAX_LENGTH junk : Nat) (g : List Nat)
    (redraw : Bool) (s : rl_state_t) (hg : ∀ x ∈ g, 1 ≤ x ∧ x ≤ 0xFFFF)
    (hfit : (gtoutf8 g (-1)).length + 1 ≤ RL_MAX_LENGTH) :
    rl_set_text RL_MAX_LENGTH junk (gtoutf8 g (-1)) redraw s =
      some { raw := gtoutf8 g (-1), line := g, cur_pos := g.length,
             finish := s.finish, history := s.history, prompt := s.prompt,
             prompt_width := s.prompt_width } ∧
    (∀ text g1 : List Nat,
      utf8tog junk ((cstr text).take (RL_MAX_LENGTH - 1) ++
        List.replicate (RL_MAX_LENGTH - 1 - ((cstr text).take (RL_MAX_LENGTH - 1)).length) 0)
          = some g1 →
      rl_set_text RL_MAX_LENGTH junk text redraw s =
        some { raw := (cstr text).take (RL_MAX_LENGTH - 1), line := g1, cur_pos := g1.length,
               finish := s.finish, history := s.history, prompt := s.prompt,
               prompt_width := s.prompt_width } ∧
      g1.length ≤ RL_MAX_LENGTH - 1) := by
  have henc : gtoutf8 g (-1) = encode_all g :=
    gtoutf8_eq_encode_all g (fun x hx => by have := hg x hx; omega) (-1) (Or.inl (by decide))
  rw [henc] at hfit ⊢
  refine ⟨rl_set_text_encoded RL_MAX_LENGTH junk g redraw s hg hfit, ?_⟩
  intro text g1 hdec
  constructor
  · unfold rl_set_text
    simp only [hdec]
    cases redraw <;> rfl
  · have hl := utf8tog_length_le junk _ g1 hdec
    simp only [List.length_append, List.length_replicate, List.length_take] at hl
    omega

/-- Setting "héllo" over "old text" with `RL_MAX_LENGTH = 16`, and over the
same with `RL_MAX_LENGTH = 4`, where only the first three bytes are taken. -/
theorem set_text_replaces_line_when_decoded_witness :
    rl_set_text 16 5 (gtoutf8 [0x68, 0xE9, 0x6C, 0x6C, 0x6F] (-1)) true
        ⟨[1], [111, 108, 100, 32, 116, 101, 120, 116], 3, 0, ⟨none, [], 0⟩, [], 0⟩
      = some ⟨gtoutf8 [0x68, 0xE9, 0x6C, 0x6C, 0x6F] (-1), [0x68, 0xE9, 0x6C, 0x6C, 0x6F], 5, 0,
          ⟨none, [], 0⟩, [], 0⟩ ∧
    gtoutf8 [0x68, 0xE9, 0x6C, 0x6C, 0x6F] (-1) = [0x68, 0xC3, 0xA9, 0x6C, 0x6C, 0x6F] ∧
    rl_set_text 4 5 [0x68, 0xC3, 0xA9, 0x6C, 0x6C, 0x6F] true
        ⟨[1], [111, 108, 100, 32, 116, 101, 120, 116], 3, 0, ⟨none, [], 0⟩, [], 0⟩
      = some ⟨[0x68, 0xC3, 0xA9], [0x68, 0xE9], 2, 0, ⟨none, [], 0⟩, [], 0⟩ :=
  ⟨(set_text_replaces_line_when_decoded 16 5 [0x68, 0xE9, 0x6C, 0x6C, 0x6F] true
      ⟨[1], [111, 108, 100, 32, 116, 101, 120, 116], 3, 0, ⟨none, [], 0⟩, [], 0⟩
      (by decide) (by decide)).1,
   by decide, by decide⟩

/-! ## C13: history scratch preservation -/

theorem rl_set_text_history (RL_MAX_LENGTH junk : Nat) (text : List Nat) (redraw : Bool)
    (s s1 : rl_state_t) (h : rl_set_text RL_MAX_LENGTH junk text redraw s = some s1) :
    s1.history = s.history ∧ s1.finish = s.finish := by
  unfold rl_set_text at h
  simp only at h
  split at h
  · simp at h
  · rw [← Option.some.inj h]
    cases redraw <;> exact ⟨rfl, rfl⟩

/-- `history_pop(idx)` on an earlier entry with nothing stashed yet: the
encoded line goes to `raw` and to the scratch slot, then the entry is set. -/
theorem history_pop_stash (RL_MAX_LENGTH junk idx : Nat) (s : rl_state_t)
    (hidx : idx < s.history.size) (hline : s.history.line = none)
    (hfit : (gtoutf8 s.line (-1)).length + 1 ≤ RL_MAX_LENGTH) :
    history_pop RL_MAX_LENGTH junk idx s =
      rl_set_text RL_MAX_LENGTH junk (s.history.lines.getD idx []) true
        { s with raw := cstr (gtoutf8 s.line (-1)),
                 history := { s.history with line := some (cstr (gtoutf8 s.line (-1))) } } := by
  unfold history_pop
  simp only [hline, ite_self]
  rw [if_neg (by omega)]
  simp only [rl_encode_raw, if_pos hfit, Option.map_some']

/-- `history_pop(idx)` on an earlier entry with a line already stashed. -/
theorem history_pop_entry (RL_MAX_LENGTH junk idx : Nat) (s : rl_state_t) (l : List Nat)
    (hidx : idx < s.history.size) (hline : s.history.line = some l) :
    history_pop RL_MAX_LENGTH junk idx s =
      rl_set_text RL_MAX_LENGTH junk (s.history.lines.getD idx []) true s := by
  unfold history_pop
  simp only [hline]
  rw [if_neg (by omega)]
  simp only
  rw [if_neg (by omega)]

/-- `history_pop(size)` with a line stashed: the line is set back and the
scratch slot cleared. -/
theorem history_pop_restore (RL_MAX_LENGTH junk : Nat) (s : rl_state_t) (l : List Nat)
    (hline : s.history.line = some l) :
    history_pop RL_MAX_LENGTH junk s.history.size s =
      (rl_set_text RL_MAX_LENGTH junk l true s).map
        (fun s1 => { s1 with history := { s1.history with line := none } }) := by
  unfold history_pop
  simp only [hline, if_true]

/-- C13, failing input. With `RL_MAX_LENGTH = n + 2` for any `n`: the state
whose line is `n + 1` glyphs U+20AC, cursor at the end, history of the one
entry "a", `current = size` and nothing stashed satisfies the cursor
invariant; the first history-back encodes the in-progress line into
`raw[RL_MAX_LENGTH]` to stash it, `3 * (n + 1)` bytes and a terminator, more
than `raw` holds, so no navigation that leaves the in-progress line preserves
it. -/
theorem C13_stash_overruns_raw (n junk : Nat) (ops : List history_nav) :
    cursor_inv (n + 2)
      ⟨[], List.replicate (n + 1) 0x20AC, n + 1, 0, ⟨none, [[0x61]], 1⟩, [], 0⟩ ∧
    (gtoutf8 (List.replicate (n + 1) 0x20AC) (-1)).length = 3 * (n + 1) ∧
    rlc_history_back (n + 2) junk
      ⟨[], List.replicate (n + 1) 0x20AC, n + 1, 0, ⟨none, [[0x61]], 1⟩, [], 0⟩ = none ∧
    history_nav_seq (n + 2) junk (history_nav.back :: ops)
      ⟨[], List.replicate (n + 1) 0x20AC, n + 1, 0, ⟨none, [[0x61]], 1⟩, [], 0⟩ = none ∧
    history_nav_seq (n + 2) junk (history_nav.to_begin :: ops)
      ⟨[], List.replicate (n + 1) 0x20AC, n + 1, 0, ⟨none, [[0x61]], 1⟩, [], 0⟩ = none := by
  have hl : ∀ x ∈ List.replicate (n + 1) 0x20AC, x ≠ 0 := by
    intro x hx
    rw [List.eq_of_mem_replicate hx]
    decide
  have henc : gtoutf8 (List.replicate (n + 1) 0x20AC) (-1)
      = encode_all (List.replicate (n + 1) 0x20AC) :=
    gtoutf8_eq_encode_all _ hl (-1) (Or.inl (by decide))
  have hlen := encode_all_replicate_euro (n + 1)
  have hover : ¬ ((gtoutf8 (List.replicate (n + 1) 0x20AC) (-1)).length + 1 ≤ n + 2) := by
    rw [henc, hlen]; omega
  have hpop : history_pop (n + 2) junk 0
      ⟨[], List.replicate (n + 1) 0x20AC, n + 1, 0, ⟨none, [[0x61]], 0⟩, [], 0⟩ = none := by
    unfold history_pop
    simp only [rl_history_t.size, List.length_singleton, Nat.zero_ne_one, if_false,
      rl_encode_raw, if_neg hover, Option.map_none']
    rfl
  have hback : rlc_history_back (n + 2) junk
      ⟨[], List.replicate (n + 1) 0x20AC, n + 1, 0, ⟨none, [[0x61]], 1⟩, [], 0⟩ = none := by
    unfold rlc_history_back
    simp only [ne_eq, Nat.one_ne_zero, not_false_eq_true, if_true, Nat.sub_self]
    exact hpop
  have hbegin : rlc_history_begin (n + 2) junk
      ⟨[], List.replicate (n + 1) 0x20AC, n + 1, 0, ⟨none, [[0x61]], 1⟩, [], 0⟩ = none := by
    unfold rlc_history_begin
    simp only [ne_eq, Nat.one_ne_zero, not_false_eq_true, if_true]
    exact hpop
  refine ⟨by simp [cursor_inv, rl_state_t.length], by rw [henc]; exact hlen, hback, ?_, ?_⟩
  · simp only [history_nav_seq, history_nav.run, hback]
  · simp only [history_nav_seq, history_nav.run, hbegin]

/-- One navigation command keeps `nav_inv`, when the in-progress line has
glyphs in `1 .. 0xFFFF` and its encoding fits `raw`. -/
theorem nav_inv_step (RL_MAX_LENGTH junk : Nat) (entries : List (List Nat)) (line0 : List Nat)
    (hg : ∀ x ∈ line0, 1 ≤ x ∧ x ≤ 0xFFFF)
    (hfit : (encode_all line0).length + 1 ≤ RL_MAX_LENGTH)
    (op : history_nav) (s s1 : rl_state_t) (hinv : nav_inv entries line0 s)
    (hrun : op.run RL_MAX_LENGTH junk s = some s1) : nav_inv entries line0 s1 := by
  have hl0 : ∀ x ∈ line0, x ≠ 0 := fun x hx => by have := hg x hx; omega
  have henc : gtoutf8 line0 (-1) = encode_all line0 :=
    gtoutf8_eq_encode_all _ hl0 (-1) (Or.inl (by decide))
  have hcs : cstr (encode_all line0) = encode_all line0 :=
    cstr_eq_self _ (encode_all_nonzero line0 hg)
  obtain ⟨raw, line, cur, fin, ⟨hline, hlines, hcur⟩, pr, pw⟩ := s
  obtain ⟨hL, hAB⟩ := hinv
  simp only at hL hAB
  subst hL
  -- the three ways a `history_pop` goes
  have stash : ∀ (idx : Nat) (t : rl_state_t), idx < hlines.length → hline = none →
      line = line0 →
      history_pop RL_MAX_LENGTH junk idx
        ⟨raw, line, cur, fin, ⟨hline, hlines, idx⟩, pr, pw⟩ = some t →
      nav_inv hlines line0 t := by
    intro idx t hidx hnone hline0 hpop
    subst hnone
    subst hline0
    rw [history_pop_stash RL_MAX_LENGTH junk idx
      ⟨raw, line, cur, fin, ⟨none, hlines, idx⟩, pr, pw⟩ hidx rfl
      (by rw [henc]; exact hfit)] at hpop
    have := (rl_set_text_history RL_MAX_LENGTH junk _ true _ t hpop).1
    simp only [henc, hcs] at this
    refine ⟨by rw [this], Or.inr ⟨by rw [this]; exact hidx, by rw [this]⟩⟩
  have entry : ∀ (idx : Nat) (t : rl_state_t), idx < hlines.length →
      hline = some (encode_all line0) →
      history_pop RL_MAX_LENGTH junk idx
        ⟨raw, line, cur, fin, ⟨hline, hlines, idx⟩, pr, pw⟩ = some t →
      nav_inv hlines line0 t := by
    intro idx t hidx hsome hpop
    rw [history_pop_entry RL_MAX_LENGTH junk idx
      ⟨raw, line, cur, fin, ⟨hline, hlines, idx⟩, pr, pw⟩ _ hidx hsome] at hpop
    have := (rl_set_text_history RL_MAX_LENGTH junk _ true _ t hpop).1
    refine ⟨by rw [this], Or.inr ⟨by rw [this]; exact hidx, by rw [this]; exact hsome⟩⟩
  have restore : ∀ (t : rl_state_t), hline = some (encode_all line0) →
      history_pop RL_MAX_LENGTH junk hlines.length
        ⟨raw, line, cur, fin, ⟨hline, hlines, hlines.length⟩, pr, pw⟩ = some t →
      nav_inv hlines line0 t := by
    intro t hsome hpop
    have hp := history_pop_restore RL_MAX_LENGTH junk
      ⟨raw, line, cur, fin, ⟨hline, hlines, hlines.length⟩, pr, pw⟩ _ hsome
    simp only [rl_history_t.size] at hp
    rw [hp, rl_set_text_encoded RL_MAX_LENGTH junk line0 true _ hg hfit] at hpop
    simp only [Option.map_some'] at hpop
    rw [← Option.some.inj hpop]
    exact ⟨rfl, Or.inl ⟨rfl, rfl, rfl⟩⟩
  cases op <;> simp only [history_nav.run] at hrun
  case back =>
    unfold rlc_history_back at hrun
    simp only at hrun
    by_cases h0 : hcur = 0
    · rw [if_neg (by simpa using h0)] at hrun
      rw [← Option.some.inj hrun]
      exact ⟨rfl, hAB⟩
    · rw [if_pos (by simpa using h0)] at hrun
      rcases hAB with ⟨ha, hb, hc⟩ | ⟨ha, hb⟩
      · exact stash (hcur - 1) s1 (by omega) hb hc hrun
      · exact entry (hcur - 1) s1 (by omega) hb hrun
  case forward =>
    unfold rlc_history_forward at hrun
    simp only [rl_history_t.size] at hrun
    by_cases hlt : hcur < hlines.length
    · rw [if_pos hlt] at hrun
      rcases hAB with ⟨ha, hb, hc⟩ | ⟨ha, hb⟩
      · omega
      · by_cases hend : hcur + 1 = hlines.length
        · rw [hend] at hrun
          exact restore s1 hb hrun
        · exact entry (hcur + 1) s1 (by omega) hb hrun
    · rw [if_neg hlt] at hrun
      rw [← Option.some.inj hrun]
      exact ⟨rfl, hAB⟩
  case to_begin =>
    unfold rlc_history_begin at hrun
    simp only at hrun
    by_cases h0 : hcur = 0
    · rw [if_neg (by simpa using h0)] at hrun
      rw [← Option.some.inj hrun]
      exact ⟨rfl, hAB⟩
    · rw [if_pos (by simpa using h0)] at hrun
      rcases hAB with ⟨ha, hb, hc⟩ | ⟨ha, hb⟩
      · exact stash 0 s1 (by omega) hb hc hrun
      · exact entry 0 s1 (by omega) hb hrun
  case to_end =>
    unfold rlc_history_end at hrun
    simp only [rl_history_t.size] at hrun
    by_cases hlt : hcur < hlines.length
    · rw [if_pos hlt] at hrun
      rcases hAB with ⟨ha, hb, hc⟩ | ⟨ha, hb⟩
      · omega
      · exact restore s1 hb hrun
    · rw [if_neg hlt] at hrun
      rw [← Option.some.inj hrun]
      exact ⟨rfl, hAB⟩

theorem nav_inv_seq (RL_MAX_LENGTH junk : Nat) (entries : List (List Nat)) (line0 : List Nat)
    (hg : ∀ x ∈ line0, 1 ≤ x ∧ x ≤ 0xFFFF)
    (hfit : (encode_all line0).length + 1 ≤ RL_MAX_LENGTH) (ops : List history_nav) :
    ∀ (s s1 : rl_state_t), nav_inv entries line0 s →
    history_nav_seq RL_MAX_LENGTH junk ops s = some s1 → nav_inv entries line0 s1 := by
  induction ops with
  | nil =>
    intro s s1 hinv h
    simp only [history_nav_seq] at h
    rw [← Option.some.inj h]; exact hinv
  | cons op rest ih =>
    intro s s1 hinv h
    rw [history_nav_seq] at h
    cases hr : op.run RL_MAX_LENGTH junk s with
    | none => rw [hr] at h; simp at h
    | some s2 =>
      rw [hr] at h
      exact ih s2 s1 (nav_inv_step RL_MAX_LENGTH junk entries line0 hg hfit op s s2 hinv hr) h

/-- History scratch preservation when the in-progress line fits the byte
buffer: for every state with `current = size`, nothing stashed, glyphs in
`1 .. 0xFFFF` and the encoding of the line and its terminator within
`raw[RL_MAX_LENGTH]`, and every sequence of history navigation commands
(back, forward, begin, end) that returns with `current = size` again, the
line is glyph for glyph the line from before the navigation, so its encoding
is byte for byte the same; the entries are untouched and nothing is left
stashed. -/
theorem scratch_preserved_when_line_fits (RL_MAX_LENGTH junk : Nat) (ops : List history_nav)
    (s s1 : rl_state_t) (hcur : s.history.current = s.history.size)
    (hnone : s.history.line = none) (hg : ∀ x ∈ s.line, 1 ≤ x ∧ x ≤ 0xFFFF)
    (hfit : (gtoutf8 s.line (-1)).length + 1 ≤ RL_MAX_LENGTH)
    (hrun : history_nav_seq RL_MAX_LENGTH junk ops s = some s1)
    (hback : s1.history.current = s1.history.size) :
    s1.line = s.line ∧ gtoutf8 s1.line (-1) = gtoutf8 s.line (-1) ∧
    s1.history.lines = s.history.lines ∧ s1.history.line = none := by
  have henc : gtoutf8 s.line (-1) = encode_all s.line :=
    gtoutf8_eq_encode_all _ (fun x hx => by have := hg x hx; omega) (-1) (Or.inl (by decide))
  rw [henc] at hfit
  have h0 : nav_inv s.history.lines s.line s :=
    ⟨rfl, Or.inl ⟨hcur, hnone, rfl⟩⟩
  obtain ⟨e1, e2⟩ := nav_inv_seq RL_MAX_LENGTH junk s.history.lines s.line hg hfit ops s s1 h0 hrun
  rcases e2 with ⟨_, a2, a3⟩ | ⟨b1, _⟩
  · exact ⟨a3, by rw [a3], e1, a2⟩
  · exfalso
    simp only [rl_history_t.size, e1] at hback
    omega

/-- With the entries "one", "two" and the in-progress line "hé": back,
back, forward, back, end come back to "hé". -/
theorem scratch_preserved_when_line_fits_witness :
    history_nav_seq 16 4
        [history_nav.back, history_nav.back, history_nav.forward, history_nav.back,
          history_nav.to_end]
        ⟨[], [0x68, 0xE9], 1, 0, ⟨none, [[0x6F, 0x6E, 0x65], [0x74, 0x77, 0x6F]], 2⟩, [], 0⟩
      = some ⟨[0x68, 0xC3, 0xA9], [0x68, 0xE9], 2, 0,
          ⟨none, [[0x6F, 0x6E, 0x65], [0x74, 0x77, 0x6F]], 2⟩, [], 0⟩ ∧
    ([0x68, 0xE9] : List Nat) = [0x68, 0xE9] ∧
    gtoutf8 [0x68, 0xE9] (-1) = gtoutf8 [0x68, 0xE9] (-1) ∧
    ([[0x6F, 0x6E, 0x65], [0x74, 0x77, 0x6F]] : List (List Nat))
      = [[0x6F, 0x6E, 0x65], [0x74, 0x77, 0x6F]] ∧
    (none : Option (List Nat)) = none :=
  ⟨by decide,
   scratch_preserved_when_line_fits 16 4
     [history_nav.back, history_nav.back, history_nav.forward, history_nav.back,
       history_nav.to_end]
     ⟨[], [0x68, 0xE9], 1, 0, ⟨none, [[0x6F, 0x6E, 0x65], [0x74, 0x77, 0x6F]], 2⟩, [], 0⟩
     ⟨[0x68, 0xC3, 0xA9], [0x68, 0xE9], 2, 0,
       ⟨none, [[0x6F, 0x6E, 0x65], [0x74, 0x77, 0x6F]], 2⟩, [], 0⟩
     (by decide) (by decide) (by decide) (by decide) (by decide) (by decide)⟩

/-! ## History recall -/

theorem getD_map_encode_all (gs : List (List Nat)) (i : Nat) :
    (gs.map encode_all).getD i [] = encode_all (gs.getD i []) := by
  induction gs generalizing i with
  | nil => rfl
  | cons g t ih =>
    cases i with
    | zero => rfl
    | succ j => simpa using ih j

theorem getD_mem_or_nil {α : Type} (l : List α) (i : Nat) (d : α) (h : i < l.length) :
    l.getD i d ∈ l := by
  rw [List.getD_eq_getElem l d h]
  exact List.getElem_mem h

/-- One `rlc_history_back` from a position `c + 1` within the entries
`gs.map encode_all`: with `l` the stashed line when there is one, and else
the line, empty, stashed now. -/
theorem rlc_history_back_entry (RL_MAX_LENGTH junk : Nat) (gs : List (List Nat))
    (hgs : ∀ g ∈ gs, (∀ x ∈ g, 1 ≤ x ∧ x ≤ 0xFFFF) ∧ (encode_all g).length + 1 ≤ RL_MAX_LENGTH)
    (c : Nat) (hc : c < gs.length) (raw line : List Nat) (cp : Nat) (hl : Option (List Nat))
    (p : List Nat) (pw : Nat) (hstash : hl = none → line = []) :
    rlc_history_back RL_MAX_LENGTH junk
        ⟨raw, line, cp, 0, ⟨hl, gs.map encode_all, c + 1⟩, p, pw⟩ =
      some ⟨encode_all (gs.getD c []), gs.getD c [], (gs.getD c []).length, 0,
        ⟨some (hl.getD []), gs.map encode_all, c⟩, p, pw⟩ := by
  obtain ⟨hg, hfit⟩ := hgs (gs.getD c []) (getD_mem_or_nil gs c [] hc)
  have hsz : c < (gs.map encode_all).length := by simpa using hc
  unfold rlc_history_back
  rw [if_pos (by simp)]
  simp only [Nat.add_sub_cancel]
  cases hl with
  | none =>
    have hline := hstash rfl
    subst hline
    rw [history_pop_stash RL_MAX_LENGTH junk c
      ⟨raw, [], cp, 0, ⟨none, gs.map encode_all, c⟩, p, pw⟩ hsz rfl
      (by simp only [gtoutf8, List.length_nil]; omega)]
    simp only [getD_map_encode_all]
    rw [rl_set_text_encoded RL_MAX_LENGTH junk _ true _ hg hfit]
    rfl
  | some l =>
    rw [history_pop_entry RL_MAX_LENGTH junk c
      ⟨raw, line, cp, 0, ⟨some l, gs.map encode_all, c⟩, p, pw⟩ l hsz rfl]
    simp only [getD_map_encode_all]
    rw [rl_set_text_encoded RL_MAX_LENGTH junk _ true _ hg hfit]
    rfl

/-- The buffer of `rl_write_part` holds two bytes per glyph.  For every
state satisfying the cursor invariant whose glyphs are all below `0x800`
(at most two bytes each), every `start` within the line and every `length`,
the bytes
`rl_write_part` formats fit `buf[RL_MAX_LENGTH*2]` and are the encoding
`gtoutf8` gives.  With `RL_MAX_LENGTH = n + 3` and a line of `n + 2` glyphs
U+20AC, which satisfies the cursor invariant, `rl_write_part(0, -1)`, the call
`rlc_cursor_end` makes with the cursor at 0, and `rl_write_part(0, length)`
store `3 * (n + 2) + 1` bytes in the `2 * (n + 3)` of `buf`. -/
theorem write_part_buffer_two_bytes_per_glyph (RL_MAX_LENGTH : Nat) (s : rl_state_t)
    (start : Nat) (length : Int) (hinv : cursor_inv RL_MAX_LENGTH s)
    (_hstart : start ≤ s.length) (hg : ∀ x ∈ s.line, x < 0x800) :
    rl_write_part RL_MAX_LENGTH start length s = some (gtoutf8 (s.line.drop start) length) ∧
    (∀ n : Nat,
      cursor_inv (n + 3) ⟨[], List.replicate (n + 2) 0x20AC, 0, 0, ⟨none, [], 0⟩, [], 0⟩ ∧
      rl_write_part (n + 3) 0 (-1)
        ⟨[], List.replicate (n + 2) 0x20AC, 0, 0, ⟨none, [], 0⟩, [], 0⟩ = none ∧
      rl_write_part (n + 3) 0 ((n + 2 : Nat) : Int)
        ⟨[], List.replicate (n + 2) 0x20AC, n + 2, 0, ⟨none, [], 0⟩, [], 0⟩ = none) := by
  constructor
  · have h1 := gtoutf8_length_le_two (s.line.drop start)
      (fun x hx => hg x (List.mem_of_mem_drop hx)) length
    have h2 : (s.line.drop start).length ≤ s.line.length := by
      rw [List.length_drop]; omega
    have h3 := hinv.2
    simp only [rl_state_t.length] at h3
    unfold rl_write_part
    simp only
    rw [if_pos (by omega)]
  · intro n
    have hne : ∀ x ∈ List.replicate (n + 2) 0x20AC, x ≠ 0 := fun x hx => by
      rw [List.eq_of_mem_replicate hx]; decide
    have e1 : gtoutf8 (List.replicate (n + 2) 0x20AC) (-1) =
        encode_all (List.replicate (n + 2) 0x20AC) :=
      gtoutf8_eq_encode_all _ hne (-1) (Or.inl (by decide))
    have e2 : gtoutf8 (List.replicate (n + 2) 0x20AC) ((n + 2 : Nat) : Int) =
        encode_all (List.replicate (n + 2) 0x20AC) :=
      gtoutf8_eq_encode_all _ hne _ (Or.inr (by simp))
    have hl := encode_all_replicate_euro (n + 2)
    refine ⟨⟨by simp [rl_state_t.length], by simp [rl_state_t.length]⟩, ?_, ?_⟩
    · unfold rl_write_part
      simp only [List.drop_zero, e1]
      rw [if_neg (by omega)]
    · unfold rl_write_part
      simp only [List.drop_zero, e2]
      rw [if_neg (by omega)]

/-- The line "hé" written whole: three bytes, which fit. -/
theorem write_part_buffer_two_bytes_per_glyph_witness :
    rl_write_part 16 0 (-1) ⟨[], [0x68, 0xE9], 0, 0, ⟨none, [], 0⟩, [], 0⟩ =
      some [0x68, 0xC3, 0xA9] :=
  (write_part_buffer_two_bytes_per_glyph 16 ⟨[], [0x68, 0xE9], 0, 0, ⟨none, [], 0⟩, [], 0⟩
    0 (-1) (by decide) (by decide) (by decide)).1

/-! ## C27: the encoded line and `raw` -/

theorem encode_all_replicate_e_acute (k : Nat) :
    (encode_all (List.replicate k 0xE9)).length = 2 * k := by
  induction k with
  | zero => rfl
  | succ n ih =>
    have hb : glyph_bytes 0xE9 = [0xC3, 0xA9] := by decide
    simp only [List.replicate_succ, encode_all, hb, List.length_append, ih, List.length_cons,
      List.length_nil]
    omega

/-- C27, failing input.  With `RL_MAX_LENGTH = n + 2` for any `n`, the state
whose line is `n + 1` glyphs U+20AC satisfies the cursor invariant (length
`RL_MAX_LENGTH - 1`, glyphs at most `0xFFFF`), and the UTF-8 encoding of the
line and its terminating NUL take `3 * (n + 1) + 1` bytes, more than the
`RL_MAX_LENGTH` bytes of `raw`: the `gtoutf8` into `raw` writes outside it.
The same with the two-byte glyph U+00E9: `2 * (n + 1) + 1` bytes. -/
theorem C27_encoded_line_exceeds_raw (n cur : Nat) (hist : rl_history_t) :
    cursor_inv (n + 2) ⟨[], List.replicate (n + 1) 0x20AC, 0, 0, hist, [], 0⟩ ∧
    (∀ x ∈ List.replicate (n + 1) 0x20AC, x ≤ 0xFFFF) ∧
    (gtoutf8 (List.replicate (n + 1) 0x20AC) (-1)).length + 1 = 3 * (n + 1) + 1 ∧
    n + 2 < (gtoutf8 (List.replicate (n + 1) 0x20AC) (-1)).length + 1 ∧
    rl_encode_raw (n + 2) ⟨[], List.replicate (n + 1) 0x20AC, cur, 0, hist, [], 0⟩ = none ∧
    cursor_inv (n + 2) ⟨[], List.replicate (n + 1) 0xE9, 0, 0, hist, [], 0⟩ ∧
    n + 2 < (gtoutf8 (List.replicate (n + 1) 0xE9) (-1)).length + 1 ∧
    rl_encode_raw (n + 2) ⟨[], List.replicate (n + 1) 0xE9, cur, 0, hist, [], 0⟩ = none := by
  have h1 : gtoutf8 (List.replicate (n + 1) 0x20AC) (-1)
      = encode_all (List.replicate (n + 1) 0x20AC) :=
    gtoutf8_eq_encode_all _ (fun x hx => by rw [List.eq_of_mem_replicate hx]; decide) (-1)
      (Or.inl (by decide))
  have h2 : gtoutf8 (List.replicate (n + 1) 0xE9) (-1)
      = encode_all (List.replicate (n + 1) 0xE9) :=
    gtoutf8_eq_encode_all _ (fun x hx => by rw [List.eq_of_mem_replicate hx]; decide) (-1)
      (Or.inl (by decide))
  have l1 := encode_all_replicate_euro (n + 1)
  have l2 := encode_all_replicate_e_acute (n + 1)
  refine ⟨by simp [cursor_inv, rl_state_t.length], ?_, by rw [h1, l1], by rw [h1, l1]; omega,
    ?_, by simp [cursor_inv, rl_state_t.length], by rw [h2, l2]; omega, ?_⟩
  · intro x hx
    rw [List.eq_of_mem_replicate hx]
    decide
  · unfold rl_encode_raw
    simp only [h1, l1]
    rw [if_neg (by omega)]
  · unfold rl_encode_raw
    simp only [h2, l2]
    rw [if_neg (by omega)]

theorem glyph_bytes_length_ascii (uc : Nat) (h : uc < 128) : (glyph_bytes uc).length = 1 := by
  rw [glyph_bytes_one uc h]; rfl

theorem gtoutf8_length_le_three (l : List Nat) :
    ∀ c : Int, (gtoutf8 l c).length ≤ 3 * l.length := by
  induction l with
  | nil => intro c; simp [gtoutf8]
  | cons uc rest ih =>
    intro c
    have h1 := glyph_bytes_length_le uc
    have h2 := ih (c - 1)
    unfold gtoutf8
    split
    · simp
    · split
      · simp
      · simp only [List.length_append, List.length_cons]
        omega

theorem gtoutf8_length_le_one (l : List Nat) (hl : ∀ x ∈ l, x < 128) :
    ∀ c : Int, (gtoutf8 l c).length ≤ l.length := by
  induction l with
  | nil => intro c; simp [gtoutf8]
  | cons uc rest ih =>
    intro c
    have h1 := glyph_bytes_length_ascii uc (hl uc (by simp))
    have h2 := ih (fun x hx => hl x (by simp [hx])) (c - 1)
    unfold gtoutf8
    split
    · simp
    · split
      · simp
      · simp only [List.length_append, List.length_cons]
        omega

/-- The room the encoded line needs.  For every state satisfying the cursor
invariant, the UTF-8 encoding of the line and its terminating NUL take at
most `3 * RL_MAX_LENGTH - 2` bytes, so they fit a buffer of
`3 * RL_MAX_LENGTH` bytes; when every glyph is below `0x80` they take at most
`RL_MAX_LENGTH` bytes, and `gtoutf8(raw, line, -1)` stays inside `raw`. -/
theorem encoded_line_room (RL_MAX_LENGTH : Nat) (s : rl_state_t)
    (hinv : cursor_inv RL_MAX_LENGTH s) :
    (gtoutf8 s.line (-1)).length + 1 ≤ 3 * RL_MAX_LENGTH - 2 ∧
    ((∀ x ∈ s.line, x < 0x80) →
      (gtoutf8 s.line (-1)).length + 1 ≤ RL_MAX_LENGTH ∧
      rl_encode_raw RL_MAX_LENGTH s = some { s with raw := cstr (gtoutf8 s.line (-1)) }) := by
  have hl := hinv.2
  simp only [rl_state_t.length] at hl
  have h3 := gtoutf8_length_le_three s.line (-1)
  refine ⟨by omega, ?_⟩
  intro hascii
  have h1 := gtoutf8_length_le_one s.line hascii (-1)
  refine ⟨by omega, ?_⟩
  unfold rl_encode_raw
  simp only
  rw [if_pos (by omega)]

/-- The line "hi" with `RL_MAX_LENGTH = 4`. -/
theorem encoded_line_room_witness :
    (gtoutf8 [0x68, 0x69] (-1)).length + 1 ≤ 3 * 4 - 2 ∧
    rl_encode_raw 4 ⟨[], [0x68, 0x69], 1, 0, ⟨none, [], 0⟩, [], 0⟩
      = some ⟨[0x68, 0x69], [0x68, 0x69], 1, 0, ⟨none, [], 0⟩, [], 0⟩ :=
  ⟨(encoded_line_room 4 ⟨[], [0x68, 0x69], 1, 0, ⟨none, [], 0⟩, [], 0⟩ (by decide)).1,
   ((encoded_line_room 4 ⟨[], [0x68, 0x69], 1, 0, ⟨none, [], 0⟩, [], 0⟩ (by decide)).2
      (by decide)).2.trans (by decide)⟩

/-! ## C28: the history cursor after a submission -/

/-- The read loop on a byte below `0x80`, other than ESC, that `rl_commands`
binds on its own: it runs the bound handler. -/
theorem readline_loop_single_byte (RL_MAX_LENGTH junk : Nat)
    (gc : Option rl_get_completion_fn) (b : Nat) (h : rl_handler) (rest : List Nat)
    (s : rl_state_t) (hb0 : b ≠ 0) (hb : b < 128) (hesc : b ≠ 0x1B)
    (hf : rl_find_command rl_commands [b] = some h) :
    readline_loop RL_MAX_LENGTH junk gc (b :: rest) [] s =
      (h.run RL_MAX_LENGTH junk gc s).bind (fun s1 =>
        if s1.finish ≠ 0 then some s1
        else readline_loop RL_MAX_LENGTH junk gc rest [] s1) := by
  have hc : cstr [b] = [b] := cstr_eq_self [b] (fun x hx => by
    rw [List.mem_singleton.1 hx]; exact hb0)
  have hk : skip_char_seq junk [b] = some 1 := by
    unfold skip_char_seq
    rw [utf8_to_glyph_ascii junk b [] hb]
    simp only [ne_eq, hesc, not_false_eq_true, if_true]
  have he : rl_exec_seq RL_MAX_LENGTH junk gc [b] s = h.run RL_MAX_LENGTH junk gc s := by
    unfold rl_exec_seq
    rw [hc, hf]
  have h12 : ¬ (([b] : List Nat).length ≥ 12) := by simp
  rw [readline_loop]
  simp only [ite_self, List.nil_append, if_neg h12, hc, hk, he]
  cases h.run RL_MAX_LENGTH junk gc s <;> rfl

/-- With `RL_MAX_LENGTH = m + 4`, the history holding the one entry "one"
with `current = size = 1` and nothing stashed: the input `C-p`, `C-u`, `\r`
makes `readline` return the empty line and leave `current = 0`; the input
`C-p`, `\r` in the next call returns the empty line again. -/
theorem readline_empty_submit (m RL_HISTORY_HEIGHT junk : Nat)
    (gc : Option rl_get_completion_fn) (raw line : List Nat) (cp fin : Nat) (p : List Nat)
    (pw : Nat) :
    (⟨none, [[0x6F, 0x6E, 0x65]], 1⟩ : rl_history_t).current
      = (⟨none, [[0x6F, 0x6E, 0x65]], 1⟩ : rl_history_t).size ∧
    readline (m + 4) RL_HISTORY_HEIGHT junk gc [] none [0x10, 0x15, 0x0D]
        ⟨raw, line, cp, fin, ⟨none, [[0x6F, 0x6E, 0x65]], 1⟩, p, pw⟩ =
      some ([], ⟨[], [], 0, 1, ⟨none, [[0x6F, 0x6E, 0x65]], 0⟩, [], 0⟩) ∧
    (⟨none, [[0x6F, 0x6E, 0x65]], 0⟩ : rl_history_t).current
      ≠ (⟨none, [[0x6F, 0x6E, 0x65]], 0⟩ : rl_history_t).size ∧
    readline (m + 4) RL_HISTORY_HEIGHT junk gc [] none [0x10, 0x0D]
        ⟨[], [], 0, 1, ⟨none, [[0x6F, 0x6E, 0x65]], 0⟩, [], 0⟩ =
      some ([], ⟨[], [], 0, 1, ⟨none, [[0x6F, 0x6E, 0x65]], 0⟩, [], 0⟩) := by
  have hw0 : utf8_width junk [] = some 0 := rfl
  have hc : cstr ([] : List Nat) = [] := rfl
  have hadd : ∀ l : Option (List Nat), history_add RL_HISTORY_HEIGHT []
      ⟨l, [[0x6F, 0x6E, 0x65]], 0⟩ = ⟨none, [[0x6F, 0x6E, 0x65]], 0⟩ := by
    intro l
    unfold history_add
    simp only [hc, if_true]
  refine ⟨rfl, ?_, by decide, ?_⟩
  · have hgs : ∀ g ∈ [[0x6F, 0x6E, 0x65]],
        (∀ x ∈ g, 1 ≤ x ∧ x ≤ 0xFFFF) ∧ (encode_all g).length + 1 ≤ m + 4 := by
      intro g hg
      rw [List.mem_singleton.1 hg]
      refine ⟨by decide, ?_⟩
      have : (encode_all [0x6F, 0x6E, 0x65]).length = 3 := by decide
      omega
    have hback := rlc_history_back_entry (m + 4) junk [[0x6F, 0x6E, 0x65]] hgs 0 (by decide)
      [] [] 0 none [] 0 (fun _ => rfl)
    have e1 : (List.map encode_all [[0x6F, 0x6E, 0x65]]) = [[0x6F, 0x6E, 0x65]] := by decide
    have e3 : ([[0x6F, 0x6E, 0x65]] : List (List Nat)).getD 0 [] = [0x6F, 0x6E, 0x65] := by
      decide
    have e4 : encode_all [0x6F, 0x6E, 0x65] = [0x6F, 0x6E, 0x65] := by decide
    simp only [e1, e3, e4] at hback
    unfold readline
    rw [hw0]
    dsimp only
    rw [readline_loop_single_byte (m + 4) junk gc 0x10 rl_handler.history_back _ _
      (by decide) (by decide) (by decide) (by decide)]
    simp only [rl_handler.run]
    rw [hback]
    simp only [Option.some_bind]
    rw [if_neg (by simp)]
    rw [readline_loop_single_byte (m + 4) junk gc 0x15 rl_handler.delete_to_begin _ _
      (by decide) (by decide) (by decide) (by decide)]
    simp only [rl_handler.run, Option.some_bind]
    have hdel : rlc_delete_to_begin
        ⟨[0x6F, 0x6E, 0x65], [0x6F, 0x6E, 0x65], [0x6F, 0x6E, 0x65].length, 0,
          ⟨some ((none : Option (List Nat)).getD []), [[0x6F, 0x6E, 0x65]], 0⟩, [], 0⟩
        = ⟨[0x6F, 0x6E, 0x65], [], 0, 0, ⟨some [], [[0x6F, 0x6E, 0x65]], 0⟩, [], 0⟩ := by
      decide
    rw [hdel]
    rw [if_neg (by simp)]
    rw [readline_loop_enter]
    dsimp only
    rw [rlc_cursor_end_at_end (m + 4) _ (by omega) (by simp [rlc_enter, rl_state_t.length])]
    dsimp only [rl_encode_raw, rlc_enter, rl_state_t.length]
    simp only [gtoutf8, List.length_nil]
    rw [if_pos (by omega)]
    simp only [hc]
    rw [hadd]
  · unfold readline
    rw [hw0]
    dsimp only
    rw [readline_loop_single_byte (m + 4) junk gc 0x10 rl_handler.history_back _ _
      (by decide) (by decide) (by decide) (by decide)]
    simp only [rl_handler.run]
    have hb : rlc_history_back (m + 4) junk
        ⟨[], [], 0, 0, ⟨none, [[0x6F, 0x6E, 0x65]], 0⟩, [], 0⟩
        = some ⟨[], [], 0, 0, ⟨none, [[0x6F, 0x6E, 0x65]], 0⟩, [], 0⟩ := by
      unfold rlc_history_back
      rw [if_neg (by simp)]
    rw [hb]
    simp only [Option.some_bind]
    rw [if_neg (by simp)]
    rw [readline_loop_enter]
    dsimp only
    rw [rlc_cursor_end_at_end (m + 4) _ (by omega) (by simp [rlc_enter, rl_state_t.length])]
    dsimp only [rl_encode_raw, rlc_enter, rl_state_t.length]
    simp only [gtoutf8, List.length_nil]
    rw [if_pos (by omega)]
    simp only [hc]
    rw [hadd]

/-- C28, counterexample.  With `RL_MAX_LENGTH = 8`, the session starts with
the history holding the one entry "one", `current = size = 1` and nothing
stashed.  The input `C-p` (back to "one"), `C-u` (erase the line), `\r` makes
`readline` return the empty line on the terminal path, and the history it
leaves has `current = 0` with `size = 1`: `history_add` returns on the empty
string before it assigns `current`.  In the next call `C-p` then finds
`current = 0` and does nothing: `C-p \r` returns the empty line, not
"one". -/
theorem C28_empty_submit_counterexample :
    (⟨none, [[0x6F, 0x6E, 0x65]], 1⟩ : rl_history_t).current
      = (⟨none, [[0x6F, 0x6E, 0x65]], 1⟩ : rl_history_t).size ∧
    readline 8 4 0 none [] none [0x10, 0x15, 0x0D]
        ⟨[], [], 0, 0, ⟨none, [[0x6F, 0x6E, 0x65]], 1⟩, [], 0⟩ =
      some ([], ⟨[], [], 0, 1, ⟨none, [[0x6F, 0x6E, 0x65]], 0⟩, [], 0⟩) ∧
    (⟨none, [[0x6F, 0x6E, 0x65]], 0⟩ : rl_history_t).current
      ≠ (⟨none, [[0x6F, 0x6E, 0x65]], 0⟩ : rl_history_t).size ∧
    readline 8 4 0 none [] none [0x10, 0x0D]
        ⟨[], [], 0, 1, ⟨none, [[0x6F, 0x6E, 0x65]], 0⟩, [], 0⟩ =
      some ([], ⟨[], [], 0, 1, ⟨none, [[0x6F, 0x6E, 0x65]], 0⟩, [], 0⟩) :=
  readline_empty_submit 4 4 0 none [] [] 0 0 [] 0

theorem cstr_idem (l : List Nat) : cstr (cstr l) = cstr l := by
  unfold cstr
  induction l with
  | nil => rfl
  | cons b t ih =>
    by_cases hb : b ≠ 0
    · simp only [List.takeWhile_cons, decide_eq_true hb, if_true]
      rw [ih]
    · simp only [List.takeWhile_cons, decide_eq_false hb, Bool.false_eq_true, if_false,
        List.takeWhile_nil]

theorem history_add_current (RL_HISTORY_HEIGHT : Nat) (string : List Nat) (h : rl_history_t)
    (hne : cstr string ≠ []) :
    (history_add RL_HISTORY_HEIGHT string h).current
      = (history_add RL_HISTORY_HEIGHT string h).size ∧
    (history_add RL_HISTORY_HEIGHT string h).line = none := by
  unfold history_add
  simp only [if_neg hne]
  split
  · exact ⟨rfl, rfl⟩
  · simp [rl_history_t.size]

/-- C28, amended.  Whenever `readline` returns on the terminal path, whatever
the state before (so also from `current = size`), the seed text and the
input: the stash slot is empty; when the line returned is not empty the
history cursor is again at `current = size` (also when the line repeats the
last entry); when the line returned is empty, `history_add` changes nothing
but the stash slot, so that `current` and the entries are those the read loop
left. -/
theorem C28_submit_history_cursor (RL_MAX_LENGTH RL_HISTORY_HEIGHT junk : Nat)
    (gc : Option rl_get_completion_fn) (prompt : List Nat) (string : Option (List Nat))
    (input : List Nat) (s s1 : rl_state_t) (r : List Nat)
    (hret : readline RL_MAX_LENGTH RL_HISTORY_HEIGHT junk gc prompt string input s
      = some (r, s1)) :
    s1.history.line = none ∧ (r ≠ [] → s1.history.current = s1.history.size) ∧
    (r = [] → ∃ (w : Nat) (sa s2 : rl_state_t),
      utf8_width junk prompt = some w ∧
      (string = none →
        sa = { s with raw := [], line := [], cur_pos := 0, finish := 0,
                      prompt := prompt, prompt_width := w }) ∧
      (∀ text, string = some text →
        rl_set_text RL_MAX_LENGTH junk text true
          { s with raw := [], line := [], cur_pos := 0, finish := 0,
                   prompt := prompt, prompt_width := w } = some sa) ∧
      readline_loop RL_MAX_LENGTH junk gc input [] sa = some s2 ∧
      s1.history = { s2.history with line := none }) := by
  have key : ∀ (w : Nat) (sa : rl_state_t),
      (match readline_loop RL_MAX_LENGTH junk gc input [] sa with
        | none => none
        | some s2 =>
          match rlc_cursor_end RL_MAX_LENGTH s2 with
          | none => none
          | some s2e =>
            match rl_encode_raw RL_MAX_LENGTH s2e with
            | none => none
            | some s3 =>
              some (s3.raw,
                { s3 with history := history_add RL_HISTORY_HEIGHT s3.raw s3.history }))
        = some (r, s1) →
      s1.history.line = none ∧ (r ≠ [] → s1.history.current = s1.history.size) ∧
      (r = [] → ∃ s2, readline_loop RL_MAX_LENGTH junk gc input [] sa = some s2 ∧
        s1.history = { s2.history with line := none }) := by
    intro w sa h
    split at h
    · simp at h
    · rename_i s2 hs2
      split at h
      · simp at h
      · rename_i s2e hs2e
        split at h
        · simp at h
        · rename_i s3 hs3
          have he := Option.some.inj h
          have hr : r = s3.raw := (Prod.mk.inj he).1.symm
          have hs : s1.history = history_add RL_HISTORY_HEIGHT s3.raw s3.history := by
            rw [← (Prod.mk.inj he).2]
          have h2e := rlc_cursor_end_some RL_MAX_LENGTH s2 s2e hs2e
          have hraw : cstr s3.raw = s3.raw ∧ s3.history = s2e.history := by
            unfold rl_encode_raw at hs3
            simp only at hs3
            split at hs3
            · rw [← Option.some.inj hs3]
              exact ⟨cstr_idem _, rfl⟩
            · simp at hs3
          refine ⟨?_, ?_, ?_⟩
          · rw [hs]
            unfold history_add
            simp only
            split
            · rfl
            · split <;> rfl
          · intro hne
            rw [hs]
            exact (history_add_current RL_HISTORY_HEIGHT s3.raw s3.history
              (by rw [hraw.1, ← hr]; exact hne)).1
          · intro he0
            refine ⟨s2, hs2, ?_⟩
            rw [hs]
            unfold history_add
            rw [if_pos (by rw [hraw.1, ← hr]; exact he0), hraw.2, h2e]
  unfold readline at hret
  cases hw : utf8_width junk prompt with
  | none =>
    rw [hw] at hret
    simp at hret
  | some w =>
    rw [hw] at hret
    dsimp only at hret
    cases string with
    | none =>
      dsimp only at hret
      obtain ⟨k1, k2, k3⟩ := key w _ hret
      refine ⟨k1, k2, fun h0 => ?_⟩
      obtain ⟨s2, e1, e2⟩ := k3 h0
      exact ⟨w, _, s2, rfl, fun _ => rfl, fun text ht => by simp at ht, e1, e2⟩
    | some text =>
      dsimp only at hret
      cases hst : rl_set_text RL_MAX_LENGTH junk text true
          { s with raw := [], line := [], cur_pos := 0, finish := 0,
                   prompt := prompt, prompt_width := w } with
      | none =>
        rw [hst] at hret
        simp at hret
      | some sa =>
        rw [hst] at hret
        dsimp only at hret
        obtain ⟨k1, k2, k3⟩ := key w sa hret
        refine ⟨k1, k2, fun h0 => ?_⟩
        obtain ⟨s2, e1, e2⟩ := k3 h0
        refine ⟨w, sa, s2, rfl, fun h => by simp at h, fun t ht => ?_, e1, e2⟩
        rw [← Option.some.inj ht]
        exact hst

/-- C28 amended, two runs with the entry "one" in the history and
`current = size = 1`.  `C-p` then `\r` returns "one", which is not empty, and
leaves `current = size = 1`.  `C-p`, `C-u`, `\r` returns the empty line, and
the history left is the one the read loop left, `current = 0`, with the stash
slot emptied. -/
theorem C28_submit_history_cursor_witness :
    readline 16 8 5 none [] none [0x10, 0x0D]
        ⟨[], [], 0, 0, ⟨none, [[0x6F, 0x6E, 0x65]], 1⟩, [], 0⟩
      = some ([0x6F, 0x6E, 0x65],
          ⟨[0x6F, 0x6E, 0x65], [0x6F, 0x6E, 0x65], 3, 1, ⟨none, [[0x6F, 0x6E, 0x65]], 1⟩, [], 0⟩) ∧
    (⟨none, [[0x6F, 0x6E, 0x65]], 1⟩ : rl_history_t).current
      = (⟨none, [[0x6F, 0x6E, 0x65]], 1⟩ : rl_history_t).size ∧
    readline 16 8 5 none [] none [0x10, 0x15, 0x0D]
        ⟨[], [], 0, 0, ⟨none, [[0x6F, 0x6E, 0x65]], 1⟩, [], 0⟩
      = some ([], ⟨[], [], 0, 1, ⟨none, [[0x6F, 0x6E, 0x65]], 0⟩, [], 0⟩) ∧
    (⟨none, [[0x6F, 0x6E, 0x65]], 0⟩ : rl_history_t).line = none :=
  ⟨by decide,
   (C28_submit_history_cursor 16 8 5 none [] none [0x10, 0x0D]
      ⟨[], [], 0, 0, ⟨none, [[0x6F, 0x6E, 0x65]], 1⟩, [], 0⟩
      ⟨[0x6F, 0x6E, 0x65], [0x6F, 0x6E, 0x65], 3, 1, ⟨none, [[0x6F, 0x6E, 0x65]], 1⟩, [], 0⟩
      [0x6F, 0x6E, 0x65] (by decide)).2.1 (by decide),
   by decide,
   (C28_submit_history_cursor 16 8 5 none [] none [0x10, 0x15, 0x0D]
      ⟨[], [], 0, 0, ⟨none, [[0x6F, 0x6E, 0x65]], 1⟩, [], 0⟩
      ⟨[], [], 0, 1, ⟨none, [[0x6F, 0x6E, 0x65]], 0⟩, [], 0⟩ [] (by decide)).1⟩

/-! ## The read loop and contents that are not closed -/

/-- The read loop on a byte that leaves the content of the sequence buffer
not closed, with room for the byte and its terminator: the byte stays in the
buffer and the loop reads on. -/
theorem readline_loop_open_step (RL_MAX_LENGTH junk : Nat) (gc : Option rl_get_completion_fn)
    (ch : Nat) (rest seq : List Nat) (s : rl_state_t) (hlen : seq.length + 1 < 12)
    (hopen : skip_char_seq junk (cstr (seq ++ [ch])) = some 0) :
    readline_loop RL_MAX_LENGTH junk gc (ch :: rest) seq s =
      readline_loop RL_MAX_LENGTH junk gc rest (seq ++ [ch]) s := by
  rw [readline_loop]
  have h1 : ¬ (seq.length ≥ 12) := by omega
  have h2 : ¬ ((seq ++ [ch]).length ≥ 12) := by
    simp only [List.length_append, List.length_singleton]; omega
  simp only [if_neg h1, if_neg h2, hopen]

/-- The read loop on a byte that arrives when the buffer holds eleven: the
byte goes to `seq[11]` and its terminator to `seq[12]`. -/
theorem readline_loop_twelfth (RL_MAX_LENGTH junk : Nat) (gc : Option rl_get_completion_fn)
    (ch : Nat) (rest seq : List Nat) (s : rl_state_t) (hlen : seq.length = 11) :
    readline_loop RL_MAX_LENGTH junk gc (ch :: rest) seq s = none := by
  rw [readline_loop]
  have h1 : ¬ (seq.length ≥ 12) := by omega
  have h2 : (seq ++ [ch]).length ≥ 12 := by
    simp only [List.length_append, List.length_singleton]; omega
  simp only [if_neg h1, if_pos h2]

set_option maxRecDepth 100000 in
theorem csi_digits_open :
    ∀ k ≤ 10, skip_char_seq 0 (cstr (0x1B :: 0x5B :: List.replicate k 0x31)) = some 0 := by
  decide

theorem csi_digits_open_junk (junk k : Nat) (hk : k ≤ 10) :
    skip_char_seq junk (cstr (0x1B :: 0x5B :: List.replicate k 0x31)) = some 0 := by
  have hc : cstr (0x1B :: 0x5B :: List.replicate k 0x31)
      = 0x1B :: 0x5B :: List.replicate k 0x31 :=
    cstr_eq_self _ (fun x hx => by
      simp only [List.mem_cons, List.mem_replicate] at hx
      rcases hx with h | h | h
      · rw [h]; decide
      · rw [h]; decide
      · rw [h.2]; decide)
  have := csi_digits_open k hk
  rw [hc] at this ⊢
  rw [skip_char_seq_ascii junk 0x1B _ (by decide)]
  exact this

/-- The loop with `ESC [` and `k` digits `1` in the buffer, fed `j` more
digits, `k + j ≤ 9`: all of them stay in the buffer. -/
theorem readline_loop_csi_digits (RL_MAX_LENGTH junk : Nat) (gc : Option rl_get_completion_fn)
    (rest : List Nat) (s : rl_state_t) (j : Nat) :
    ∀ k, k + j ≤ 9 →
    readline_loop RL_MAX_LENGTH junk gc (List.replicate j 0x31 ++ rest)
        (0x1B :: 0x5B :: List.replicate k 0x31) s =
      readline_loop RL_MAX_LENGTH junk gc rest (0x1B :: 0x5B :: List.replicate (k + j) 0x31) s := by
  induction j with
  | zero => intro k _; rfl
  | succ j ih =>
    intro k hk
    have happ : (0x1B :: 0x5B :: List.replicate k 0x31) ++ [0x31]
        = 0x1B :: 0x5B :: List.replicate (k + 1) 0x31 := by
      rw [List.replicate_succ']
      rfl
    rw [List.replicate_succ, List.cons_append,
      readline_loop_open_step RL_MAX_LENGTH junk gc 0x31 _ _ s
        (by simp only [List.length_cons, List.length_replicate]; omega)
        (by rw [happ]; exact csi_digits_open_junk junk (k + 1) (by omega)),
      happ, ih (k + 1) (by omega)]
    rw [show k + 1 + j = k + (j + 1) by omega]


/-! ## C21: input that is not a terminal -/

/-- C21, failing inputs.  With `RL_MAX_LENGTH = n + 3` for any `n` and
standard input not a terminal: on the line "\n", and on the line "\r\n",
whatever follows in the stream, `fgets` stores the line, and the backward
scan, which starts on the last byte and has no lower bound, passes every
byte of the line and reads `*end` with `end = raw - 1`, the cell before the
byte buffer. -/
theorem C21_scan_reads_before_raw (n : Nat) (rest : List Nat) :
    fgets (n + 3) (0x0A :: rest) = some [0x0A] ∧
    readline_not_tty (n + 3) (0x0A :: rest) = none ∧
    fgets (n + 3) (0x0D :: 0x0A :: rest) = some [0x0D, 0x0A] ∧
    readline_not_tty (n + 3) (0x0D :: 0x0A :: rest) = none := by
  have f1 : fgets (n + 3) (0x0A :: rest) = some [0x0A] := by
    simp [fgets, fgets_bytes]
  have f2 : fgets (n + 3) (0x0D :: 0x0A :: rest) = some [0x0D, 0x0A] := by
    simp [fgets, fgets_bytes]
  refine ⟨f1, ?_, f2, ?_⟩
  · unfold readline_not_tty
    rw [f1]
    decide
  · unfold readline_not_tty
    rw [f2]
    decide

theorem strip_crlf_scan_spec (raw : List Nat) :
    ∀ e, e ≤ raw.length →
      (∃ b ∈ raw.take e, ¬ (b = 0x0D ∨ b = 0x0A)) →
      ∃ k, strip_crlf_scan raw e = some k ∧ k ≤ e ∧ 0 < k ∧
        raw.take k = (raw.take e).rdropWhile (fun b => decide (b = 0x0D ∨ b = 0x0A)) := by
  intro e
  induction e with
  | zero =>
    intro _ h
    obtain ⟨b, hb, _⟩ := h
    simp at hb
  | succ e ih =>
    intro he h
    have hlt : e < raw.length := by omega
    have htake : raw.take (e + 1) = raw.take e ++ [raw.getD e 0] := by
      rw [List.take_succ, List.getD_eq_getElem raw 0 hlt, List.getElem?_eq_getElem hlt]
      rfl
    unfold strip_crlf_scan
    by_cases hc : raw.getD e 0 = 0x0D ∨ raw.getD e 0 = 0x0A
    · rw [if_pos hc]
      have h1 : ∃ b ∈ raw.take e, ¬ (b = 0x0D ∨ b = 0x0A) := by
        obtain ⟨b, hb, hnb⟩ := h
        rw [htake, List.mem_append] at hb
        rcases hb with hb | hb
        · exact ⟨b, hb, hnb⟩
        · rw [List.mem_singleton.1 hb] at hnb
          exact absurd hc hnb
      obtain ⟨k, hk1, hk2, hk3, hk4⟩ := ih (by omega) h1
      refine ⟨k, hk1, by omega, hk3, ?_⟩
      rw [hk4, htake, List.rdropWhile_concat, if_pos (by simpa using hc)]
    · rw [if_neg hc]
      refine ⟨e + 1, rfl, le_refl _, by omega, ?_⟩
      rw [htake, List.rdropWhile_concat, if_neg (by simpa using hc)]

/-- The non-terminal path on a line with text.  For every stream of which
`fgets` stores the bytes `bytes`, when the C string they make holds a byte
that is neither CR nor LF, `readline` returns that string with its trailing CR
and LF bytes removed and nothing else changed, and the backward scan stays
inside the byte buffer.  At end of file it returns `NULL`. -/
theorem not_tty_line_stripped (RL_MAX_LENGTH : Nat) (stream bytes : List Nat)
    (hread : fgets RL_MAX_LENGTH stream = some bytes)
    (htext : ∃ b ∈ cstr bytes, ¬ (b = 0x0D ∨ b = 0x0A)) :
    readline_not_tty RL_MAX_LENGTH stream =
      some (some ((cstr bytes).rdropWhile (fun b => decide (b = 0x0D ∨ b = 0x0A)))) ∧
    readline_not_tty RL_MAX_LENGTH [] = some none := by
  constructor
  · obtain ⟨k, hk1, _, _, hk4⟩ := strip_crlf_scan_spec (cstr bytes) (cstr bytes).length
      (le_refl _) (by rw [List.take_length]; exact htext)
    unfold readline_not_tty
    rw [hread]
    simp only [hk1, hk4, List.take_length]
  · rfl

/-- The stream "hi\r\n" followed by more, with `RL_MAX_LENGTH = 16`. -/
theorem not_tty_line_stripped_witness :
    readline_not_tty 16 [0x68, 0x69, 0x0D, 0x0A, 0x78] = some (some [0x68, 0x69]) :=
  (not_tty_line_stripped 16 [0x68, 0x69, 0x0D, 0x0A, 0x78] [0x68, 0x69, 0x0D, 0x0A]
    (by decide) (by decide)).1.trans (by decide)

/-! ## C22: raw mode -/

theorem term_raw_unraw {τ : Type} (make_raw : τ → τ) (atexit_res get_ok set_ok : Bool)
    (t : rl_term_t τ) (h0 : t.in_raw = 0) :
    (rl_term_unraw true (rl_term_raw make_raw atexit_res get_ok set_ok t).1).1.attrs = t.attrs ∧
    (rl_term_unraw true (rl_term_raw make_raw atexit_res get_ok set_ok t).1).1.in_raw = 0 := by
  unfold rl_term_raw rl_term_unraw
  cases get_ok <;> cases set_ok <;> cases hA : t.atexit_ok <;> simp [h0]

/-- C22. Raw-mode conservation, the terminal attributes being explicit
state.  For every `readline` call on a terminal that returns, by a submit key
or because the input ended, entered with `in_raw = 0` (its value at start and
after every call that has restored the terminal), whether `tcgetattr` and the
`tcsetattr` of `rl_term_raw` succeed or fail, and the `tcsetattr` of
`rl_term_unraw` doing what it is asked: the attributes after the call are
those before it, and `in_raw` is `0` again.  When `rl_term_raw` has set raw
mode, `rl_term_unraw` sets exactly the attributes `rl_term_raw` saved. -/
theorem C22_raw_mode_conservation {τ : Type} (RL_MAX_LENGTH RL_HISTORY_HEIGHT junk : Nat)
    (gc : Option rl_get_completion_fn) (make_raw : τ → τ) (atexit_res get_ok set_ok : Bool)
    (prompt : List Nat) (string : Option (List Nat)) (input : List Nat)
    (s s1 : rl_state_t) (t t1 : rl_term_t τ) (r : List Nat) (h0 : t.in_raw = 0)
    (hret : readline_tty RL_MAX_LENGTH RL_HISTORY_HEIGHT junk gc make_raw atexit_res get_ok
      set_ok true prompt string input s t = some (r, s1, t1)) :
    t1.attrs = t.attrs ∧ t1.in_raw = 0 ∧
    ((rl_term_raw make_raw atexit_res true true t).1.attrs = make_raw t.attrs ∧
      (rl_term_raw make_raw atexit_res true true t).1.term_old = t.attrs ∧
      (rl_term_unraw true (rl_term_raw make_raw atexit_res true true t).1).1.attrs
        = (rl_term_raw make_raw atexit_res true true t).1.term_old) := by
  have h := term_raw_unraw make_raw atexit_res get_ok set_ok t h0
  unfold readline_tty at hret
  simp only at hret
  split at hret
  · simp at hret
  · have he := Option.some.inj hret
    have ht : t1 = (rl_term_unraw true
        (rl_term_raw make_raw atexit_res get_ok set_ok t).1).1 := by
      rw [← (Prod.mk.inj (Prod.mk.inj he).2).2]
    rw [ht]
    refine ⟨h.1, h.2, ?_, ?_, ?_⟩
    · unfold rl_term_raw
      cases hA : t.atexit_ok <;> simp
    · unfold rl_term_raw
      cases hA : t.atexit_ok <;> simp
    · unfold rl_term_raw rl_term_unraw
      cases hA : t.atexit_ok <;> simp

/-- C22 on a terminal whose attributes are the number 7, raw mode being
`7 + 100`: "hi" then `\r`, and an input that ends after "h". -/
theorem C22_raw_mode_conservation_witness :
    (readline_tty 16 8 5 none (fun a : Nat => a + 100) true true true true [0x3E] none
        [0x68, 0x69, 0x0D] ⟨[], [], 0, 0, ⟨none, [], 0⟩, [], 0⟩ ⟨7, 0, 0, false⟩
      = some ([0x68, 0x69],
          ⟨[0x68, 0x69], [0x68, 0x69], 2, 1, ⟨none, [[0x68, 0x69]], 1⟩, [0x3E], 1⟩,
          ⟨7, 7, 0, true⟩)) ∧
    (7 : Nat) = 7 ∧ (0 : Int) = 0 ∧
    (readline_tty 16 8 5 none (fun a : Nat => a + 100) true true true true [0x3E] none
        [0x68] ⟨[], [], 0, 0, ⟨none, [], 0⟩, [], 0⟩ ⟨7, 0, 0, false⟩
      = some ([0x68],
          ⟨[0x68], [0x68], 1, 0, ⟨none, [[0x68]], 1⟩, [0x3E], 1⟩, ⟨7, 7, 0, true⟩)) :=
  ⟨by decide,
   (C22_raw_mode_conservation 16 8 5 none (fun a : Nat => a + 100) true true true [0x3E] none
      [0x68, 0x69, 0x0D] ⟨[], [], 0, 0, ⟨none, [], 0⟩, [], 0⟩
      ⟨[0x68, 0x69], [0x68, 0x69], 2, 1, ⟨none, [[0x68, 0x69]], 1⟩, [0x3E], 1⟩
      ⟨7, 0, 0, false⟩ ⟨7, 7, 0, true⟩ [0x68, 0x69] rfl (by decide)).1,
   (C22_raw_mode_conservation 16 8 5 none (fun a : Nat => a + 100) true true true [0x3E] none
      [0x68, 0x69, 0x0D] ⟨[], [], 0, 0, ⟨none, [], 0⟩, [], 0⟩
      ⟨[0x68, 0x69], [0x68, 0x69], 2, 1, ⟨none, [[0x68, 0x69]], 1⟩, [0x3E], 1⟩
      ⟨7, 0, 0, false⟩ ⟨7, 7, 0, true⟩ [0x68, 0x69] rfl (by decide)).2.1,
   by decide⟩

/-! ## C26: wrap-aware cursor motion -/

/-- What `rl_move` emits with a column count that is not zero, by natural
number division of the positions. -/
theorem rl_move_cols (RL_MAX_LENGTH cols : Nat) (n : Int) (s : rl_state_t) (q : Nat)
    (hcols : 0 < cols)
    (hq : (q : Int) = (s.cur_pos : Int) + (s.prompt_width : Int) + n) :
    rl_move RL_MAX_LENGTH cols n s =
      some
        ((if q % cols < (s.cur_pos + s.prompt_width) % cols then
            [rl_out_t.cur_left ((s.cur_pos + s.prompt_width) % cols - q % cols)]
          else if (s.cur_pos + s.prompt_width) % cols < q % cols then
            [rl_out_t.cur_right (q % cols - (s.cur_pos + s.prompt_width) % cols)]
          else []) ++
         (if q / cols < (s.cur_pos + s.prompt_width) / cols then
            [rl_out_t.cur_up ((s.cur_pos + s.prompt_width) / cols - q / cols)]
          else if (s.cur_pos + s.prompt_width) / cols < q / cols then
            [rl_out_t.cur_down (q / cols - (s.cur_pos + s.prompt_width) / cols)]
          else [])) ∧
    n = (cols : Int) *
          (((q / cols : Nat) : Int) - (((s.cur_pos + s.prompt_width) / cols : Nat) : Int)) +
        (((q % cols : Nat) : Int) - (((s.cur_pos + s.prompt_width) % cols : Nat) : Int)) := by
  have hp : (s.cur_pos : Int) + (s.prompt_width : Int)
      = ((s.cur_pos + s.prompt_width : Nat) : Int) := by push_cast; rfl
  have hq1 : (s.cur_pos : Int) + (s.prompt_width : Int) + n = (q : Int) := hq.symm
  have d1 : Int.tdiv ((s.cur_pos + s.prompt_width : Nat) : Int) (cols : Int)
      = (((s.cur_pos + s.prompt_width) / cols : Nat) : Int) := (Int.ofNat_tdiv _ _).symm
  have d2 : Int.tdiv (q : Int) (cols : Int) = ((q / cols : Nat) : Int) :=
    (Int.ofNat_tdiv _ _).symm
  have m1 : Int.tmod ((s.cur_pos + s.prompt_width : Nat) : Int) (cols : Int)
      = (((s.cur_pos + s.prompt_width) % cols : Nat) : Int) := (Int.ofNat_tmod _ _).symm
  have m2 : Int.tmod (q : Int) (cols : Int) = ((q % cols : Nat) : Int) :=
    (Int.ofNat_tmod _ _).symm
  constructor
  · unfold rl_move
    rw [if_neg (by omega)]
    simp only [hq1]
    simp only [hp, d1, d2, m1, m2, Nat.cast_lt, gt_iff_lt, Int.toNat_sub]
  · have e1 := Nat.div_add_mod q cols
    have e2 := Nat.div_add_mod (s.cur_pos + s.prompt_width) cols
    have e1i : (cols : Int) * ((q / cols : Nat) : Int) + ((q % cols : Nat) : Int) = (q : Int) := by
      exact_mod_cast e1
    have e2i : (cols : Int) * (((s.cur_pos + s.prompt_width) / cols : Nat) : Int)
        + (((s.cur_pos + s.prompt_width) % cols : Nat) : Int)
        = ((s.cur_pos + s.prompt_width : Nat) : Int) := by
      exact_mod_cast e2
    rw [Int.mul_sub]
    omega


/-- C26. Wrap-aware cursor motion.  For every column count `cols > 0`, every
absolute position `p = cur_pos + prompt_width` and every count `n` with
`p + n = q ≥ 0`, `rl_move(n)` emits at most one horizontal move, of
`|q mod cols - p mod cols|` columns (left when the difference is negative,
right when positive, none when zero), and then at most one vertical move, of
`|q div cols - p div cols|` rows (up when negative, down when positive, none
when zero); and `n = cols * (row delta) + (column delta)`.  It emits nothing
else and assigns no field of the state. -/
theorem C26_wrap_aware_motion (RL_MAX_LENGTH cols : Nat) (n : Int) (s : rl_state_t) (q : Nat)
    (hcols : 0 < cols)
    (hq : (q : Int) = (s.cur_pos : Int) + (s.prompt_width : Int) + n) :
    rl_move RL_MAX_LENGTH cols n s =
      some
        ((if q % cols < (s.cur_pos + s.prompt_width) % cols then
            [rl_out_t.cur_left ((s.cur_pos + s.prompt_width) % cols - q % cols)]
          else if (s.cur_pos + s.prompt_width) % cols < q % cols then
            [rl_out_t.cur_right (q % cols - (s.cur_pos + s.prompt_width) % cols)]
          else []) ++
         (if q / cols < (s.cur_pos + s.prompt_width) / cols then
            [rl_out_t.cur_up ((s.cur_pos + s.prompt_width) / cols - q / cols)]
          else if (s.cur_pos + s.prompt_width) / cols < q / cols then
            [rl_out_t.cur_down (q / cols - (s.cur_pos + s.prompt_width) / cols)]
          else [])) ∧
    n = (cols : Int) *
          (((q / cols : Nat) : Int) - (((s.cur_pos + s.prompt_width) / cols : Nat) : Int)) +
        (((q % cols : Nat) : Int) - (((s.cur_pos + s.prompt_width) % cols : Nat) : Int)) := by
  have hp : (s.cur_pos : Int) + (s.prompt_width : Int)
      = ((s.cur_pos + s.prompt_width : Nat) : Int) := by push_cast; rfl
  have hq1 : (s.cur_pos : Int) + (s.prompt_width : Int) + n = (q : Int) := hq.symm
  have d1 : Int.tdiv ((s.cur_pos + s.prompt_width : Nat) : Int) (cols : Int)
      = (((s.cur_pos + s.prompt_width) / cols : Nat) : Int) := (Int.ofNat_tdiv _ _).symm
  have d2 : Int.tdiv (q : Int) (cols : Int) = ((q / cols : Nat) : Int) :=
    (Int.ofNat_tdiv _ _).symm
  have m1 : Int.tmod ((s.cur_pos + s.prompt_width : Nat) : Int) (cols : Int)
      = (((s.cur_pos + s.prompt_width) % cols : Nat) : Int) := (Int.ofNat_tmod _ _).symm
  have m2 : Int.tmod (q : Int) (cols : Int) = ((q % cols : Nat) : Int) :=
    (Int.ofNat_tmod _ _).symm
  constructor
  · unfold rl_move
    rw [if_neg (by omega)]
    simp only [hq1]
    simp only [hp, d1, d2, m1, m2, Nat.cast_lt, gt_iff_lt, Int.toNat_sub]
  · have e1 := Nat.div_add_mod q cols
    have e2 := Nat.div_add_mod (s.cur_pos + s.prompt_width) cols
    have e1i : (cols : Int) * ((q / cols : Nat) : Int) + ((q % cols : Nat) : Int) = (q : Int) := by
      exact_mod_cast e1
    have e2i : (cols : Int) * (((s.cur_pos + s.prompt_width) / cols : Nat) : Int)
        + (((s.cur_pos + s.prompt_width) % cols : Nat) : Int)
        = ((s.cur_pos + s.prompt_width : Nat) : Int) := by
      exact_mod_cast e2
    rw [Int.mul_sub]
    omega


/-- C26 with 10 columns, a prompt of 2 cells and the cursor at glyph 7
(position 9): a move by 3 goes 7 columns left and one row down; a move by
-9 goes 9 columns left. -/
theorem C26_wrap_aware_motion_witness :
    rl_move 16 10 3 ⟨[], List.replicate 12 0x61, 7, 0, ⟨none, [], 0⟩, [0x3E, 0x20], 2⟩
      = some [rl_out_t.cur_left 7, rl_out_t.cur_down 1] ∧
    rl_move 16 10 (-9) ⟨[], List.replicate 12 0x61, 7, 0, ⟨none, [], 0⟩, [0x3E, 0x20], 2⟩
      = some [rl_out_t.cur_left 9] :=
  ⟨(C26_wrap_aware_motion 16 10 3
      ⟨[], List.replicate 12 0x61, 7, 0, ⟨none, [], 0⟩, [0x3E, 0x20], 2⟩ 12
      (by decide) (by decide)).1.trans (by decide),
   (C26_wrap_aware_motion 16 10 (-9)
      ⟨[], List.replicate 12 0x61, 7, 0, ⟨none, [], 0⟩, [0x3E, 0x20], 2⟩ 0
      (by decide) (by decide)).1.trans (by decide)⟩

/-! ## C29: resize handling -/

/-- C29, failing input.  In a build with `RL_WINDOW_WIDTH`, when the
terminal reports `ws_col = 0` to the `TIOCGWINSZ` of `rl_window_init`, the
window tracker records `cols = 0`; after the next resize signal
`rl_update_window` takes `cols` from it and divides `prompt_width + length`
by it, whatever the size query reports this time.  `rl_move`, which the same
window reaches, tests `cols` for zero before it divides: with `cols = 0` a
move left by one is one backspace, and in a state within the cursor
invariant the move of `rlc_cursor_home` that comes before the division is
formatted inside its buffer. -/
theorem C29_resize_divides_by_zero (RL_WINDOW_WIDTH RL_MAX_LENGTH : Nat) (ioctl : Option Nat)
    (w0 : rl_window_t) (s : rl_state_t) :
    (rl_window_init RL_WINDOW_WIDTH (some 0) w0).cols = 0 ∧
    rl_update_window RL_WINDOW_WIDTH RL_MAX_LENGTH ioctl
      (sig_winch (rl_window_init RL_WINDOW_WIDTH (some 0) w0)) s = none ∧
    rl_move (RL_MAX_LENGTH + 1) 0 (-1) s = some [rl_out_t.bytes [0x08]] ∧
    (cursor_inv RL_MAX_LENGTH s →
      ∃ o, rl_move RL_MAX_LENGTH 0 (-(s.cur_pos : Int)) s = some o) := by
  refine ⟨rfl, ?_, ?_, fun hinv =>
    rl_move_left_some RL_MAX_LENGTH 0 s.cur_pos s (by have := hinv.1; have := hinv.2; omega)⟩
  · have hw : sig_winch (rl_window_init RL_WINDOW_WIDTH (some 0) w0) = ⟨0, true⟩ := rfl
    rw [hw]
    unfold rl_update_window
    simp only [if_true]
    split <;> rfl
  unfold rl_move rl_write_cur_left
  simp only [if_true]
  rw [if_pos (by decide), if_pos (by simp)]
  rfl

theorem rl_move_cols_some (RL_MAX_LENGTH cols : Nat) (count : Int) (s : rl_state_t)
    (h : 0 < cols) : ∃ o, rl_move RL_MAX_LENGTH cols count s = some o := by
  unfold rl_move
  rw [if_neg (by omega)]
  exact ⟨_, rfl⟩

/-- What `rl_update_window` returns when it returns: the window after
`rl_window_update()` and the session state it was called in. -/
theorem rl_update_window_some (RL_WINDOW_WIDTH RL_MAX_LENGTH : Nat) (ioctl : Option Nat)
    (w w1 : rl_window_t) (s s1 : rl_state_t)
    (h : rl_update_window RL_WINDOW_WIDTH RL_MAX_LENGTH ioctl w s = some (w1, s1)) :
    w1 = rl_window_update RL_WINDOW_WIDTH ioctl w ∧ s1 = s := by
  unfold rl_update_window at h
  cases hn : w.need_update
  · rw [hn] at h
    simp only [Bool.false_eq_true, if_false] at h
    have he := Prod.mk.inj (Option.some.inj h)
    refine ⟨?_, he.2.symm⟩
    rw [← he.1]
    unfold rl_window_update
    rw [if_neg (by simp [hn])]
  · rw [hn] at h
    simp only [if_true] at h
    split at h
    · simp at h
    · split at h
      · simp at h
      · split at h
        · simp at h
        · rename_i s2 hs2
          split at h
          · simp at h
          · have he := Prod.mk.inj (Option.some.inj h)
            have h2 := rl_redraw_some _ _ _ _ _ _ hs2
            refine ⟨he.1.symm, ?_⟩
            rw [← he.2, h2]
            rfl

/-- Resize with a column count that is not zero.  For a window whose
recorded column count is positive, `rl_update_window` divides by a non-zero
divisor.  Without a pending resize nothing changes.  With one, the window
then holds the column count the size query reports (`RL_WINDOW_WIDTH` when
the query fails) with the flag cleared, and, that count being positive too,
`rl_update_window` returns, leaving the session state as it was, exactly
when the encoded line, the `tail` spaces and a NUL fit the
`buf[RL_MAX_LENGTH*3]` of `rl_update_tail`, where
`tail = (1 + rl_window.cols - cols) * ((prompt_width + length) / cols)` or
`0` when that is negative; a window made wider can make `tail` too large.
Whenever it returns, the session state is the one it was called in. -/
theorem resize_with_columns (RL_WINDOW_WIDTH RL_MAX_LENGTH : Nat) (ioctl : Option Nat)
    (w : rl_window_t) (s : rl_state_t) (tail : Int) (hcols : 0 < w.cols)
    (hM : 1 ≤ RL_MAX_LENGTH)
    (htail : tail = (1 + ((rl_window_update RL_WINDOW_WIDTH ioctl w).cols : Int)
        - (w.cols : Int)) * (((s.prompt_width : Int) + (s.length : Int)).tdiv w.cols)) :
    (w.need_update = false →
      rl_update_window RL_WINDOW_WIDTH RL_MAX_LENGTH ioctl w s = some (w, s)) ∧
    (w.need_update = true →
      (rl_window_update RL_WINDOW_WIDTH ioctl w).need_update = false ∧
      (rl_window_update RL_WINDOW_WIDTH ioctl w).cols = ioctl.getD RL_WINDOW_WIDTH) ∧
    (w.need_update = true → 0 < (rl_window_update RL_WINDOW_WIDTH ioctl w).cols →
      ((gtoutf8 s.line (-1)).length + (if tail ≥ 0 then tail.toNat else 0) + 1
          ≤ RL_MAX_LENGTH * 3 →
        rl_update_window RL_WINDOW_WIDTH RL_MAX_LENGTH ioctl w s
          = some (rl_window_update RL_WINDOW_WIDTH ioctl w, s)) ∧
      (RL_MAX_LENGTH * 3
          < (gtoutf8 s.line (-1)).length + (if tail ≥ 0 then tail.toNat else 0) + 1 →
        rl_update_window RL_WINDOW_WIDTH RL_MAX_LENGTH ioctl w s = none)) ∧
    (∀ w1 s1, rl_update_window RL_WINDOW_WIDTH RL_MAX_LENGTH ioctl w s = some (w1, s1) →
      w1 = rl_window_update RL_WINDOW_WIDTH ioctl w ∧ s1 = s) := by
  refine ⟨?_, ?_, ?_, fun w1 s1 h => rl_update_window_some _ _ _ _ _ _ _ h⟩
  · intro hn
    unfold rl_update_window
    rw [if_neg (by simp [hn])]
  · intro hn
    unfold rl_window_update
    rw [if_pos hn]
    cases ioctl <;> exact ⟨rfl, rfl⟩
  · intro hn hc1
    obtain ⟨o1, ho1⟩ := rl_move_cols_some RL_MAX_LENGTH w.cols (-(s.cur_pos : Int)) s hcols
    have hwp : rl_write_part RL_MAX_LENGTH 0 ((rlc_cursor_home s).cur_pos : Int)
        (rlc_cursor_home s) = some [] := by
      unfold rl_write_part
      have : gtoutf8 (List.drop 0 (rlc_cursor_home s).line) ((rlc_cursor_home s).cur_pos : Int)
          = [] := by
        show gtoutf8 s.line 0 = []
        cases s.line with
        | nil => rfl
        | cons x t =>
          unfold gtoutf8
          split <;> simp
      simp only [this, List.length_nil]
      rw [if_pos (by omega)]
    obtain ⟨o2, ho2⟩ := rl_move_cols_some RL_MAX_LENGTH
      (rl_window_update RL_WINDOW_WIDTH ioctl w).cols
      (-(((rlc_cursor_home s).cur_pos : Int) + ((rlc_cursor_home s).prompt_width : Int)))
      (rlc_cursor_home s) hc1
    have hdrop : (rlc_cursor_home s).line.drop (rlc_cursor_home s).cur_pos = s.line := by
      simp [rlc_cursor_home]
    constructor
    · intro hfit
      unfold rl_update_window
      rw [if_pos hn]
      simp only [ho1]
      rw [if_neg (by omega)]
      rw [show (rlc_cursor_home s).prompt_width = s.prompt_width from rfl,
        show (rlc_cursor_home s).length = s.length from rfl, ← htail]
      unfold rl_redraw
      simp only [if_true, ho2, hwp]
      unfold rl_update_tail_out
      simp only [hdrop]
      rw [if_pos hfit]
      have hmv : ∀ c : Nat, ∀ t : rl_state_t, ∃ o, (if c > 0 then
          rl_move RL_MAX_LENGTH (rl_window_update RL_WINDOW_WIDTH ioctl w).cols (-(c : Int)) t
          else some []) = some o := by
        intro c t
        by_cases h0 : c > 0
        · rw [if_pos h0]
          exact rl_move_cols_some _ _ _ _ hc1
        · rw [if_neg h0]
          exact ⟨_, rfl⟩
      obtain ⟨o3, ho3⟩ := hmv _ _
      rw [ho3]
      simp only [rl_update_tail_eq]
      obtain ⟨o4, ho4⟩ := rl_move_cols_some RL_MAX_LENGTH
        (rl_window_update RL_WINDOW_WIDTH ioctl w).cols (s.cur_pos : Int) (rlc_cursor_home s) hc1
      rw [ho4]
      rfl
    · intro hbig
      unfold rl_update_window
      rw [if_pos hn]
      simp only [ho1]
      rw [if_neg (by omega)]
      rw [show (rlc_cursor_home s).prompt_width = s.prompt_width from rfl,
        show (rlc_cursor_home s).length = s.length from rfl, ← htail]
      unfold rl_redraw
      simp only [if_true, ho2, hwp]
      unfold rl_update_tail_out
      simp only [hdrop]
      rw [if_neg (by omega)]

/-- Two resizes of the line "hi" after the prompt ">", `RL_MAX_LENGTH = 8`:
from 80 to 100 columns `tail = 0` and the state is left as it was; from 2 to
80 columns `tail = 79` and `rl_update_tail` has 82 bytes for its buffer of
24. -/
theorem resize_with_columns_witness :
    rl_update_window 80 8 (some 100) ⟨80, true⟩
        ⟨[], [0x68, 0x69], 1, 0, ⟨none, [], 0⟩, [0x3E], 1⟩
      = some (⟨100, false⟩, ⟨[], [0x68, 0x69], 1, 0, ⟨none, [], 0⟩, [0x3E], 1⟩) ∧
    rl_update_window 80 8 (some 80) ⟨2, true⟩
        ⟨[], [0x68, 0x69], 1, 0, ⟨none, [], 0⟩, [0x3E], 1⟩ = none :=
  ⟨((resize_with_columns 80 8 (some 100) ⟨80, true⟩
      ⟨[], [0x68, 0x69], 1, 0, ⟨none, [], 0⟩, [0x3E], 1⟩ 0 (by decide) (by decide)
      (by decide)).2.2.1 rfl (by decide)).1 (by decide),
   ((resize_with_columns 80 8 (some 80) ⟨2, true⟩
      ⟨[], [0x68, 0x69], 1, 0, ⟨none, [], 0⟩, [0x3E], 1⟩ 79 (by decide) (by decide)
      (by decide)).2.2.1 rfl (by decide)).2 (by decide)⟩

/-! ## C23: what reaches the screen -/

/-- C23, failing input.  With `RL_MAX_LENGTH = n + 3` for any `n`, any prompt
and any window: the line of `n + 2` glyphs U+20AC with the cursor at its
start satisfies the cursor invariant, and the dispatch of `C-e`
(`rlc_cursor_end`) formats the `3 * (n + 2)` bytes of the line and a
terminator in the `2 * (n + 3)` bytes of the local buffer of `rl_write_part`:
what it hands to `rl_out` comes from a buffer written past its end.  The
state can be reached by typing: the `C-a` that brings the cursor to the start
emits one move, through `rl_printf`. -/
theorem C23_cursor_end_output_overruns (n cols : Nat) (prompt : List Nat) (pw : Nat)
    (hist : rl_history_t) :
    cursor_inv (n + 3) ⟨[], List.replicate (n + 2) 0x20AC, 0, 0, hist, prompt, pw⟩ ∧
    rl_find_command rl_commands [0x05] = some rl_handler.cursor_end ∧
    rlc_cursor_end_out (n + 3)
      ⟨[], List.replicate (n + 2) 0x20AC, 0, 0, hist, prompt, pw⟩ = none ∧
    rlc_cursor_home
      ⟨[], List.replicate (n + 2) 0x20AC, n + 2, 0, hist, prompt, pw⟩
      = ⟨[], List.replicate (n + 2) 0x20AC, 0, 0, hist, prompt, pw⟩ ∧
    (∃ mv, rlc_cursor_home_out (n + 3) (cols + 1)
      ⟨[], List.replicate (n + 2) 0x20AC, n + 2, 0, hist, prompt, pw⟩ = some mv) := by
  have hne : ∀ x ∈ List.replicate (n + 2) 0x20AC, x ≠ 0 := fun x hx => by
    rw [List.eq_of_mem_replicate hx]; decide
  have e1 : gtoutf8 (List.replicate (n + 2) 0x20AC) (-1) =
      encode_all (List.replicate (n + 2) 0x20AC) :=
    gtoutf8_eq_encode_all _ hne (-1) (Or.inl (by decide))
  have hl := encode_all_replicate_euro (n + 2)
  refine ⟨⟨by simp [rl_state_t.length], by simp [rl_state_t.length]⟩, by decide, ?_, rfl, ?_⟩
  · unfold rlc_cursor_end_out rl_write_part_out rl_write_part
    simp only [List.drop_zero, e1]
    rw [if_neg (by omega)]
    rfl
  · unfold rlc_cursor_home_out rl_move
    rw [if_neg (by omega)]
    exact ⟨_, rfl⟩

/-! ## C24: contents of the sequence buffer that are not closed -/

/-- What `utf8_to_glyph` returns on a string with a first byte, read off the
bytes; a cell past the end of the list counts as `0`. -/
theorem utf8_to_glyph_cons (junk b0 : Nat) (rest : List Nat) :
    utf8_to_glyph junk (b0 :: rest) =
      some (if b0 &&& 0x80 = 0 then (b0, 1)
        else if b0 &&& 0xE0 = 0xC0 then
          (if rest.getD 0 0 &&& 0xC0 = 0x80 then
            (((b0 &&& 0x1F) <<< 6) + (rest.getD 0 0 &&& 0x3F), 2)
          else (0, 0))
        else if b0 &&& 0xF0 = 0xE0 then
          (if rest.getD 0 0 &&& 0xC0 = 0x80 then
            (if rest.getD 1 0 &&& 0xC0 = 0x80 then
              (((b0 &&& 0xF) <<< 12) + ((rest.getD 0 0 &&& 0x3F) <<< 6)
                + (rest.getD 1 0 &&& 0x3F), 3)
            else (0, 0))
          else (0, 0))
        else (junk, 0)) := by
  have h1 : byteAt (b0 :: rest) 1 = some (rest.getD 0 0) := by
    rw [byteAt_le _ 1 (by simp)]
    rfl
  unfold utf8_to_glyph
  rw [byteAt_zero_cons]
  simp only [h1]
  by_cases c1 : b0 &&& 0x80 = 0
  · simp only [if_pos c1]
  · simp only [if_neg c1]
    by_cases c2 : b0 &&& 0xE0 = 0xC0
    · simp only [if_pos c2]
      split <;> rfl
    · simp only [if_neg c2]
      by_cases c3 : b0 &&& 0xF0 = 0xE0
      · simp only [if_pos c3]
        by_cases c4 : rest.getD 0 0 &&& 0xC0 = 0x80
        · simp only [if_pos c4]
          have hne : rest ≠ [] := by
            intro he
            rw [he] at c4
            exact absurd c4 (by decide)
          have h2 : byteAt (b0 :: rest) 2 = some (rest.getD 1 0) := by
            rw [byteAt_le _ 2 (by
              cases rest with
              | nil => exact absurd rfl hne
              | cons x xs => simp)]
            rfl
          simp only [h2]
          split <;> rfl
        · simp only [if_neg c4]
      · simp only [if_neg c3]

theorem getD_append_lt (l ext : List Nat) (i : Nat) (h : i < l.length) :
    (l ++ ext).getD i 0 = l.getD i 0 := by
  rw [List.getD_eq_getElem _ 0 (by simp; omega), List.getD_eq_getElem _ 0 h,
    List.getElem_append_left h]

theorem cont_nonzero (b : Nat) (h : b &&& 0xC0 = 0x80) : b ≠ 0 := by
  intro h0
  rw [h0] at h
  exact absurd h (by decide)

theorem getD_ne_zero_lt (l : List Nat) (i : Nat) (h : l.getD i 0 ≠ 0) : i < l.length := by
  by_contra hge
  exact h (List.getD_eq_default _ _ (by omega))

/-- A glyph decoded from bytes that are all in the string is decoded the same
whatever follows the string. -/
theorem utf8_to_glyph_append (junk : Nat) (c ext : List Nat) (g a : Nat)
    (h : utf8_to_glyph junk c = some (g, a)) (ha : 1 ≤ a) (hc : c ≠ []) :
    utf8_to_glyph junk (c ++ ext) = some (g, a) ∧ a ≤ c.length := by
  cases c with
  | nil => exact absurd rfl hc
  | cons b0 rest =>
    rw [utf8_to_glyph_cons] at h
    rw [List.cons_append, utf8_to_glyph_cons]
    by_cases c1 : b0 &&& 0x80 = 0
    · simp only [if_pos c1] at h ⊢
      have := (Prod.mk.inj (Option.some.inj h)).2
      exact ⟨h, by simp; omega⟩
    · simp only [if_neg c1] at h ⊢
      by_cases c2 : b0 &&& 0xE0 = 0xC0
      · simp only [if_pos c2] at h ⊢
        by_cases c4 : rest.getD 0 0 &&& 0xC0 = 0x80
        · have hl := getD_ne_zero_lt rest 0 (cont_nonzero _ c4)
          rw [getD_append_lt rest ext 0 hl]
          simp only [if_pos c4] at h ⊢
          have := (Prod.mk.inj (Option.some.inj h)).2
          exact ⟨h, by simp; omega⟩
        · simp only [if_neg c4] at h
          have := (Prod.mk.inj (Option.some.inj h)).2
          omega
      · simp only [if_neg c2] at h ⊢
        by_cases c3 : b0 &&& 0xF0 = 0xE0
        · simp only [if_pos c3] at h ⊢
          by_cases c4 : rest.getD 0 0 &&& 0xC0 = 0x80
          · have hl := getD_ne_zero_lt rest 0 (cont_nonzero _ c4)
            rw [getD_append_lt rest ext 0 hl]
            simp only [if_pos c4] at h ⊢
            by_cases c5 : rest.getD 1 0 &&& 0xC0 = 0x80
            · have hl1 := getD_ne_zero_lt rest 1 (cont_nonzero _ c5)
              rw [getD_append_lt rest ext 1 hl1]
              simp only [if_pos c5] at h ⊢
              have := (Prod.mk.inj (Option.some.inj h)).2
              exact ⟨h, by simp; omega⟩
            · simp only [if_neg c5] at h
              have := (Prod.mk.inj (Option.some.inj h)).2
              omega
          · simp only [if_neg c4] at h
            have := (Prod.mk.inj (Option.some.inj h)).2
            omega
        · simp only [if_neg c3] at h
          have := (Prod.mk.inj (Option.some.inj h)).2
          omega

theorem takeWhile_length_le (p : Nat → Bool) (l : List Nat) :
    (l.takeWhile p).length ≤ l.length := by
  induction l with
  | nil => simp
  | cons x t ih =>
    rw [List.takeWhile_cons]
    split
    · simp only [List.length_cons]; omega
    · simp

/-- The value of `skip_char_seq` when the first glyph is ESC, decoded from
`a` bytes that are all in the string, read off the bytes that follow. -/
theorem skip_char_seq_esc (junk : Nat) (c : List Nat) (a : Nat)
    (h : utf8_to_glyph junk c = some (0x1B, a)) (ha : a ≤ c.length) :
    skip_char_seq junk c =
      if c.getD a 0 = 0x5B ∨ c.getD a 0 = 0x4F then
        if 64 ≤ c.getD (a + 1 + ((c.drop (a + 1)).takeWhile
              (fun c => (0x30 ≤ c ∧ c ≤ 0x39) ∨ c = 0x3B)).length) 0 ∧
            c.getD (a + 1 + ((c.drop (a + 1)).takeWhile
              (fun c => (0x30 ≤ c ∧ c ≤ 0x39) ∨ c = 0x3B)).length) 0 ≤ 126 then
          some (a + 1 + ((c.drop (a + 1)).takeWhile
              (fun c => (0x30 ≤ c ∧ c ≤ 0x39) ∨ c = 0x3B)).length + 1)
        else some 0
      else if 32 ≤ c.getD a 0 ∧ c.getD a 0 ≤ 127 then some (a + 1 + 1)
      else some 0 := by
  unfold skip_char_seq
  rw [h]
  simp only [ne_eq, not_true_eq_false, if_false]
  rw [byteAt_le c a ha]
  simp only
  by_cases hch : c.getD a 0 = 0x5B ∨ c.getD a 0 = 0x4F
  · simp only [if_pos hch]
    have hlt : a < c.length := by
      apply getD_ne_zero_lt
      rcases hch with e | e <;> rw [e] <;> decide
    have hn := takeWhile_length_le (fun c => decide ((0x30 ≤ c ∧ c ≤ 0x39) ∨ c = 0x3B))
      (c.drop (a + 1))
    rw [List.length_drop] at hn
    rw [byteAt_le c _ (by omega)]
  · simp only [if_neg hch]

theorem getD_append_ge (l ext : List Nat) (j : Nat) :
    (l ++ ext).getD (l.length + j) 0 = ext.getD j 0 := by
  induction l with
  | nil => simp
  | cons x t ih =>
    rw [List.cons_append, List.length_cons, show t.length + 1 + j = (t.length + j) + 1 by omega,
      List.getD_cons_succ]
    exact ih

theorem shift6_ne_esc (x : Nat) : (x <<< 6) + (0x80 &&& 0x3F) ≠ 0x1B := by
  rw [Nat.shiftLeft_eq, show (0x80 &&& 0x3F : Nat) = 0 by decide]
  omega

theorem shift12_6_ne_esc (x y : Nat) : (x <<< 12) + (y <<< 6) + (0x80 &&& 0x3F) ≠ 0x1B := by
  rw [Nat.shiftLeft_eq, Nat.shiftLeft_eq, show (0x80 &&& 0x3F : Nat) = 0 by decide]
  omega

theorem high_bit_ge (b : Nat) (h : ¬ (b &&& 0x80 = 0)) : 128 ≤ b := by
  by_contra hlt
  exact h (low_byte_bits b (by omega))

/-- A first byte `10xxxxxx` or `1111xxxx` is reported not closed, whatever
follows and whatever the unassigned `glyph` holds. -/
theorem skip_char_seq_stray (junk b0 : Nat) (rest : List Nat) (c1 : ¬ (b0 &&& 0x80 = 0))
    (c2 : ¬ (b0 &&& 0xE0 = 0xC0)) (c3 : ¬ (b0 &&& 0xF0 = 0xE0)) :
    skip_char_seq junk (b0 :: rest) = some 0 := by
  have hg : utf8_to_glyph junk (b0 :: rest) = some (junk, 0) := by
    rw [utf8_to_glyph_cons]
    simp only [if_neg c1, if_neg c2, if_neg c3]
  by_cases hj : junk = 0x1B
  · have hg1 : utf8_to_glyph junk (b0 :: rest) = some (0x1B, 0) :=
      hg.trans (congrArg (fun x => some (x, 0)) hj)
    rw [skip_char_seq_esc junk (b0 :: rest) 0 hg1 (by omega)]
    have hb := high_bit_ge b0 c1
    rw [List.getD_cons_zero, if_neg (by omega), if_neg (by omega)]
  · exact skip_char_seq_of_glyph junk _ junk 0 hg hj

/-- `ESC [` followed by `\r` is reported not closed, whatever follows. -/
theorem skip_char_seq_csi_cr (junk : Nat) (ext : List Nat) :
    skip_char_seq junk ([0x1B, 0x5B, 0x0D] ++ ext) = some 0 := by
  have hg : utf8_to_glyph junk ([0x1B, 0x5B, 0x0D] ++ ext) = some (0x1B, 1) :=
    utf8_to_glyph_ascii junk 0x1B _ (by decide)
  rw [skip_char_seq_esc junk _ 1 hg (by simp)]
  have htw : (([0x1B, 0x5B, 0x0D] ++ ext).drop (1 + 1)).takeWhile
      (fun c => decide ((0x30 ≤ c ∧ c ≤ 0x39) ∨ c = 0x3B)) = [] := by
    show List.takeWhile _ (0x0D :: ext) = []
    rw [List.takeWhile_cons]
    rfl
  rw [htw]
  show (if (0x5B : Nat) = 0x5B ∨ (0x5B : Nat) = 0x4F then
      if 64 ≤ (0x0D : Nat) ∧ (0x0D : Nat) ≤ 126 then some (1 + 1 + 0 + 1) else some 0
    else _) = some 0
  rw [if_pos (by decide), if_neg (by decide)]

/-- A lead byte followed by a byte that is not a continuation byte is
reported not closed, whatever follows. -/
theorem skip_char_seq_lead_broken (junk b0 b1 : Nat) (ext : List Nat)
    (hlead : b0 &&& 0xE0 = 0xC0 ∨ b0 &&& 0xF0 = 0xE0) (hb1 : ¬ (b1 &&& 0xC0 = 0x80)) :
    skip_char_seq junk (b0 :: b1 :: ext) = some 0 := by
  have c1 : ¬ (b0 &&& 0x80 = 0) := by
    intro h
    rcases hlead with e | e
    · have h1 : (b0 &&& 0xE0) &&& 0x80 = b0 &&& 0x80 := by
        rw [Nat.and_assoc]; rfl
      rw [e, h] at h1
      exact absurd h1 (by decide)
    · have h1 : (b0 &&& 0xF0) &&& 0x80 = b0 &&& 0x80 := by
        rw [Nat.and_assoc]; rfl
      rw [e, h] at h1
      exact absurd h1 (by decide)
  have hg : utf8_to_glyph junk (b0 :: b1 :: ext) = some (0, 0) := by
    rw [utf8_to_glyph_cons]
    simp only [if_neg c1, List.getD_cons_zero, if_neg hb1]
    by_cases c2 : b0 &&& 0xE0 = 0xC0
    · rw [if_pos c2]
    · rw [if_neg c2]
      rcases hlead with e | e
      · exact absurd e c2
      · rw [if_pos e]
  exact skip_char_seq_of_glyph junk _ 0 0 hg (by decide)

/-! ### The contents that are not closed, form by form -/

theorem esc_glyph_ne_nil (junk : Nat) (e : List Nat)
    (he : utf8_to_glyph junk e = some (0x1B, e.length)) : e ≠ [] := by
  intro h
  rw [h] at he
  exact absurd (Prod.mk.inj (Option.some.inj he)).1 (by decide)

/-- The value of `skip_char_seq` on an encoding `e` of ESC followed by `r`,
read off `r`. -/
theorem skip_char_seq_esc_tail (junk : Nat) (e r : List Nat)
    (he : utf8_to_glyph junk e = some (0x1B, e.length)) :
    skip_char_seq junk (e ++ r) =
      if r.getD 0 0 = 0x5B ∨ r.getD 0 0 = 0x4F then
        if 64 ≤ r.getD (1 + ((r.drop 1).takeWhile
              (fun c => (0x30 ≤ c ∧ c ≤ 0x39) ∨ c = 0x3B)).length) 0 ∧
            r.getD (1 + ((r.drop 1).takeWhile
              (fun c => (0x30 ≤ c ∧ c ≤ 0x39) ∨ c = 0x3B)).length) 0 ≤ 126 then
          some (e.length + 1 + ((r.drop 1).takeWhile
              (fun c => (0x30 ≤ c ∧ c ≤ 0x39) ∨ c = 0x3B)).length + 1)
        else some 0
      else if 32 ≤ r.getD 0 0 ∧ r.getD 0 0 ≤ 127 then some (e.length + 1 + 1)
      else some 0 := by
  have hne := esc_glyph_ne_nil junk e he
  have h1 : 1 ≤ e.length := by
    cases e with
    | nil => exact absurd rfl hne
    | cons _ _ => simp
  have hg := (utf8_to_glyph_append junk e r 0x1B e.length he h1 hne).1
  rw [skip_char_seq_esc junk (e ++ r) e.length hg (by simp)]
  have ha : (e ++ r).getD e.length 0 = r.getD 0 0 := getD_append_ge e r 0
  have hd : (e ++ r).drop (e.length + 1) = r.drop 1 := List.drop_append 1
  have hb : ∀ n, (e ++ r).getD (e.length + 1 + n) 0 = r.getD (1 + n) 0 := by
    intro n
    rw [Nat.add_assoc]
    exact getD_append_ge e r (1 + n)
  rw [ha, hd, hb]

theorem takeWhile_pass (p : Nat → Bool) (ds : List Nat) (hds : ∀ d ∈ ds, p d = true) :
    ds.takeWhile p = ds := by
  induction ds with
  | nil => rfl
  | cons d t ih =>
    rw [List.takeWhile_cons, hds d (List.mem_cons_self _ _)]
    simp only [if_true]
    rw [ih (fun x hx => hds x (List.mem_cons_of_mem _ hx))]

theorem takeWhile_pass_fail (p : Nat → Bool) (ds : List Nat) (z : Nat) (t : List Nat)
    (hds : ∀ d ∈ ds, p d = true) (hz : p z = false) :
    (ds ++ z :: t).takeWhile p = ds := by
  induction ds with
  | nil =>
    rw [List.nil_append, List.takeWhile_cons, hz]
    rfl
  | cons d u ih =>
    rw [List.cons_append, List.takeWhile_cons, hds d (List.mem_cons_self _ _)]
    simp only [if_true]
    rw [ih (fun x hx => hds x (List.mem_cons_of_mem _ hx))]

theorem dropWhile_head_fails (p : Nat → Bool) (l : List Nat) (z : Nat) (t : List Nat)
    (h : l.dropWhile p = z :: t) : p z = false := by
  induction l with
  | nil => simp at h
  | cons x u ih =>
    rw [List.dropWhile_cons] at h
    by_cases hx : p x = true
    · rw [if_pos hx] at h
      exact ih h
    · rw [if_neg hx] at h
      have := (List.cons.inj h).1
      rw [← this]
      simpa using hx

theorem getD_append_cons_length (ds : List Nat) (z : Nat) (t : List Nat) :
    (ds ++ z :: t).getD ds.length 0 = z := by
  have := getD_append_ge ds (z :: t) 0
  rw [Nat.add_zero] at this
  rw [this]
  rfl

/-- An encoding of ESC alone is reported not closed, and `A` after it closes
the token. -/
theorem esc_alone_open (junk : Nat) (e : List Nat)
    (he : utf8_to_glyph junk e = some (0x1B, e.length)) :
    skip_char_seq junk e = some 0 ∧
    skip_char_seq junk (e ++ [0x41]) = some (e.length + 1 + 1) := by
  constructor
  · have := skip_char_seq_esc_tail junk e [] he
    rw [List.append_nil] at this
    rw [this]
    rfl
  · rw [skip_char_seq_esc_tail junk e [0x41] he]
    rfl

/-- An encoding of ESC, `[` or `O`, and parameter bytes only: reported not
closed, and `A` after it closes the token. -/
theorem esc_params_open (junk : Nat) (e : List Nat) (x : Nat) (ds : List Nat)
    (he : utf8_to_glyph junk e = some (0x1B, e.length)) (hx : x = 0x5B ∨ x = 0x4F)
    (hds : ∀ d ∈ ds, (0x30 ≤ d ∧ d ≤ 0x39) ∨ d = 0x3B) :
    skip_char_seq junk (e ++ x :: ds) = some 0 ∧
    skip_char_seq junk (e ++ x :: ds ++ [0x41]) = some (e.length + 1 + ds.length + 1) := by
  have hp : ∀ d ∈ ds, (fun c => decide ((0x30 ≤ c ∧ c ≤ 0x39) ∨ c = 0x3B)) d = true :=
    fun d hd => decide_eq_true (hds d hd)
  constructor
  · rw [skip_char_seq_esc_tail junk e (x :: ds) he]
    rw [List.getD_cons_zero, if_pos hx]
    rw [show (x :: ds).drop 1 = ds from rfl, takeWhile_pass _ ds hp]
    rw [show 1 + ds.length = ds.length + 1 by omega, List.getD_cons_succ,
      List.getD_eq_default _ _ (le_refl _)]
    rw [if_neg (by omega)]
  · rw [List.append_assoc, skip_char_seq_esc_tail junk e (x :: ds ++ [0x41]) he]
    rw [List.cons_append, List.getD_cons_zero, if_pos hx]
    rw [show (x :: (ds ++ [0x41])).drop 1 = ds ++ [0x41] from rfl,
      takeWhile_pass_fail _ ds 0x41 [] hp (by decide)]
    rw [show 1 + ds.length = ds.length + 1 by omega, List.getD_cons_succ,
      getD_append_cons_length]
    rw [if_pos (by omega)]

/-- An encoding of ESC, `[` or `O`, parameter bytes and then a byte that is
neither a parameter byte nor in `64 .. 126`: reported not closed, whatever
follows. -/
theorem esc_params_broken (junk : Nat) (e : List Nat) (x : Nat) (ds : List Nat) (z : Nat)
    (t : List Nat) (he : utf8_to_glyph junk e = some (0x1B, e.length))
    (hx : x = 0x5B ∨ x = 0x4F) (hds : ∀ d ∈ ds, (0x30 ≤ d ∧ d ≤ 0x39) ∨ d = 0x3B)
    (hz : ¬ ((0x30 ≤ z ∧ z ≤ 0x39) ∨ z = 0x3B)) (hz2 : ¬ (64 ≤ z ∧ z ≤ 126)) :
    skip_char_seq junk (e ++ x :: (ds ++ z :: t)) = some 0 := by
  have hp : ∀ d ∈ ds, (fun c => decide ((0x30 ≤ c ∧ c ≤ 0x39) ∨ c = 0x3B)) d = true :=
    fun d hd => decide_eq_true (hds d hd)
  rw [skip_char_seq_esc_tail junk e _ he]
  rw [List.getD_cons_zero, if_pos hx]
  rw [show (x :: (ds ++ z :: t)).drop 1 = ds ++ z :: t from rfl,
    takeWhile_pass_fail _ ds z t hp (decide_eq_false hz)]
  rw [show 1 + ds.length = ds.length + 1 by omega, List.getD_cons_succ,
    getD_append_cons_length]
  rw [if_neg hz2]

/-- An encoding of ESC and then a byte below `0x20` or above `0x7F`: reported
not closed, whatever follows. -/
theorem esc_then_ctl (junk : Nat) (e : List Nat) (b : Nat) (t : List Nat)
    (he : utf8_to_glyph junk e = some (0x1B, e.length)) (hb : b < 0x20 ∨ 0x7F < b) :
    skip_char_seq junk (e ++ b :: t) = some 0 := by
  rw [skip_char_seq_esc_tail junk e _ he]
  rw [List.getD_cons_zero, if_neg (by omega), if_neg (by omega)]

/-- What follows an encoding of ESC in a content reported not closed. -/
theorem esc_tail_forms (junk : Nat) (e r : List Nat)
    (he : utf8_to_glyph junk e = some (0x1B, e.length))
    (h0 : skip_char_seq junk (e ++ r) = some 0) :
    r = [] ∨
    (∃ x ds, (x = 0x5B ∨ x = 0x4F) ∧ (∀ d ∈ ds, (0x30 ≤ d ∧ d ≤ 0x39) ∨ d = 0x3B) ∧
      r = x :: ds) ∨
    (∃ b t, (b < 0x20 ∨ 0x7F < b) ∧ r = b :: t) ∨
    (∃ x ds z t, (x = 0x5B ∨ x = 0x4F) ∧ (∀ d ∈ ds, (0x30 ≤ d ∧ d ≤ 0x39) ∨ d = 0x3B) ∧
      ¬ ((0x30 ≤ z ∧ z ≤ 0x39) ∨ z = 0x3B) ∧ ¬ (64 ≤ z ∧ z ≤ 126) ∧
      r = x :: (ds ++ z :: t)) := by
  cases r with
  | nil => exact Or.inl rfl
  | cons x u =>
    right
    rw [skip_char_seq_esc_tail junk e _ he, List.getD_cons_zero] at h0
    by_cases hx : x = 0x5B ∨ x = 0x4F
    · rw [if_pos hx, show (x :: u).drop 1 = u from rfl] at h0
      have hsplit := List.takeWhile_append_dropWhile
        (fun c => decide ((0x30 ≤ c ∧ c ≤ 0x39) ∨ c = 0x3B)) u
      have hds : ∀ d ∈ u.takeWhile (fun c => decide ((0x30 ≤ c ∧ c ≤ 0x39) ∨ c = 0x3B)),
          (0x30 ≤ d ∧ d ≤ 0x39) ∨ d = 0x3B := by
        intro d hd
        have := List.mem_takeWhile_imp hd
        simpa using this
      cases hdw : u.dropWhile (fun c => decide ((0x30 ≤ c ∧ c ≤ 0x39) ∨ c = 0x3B)) with
      | nil =>
        left
        rw [hdw, List.append_nil] at hsplit
        exact ⟨x, u, hx, by rw [← hsplit]; exact hds, rfl⟩
      | cons z t =>
        right; right
        rw [hdw] at hsplit
        have hz := dropWhile_head_fails _ u z t hdw
        have hzp : ¬ ((0x30 ≤ z ∧ z ≤ 0x39) ∨ z = 0x3B) := by simpa using hz
        have hget : (x :: u).getD (1 + (u.takeWhile
            (fun c => decide ((0x30 ≤ c ∧ c ≤ 0x39) ∨ c = 0x3B))).length) 0 = z := by
          rw [show 1 + (u.takeWhile
            (fun c => decide ((0x30 ≤ c ∧ c ≤ 0x39) ∨ c = 0x3B))).length
              = (u.takeWhile
            (fun c => decide ((0x30 ≤ c ∧ c ≤ 0x39) ∨ c = 0x3B))).length + 1 by omega,
            List.getD_cons_succ]
          nth_rewrite 1 [← hsplit]
          exact getD_append_cons_length _ z t
        rw [hget] at h0
        refine ⟨x, _, z, t, hx, hds, hzp, ?_, by rw [hsplit]⟩
        intro hin
        rw [if_pos hin] at h0
        have := Option.some.inj h0
        omega
    · rw [if_neg hx] at h0
      right; left
      refine ⟨x, u, ?_, rfl⟩
      by_contra hb
      rw [if_pos (by omega)] at h0
      have := Option.some.inj h0
      omega

theorem lead_high_bit (b0 : Nat) (hlead : b0 &&& 0xE0 = 0xC0 ∨ b0 &&& 0xF0 = 0xE0) :
    ¬ (b0 &&& 0x80 = 0) := by
  intro h
  rcases hlead with e | e
  · have h1 : (b0 &&& 0xE0) &&& 0x80 = b0 &&& 0x80 := by
      rw [Nat.and_assoc]; rfl
    rw [e, h] at h1
    exact absurd h1 (by decide)
  · have h1 : (b0 &&& 0xF0) &&& 0x80 = b0 &&& 0x80 := by
      rw [Nat.and_assoc]; rfl
    rw [e, h] at h1
    exact absurd h1 (by decide)

theorem lead3_not_lead2 (b0 : Nat) (h : b0 &&& 0xF0 = 0xE0) : ¬ (b0 &&& 0xE0 = 0xC0) := by
  intro h2
  have h1 : (b0 &&& 0xF0) &&& 0xE0 = b0 &&& 0xE0 := by
    rw [Nat.and_assoc]; rfl
  rw [h, h2] at h1
  exact absurd h1 (by decide)

/-- A lead byte alone is reported not closed, and continuation bytes `0x80`
after it close the token. -/
theorem lead_alone_open (junk b0 : Nat) (hlead : b0 &&& 0xE0 = 0xC0 ∨ b0 &&& 0xF0 = 0xE0) :
    skip_char_seq junk [b0] = some 0 ∧
    ((∃ n, skip_char_seq junk ([b0] ++ [0x80]) = some (n + 1)) ∨
      (∃ n, skip_char_seq junk ([b0] ++ [0x80, 0x80]) = some (n + 1))) := by
  have c1 := lead_high_bit b0 hlead
  constructor
  · have hg : utf8_to_glyph junk [b0] = some (0, 0) := by
      rw [utf8_to_glyph_cons]
      simp only [if_neg c1]
      rcases hlead with c2 | c3
      · simp only [if_pos c2]
        rw [show ([] : List Nat).getD 0 0 = 0 from rfl, if_neg (by decide)]
      · simp only [if_neg (lead3_not_lead2 b0 c3), if_pos c3]
        rw [show ([] : List Nat).getD 0 0 = 0 from rfl, if_neg (by decide)]
    exact skip_char_seq_of_glyph junk _ 0 0 hg (by decide)
  · rcases hlead with c2 | c3
    · left
      refine ⟨1, ?_⟩
      have hg : utf8_to_glyph junk ([b0] ++ [0x80])
          = some (((b0 &&& 0x1F) <<< 6) + (0x80 &&& 0x3F), 2) := by
        rw [List.singleton_append, utf8_to_glyph_cons]
        simp only [if_neg c1, if_pos c2]
        rw [show ([0x80] : List Nat).getD 0 0 = 0x80 from rfl, if_pos (by decide)]
      exact skip_char_seq_of_glyph junk _ _ 2 hg (shift6_ne_esc _)
    · right
      refine ⟨2, ?_⟩
      have hg : utf8_to_glyph junk ([b0] ++ [0x80, 0x80])
          = some (((b0 &&& 0xF) <<< 12) + (((0x80 : Nat) &&& 0x3F) <<< 6)
              + (0x80 &&& 0x3F), 3) := by
        rw [List.singleton_append, utf8_to_glyph_cons]
        simp only [if_neg c1, if_neg (lead3_not_lead2 b0 c3), if_pos c3]
        rw [show ([0x80, 0x80] : List Nat).getD 0 0 = 0x80 from rfl,
          show ([0x80, 0x80] : List Nat).getD 1 0 = 0x80 from rfl, if_pos (by decide),
          if_pos (by decide)]
      exact skip_char_seq_of_glyph junk _ _ 3 hg (shift12_6_ne_esc _ _)

/-- A lead byte of three and one continuation byte are reported not closed,
and one continuation byte `0x80` after them closes the token. -/
theorem lead3_cont_open (junk b0 b1 : Nat) (c3 : b0 &&& 0xF0 = 0xE0)
    (c4 : b1 &&& 0xC0 = 0x80) :
    skip_char_seq junk [b0, b1] = some 0 ∧
    skip_char_seq junk ([b0, b1] ++ [0x80]) = some 3 := by
  have c1 := lead_high_bit b0 (Or.inr c3)
  have c2 := lead3_not_lead2 b0 c3
  constructor
  · have hg : utf8_to_glyph junk [b0, b1] = some (0, 0) := by
      rw [utf8_to_glyph_cons]
      simp only [if_neg c1, if_neg c2, if_pos c3]
      rw [show ([b1] : List Nat).getD 0 0 = b1 from rfl, if_pos c4,
        show ([b1] : List Nat).getD 1 0 = 0 from rfl, if_neg (by decide)]
    exact skip_char_seq_of_glyph junk _ 0 0 hg (by decide)
  · have hg : utf8_to_glyph junk ([b0, b1] ++ [0x80])
        = some (((b0 &&& 0xF) <<< 12) + ((b1 &&& 0x3F) <<< 6) + (0x80 &&& 0x3F), 3) := by
      rw [show [b0, b1] ++ [0x80] = b0 :: [b1, 0x80] from rfl, utf8_to_glyph_cons]
      simp only [if_neg c1, if_neg c2, if_pos c3]
      rw [show ([b1, 0x80] : List Nat).getD 0 0 = b1 from rfl,
        show ([b1, 0x80] : List Nat).getD 1 0 = 0x80 from rfl, if_pos c4,
        if_pos (by decide)]
    exact skip_char_seq_of_glyph junk _ _ 3 hg (shift12_6_ne_esc _ _)

/-- A lead byte of three, a continuation byte and a byte that is not one are
reported not closed, whatever follows. -/
theorem skip_char_seq_lead3_broken (junk b0 b1 b2 : Nat) (ext : List Nat)
    (c3 : b0 &&& 0xF0 = 0xE0) (c4 : b1 &&& 0xC0 = 0x80) (c5 : ¬ (b2 &&& 0xC0 = 0x80)) :
    skip_char_seq junk (b0 :: b1 :: b2 :: ext) = some 0 := by
  have c1 := lead_high_bit b0 (Or.inr c3)
  have c2 := lead3_not_lead2 b0 c3
  have hg : utf8_to_glyph junk (b0 :: b1 :: b2 :: ext) = some (0, 0) := by
    rw [utf8_to_glyph_cons]
    simp only [if_neg c1, if_neg c2, if_pos c3]
    rw [List.getD_cons_zero, List.getD_cons_succ, List.getD_cons_zero, if_pos c4, if_neg c5]
  exact skip_char_seq_of_glyph junk _ 0 0 hg (by decide)

/-- The forms of a content reported not closed that starts with an encoding
of ESC. -/
theorem not_closed_forms_esc (junk : Nat) (c e r : List Nat)
    (he : utf8_to_glyph junk e = some (0x1B, e.length)) (hc : c = e ++ r)
    (h0 : skip_char_seq junk c = some 0) :
    ((∃ e, utf8_to_glyph junk e = some (0x1B, e.length) ∧ c = e) ∨
      (∃ e x ds, utf8_to_glyph junk e = some (0x1B, e.length) ∧ (x = 0x5B ∨ x = 0x4F) ∧
        (∀ d ∈ ds, (0x30 ≤ d ∧ d ≤ 0x39) ∨ d = 0x3B) ∧ c = e ++ x :: ds) ∨
      (∃ b0, (b0 &&& 0xE0 = 0xC0 ∨ b0 &&& 0xF0 = 0xE0) ∧ c = [b0]) ∨
      (∃ b0 b1, b0 &&& 0xF0 = 0xE0 ∧ b1 &&& 0xC0 = 0x80 ∧ c = [b0, b1])) ∨
    ((∃ b0 t, ¬ (b0 &&& 0x80 = 0) ∧ ¬ (b0 &&& 0xE0 = 0xC0) ∧ ¬ (b0 &&& 0xF0 = 0xE0) ∧
        c = b0 :: t) ∨
      (∃ b0 b1 t, (b0 &&& 0xE0 = 0xC0 ∨ b0 &&& 0xF0 = 0xE0) ∧ ¬ (b1 &&& 0xC0 = 0x80) ∧
        c = b0 :: b1 :: t) ∨
      (∃ b0 b1 b2 t, b0 &&& 0xF0 = 0xE0 ∧ b1 &&& 0xC0 = 0x80 ∧ ¬ (b2 &&& 0xC0 = 0x80) ∧
        c = b0 :: b1 :: b2 :: t) ∨
      (∃ e b t, utf8_to_glyph junk e = some (0x1B, e.length) ∧ (b < 0x20 ∨ 0x7F < b) ∧
        c = e ++ b :: t) ∨
      (∃ e x ds z t, utf8_to_glyph junk e = some (0x1B, e.length) ∧ (x = 0x5B ∨ x = 0x4F) ∧
        (∀ d ∈ ds, (0x30 ≤ d ∧ d ≤ 0x39) ∨ d = 0x3B) ∧
        ¬ ((0x30 ≤ z ∧ z ≤ 0x39) ∨ z = 0x3B) ∧ ¬ (64 ≤ z ∧ z ≤ 126) ∧
        c = e ++ x :: (ds ++ z :: t))) := by
  rw [hc] at h0
  rcases esc_tail_forms junk e r he h0 with h | ⟨x, ds, hx, hds, hr⟩ | ⟨b, t, hb, hr⟩
    | ⟨x, ds, z, t, hx, hds, hz, hz2, hr⟩
  · exact Or.inl (Or.inl ⟨e, he, by rw [hc, h, List.append_nil]⟩)
  · exact Or.inl (Or.inr (Or.inl ⟨e, x, ds, he, hx, hds, by rw [hc, hr]⟩))
  · exact Or.inr (Or.inr (Or.inr (Or.inr (Or.inl ⟨e, b, t, he, hb, by rw [hc, hr]⟩))))
  · exact Or.inr (Or.inr (Or.inr (Or.inr (Or.inr
      ⟨e, x, ds, z, t, he, hx, hds, hz, hz2, by rw [hc, hr]⟩))))

/-- Every content reported not closed has one of nine forms: ESC in an
encoding `e` alone; `e`, `[` or `O`, and parameter bytes; a lead byte alone;
a lead byte of three with one continuation byte; or a first byte `10xxxxxx`
or `1111xxxx`; a lead byte and a byte that is not a continuation byte; a
lead byte of three, a continuation byte and a byte that is not one; `e` and
a byte below `0x20` or above `0x7F`; `e`, `[` or `O`, parameter bytes and a
byte that is neither a parameter byte nor in `64 .. 126`. -/
theorem not_closed_forms (junk : Nat) (c : List Nat) (h0 : skip_char_seq junk c = some 0) :
    ((∃ e, utf8_to_glyph junk e = some (0x1B, e.length) ∧ c = e) ∨
      (∃ e x ds, utf8_to_glyph junk e = some (0x1B, e.length) ∧ (x = 0x5B ∨ x = 0x4F) ∧
        (∀ d ∈ ds, (0x30 ≤ d ∧ d ≤ 0x39) ∨ d = 0x3B) ∧ c = e ++ x :: ds) ∨
      (∃ b0, (b0 &&& 0xE0 = 0xC0 ∨ b0 &&& 0xF0 = 0xE0) ∧ c = [b0]) ∨
      (∃ b0 b1, b0 &&& 0xF0 = 0xE0 ∧ b1 &&& 0xC0 = 0x80 ∧ c = [b0, b1])) ∨
    ((∃ b0 t, ¬ (b0 &&& 0x80 = 0) ∧ ¬ (b0 &&& 0xE0 = 0xC0) ∧ ¬ (b0 &&& 0xF0 = 0xE0) ∧
        c = b0 :: t) ∨
      (∃ b0 b1 t, (b0 &&& 0xE0 = 0xC0 ∨ b0 &&& 0xF0 = 0xE0) ∧ ¬ (b1 &&& 0xC0 = 0x80) ∧
        c = b0 :: b1 :: t) ∨
      (∃ b0 b1 b2 t, b0 &&& 0xF0 = 0xE0 ∧ b1 &&& 0xC0 = 0x80 ∧ ¬ (b2 &&& 0xC0 = 0x80) ∧
        c = b0 :: b1 :: b2 :: t) ∨
      (∃ e b t, utf8_to_glyph junk e = some (0x1B, e.length) ∧ (b < 0x20 ∨ 0x7F < b) ∧
        c = e ++ b :: t) ∨
      (∃ e x ds z t, utf8_to_glyph junk e = some (0x1B, e.length) ∧ (x = 0x5B ∨ x = 0x4F) ∧
        (∀ d ∈ ds, (0x30 ≤ d ∧ d ≤ 0x39) ∨ d = 0x3B) ∧
        ¬ ((0x30 ≤ z ∧ z ≤ 0x39) ∨ z = 0x3B) ∧ ¬ (64 ≤ z ∧ z ≤ 126) ∧
        c = e ++ x :: (ds ++ z :: t))) := by
  cases c with
  | nil =>
    have hg : utf8_to_glyph junk [] = some (0, 1) := rfl
    rw [skip_char_seq_of_glyph junk [] 0 1 hg (by decide)] at h0
    exact absurd (Option.some.inj h0) (by decide)
  | cons b0 rest =>
    have hnot : ∀ g a, 1 ≤ a → utf8_to_glyph junk (b0 :: rest) = some (g, a) → g = 0x1B := by
      intro g a ha1 hg
      by_contra hne
      rw [skip_char_seq_of_glyph junk _ g a hg hne] at h0
      have := Option.some.inj h0
      omega
    have hcons := utf8_to_glyph_cons junk b0 rest
    by_cases c1 : b0 &&& 0x80 = 0
    · simp only [if_pos c1] at hcons
      have hb := hnot b0 1 (le_refl _) hcons
      have he : utf8_to_glyph junk [b0] = some (0x1B, [b0].length) := by
        rw [hb]
        exact utf8_to_glyph_ascii junk 0x1B [] (by decide)
      exact not_closed_forms_esc junk _ [b0] rest he rfl h0
    · simp only [if_neg c1] at hcons
      by_cases c2 : b0 &&& 0xE0 = 0xC0
      · simp only [if_pos c2] at hcons
        cases rest with
        | nil => exact Or.inl (Or.inr (Or.inr (Or.inl ⟨b0, Or.inl c2, rfl⟩)))
        | cons b1 t =>
          rw [List.getD_cons_zero] at hcons
          by_cases c4 : b1 &&& 0xC0 = 0x80
          · simp only [if_pos c4] at hcons
            have hb := hnot _ 2 (by omega) hcons
            have he : utf8_to_glyph junk [b0, b1] = some (0x1B, [b0, b1].length) := by
              rw [utf8_to_glyph_cons]
              simp only [if_neg c1, if_pos c2]
              rw [show ([b1] : List Nat).getD 0 0 = b1 from rfl, if_pos c4, hb]
              rfl
            exact not_closed_forms_esc junk _ [b0, b1] t he rfl h0
          · exact Or.inr (Or.inr (Or.inl ⟨b0, b1, t, Or.inl c2, c4, rfl⟩))
      · simp only [if_neg c2] at hcons
        by_cases c3 : b0 &&& 0xF0 = 0xE0
        · simp only [if_pos c3] at hcons
          cases rest with
          | nil => exact Or.inl (Or.inr (Or.inr (Or.inl ⟨b0, Or.inr c3, rfl⟩)))
          | cons b1 t =>
            rw [List.getD_cons_zero, List.getD_cons_succ] at hcons
            by_cases c4 : b1 &&& 0xC0 = 0x80
            · simp only [if_pos c4] at hcons
              cases t with
              | nil => exact Or.inl (Or.inr (Or.inr (Or.inr ⟨b0, b1, c3, c4, rfl⟩)))
              | cons b2 t2 =>
                rw [List.getD_cons_zero] at hcons
                by_cases c5 : b2 &&& 0xC0 = 0x80
                · simp only [if_pos c5] at hcons
                  have hb := hnot _ 3 (by omega) hcons
                  have he : utf8_to_glyph junk [b0, b1, b2]
                      = some (0x1B, [b0, b1, b2].length) := by
                    rw [utf8_to_glyph_cons]
                    simp only [if_neg c1, if_neg c2, if_pos c3]
                    rw [show ([b1, b2] : List Nat).getD 0 0 = b1 from rfl,
                      show ([b1, b2] : List Nat).getD 1 0 = b2 from rfl, if_pos c4,
                      if_pos c5, hb]
                    rfl
                  exact not_closed_forms_esc junk _ [b0, b1, b2] t2 he rfl h0
                · exact Or.inr (Or.inr (Or.inr (Or.inl ⟨b0, b1, b2, t2, c3, c4, c5, rfl⟩)))
            · exact Or.inr (Or.inr (Or.inl ⟨b0, b1, t, Or.inr c3, c4, rfl⟩))
        · exact Or.inr (Or.inl ⟨b0, rest, c1, c2, c3, rfl⟩)

/-- C24, counterexample.  The content `ESC [ \r` of the sequence buffer is
reported not closed, and no continuation of it is reported closed: it is not
a proper prefix of a complete token.  Fed `ESC [ \r a \r`, the read loop
dispatches nothing: the `\r`, the `a` and the second `\r` stay in the
buffer. -/
theorem C24_dead_prefix_counterexample :
    (∀ junk : Nat, skip_char_seq junk [0x1B, 0x5B, 0x0D] = some 0) ∧
    (∀ junk : Nat, ¬ ∃ ext n, skip_char_seq junk ([0x1B, 0x5B, 0x0D] ++ ext) = some (n + 1)) ∧
    (∀ (RL_MAX_LENGTH junk : Nat) (gc : Option rl_get_completion_fn) (s : rl_state_t),
      readline_loop RL_MAX_LENGTH junk gc [0x1B, 0x5B, 0x0D, 0x61, 0x0D] [] s = some s) := by
  refine ⟨fun junk => skip_char_seq_csi_cr junk [], ?_, ?_⟩
  · intro junk hex
    obtain ⟨ext, n, h⟩ := hex
    rw [skip_char_seq_csi_cr junk ext] at h
    exact absurd (Option.some.inj h) (by omega)
  · intro M junk gc s
    have h1 : skip_char_seq junk (cstr ([] ++ [0x1B])) = some 0 := by
      show skip_char_seq junk (cstr [0x1B]) = some 0
      rw [show cstr [0x1B] = [0x1B] by decide, skip_char_seq_ascii junk 0x1B _ (by decide)]
      decide
    have h2 : skip_char_seq junk (cstr ([0x1B] ++ [0x5B])) = some 0 :=
      csi_digits_open_junk junk 0 (by omega)
    have h3 : skip_char_seq junk (cstr ([0x1B, 0x5B] ++ [0x0D])) = some 0 := by
      rw [show cstr ([0x1B, 0x5B] ++ [0x0D]) = [0x1B, 0x5B, 0x0D] ++ [] by decide]
      exact skip_char_seq_csi_cr junk []
    have h4 : skip_char_seq junk (cstr ([0x1B, 0x5B, 0x0D] ++ [0x61])) = some 0 := by
      rw [show cstr ([0x1B, 0x5B, 0x0D] ++ [0x61]) = [0x1B, 0x5B, 0x0D] ++ [0x61] by decide]
      exact skip_char_seq_csi_cr junk _
    have h5 : skip_char_seq junk (cstr ([0x1B, 0x5B, 0x0D, 0x61] ++ [0x0D])) = some 0 := by
      rw [show cstr ([0x1B, 0x5B, 0x0D, 0x61] ++ [0x0D]) = [0x1B, 0x5B, 0x0D] ++ [0x61, 0x0D]
        by decide]
      exact skip_char_seq_csi_cr junk _
    rw [readline_loop_open_step M junk gc 0x1B _ [] s (by decide) h1]
    show readline_loop M junk gc [0x5B, 0x0D, 0x61, 0x0D] [0x1B] s = some s
    rw [readline_loop_open_step M junk gc 0x5B _ _ s (by decide) h2]
    show readline_loop M junk gc [0x0D, 0x61, 0x0D] [0x1B, 0x5B] s = some s
    rw [readline_loop_open_step M junk gc 0x0D _ _ s (by decide) h3]
    show readline_loop M junk gc [0x61, 0x0D] [0x1B, 0x5B, 0x0D] s = some s
    rw [readline_loop_open_step M junk gc 0x61 _ _ s (by decide) h4]
    show readline_loop M junk gc [0x0D] [0x1B, 0x5B, 0x0D, 0x61] s = some s
    rw [readline_loop_open_step M junk gc 0x0D _ _ s (by decide) h5]
    rfl

/-- A content in one of the four open forms is closed by `A`, by one byte
`0x80` or by two bytes `0x80`. -/
theorem open_forms_close (junk : Nat) (c : List Nat)
    (h : ((∃ e, utf8_to_glyph junk e = some (0x1B, e.length) ∧ c = e) ∨
      (∃ e x ds, utf8_to_glyph junk e = some (0x1B, e.length) ∧ (x = 0x5B ∨ x = 0x4F) ∧
        (∀ d ∈ ds, (0x30 ≤ d ∧ d ≤ 0x39) ∨ d = 0x3B) ∧ c = e ++ x :: ds) ∨
      (∃ b0, (b0 &&& 0xE0 = 0xC0 ∨ b0 &&& 0xF0 = 0xE0) ∧ c = [b0]) ∨
      (∃ b0 b1, b0 &&& 0xF0 = 0xE0 ∧ b1 &&& 0xC0 = 0x80 ∧ c = [b0, b1]))) :
    (∃ n, skip_char_seq junk (c ++ [0x41]) = some (n + 1)) ∨
    (∃ n, skip_char_seq junk (c ++ [0x80]) = some (n + 1)) ∨
    (∃ n, skip_char_seq junk (c ++ [0x80, 0x80]) = some (n + 1)) := by
  rcases h with ⟨e, he, hc⟩ | ⟨e, x, ds, he, hx, hds, hc⟩ | ⟨b0, hl, hc⟩ | ⟨b0, b1, c3, c4, hc⟩
  · rw [hc]
    exact Or.inl ⟨_, (esc_alone_open junk e he).2⟩
  · rw [hc]
    exact Or.inl ⟨_, (esc_params_open junk e x ds he hx hds).2⟩
  · rw [hc]
    rcases (lead_alone_open junk b0 hl).2 with h | h
    · exact Or.inr (Or.inl h)
    · exact Or.inr (Or.inr h)
  · rw [hc]
    exact Or.inr (Or.inl ⟨2, (lead3_cont_open junk b0 b1 c3 c4).2⟩)

/-- A content in one of the five dead forms is reported not closed whatever
follows it. -/
theorem dead_forms_never_close (junk : Nat) (c : List Nat)
    (h : ((∃ b0 t, ¬ (b0 &&& 0x80 = 0) ∧ ¬ (b0 &&& 0xE0 = 0xC0) ∧ ¬ (b0 &&& 0xF0 = 0xE0) ∧
        c = b0 :: t) ∨
      (∃ b0 b1 t, (b0 &&& 0xE0 = 0xC0 ∨ b0 &&& 0xF0 = 0xE0) ∧ ¬ (b1 &&& 0xC0 = 0x80) ∧
        c = b0 :: b1 :: t) ∨
      (∃ b0 b1 b2 t, b0 &&& 0xF0 = 0xE0 ∧ b1 &&& 0xC0 = 0x80 ∧ ¬ (b2 &&& 0xC0 = 0x80) ∧
        c = b0 :: b1 :: b2 :: t) ∨
      (∃ e b t, utf8_to_glyph junk e = some (0x1B, e.length) ∧ (b < 0x20 ∨ 0x7F < b) ∧
        c = e ++ b :: t) ∨
      (∃ e x ds z t, utf8_to_glyph junk e = some (0x1B, e.length) ∧ (x = 0x5B ∨ x = 0x4F) ∧
        (∀ d ∈ ds, (0x30 ≤ d ∧ d ≤ 0x39) ∨ d = 0x3B) ∧
        ¬ ((0x30 ≤ z ∧ z ≤ 0x39) ∨ z = 0x3B) ∧ ¬ (64 ≤ z ∧ z ≤ 126) ∧
        c = e ++ x :: (ds ++ z :: t)))) (ext : List Nat) :
    skip_char_seq junk (c ++ ext) = some 0 := by
  rcases h with ⟨b0, t, c1, c2, c3, hc⟩ | ⟨b0, b1, t, hl, hb, hc⟩
    | ⟨b0, b1, b2, t, c3, c4, c5, hc⟩ | ⟨e, b, t, he, hb, hc⟩
    | ⟨e, x, ds, z, t, he, hx, hds, hz, hz2, hc⟩
  · rw [hc]
    exact skip_char_seq_stray junk b0 (t ++ ext) c1 c2 c3
  · rw [hc]
    exact skip_char_seq_lead_broken junk b0 b1 (t ++ ext) hl hb
  · rw [hc]
    exact skip_char_seq_lead3_broken junk b0 b1 b2 (t ++ ext) c3 c4 c5
  · rw [hc, List.append_assoc, List.cons_append]
    exact esc_then_ctl junk e b (t ++ ext) he hb
  · rw [hc, List.append_assoc, List.cons_append, List.append_assoc, List.cons_append]
    exact esc_params_broken junk e x ds z (t ++ ext) he hx hds hz hz2

/-- C24, amended.  For every content `c` of the sequence buffer that
`skip_char_seq` reports not closed (it is then not empty), `e` standing for
ESC as `utf8_to_glyph` decodes it (`1B`, or the overlong `C0 9B`,
`E0 80 9B`) and a parameter byte being a digit or `;`:

* `c` is a proper prefix of a complete token, that is, some continuation of
  it is reported closed, exactly when `c` is `e` alone, or `e`, `[` or `O`
  and parameter bytes only, or a lead byte `110xxxxx` or `1110xxxx` alone, or
  a lead byte `1110xxxx` with one continuation byte; `A`, one byte `0x80` or
  two bytes `0x80` then close it;
* no continuation of `c` is ever reported closed exactly when `c` starts
  with a byte `10xxxxxx` or `1111xxxx`, or with a lead byte and a byte that
  is not a continuation byte, or with a lead byte `1110xxxx`, a continuation
  byte and a byte that is not one, or with `e` and a byte below `0x20` or
  above `0x7F`, or with `e`, `[` or `O`, parameter bytes and a byte that is
  neither a parameter byte nor in `64 .. 126`.

The driver treats both kinds alike: while there is room, the byte stays in
the buffer and the loop reads on. -/
theorem C24_not_closed_open_or_dead (junk : Nat) (c : List Nat)
    (h0 : skip_char_seq junk c = some 0) :
    c ≠ [] ∧
    ((∃ ext n, skip_char_seq junk (c ++ ext) = some (n + 1)) ↔
      ((∃ e, utf8_to_glyph junk e = some (0x1B, e.length) ∧ c = e) ∨
      (∃ e x ds, utf8_to_glyph junk e = some (0x1B, e.length) ∧ (x = 0x5B ∨ x = 0x4F) ∧
        (∀ d ∈ ds, (0x30 ≤ d ∧ d ≤ 0x39) ∨ d = 0x3B) ∧ c = e ++ x :: ds) ∨
      (∃ b0, (b0 &&& 0xE0 = 0xC0 ∨ b0 &&& 0xF0 = 0xE0) ∧ c = [b0]) ∨
      (∃ b0 b1, b0 &&& 0xF0 = 0xE0 ∧ b1 &&& 0xC0 = 0x80 ∧ c = [b0, b1]))) ∧
    ((∃ ext n, skip_char_seq junk (c ++ ext) = some (n + 1)) →
      (∃ n, skip_char_seq junk (c ++ [0x41]) = some (n + 1)) ∨
      (∃ n, skip_char_seq junk (c ++ [0x80]) = some (n + 1)) ∨
      (∃ n, skip_char_seq junk (c ++ [0x80, 0x80]) = some (n + 1))) ∧
    ((∀ ext, skip_char_seq junk (c ++ ext) = some 0) ↔
      ((∃ b0 t, ¬ (b0 &&& 0x80 = 0) ∧ ¬ (b0 &&& 0xE0 = 0xC0) ∧ ¬ (b0 &&& 0xF0 = 0xE0) ∧
        c = b0 :: t) ∨
      (∃ b0 b1 t, (b0 &&& 0xE0 = 0xC0 ∨ b0 &&& 0xF0 = 0xE0) ∧ ¬ (b1 &&& 0xC0 = 0x80) ∧
        c = b0 :: b1 :: t) ∨
      (∃ b0 b1 b2 t, b0 &&& 0xF0 = 0xE0 ∧ b1 &&& 0xC0 = 0x80 ∧ ¬ (b2 &&& 0xC0 = 0x80) ∧
        c = b0 :: b1 :: b2 :: t) ∨
      (∃ e b t, utf8_to_glyph junk e = some (0x1B, e.length) ∧ (b < 0x20 ∨ 0x7F < b) ∧
        c = e ++ b :: t) ∨
      (∃ e x ds z t, utf8_to_glyph junk e = some (0x1B, e.length) ∧ (x = 0x5B ∨ x = 0x4F) ∧
        (∀ d ∈ ds, (0x30 ≤ d ∧ d ≤ 0x39) ∨ d = 0x3B) ∧
        ¬ ((0x30 ≤ z ∧ z ≤ 0x39) ∨ z = 0x3B) ∧ ¬ (64 ≤ z ∧ z ≤ 126) ∧
        c = e ++ x :: (ds ++ z :: t)))) ∧
    (∀ (RL_MAX_LENGTH : Nat) (gc : Option rl_get_completion_fn) (ch : Nat)
        (rest seq : List Nat) (s : rl_state_t),
      seq.length + 1 < 12 → skip_char_seq junk (cstr (seq ++ [ch])) = some 0 →
      readline_loop RL_MAX_LENGTH junk gc (ch :: rest) seq s =
        readline_loop RL_MAX_LENGTH junk gc rest (seq ++ [ch]) s) := by
  have hforms := not_closed_forms junk c h0
  have hopen := open_forms_close junk c
  have hdead := dead_forms_never_close junk c
  have hexcl : ∀ ext n, skip_char_seq junk (c ++ ext) = some (n + 1) →
      ¬ (∀ ext, skip_char_seq junk (c ++ ext) = some 0) := by
    intro ext n h hall
    rw [hall ext] at h
    exact absurd (Option.some.inj h) (by omega)
  refine ⟨?_, ⟨?_, ?_⟩, ?_, ⟨?_, fun hd => hdead hd⟩,
    fun M gc ch rest seq s hlen hop => readline_loop_open_step M junk gc ch rest seq s hlen hop⟩
  · intro he
    rw [he] at h0
    have hg : utf8_to_glyph junk [] = some (0, 1) := rfl
    rw [skip_char_seq_of_glyph junk [] 0 1 hg (by decide)] at h0
    exact absurd (Option.some.inj h0) (by decide)
  · intro hex
    obtain ⟨ext, n, h⟩ := hex
    rcases hforms with hl | hd
    · exact hl
    · exact absurd (hdead hd) (hexcl ext n h)
  · intro hl
    rcases hopen hl with ⟨n, h⟩ | ⟨n, h⟩ | ⟨n, h⟩
    · exact ⟨_, n, h⟩
    · exact ⟨_, n, h⟩
    · exact ⟨_, n, h⟩
  · intro hex
    obtain ⟨ext, n, h⟩ := hex
    rcases hforms with hl | hd
    · exact hopen hl
    · exact absurd (hdead hd) (hexcl ext n h)
  · intro hall
    rcases hforms with hl | hd
    · rcases hopen hl with ⟨n, h⟩ | ⟨n, h⟩ | ⟨n, h⟩
      · exact absurd hall (hexcl _ n h)
      · exact absurd hall (hexcl _ n h)
      · exact absurd hall (hexcl _ n h)
    · exact hd

/-- C24 amended, at three contents reported not closed.  `ESC [ 1` is `ESC`,
`[` and a parameter byte: some continuation closes it.  `ESC [ SP` and
`ESC [ 1 \r` are `ESC`, `[`, parameter bytes and a byte that is neither a
parameter byte nor in `64 .. 126`: nothing ever closes them. -/
theorem C24_not_closed_open_or_dead_witness :
    skip_char_seq 7 [0x1B, 0x5B, 0x31] = some 0 ∧
    (∃ ext n, skip_char_seq 7 ([0x1B, 0x5B, 0x31] ++ ext) = some (n + 1)) ∧
    skip_char_seq 7 [0x1B, 0x5B, 0x20] = some 0 ∧
    (∀ ext, skip_char_seq 7 ([0x1B, 0x5B, 0x20] ++ ext) = some 0) ∧
    skip_char_seq 7 [0x1B, 0x5B, 0x31, 0x0D] = some 0 ∧
    (∀ ext, skip_char_seq 7 ([0x1B, 0x5B, 0x31, 0x0D] ++ ext) = some 0) :=
  ⟨by decide,
   (C24_not_closed_open_or_dead 7 [0x1B, 0x5B, 0x31] (by decide)).2.1.2
     (Or.inr (Or.inl ⟨[0x1B], 0x5B, [0x31], by decide, Or.inl rfl, by decide, rfl⟩)),
   by decide,
   (C24_not_closed_open_or_dead 7 [0x1B, 0x5B, 0x20] (by decide)).2.2.2.1.2
     (Or.inr (Or.inr (Or.inr (Or.inr
       ⟨[0x1B], 0x5B, [], 0x20, [], by decide, Or.inl rfl, by decide, by decide, by decide,
         rfl⟩)))),
   by decide,
   (C24_not_closed_open_or_dead 7 [0x1B, 0x5B, 0x31, 0x0D] (by decide)).2.2.2.1.2
     (Or.inr (Or.inr (Or.inr (Or.inr
       ⟨[0x1B], 0x5B, [0x31], 0x0D, [], by decide, Or.inl rfl, by decide, by decide,
         by decide, rfl⟩))))⟩

/-! ## C25: the sequence buffer -/

/-- The loop with a content in the buffer that starts with a byte
`10xxxxxx` or `1111xxxx`, fed bytes other than NUL that the buffer has room
for: all of them stay in the buffer. -/
theorem readline_loop_stray_fill (RL_MAX_LENGTH junk : Nat) (gc : Option rl_get_completion_fn)
    (rest : List Nat) (s : rl_state_t) (b0 : Nat) (c1 : ¬ (b0 &&& 0x80 = 0))
    (c2 : ¬ (b0 &&& 0xE0 = 0xC0)) (c3 : ¬ (b0 &&& 0xF0 = 0xE0)) (input : List Nat) :
    ∀ t : List Nat, (∀ x ∈ b0 :: t, x ≠ 0) → (∀ x ∈ input, x ≠ 0) →
    (b0 :: t).length + input.length < 12 →
    readline_loop RL_MAX_LENGTH junk gc (input ++ rest) (b0 :: t) s =
      readline_loop RL_MAX_LENGTH junk gc rest (b0 :: t ++ input) s := by
  induction input with
  | nil => intro t _ _ _; simp
  | cons ch more ih =>
    intro t ht hin hlen
    have hch : ch ≠ 0 := hin ch (by simp)
    have hopen : skip_char_seq junk (cstr ((b0 :: t) ++ [ch])) = some 0 := by
      rw [cstr_eq_self _ (fun x hx => by
        rcases List.mem_append.1 hx with h | h
        · exact ht x h
        · rw [List.mem_singleton.1 h]; exact hch)]
      exact skip_char_seq_stray junk b0 (t ++ [ch]) c1 c2 c3
    simp only [List.length_cons, List.length_nil] at hlen
    rw [List.cons_append,
      readline_loop_open_step RL_MAX_LENGTH junk gc ch _ _ s
        (by simp only [List.length_cons, List.length_nil]; omega) hopen,
      List.cons_append,
      ih (t ++ [ch])
        (fun x hx => by
          rcases List.mem_cons.1 hx with h | h
          · rw [h]; exact ht b0 (by simp)
          · rcases List.mem_append.1 h with h1 | h1
            · exact ht x (by simp [h1])
            · rw [List.mem_singleton.1 h1]; exact hch)
        (fun x hx => hin x (by simp [hx]))
        (by simp only [List.length_cons, List.length_append, List.length_singleton,
          List.length_nil]; omega)]
    simp

/-- C25, failing inputs.  An input that begins `ESC [` followed by ten digits
`1`, whatever follows, in any state: no prefix of it is a complete token, so
all bytes go to the sequence buffer; the twelfth byte is stored at `seq[11]`
and the terminator after it at `seq[12]`, one cell past `char seq[12]`.  The
reset of the buffer is tested only before the next byte is stored.  The same
with the four bytes `F0 9F 98 80` of a character beyond the three-byte forms
followed by any eight bytes other than NUL. -/
theorem C25_sequence_buffer_overrun (RL_MAX_LENGTH junk : Nat)
    (gc : Option rl_get_completion_fn) (rest : List Nat) (s : rl_state_t) :
    (∀ k ≤ 10, skip_char_seq junk (cstr (0x1B :: 0x5B :: List.replicate k 0x31)) = some 0) ∧
    readline_loop RL_MAX_LENGTH junk gc
      (0x1B :: 0x5B :: List.replicate 10 0x31 ++ rest) [] s = none ∧
    (∀ typed : List Nat, typed.length = 8 → (∀ x ∈ typed, x ≠ 0) →
      readline_loop RL_MAX_LENGTH junk gc
        (0xF0 :: 0x9F :: 0x98 :: 0x80 :: typed ++ rest) [] s = none) := by
  refine ⟨fun k hk => csi_digits_open_junk junk k hk, ?_, ?_⟩
  · have hesc : skip_char_seq junk (cstr ([] ++ [0x1B])) = some 0 := by
      show skip_char_seq junk (cstr [0x1B]) = some 0
      rw [show cstr [0x1B] = [0x1B] by decide, skip_char_seq_ascii junk 0x1B _ (by decide)]
      decide
    have hcsi : skip_char_seq junk (cstr ([0x1B] ++ [0x5B])) = some 0 :=
      csi_digits_open_junk junk 0 (by omega)
    rw [List.cons_append, List.cons_append,
      readline_loop_open_step RL_MAX_LENGTH junk gc 0x1B _ [] s (by decide) hesc]
    show readline_loop RL_MAX_LENGTH junk gc (0x5B :: (List.replicate 10 0x31 ++ rest)) [0x1B] s
      = none
    rw [readline_loop_open_step RL_MAX_LENGTH junk gc 0x5B _ _ s (by decide) hcsi]
    show readline_loop RL_MAX_LENGTH junk gc (List.replicate 10 0x31 ++ rest)
      (0x1B :: 0x5B :: List.replicate 0 0x31) s = none
    have h9 := readline_loop_csi_digits RL_MAX_LENGTH junk gc (0x31 :: rest) s 9 0 (by omega)
    have hsplit : List.replicate 10 0x31 ++ rest = List.replicate 9 0x31 ++ (0x31 :: rest) := by
      simp [List.replicate_succ']
    rw [hsplit]
    exact (h9.trans (readline_loop_twelfth RL_MAX_LENGTH junk gc 0x31 rest _ s (by simp)))
  · intro typed hlen hnz
    have hF0 : skip_char_seq junk (cstr ([] ++ [0xF0])) = some 0 := by
      show skip_char_seq junk (cstr [0xF0]) = some 0
      rw [show cstr [0xF0] = [0xF0] by decide]
      exact skip_char_seq_stray junk 0xF0 [] (by decide) (by decide) (by decide)
    obtain ⟨last, init, hsplit⟩ : ∃ last init, typed = init ++ [last] ∧ init.length = 7 := by
      refine ⟨typed.getLast (by intro h; rw [h] at hlen; simp at hlen), typed.dropLast, ?_, ?_⟩
      · exact (List.dropLast_append_getLast _).symm
      · rw [List.length_dropLast, hlen]
    obtain ⟨hty, hinit⟩ := hsplit
    rw [List.cons_append, List.cons_append, List.cons_append, List.cons_append,
      readline_loop_open_step RL_MAX_LENGTH junk gc 0xF0 _ [] s (by decide) hF0]
    show readline_loop RL_MAX_LENGTH junk gc (0x9F :: 0x98 :: 0x80 :: (typed ++ rest)) [0xF0] s
      = none
    have hfill := readline_loop_stray_fill RL_MAX_LENGTH junk gc (last :: rest) s 0xF0
      (by decide) (by decide) (by decide) (0x9F :: 0x98 :: 0x80 :: init) []
      (by decide)
      (fun x hx => by
        simp only [List.mem_cons] at hx
        rcases hx with h | h | h | h
        · rw [h]; decide
        · rw [h]; decide
        · rw [h]; decide
        · exact hnz x (by rw [hty]; simp [h]))
      (by simp only [List.length_cons, List.length_nil, hinit]; omega)
    have hin : 0x9F :: 0x98 :: 0x80 :: (typed ++ rest)
        = (0x9F :: 0x98 :: 0x80 :: init) ++ (last :: rest) := by
      rw [hty]; simp
    rw [hin, hfill]
    exact readline_loop_twelfth RL_MAX_LENGTH junk gc last rest _ s
      (by simp only [List.length_cons, List.length_append, List.length_nil, hinit])

/-! ## The display routines on the terminal of the screen model -/

theorem term_run_append (dec : List Nat → List Nat) (cols : Nat) (t : term_t)
    (a b : List rl_out_t) :
    term_run dec cols t (a ++ b) = term_run dec cols (term_run dec cols t a) b := by
  unfold term_run
  rw [List.foldl_append]

theorem term_run_nil (dec : List Nat → List Nat) (cols : Nat) (t : term_t) :
    term_run dec cols t [] = t := rfl

theorem term_run_one (dec : List Nat → List Nat) (cols : Nat) (t : term_t) (o : rl_out_t) :
    term_run dec cols t [o] = term_step dec cols t o := rfl

/-- On the terminal, with a column count that is not zero, `rl_move(n)`
called with the cursor of the terminal on the cell `cur_pos + prompt_width`
leaves it on the cell `n` further, and changes no cell. -/
theorem term_rl_move (dec : List Nat → List Nat) (RL_MAX_LENGTH cols : Nat) (n : Int)
    (s : rl_state_t) (q : Nat) (t : term_t) (hcols : 0 < cols)
    (hq : (q : Int) = (s.cur_pos : Int) + (s.prompt_width : Int) + n)
    (ht : t.cursor = s.cur_pos + s.prompt_width) :
    ∃ outs, rl_move RL_MAX_LENGTH cols n s = some outs ∧
      term_run dec cols t outs = { t with cursor := q } := by
  obtain ⟨hmv, _⟩ := rl_move_cols RL_MAX_LENGTH cols n s q hcols hq
  refine ⟨_, hmv, ?_⟩
  have hp := Nat.div_add_mod (s.cur_pos + s.prompt_width) cols
  have hqq := Nat.div_add_mod q cols
  have hpc := Nat.mod_lt (s.cur_pos + s.prompt_width) hcols
  have hqc := Nat.mod_lt q hcols
  generalize hP : s.cur_pos + s.prompt_width = p at *
  generalize hpr : p / cols = pr at *
  generalize hpcv : p % cols = pc at *
  generalize hqr : q / cols = qr at *
  generalize hqcv : q % cols = qc at *
  -- the cursor after the horizontal move
  have hH : term_run dec cols t
      (if qc < pc then [rl_out_t.cur_left (pc - qc)]
        else if pc < qc then [rl_out_t.cur_right (qc - pc)] else [])
      = { t with cursor := cols * pr + qc } := by
    by_cases h1 : qc < pc
    · rw [if_pos h1, term_run_one]
      show ({ t with cursor := t.cursor - min (pc - qc) (t.cursor % cols) } : term_t) = _
      rw [ht, hpcv]
      congr 1
      omega
    · rw [if_neg h1]
      by_cases h2 : pc < qc
      · rw [if_pos h2, term_run_one]
        show ({ t with cursor := t.cursor + min (qc - pc) (cols - 1 - t.cursor % cols) }
          : term_t) = _
        rw [ht, hpcv]
        congr 1
        omega
      · rw [if_neg h2, term_run_nil]
        have : t.cursor = cols * pr + qc := by omega
        rw [← this]
  rw [term_run_append, hH]
  have hdiv : (cols * pr + qc) / cols = pr := by
    rw [Nat.mul_add_div hcols, Nat.div_eq_of_lt hqc, Nat.add_zero]
  by_cases h3 : qr < pr
  · rw [if_pos h3, term_run_one]
    show ({ cells := t.cells,
            cursor := cols * pr + qc - cols * min (pr - qr) ((cols * pr + qc) / cols) }
      : term_t) = _
    rw [hdiv, Nat.min_eq_left (by omega), Nat.mul_sub]
    have hle : cols * qr ≤ cols * pr := Nat.mul_le_mul_left cols (by omega)
    congr 1
    omega
  · rw [if_neg h3]
    by_cases h4 : pr < qr
    · rw [if_pos h4, term_run_one]
      show ({ cells := t.cells, cursor := cols * pr + qc + cols * (qr - pr) } : term_t) = _
      rw [Nat.mul_sub]
      have hle : cols * pr ≤ cols * qr := Nat.mul_le_mul_left cols (by omega)
      congr 1
      omega
    · rw [if_neg h4, term_run_nil]
      have : pr = qr := by omega
      rw [this]
      congr 1
/-! ## Glyphs on the terminal of the screen model -/

theorem term_paint_nil (t : term_t) (a : Nat) :
    term_paint t a [] t.cursor = t := by
  unfold term_paint
  cases t with
  | mk cells cursor =>
    simp only [List.length_nil, Nat.add_zero, term_t.mk.injEq, and_true]
    funext k
    rw [if_neg (by omega)]

theorem term_paint_move (t : term_t) (a : Nat) (q : Nat) :
    term_paint t a [] q = { t with cursor := q } := by
  unfold term_paint
  simp only [List.length_nil, Nat.add_zero, term_t.mk.injEq, and_true]
  funext k
  rw [if_neg (by omega)]

theorem term_put_foldl (w : List Nat) :
    ∀ t : term_t, w.foldl term_put t = term_paint t t.cursor w (t.cursor + w.length) := by
  induction w with
  | nil => intro t; exact (term_paint_nil t t.cursor).symm
  | cons g rest ih =>
    intro t
    rw [List.foldl_cons, ih]
    unfold term_paint term_put
    simp only [List.length_cons, term_t.mk.injEq]
    refine ⟨?_, by omega⟩
    funext k
    by_cases h1 : k = t.cursor
    · subst h1
      rw [if_neg (by omega), if_pos rfl, if_pos (by omega), Nat.sub_self]
      rfl
    · by_cases h2 : t.cursor + 1 ≤ k ∧ k < t.cursor + 1 + rest.length
      · rw [if_pos h2, if_pos (by omega)]
        have e : k - t.cursor = (k - (t.cursor + 1)) + 1 := by omega
        rw [e, List.getD_cons_succ]
      · rw [if_neg h2, if_neg h1, if_neg (by omega)]

theorem term_paint_paint (t : term_t) (a : Nat) (w w1 : List Nat) (c c1 : Nat) :
    term_paint (term_paint t a w c) (a + w.length) w1 c1 = term_paint t a (w ++ w1) c1 := by
  unfold term_paint
  simp only [List.length_append, term_t.mk.injEq, and_true]
  funext k
  by_cases h1 : a + w.length ≤ k ∧ k < a + w.length + w1.length
  · rw [if_pos h1, if_pos (by omega), List.getD_append_right _ _ _ _ (by omega)]
    congr 1
    omega
  · rw [if_neg h1]
    by_cases h2 : a ≤ k ∧ k < a + w.length
    · rw [if_pos h2, if_pos (by omega), List.getD_append _ _ _ _ (by omega)]
    · rw [if_neg h2, if_neg (by omega)]

theorem term_paint_cursor (t : term_t) (a : Nat) (w : List Nat) (c q : Nat) :
    { term_paint t a w c with cursor := q } = term_paint t a w q := rfl

theorem term_paint_of_move (t : term_t) (a : Nat) (w : List Nat) (c q : Nat) :
    term_paint { t with cursor := q } a w c = term_paint t a w c := rfl

theorem glyphs_ok_drop (l : List Nat) (n : Nat) (h : glyphs_ok l) : glyphs_ok (l.drop n) :=
  fun x hx => h x (List.mem_of_mem_drop hx)

theorem glyphs_ok_take (l : List Nat) (n : Nat) (h : glyphs_ok l) : glyphs_ok (l.take n) :=
  fun x hx => h x (List.mem_of_mem_take hx)

theorem glyphs_ok_append (a b : List Nat) (ha : glyphs_ok a) (hb : glyphs_ok b) :
    glyphs_ok (a ++ b) := by
  intro x hx
  rcases List.mem_append.1 hx with h | h
  · exact ha x h
  · exact hb x h

theorem glyphs_ok_spaces (n : Nat) : glyphs_ok (List.replicate n 0x20) := by
  intro x hx
  rw [List.eq_of_mem_replicate hx]
  decide

theorem glyphs_ok_nonzero (l : List Nat) (h : glyphs_ok l) : ∀ x ∈ l, x ≠ 0 := by
  intro x hx
  have := h x hx
  omega

theorem encode_all_spaces (n : Nat) :
    encode_all (List.replicate n 0x20) = List.replicate n 0x20 := by
  induction n with
  | zero => rfl
  | succ k ih =>
    rw [List.replicate_succ, encode_all, ih, glyph_bytes_one 0x20 (by decide)]
    rfl

theorem encode_all_eq_nil (w : List Nat) (h : encode_all w = []) : w = [] := by
  cases w with
  | nil => rfl
  | cons x rest =>
    exfalso
    have hp := glyph_bytes_length_pos x
    have hl := congrArg List.length h
    rw [encode_all, List.length_append, List.length_nil] at hl
    omega

/-- The terminal takes the bytes of the glyphs `w` when there are any: the
glyphs go to the cells from the cursor on and the cursor stands after
them. -/
theorem term_run_glyphs (dec : List Nat → List Nat) (cols : Nat)
    (hdec : ∀ g, glyphs_ok g → dec (encode_all g) = g) (w : List Nat) (hw : glyphs_ok w)
    (t : term_t) :
    term_run dec cols t
        (if encode_all w = [] then [] else [rl_out_t.bytes (encode_all w)])
      = term_paint t t.cursor w (t.cursor + w.length) := by
  by_cases h : encode_all w = []
  · rw [if_pos h, encode_all_eq_nil w h]
    exact (term_paint_nil t t.cursor).symm
  · rw [if_neg h, term_run_one]
    show (dec (encode_all w)).foldl term_put t = _
    rw [hdec w hw, term_put_foldl]

/-- On the terminal, `rl_write_part(start, -1)` lays the glyphs of the line
from `start` on in the cells from the cursor on. -/
theorem term_write_part_rest (dec : List Nat → List Nat) (RL_MAX_LENGTH cols : Nat)
    (hdec : ∀ g, glyphs_ok g → dec (encode_all g) = g) (start : Nat)
    (s : rl_state_t) (hg : glyphs_ok s.line) (t : term_t) (outs : List rl_out_t)
    (h : rl_write_part_out RL_MAX_LENGTH start (-1) s = some outs) :
    term_run dec cols t outs
      = term_paint t t.cursor (s.line.drop start)
          (t.cursor + (s.line.drop start).length) := by
  have e : gtoutf8 (s.line.drop start) (-1) = encode_all (s.line.drop start) :=
    gtoutf8_eq_encode_all _ (glyphs_ok_nonzero _ (glyphs_ok_drop _ _ hg)) _ (Or.inl (by decide))
  unfold rl_write_part_out rl_write_part at h
  simp only [e] at h
  split at h
  · simp only [Option.map_some', Option.some.injEq] at h
    rw [← h]
    exact term_run_glyphs dec cols hdec _ (glyphs_ok_drop _ _ hg) t
  · simp at h

/-- On the terminal, `rl_write_part(start, n)` with `n ≥ 0` lays up to `n`
glyphs of the line from `start` on in the cells from the cursor on. -/
theorem term_write_part_count (dec : List Nat → List Nat) (RL_MAX_LENGTH cols : Nat)
    (hdec : ∀ g, glyphs_ok g → dec (encode_all g) = g) (start n : Nat)
    (s : rl_state_t) (hg : glyphs_ok s.line) (t : term_t) (outs : List rl_out_t)
    (h : rl_write_part_out RL_MAX_LENGTH start (n : Int) s = some outs) :
    term_run dec cols t outs
      = term_paint t t.cursor ((s.line.drop start).take n)
          (t.cursor + ((s.line.drop start).take n).length) := by
  have e : gtoutf8 (s.line.drop start) (n : Int) = encode_all ((s.line.drop start).take n) :=
    gtoutf8_nat_count _ (glyphs_ok_nonzero _ (glyphs_ok_drop _ _ hg)) n
  unfold rl_write_part_out rl_write_part at h
  simp only [e] at h
  split at h
  · simp only [Option.map_some', Option.some.injEq] at h
    rw [← h]
    exact term_run_glyphs dec cols hdec _ (glyphs_ok_take _ _ (glyphs_ok_drop _ _ hg)) t
  · simp at h

/-- On the terminal, with a column count that is not zero, `rl_update_tail`
called with the cursor of the terminal on the cell of `cur_pos` lays the
glyphs from the cursor on and the spaces in the cells from there on, and
leaves the cursor where it was. -/
theorem term_update_tail (dec : List Nat → List Nat) (RL_MAX_LENGTH cols : Nat)
    (hdec : ∀ g, glyphs_ok g → dec (encode_all g) = g) (hcols : 0 < cols) (a : Nat)
    (s : rl_state_t) (hg : glyphs_ok s.line) (hc : s.cur_pos ≤ s.length)
    (t : term_t) (ht : t.cursor = s.prompt_width + s.cur_pos) (outs : List rl_out_t)
    (h : rl_update_tail_out RL_MAX_LENGTH cols a s = some outs) :
    term_run dec cols t outs
      = term_paint t t.cursor (s.line.drop s.cur_pos ++ List.replicate a 0x20) t.cursor := by
  have e : gtoutf8 (s.line.drop s.cur_pos) (-1) = encode_all (s.line.drop s.cur_pos) :=
    gtoutf8_eq_encode_all _ (glyphs_ok_nonzero _ (glyphs_ok_drop _ _ hg)) _ (Or.inl (by decide))
  have hw : glyphs_ok (s.line.drop s.cur_pos ++ List.replicate a 0x20) :=
    glyphs_ok_append _ _ (glyphs_ok_drop _ _ hg) (glyphs_ok_spaces a)
  have ew : encode_all (s.line.drop s.cur_pos) ++ List.replicate a 0x20
      = encode_all (s.line.drop s.cur_pos ++ List.replicate a 0x20) := by
    rw [encode_all_append, encode_all_spaces]
  have hlen : (s.line.drop s.cur_pos ++ List.replicate a 0x20).length
      = a + s.length - s.cur_pos := by
    simp only [List.length_append, List.length_drop, List.length_replicate]
    unfold rl_state_t.length at hc ⊢
    omega
  unfold rl_update_tail_out at h
  simp only [e, ew] at h
  split at h
  · have hgl := term_run_glyphs dec cols hdec _ hw t
    rw [hlen] at hgl
    by_cases hpos : a + s.length - s.cur_pos > 0
    · rw [if_pos hpos] at h
      obtain ⟨mv, hmv, hrun⟩ := term_rl_move dec RL_MAX_LENGTH cols
        (-((a + s.length - s.cur_pos : Nat) : Int))
        { s with cur_pos := s.cur_pos + (a + s.length - s.cur_pos) }
        (s.prompt_width + s.cur_pos)
        (term_paint t t.cursor (s.line.drop s.cur_pos ++ List.replicate a 0x20)
          (t.cursor + (a + s.length - s.cur_pos)))
        hcols
        (by show ((s.prompt_width + s.cur_pos : Nat) : Int)
              = ((s.cur_pos + (a + s.length - s.cur_pos) : Nat) : Int) + (s.prompt_width : Int)
                + -((a + s.length - s.cur_pos : Nat) : Int)
            push_cast
            omega)
        (by show t.cursor + (a + s.length - s.cur_pos)
              = s.cur_pos + (a + s.length - s.cur_pos) + s.prompt_width
            omega)
      rw [hmv] at h
      simp only [Option.some.injEq] at h
      rw [← h, term_run_append, hgl, hrun, ← ht]
      rfl
    · rw [if_neg hpos] at h
      simp only [Option.some.injEq, List.append_nil] at h
      rw [← h, hgl]
      congr 1
      omega
  · simp at h

/-! ## The screen after each display routine -/

/-- Whether the screen shows a state depends on its line, its cursor and the
width of its prompt only. -/
theorem screen_shows_congr (p : List Nat) (s s1 : rl_state_t) (t : term_t)
    (hl : s1.line = s.line) (hc : s1.cur_pos = s.cur_pos)
    (hp : s1.prompt_width = s.prompt_width) (hs : screen_shows p s t) :
    screen_shows p s1 t := by
  unfold screen_shows rl_state_t.length at *
  rw [hl, hc, hp]
  exact hs

/-- Painting the glyphs `w` from the cell of the index `a` on takes a screen
that shows `s` to one that shows `s1`, when `w` is what `s1` has in these
cells, blanks after its end, and outside them `s1` has what `s` has. -/
theorem screen_paint (p : List Nat) (s s1 : rl_state_t) (t : term_t) (a : Nat) (w : List Nat)
    (hs : screen_shows p s t) (hpw : s1.prompt_width = s.prompt_width)
    (hin : ∀ i, a ≤ i → i < a + w.length →
      w.getD (i - a) 0 = if i < s1.length then s1.line.getD i 0 else 0x20)
    (hout : ∀ i, (i < a ∨ a + w.length ≤ i) →
      (i < s1.length → i < s.length ∧ s1.line.getD i 0 = s.line.getD i 0) ∧
      (s1.length ≤ i → s.length ≤ i)) :
    screen_shows p s1
      (term_paint t (s.prompt_width + a) w (s.prompt_width + s1.cur_pos)) := by
  obtain ⟨_, hprompt, hcell, hblank⟩ := hs
  unfold screen_shows term_paint
  rw [hpw]
  refine ⟨rfl, ?_, ?_, ?_⟩
  · intro i hi
    show (if s.prompt_width + a ≤ i ∧ i < s.prompt_width + a + w.length
      then w.getD (i - (s.prompt_width + a)) 0 else t.cells i) = _
    rw [if_neg (by omega)]
    exact hprompt i hi
  · intro i hi
    show (if s.prompt_width + a ≤ s.prompt_width + i ∧
        s.prompt_width + i < s.prompt_width + a + w.length
      then w.getD (s.prompt_width + i - (s.prompt_width + a)) 0
      else t.cells (s.prompt_width + i)) = _
    by_cases h : a ≤ i ∧ i < a + w.length
    · rw [if_pos (by omega),
        show s.prompt_width + i - (s.prompt_width + a) = i - a by omega,
        hin i h.1 h.2, if_pos hi]
    · rw [if_neg (by omega)]
      have ho := (hout i (by omega)).1 hi
      rw [hcell i ho.1, ho.2]
  · intro k hk
    show (if s.prompt_width + a ≤ k ∧ k < s.prompt_width + a + w.length
      then w.getD (k - (s.prompt_width + a)) 0 else t.cells k) = _
    by_cases h : s.prompt_width + a ≤ k ∧ k < s.prompt_width + a + w.length
    · rw [if_pos h]
      have e := hin (k - s.prompt_width) (by omega) (by omega)
      rw [show k - s.prompt_width - a = k - (s.prompt_width + a) by omega,
        if_neg (by omega)] at e
      exact e
    · rw [if_neg h]
      have ho := (hout (k - s.prompt_width) (by omega)).2 (by omega)
      exact hblank k (by omega)

/-- Painting the line of `s1` from the index `a` on and `k` blanks after it
takes a screen that shows `s` to one that shows `s1`, when the two lines are
the same before `a` and the blanks reach the end of the line of `s`. -/
theorem screen_paint_tail (p : List Nat) (s s1 : rl_state_t) (t : term_t) (a k : Nat)
    (hs : screen_shows p s t) (hpw : s1.prompt_width = s.prompt_width)
    (ha : a ≤ s.length) (ha1 : a ≤ s1.length)
    (hpre : ∀ i, i < a → s1.line.getD i 0 = s.line.getD i 0)
    (hk : s.length ≤ s1.length + k) :
    screen_shows p s1
      (term_paint t (s.prompt_width + a) (s1.line.drop a ++ List.replicate k 0x20)
        (s.prompt_width + s1.cur_pos)) := by
  have hL : s.length = s.line.length := rfl
  have hL1 : s1.length = s1.line.length := rfl
  have hl : (s1.line.drop a ++ List.replicate k 0x20).length = s1.length - a + k := by
    simp only [List.length_append, List.length_drop, List.length_replicate]
    rfl
  apply screen_paint p s s1 t a _ hs hpw
  · intro i h1 h2
    rw [hl] at h2
    by_cases hi : i < s1.length
    · rw [if_pos hi, List.getD_append _ _ _ _ (by rw [List.length_drop]; omega),
        List.getD_eq_getElem?_getD, List.getElem?_drop, ← List.getD_eq_getElem?_getD]
      congr 1
      omega
    · rw [if_neg hi, List.getD_append_right _ _ _ _ (by rw [List.length_drop]; omega),
        List.getD_eq_getElem?_getD, List.getElem?_replicate]
      rw [if_pos (by rw [List.length_drop]; omega)]
      rfl
  · intro i hi
    rw [hl] at hi
    refine ⟨fun h => ⟨by omega, hpre i (by omega)⟩, fun h => by omega⟩

/-- A pure move of the cursor on a screen that shows `s`. -/
theorem screen_cursor (p : List Nat) (s : rl_state_t) (t : term_t) (q : Nat)
    (hs : screen_shows p s t) :
    screen_shows p { s with cur_pos := q } { t with cursor := s.prompt_width + q } :=
  ⟨rfl, hs.2.1, hs.2.2.1, hs.2.2.2⟩

/-- With a column count that is not zero, `rl_move(n)` on a screen that shows
`s` leaves a screen that shows `s` with the cursor `n` further. -/
theorem screen_rl_move (dec : List Nat → List Nat) (RL_MAX_LENGTH cols : Nat) (n : Int)
    (p : List Nat) (s : rl_state_t) (q : Nat) (t : term_t) (hcols : 0 < cols)
    (hq : (q : Int) = (s.cur_pos : Int) + n) (hs : screen_shows p s t) :
    ∃ outs, rl_move RL_MAX_LENGTH cols n s = some outs ∧
      screen_shows p { s with cur_pos := q } (term_run dec cols t outs) := by
  obtain ⟨outs, hmv, hrun⟩ := term_rl_move dec RL_MAX_LENGTH cols n s (s.prompt_width + q) t
    hcols (by push_cast; omega) (by rw [hs.1]; omega)
  exact ⟨outs, hmv, by rw [hrun]; exact screen_cursor p s t q hs⟩

/-- On a screen that shows `s`, writing the `n` glyphs at the cursor again
leaves a screen that shows `s` with the cursor `n` further. -/
theorem screen_write_count (dec : List Nat → List Nat) (RL_MAX_LENGTH cols : Nat)
    (hdec : ∀ g, glyphs_ok g → dec (encode_all g) = g) (n : Nat) (p : List Nat)
    (s : rl_state_t) (hg : glyphs_ok s.line) (hn : s.cur_pos + n ≤ s.length)
    (t : term_t) (hs : screen_shows p s t) (outs : List rl_out_t)
    (h : rl_write_part_out RL_MAX_LENGTH s.cur_pos (n : Int) s = some outs) :
    screen_shows p { s with cur_pos := s.cur_pos + n } (term_run dec cols t outs) := by
  rw [term_write_part_count dec RL_MAX_LENGTH cols hdec s.cur_pos n s hg t outs h, hs.1]
  have hl : ((s.line.drop s.cur_pos).take n).length = n := by
    rw [List.length_take, List.length_drop]
    unfold rl_state_t.length at hn
    omega
  rw [hl]
  have := screen_paint p s { s with cur_pos := s.cur_pos + n } t s.cur_pos
    ((s.line.drop s.cur_pos).take n) hs rfl
    (by
      intro i h1 h2
      rw [hl] at h2
      have hi : i < s.length := by omega
      show _ = if i < s.length then s.line.getD i 0 else 0x20
      rw [if_pos hi, List.getD_eq_getElem?_getD, List.getElem?_take_of_lt (by omega),
        List.getElem?_drop, ← List.getD_eq_getElem?_getD]
      congr 1
      omega)
    (by
      intro i _
      exact ⟨fun h => ⟨h, rfl⟩, fun h => h⟩)
  rw [Nat.add_assoc]
  exact this

/-- On a screen that shows `s`, writing the glyphs from the cursor on again
leaves a screen that shows `s` with the cursor at the end. -/
theorem screen_write_rest (dec : List Nat → List Nat) (RL_MAX_LENGTH cols : Nat)
    (hdec : ∀ g, glyphs_ok g → dec (encode_all g) = g) (p : List Nat)
    (s : rl_state_t) (hg : glyphs_ok s.line) (hc : s.cur_pos ≤ s.length)
    (t : term_t) (hs : screen_shows p s t) (outs : List rl_out_t)
    (h : rl_write_part_out RL_MAX_LENGTH s.cur_pos (-1) s = some outs) :
    screen_shows p { s with cur_pos := s.length } (term_run dec cols t outs) := by
  have hL : s.length = s.line.length := rfl
  have e : s.prompt_width + s.cur_pos + (s.line.drop s.cur_pos).length
      = s.prompt_width + s.length := by
    rw [List.length_drop]; omega
  rw [term_write_part_rest dec RL_MAX_LENGTH cols hdec s.cur_pos s hg t outs h, hs.1, e]
  have := screen_paint_tail p s { s with cur_pos := s.length } t s.cur_pos 0 hs rfl hc hc
    (fun _ _ => rfl) (Nat.le_refl _)
  rw [List.replicate_zero, List.append_nil] at this
  exact this

/-! ## The screen after the cursor handlers -/

theorem rlc_next_word_ge (s : rl_state_t) : s.cur_pos ≤ rlc_next_word s := by
  unfold rlc_next_word
  exact le_trans (scan_right_ge _ _ _) (scan_right_ge _ _ _)

theorem screen_cursor_home (dec : List Nat → List Nat) (RL_MAX_LENGTH cols : Nat)
    (hcols : 0 < cols) (p : List Nat) (s : rl_state_t) (t : term_t)
    (hs : screen_shows p s t) (outs : List rl_out_t)
    (h : rlc_cursor_home_out RL_MAX_LENGTH cols s = some outs) :
    screen_shows p (rlc_cursor_home s) (term_run dec cols t outs) := by
  obtain ⟨o, ho, hsc⟩ := screen_rl_move dec RL_MAX_LENGTH cols (-(s.cur_pos : Int)) p s 0 t
    hcols (by push_cast; omega) hs
  unfold rlc_cursor_home_out at h
  rw [ho] at h
  cases h
  exact hsc

theorem screen_cursor_left (dec : List Nat → List Nat) (RL_MAX_LENGTH cols : Nat)
    (hcols : 0 < cols) (p : List Nat) (s : rl_state_t) (t : term_t)
    (hs : screen_shows p s t) (outs : List rl_out_t)
    (h : rlc_cursor_left_out RL_MAX_LENGTH cols s = some outs) :
    screen_shows p (rlc_cursor_left s) (term_run dec cols t outs) := by
  unfold rlc_cursor_left_out at h
  unfold rlc_cursor_left
  by_cases hc : s.cur_pos ≠ 0
  · rw [if_pos hc] at h
    rw [if_pos hc]
    obtain ⟨o, ho, hsc⟩ := screen_rl_move dec RL_MAX_LENGTH cols (-1) p s (s.cur_pos - 1) t
      hcols (by omega) hs
    rw [ho] at h
    cases h
    exact hsc
  · rw [if_neg hc] at h
    rw [if_neg hc]
    cases h
    exact hs

theorem screen_cursor_right (dec : List Nat → List Nat) (RL_MAX_LENGTH cols : Nat)
    (hdec : ∀ g, glyphs_ok g → dec (encode_all g) = g) (p : List Nat)
    (s : rl_state_t) (hg : glyphs_ok s.line) (t : term_t)
    (hs : screen_shows p s t) (outs : List rl_out_t)
    (h : rlc_cursor_right_out RL_MAX_LENGTH s = some outs) :
    screen_shows p (rlc_cursor_right s) (term_run dec cols t outs) := by
  unfold rlc_cursor_right_out at h
  unfold rlc_cursor_right
  by_cases hc : s.cur_pos < s.length
  · rw [if_pos hc] at h
    rw [if_pos hc]
    exact screen_write_count dec RL_MAX_LENGTH cols hdec 1 p s hg (by omega) t hs outs h
  · rw [if_neg hc] at h
    rw [if_neg hc]
    cases h
    exact hs

theorem screen_cursor_end (dec : List Nat → List Nat) (RL_MAX_LENGTH cols : Nat)
    (hdec : ∀ g, glyphs_ok g → dec (encode_all g) = g) (p : List Nat)
    (s : rl_state_t) (hg : glyphs_ok s.line) (hc : s.cur_pos ≤ s.length) (t : term_t)
    (hs : screen_shows p s t) (outs : List rl_out_t)
    (h : rlc_cursor_end_out RL_MAX_LENGTH s = some outs) :
    screen_shows p { s with cur_pos := s.length } (term_run dec cols t outs) :=
  screen_write_rest dec RL_MAX_LENGTH cols hdec p s hg hc t hs outs h

theorem screen_cursor_word_left (dec : List Nat → List Nat) (RL_MAX_LENGTH cols : Nat)
    (hcols : 0 < cols) (p : List Nat) (s : rl_state_t) (t : term_t)
    (hs : screen_shows p s t) (outs : List rl_out_t)
    (h : rlc_cursor_word_left_out RL_MAX_LENGTH cols s = some outs) :
    screen_shows p (rlc_cursor_word_left s) (term_run dec cols t outs) := by
  unfold rlc_cursor_word_left_out at h
  unfold rlc_cursor_word_left
  by_cases hc : s.cur_pos = 0
  · rw [if_pos hc] at h
    rw [if_pos hc]
    cases h
    exact hs
  · rw [if_neg hc] at h
    rw [if_neg hc]
    obtain ⟨o, ho, hsc⟩ := screen_rl_move dec RL_MAX_LENGTH cols
      ((word_left_pos s.line s.cur_pos : Int) - (s.cur_pos : Int)) p s
      (word_left_pos s.line s.cur_pos) t hcols (by omega) hs
    rw [ho] at h
    cases h
    exact hsc

theorem screen_cursor_word_right (dec : List Nat → List Nat) (RL_MAX_LENGTH cols : Nat)
    (hdec : ∀ g, glyphs_ok g → dec (encode_all g) = g) (p : List Nat)
    (s s1 : rl_state_t) (hg : glyphs_ok s.line) (t : term_t)
    (hs : screen_shows p s t) (outs : List rl_out_t)
    (hrun : rlc_cursor_word_right RL_MAX_LENGTH s = some s1)
    (h : rlc_cursor_word_right_out RL_MAX_LENGTH s = some outs) :
    screen_shows p s1 (term_run dec cols t outs) := by
  unfold rlc_cursor_word_right_out at h
  have hs1 := rlc_cursor_word_right_some RL_MAX_LENGTH s s1 hrun
  by_cases hc : s.cur_pos ≥ s.length
  · rw [if_pos hc] at h
    rw [if_pos hc] at hs1
    cases h
    rw [hs1]
    exact hs
  · rw [if_neg hc] at h
    rw [if_neg hc] at hs1
    have hge := rlc_next_word_ge s
    have hle := rlc_next_word_le s (by omega)
    have e : (rlc_next_word s : Int) - (s.cur_pos : Int)
        = ((rlc_next_word s - s.cur_pos : Nat) : Int) := by omega
    rw [e] at h
    have := screen_write_count dec RL_MAX_LENGTH cols hdec (rlc_next_word s - s.cur_pos) p s hg
      (by omega) t hs outs h
    rw [show s.cur_pos + (rlc_next_word s - s.cur_pos) = rlc_next_word s by omega] at this
    rw [hs1]
    exact this

/-! ## The screen after the deleting handlers -/

theorem glyphs_ok_delete_n (k : Nat) (s : rl_state_t) (hg : glyphs_ok s.line) :
    glyphs_ok (rlc_delete_n k s).line := by
  rw [rlc_delete_n_line]
  exact glyphs_ok_append _ _ (glyphs_ok_take _ _ hg) (glyphs_ok_drop _ _ hg)

theorem screen_delete_n (dec : List Nat → List Nat) (RL_MAX_LENGTH cols : Nat)
    (hdec : ∀ g, glyphs_ok g → dec (encode_all g) = g) (hcols : 0 < cols) (count : Nat)
    (p : List Nat) (s : rl_state_t) (hg : glyphs_ok s.line) (hc : s.cur_pos ≤ s.length)
    (t : term_t) (hs : screen_shows p s t) (outs : List rl_out_t)
    (h : rlc_delete_n_out RL_MAX_LENGTH cols count s = some outs) :
    screen_shows p (rlc_delete_n count s) (term_run dec cols t outs) := by
  unfold rlc_delete_n_out at h
  by_cases hcond : s.cur_pos < s.length ∧ count ≠ 0
  · rw [if_pos hcond] at h
    have hcl : (if count > s.length - s.cur_pos then s.length - s.cur_pos else count)
        = min count (s.length - s.cur_pos) := by
      split <;> omega
    simp only [hcl] at h
    have hline := rlc_delete_n_line count s
    have hfr := rlc_delete_n_frame count s
    have hlen := rlc_delete_n_length count s hc
    have hL : s.length = s.line.length := rfl
    have hrun := term_update_tail dec RL_MAX_LENGTH cols hdec hcols
      (min count (s.length - s.cur_pos)) (rlc_delete_n count s)
      (glyphs_ok_delete_n count s hg) (by rw [hfr.1, hlen]; omega) t
      (by rw [hfr.1, hfr.2.2.2.2.2]; exact hs.1) outs h
    rw [hrun, hs.1]
    have hp := screen_paint_tail p s (rlc_delete_n count s) t s.cur_pos
      (min count (s.length - s.cur_pos)) hs hfr.2.2.2.2.2 hc (by rw [hlen]; omega)
      (by
        intro i hi
        rw [hline, List.getD_append _ _ _ _ (by rw [List.length_take]; omega),
          List.getD_eq_getElem?_getD, List.getElem?_take_of_lt hi,
          ← List.getD_eq_getElem?_getD])
      (by rw [hlen]; omega)
    rw [hfr.1] at hp ⊢
    exact hp
  · rw [if_neg hcond] at h
    cases h
    unfold rlc_delete_n
    rw [if_neg hcond]
    exact hs

theorem screen_delete (dec : List Nat → List Nat) (RL_MAX_LENGTH cols : Nat)
    (hdec : ∀ g, glyphs_ok g → dec (encode_all g) = g) (hcols : 0 < cols)
    (p : List Nat) (s : rl_state_t) (hg : glyphs_ok s.line) (hc : s.cur_pos ≤ s.length)
    (t : term_t) (hs : screen_shows p s t) (outs : List rl_out_t)
    (h : rlc_delete_out RL_MAX_LENGTH cols s = some outs) :
    screen_shows p (rlc_delete s) (term_run dec cols t outs) :=
  screen_delete_n dec RL_MAX_LENGTH cols hdec hcols 1 p s hg hc t hs outs h

theorem screen_delete_word (dec : List Nat → List Nat) (RL_MAX_LENGTH cols : Nat)
    (hdec : ∀ g, glyphs_ok g → dec (encode_all g) = g) (hcols : 0 < cols)
    (p : List Nat) (s : rl_state_t) (hg : glyphs_ok s.line) (hc : s.cur_pos ≤ s.length)
    (t : term_t) (hs : screen_shows p s t) (outs : List rl_out_t)
    (h : rlc_delete_word_out RL_MAX_LENGTH cols s = some outs) :
    screen_shows p (rlc_delete_word s) (term_run dec cols t outs) :=
  screen_delete_n dec RL_MAX_LENGTH cols hdec hcols _ p s hg hc t hs outs h

theorem screen_delete_to_end (dec : List Nat → List Nat) (RL_MAX_LENGTH cols : Nat)
    (hdec : ∀ g, glyphs_ok g → dec (encode_all g) = g) (hcols : 0 < cols)
    (p : List Nat) (s : rl_state_t) (hg : glyphs_ok s.line) (hc : s.cur_pos ≤ s.length)
    (t : term_t) (hs : screen_shows p s t) (outs : List rl_out_t)
    (h : rlc_delete_to_end_out RL_MAX_LENGTH cols s = some outs) :
    screen_shows p (rlc_delete_to_end s) (term_run dec cols t outs) :=
  screen_delete_n dec RL_MAX_LENGTH cols hdec hcols _ p s hg hc t hs outs h

theorem out_seq_some (a b : Option (List rl_out_t)) (outs : List rl_out_t)
    (h : out_seq a b = some outs) :
    ∃ x y, a = some x ∧ b = some y ∧ outs = x ++ y := by
  cases a with
  | none => simp [out_seq] at h
  | some x =>
    cases b with
    | none => simp [out_seq] at h
    | some y =>
      simp only [out_seq, Option.some.injEq] at h
      exact ⟨x, y, rfl, rfl, h.symm⟩

theorem screen_backspace (dec : List Nat → List Nat) (RL_MAX_LENGTH cols : Nat)
    (hdec : ∀ g, glyphs_ok g → dec (encode_all g) = g) (hcols : 0 < cols)
    (p : List Nat) (s : rl_state_t) (hg : glyphs_ok s.line) (hc : s.cur_pos ≤ s.length)
    (t : term_t) (hs : screen_shows p s t) (outs : List rl_out_t)
    (h : rlc_backspace_out RL_MAX_LENGTH cols s = some outs) :
    screen_shows p (rlc_backspace s) (term_run dec cols t outs) := by
  unfold rlc_backspace_out at h
  unfold rlc_backspace
  by_cases h0 : s.cur_pos ≠ 0
  · rw [if_pos h0] at h
    rw [if_pos h0]
    obtain ⟨x, y, hx, hy, rfl⟩ := out_seq_some _ _ _ h
    obtain ⟨o, ho, hsc⟩ := screen_rl_move dec RL_MAX_LENGTH cols (-1) p s (s.cur_pos - 1) t
      hcols (by omega) hs
    rw [ho] at hx
    cases hx
    rw [term_run_append]
    exact screen_delete_n dec RL_MAX_LENGTH cols hdec hcols 1 p
      { s with cur_pos := s.cur_pos - 1 } hg
      (by show s.cur_pos - 1 ≤ s.length; omega) _ hsc y hy
  · rw [if_neg h0] at h
    rw [if_neg h0]
    cases h
    exact hs

theorem screen_backword (dec : List Nat → List Nat) (RL_MAX_LENGTH cols : Nat)
    (hdec : ∀ g, glyphs_ok g → dec (encode_all g) = g) (hcols : 0 < cols)
    (p : List Nat) (s : rl_state_t) (hg : glyphs_ok s.line) (hc : s.cur_pos ≤ s.length)
    (t : term_t) (hs : screen_shows p s t) (outs : List rl_out_t)
    (h : rlc_backword_out RL_MAX_LENGTH cols s = some outs) :
    screen_shows p (rlc_backword s) (term_run dec cols t outs) := by
  unfold rlc_backword_out at h
  unfold rlc_backword
  obtain ⟨x, y, hx, hy, rfl⟩ := out_seq_some _ _ _ h
  have hsc := screen_cursor_word_left dec RL_MAX_LENGTH cols hcols p s t hs x hx
  have hl : (rlc_cursor_word_left s).line = s.line := by
    unfold rlc_cursor_word_left; split <;> rfl
  have hcp : (rlc_cursor_word_left s).cur_pos ≤ s.cur_pos := by
    unfold rlc_cursor_word_left
    split
    · exact Nat.le_refl _
    · exact word_left_pos_le _ _
  rw [term_run_append]
  exact screen_delete_n dec RL_MAX_LENGTH cols hdec hcols _ p (rlc_cursor_word_left s)
    (by rw [hl]; exact hg)
    (by
      have : (rlc_cursor_word_left s).length = s.length := by
        unfold rl_state_t.length; rw [hl]
      omega) _ hsc y hy

theorem screen_delete_to_begin (dec : List Nat → List Nat) (RL_MAX_LENGTH cols : Nat)
    (hdec : ∀ g, glyphs_ok g → dec (encode_all g) = g) (hcols : 0 < cols)
    (p : List Nat) (s : rl_state_t) (hg : glyphs_ok s.line)
    (t : term_t) (hs : screen_shows p s t) (outs : List rl_out_t)
    (h : rlc_delete_to_begin_out RL_MAX_LENGTH cols s = some outs) :
    screen_shows p (rlc_delete_to_begin s) (term_run dec cols t outs) := by
  unfold rlc_delete_to_begin_out at h
  unfold rlc_delete_to_begin
  obtain ⟨x, y, hx, hy, rfl⟩ := out_seq_some _ _ _ h
  have hsc := screen_cursor_home dec RL_MAX_LENGTH cols hcols p s t hs x hx
  rw [term_run_append]
  exact screen_delete_n dec RL_MAX_LENGTH cols hdec hcols _ p (rlc_cursor_home s) hg
    (by show 0 ≤ s.length; omega) _ hsc y hy

/-! ## The screen after an insertion and after `rl_set_text` -/

/-- The two steps of a redraw from the cursor on: `rl_write_part` lays `c`
glyphs of the new line at the cursor, then `rl_update_tail` with the cursor
after them lays the rest of the new line and `k` blanks.  When the new line
is the old one before the cursor and the blanks reach the end of the old
line, the screen shows the new state. -/
theorem screen_write_tail (dec : List Nat → List Nat) (RL_MAX_LENGTH cols : Nat)
    (hdec : ∀ g, glyphs_ok g → dec (encode_all g) = g) (hcols : 0 < cols)
    (p : List Nat) (s sA sB : rl_state_t) (c k : Nat) (t : term_t) (x y : List rl_out_t)
    (hs : screen_shows p s t) (hlA : sA.line = sB.line)
    (hpw : sB.prompt_width = s.prompt_width) (hcB : sB.cur_pos = s.cur_pos + c)
    (hg : glyphs_ok sB.line) (hc : s.cur_pos ≤ s.length) (hcl : s.cur_pos + c ≤ sB.length)
    (hpre : ∀ i, i < s.cur_pos → sB.line.getD i 0 = s.line.getD i 0)
    (hk : s.length ≤ sB.length + k)
    (hx : rl_write_part_out RL_MAX_LENGTH s.cur_pos (c : Int) sA = some x)
    (hy : rl_update_tail_out RL_MAX_LENGTH cols k sB = some y) :
    screen_shows p sB (term_run dec cols t (x ++ y)) := by
  have hLB : sB.length = sB.line.length := rfl
  have h1 := term_write_part_count dec RL_MAX_LENGTH cols hdec s.cur_pos c sA
    (by rw [hlA]; exact hg) t x hx
  rw [hlA] at h1
  have hw1 : ((sB.line.drop s.cur_pos).take c).length = c := by
    rw [List.length_take, List.length_drop]
    omega
  have hcur : (term_run dec cols t x).cursor = t.cursor + c := by
    rw [h1, hw1]
    rfl
  have h2 := term_update_tail dec RL_MAX_LENGTH cols hdec hcols k sB hg (by omega)
    (term_run dec cols t x) (by rw [hcur, hs.1, hpw, hcB]; omega) y hy
  have hp := term_paint_paint t t.cursor ((sB.line.drop s.cur_pos).take c)
    (sB.line.drop sB.cur_pos ++ List.replicate k 0x20) (t.cursor + c) (t.cursor + c)
  rw [hw1] at hp
  have hsplit : (sB.line.drop s.cur_pos).take c
      ++ (sB.line.drop sB.cur_pos ++ List.replicate k 0x20)
      = sB.line.drop s.cur_pos ++ List.replicate k 0x20 := by
    have e := List.take_append_drop c (sB.line.drop s.cur_pos)
    rw [List.drop_drop] at e
    rw [← List.append_assoc, hcB]
    congr 1
  rw [term_run_append, h2, hcur, h1, hw1, hp, hsplit, hs.1]
  have hfin := screen_paint_tail p s sB t s.cur_pos k hs hpw hc (by omega) hpre hk
  rw [hcB, ← Nat.add_assoc] at hfin
  exact hfin

/-- One step of a redraw from the cursor on: `rl_write_part` lays the glyphs
of the new line from the cursor to its end, and the new line is not shorter
than the old one. -/
theorem screen_write_all (dec : List Nat → List Nat) (RL_MAX_LENGTH cols : Nat)
    (hdec : ∀ g, glyphs_ok g → dec (encode_all g) = g)
    (p : List Nat) (s sB : rl_state_t) (c : Nat) (t : term_t) (x : List rl_out_t)
    (hs : screen_shows p s t)
    (hpw : sB.prompt_width = s.prompt_width) (hcB : sB.cur_pos = s.cur_pos + c)
    (hg : glyphs_ok sB.line) (hc : s.cur_pos ≤ s.length) (hcl : s.cur_pos + c = sB.length)
    (hpre : ∀ i, i < s.cur_pos → sB.line.getD i 0 = s.line.getD i 0)
    (hk : s.length ≤ sB.length)
    (hx : rl_write_part_out RL_MAX_LENGTH s.cur_pos (c : Int) sB = some x) :
    screen_shows p sB (term_run dec cols t x) := by
  have hLB : sB.length = sB.line.length := rfl
  have h1 := term_write_part_count dec RL_MAX_LENGTH cols hdec s.cur_pos c sB hg t x hx
  have hw : (sB.line.drop s.cur_pos).take c
      = sB.line.drop s.cur_pos ++ List.replicate 0 0x20 := by
    rw [List.replicate_zero, List.append_nil]
    exact List.take_of_length_le (by rw [List.length_drop]; omega)
  have hw1 : (sB.line.drop s.cur_pos ++ List.replicate 0 0x20).length = c := by
    rw [List.replicate_zero, List.append_nil, List.length_drop]
    omega
  rw [hw, hw1] at h1
  rw [h1, hs.1]
  have hfin := screen_paint_tail p s sB t s.cur_pos 0 hs hpw hc (by omega) hpre (by omega)
  rw [hcB, ← Nat.add_assoc] at hfin
  exact hfin

theorem screen_insert_seq (dec : List Nat → List Nat) (RL_MAX_LENGTH cols junk : Nat)
    (hdec : ∀ g, glyphs_ok g → dec (encode_all g) = g) (hcols : 0 < cols)
    (seq : List Nat) (p : List Nat) (s s1 : rl_state_t) (hg1 : glyphs_ok s1.line)
    (hc : s.cur_pos ≤ s.length) (t : term_t) (hs : screen_shows p s t)
    (outs : List rl_out_t)
    (hrun : rl_insert_seq RL_MAX_LENGTH junk seq s = some s1)
    (hout : rl_insert_seq_out RL_MAX_LENGTH cols junk seq s = some outs) :
    screen_shows p s1 (term_run dec cols t outs) := by
  unfold rl_insert_seq at hrun
  unfold rl_insert_seq_out at hout
  cases hu : utf8tog junk seq with
  | none => rw [hu] at hrun; simp at hrun
  | some uc =>
    rw [hu] at hrun hout
    simp only at hrun hout
    by_cases hfit : uc.length + 1 ≤ RL_MAX_LENGTH * 2
    · rw [if_pos hfit] at hrun hout
      have hcnt : (if uc.length > RL_MAX_LENGTH - s.length - 1
          then RL_MAX_LENGTH - s.length - 1 else uc.length) ≤ uc.length := by
        split <;> omega
      generalize (if uc.length > RL_MAX_LENGTH - s.length - 1
          then RL_MAX_LENGTH - s.length - 1 else uc.length) = c at hrun hout hcnt
      by_cases hc0 : c = 0
      · rw [if_pos hc0] at hrun hout
        cases hrun
        cases hout
        exact hs
      · rw [if_neg hc0] at hrun hout
        have hrun1 : s1 = { s with
            line := s.line.take s.cur_pos ++ uc.take c ++ s.line.drop s.cur_pos,
            cur_pos := s.cur_pos + c } := by
          split at hrun
          · simp at hrun
          · exact (Option.some.inj hrun).symm
        subst hrun1
        obtain ⟨x, y, hx, hy, rfl⟩ := out_seq_some _ _ _ hout
        have hL : s.length = s.line.length := rfl
        have hlen : (s.line.take s.cur_pos ++ uc.take c ++ s.line.drop s.cur_pos).length
            = s.length + c := by
          simp only [List.length_append, List.length_take, List.length_drop]
          omega
        exact screen_write_tail dec RL_MAX_LENGTH cols hdec hcols p s
          { s with line := s.line.take s.cur_pos ++ uc.take c ++ s.line.drop s.cur_pos }
          { s with line := s.line.take s.cur_pos ++ uc.take c ++ s.line.drop s.cur_pos,
                   cur_pos := s.cur_pos + c }
          c 0 t x y hs rfl rfl rfl hg1 hc
          (by show s.cur_pos + c
                ≤ (s.line.take s.cur_pos ++ uc.take c ++ s.line.drop s.cur_pos).length
              rw [hlen]; omega)
          (by
            intro i hi
            show (s.line.take s.cur_pos ++ uc.take c ++ s.line.drop s.cur_pos).getD i 0 = _
            rw [List.getD_append _ _ _ _ (by
                rw [List.length_append, List.length_take]; omega),
              List.getD_append _ _ _ _ (by rw [List.length_take]; omega),
              List.getD_eq_getElem?_getD, List.getElem?_take_of_lt hi,
              ← List.getD_eq_getElem?_getD])
          (by show s.length
                ≤ (s.line.take s.cur_pos ++ uc.take c ++ s.line.drop s.cur_pos).length + 0
              rw [hlen]; omega)
          hx hy
    · rw [if_neg hfit] at hrun
      simp at hrun

theorem rl_set_text_fields (RL_MAX_LENGTH junk : Nat) (text : List Nat) (redraw : Bool)
    (s s1 : rl_state_t) (h : rl_set_text RL_MAX_LENGTH junk text redraw s = some s1) :
    s1.prompt_width = s.prompt_width ∧ s1.cur_pos = s1.length := by
  unfold rl_set_text at h
  simp only at h
  split at h
  · simp at h
  · simp only [Option.some.injEq] at h
    subst h
    cases redraw <;> exact ⟨rfl, rfl⟩

theorem screen_set_text (dec : List Nat → List Nat) (RL_MAX_LENGTH cols junk : Nat)
    (hdec : ∀ g, glyphs_ok g → dec (encode_all g) = g) (hcols : 0 < cols)
    (text : List Nat) (p : List Nat) (s s1 : rl_state_t) (hg1 : glyphs_ok s1.line)
    (t : term_t) (hs : screen_shows p s t) (outs : List rl_out_t)
    (hrun : rl_set_text RL_MAX_LENGTH junk text true s = some s1)
    (hout : rl_set_text_out RL_MAX_LENGTH cols junk text true s = some outs) :
    screen_shows p s1 (term_run dec cols t outs) := by
  obtain ⟨hpw, hcp⟩ := rl_set_text_fields RL_MAX_LENGTH junk text true s s1 hrun
  unfold rl_set_text_out at hout
  rw [hrun] at hout
  simp only [if_true] at hout
  obtain ⟨x, yz, hx, hyz, rfl⟩ := out_seq_some _ _ _ hout
  obtain ⟨y, z, hy, hz, rfl⟩ := out_seq_some _ _ _ hyz
  have hsc := screen_cursor_home dec RL_MAX_LENGTH cols hcols p s t hs x hx
  rw [term_run_append]
  by_cases hsh : s.length > s1.length
  · rw [if_pos hsh] at hz
    exact screen_write_tail dec RL_MAX_LENGTH cols hdec hcols p (rlc_cursor_home s) s1 s1
      s1.length (s.length - s1.length) (term_run dec cols t x) y z hsc rfl hpw
      (by show s1.cur_pos = 0 + s1.length; omega) hg1 (Nat.zero_le _)
      (by show 0 + s1.length ≤ s1.length; omega)
      (fun i hi => absurd hi (Nat.not_lt_zero i))
      (by show s.length ≤ s1.length + (s.length - s1.length); omega)
      hy hz
  · rw [if_neg hsh] at hz
    cases hz
    rw [List.append_nil]
    exact screen_write_all dec RL_MAX_LENGTH cols hdec p (rlc_cursor_home s) s1
      s1.length (term_run dec cols t x) y hsc hpw
      (by show s1.cur_pos = 0 + s1.length; omega) hg1 (Nat.zero_le _)
      (by show 0 + s1.length = s1.length; omega)
      (fun i hi => absurd hi (Nat.not_lt_zero i))
      (by show s.length ≤ s1.length; omega)
      hy

theorem screen_history_pop (dec : List Nat → List Nat) (RL_MAX_LENGTH cols junk : Nat)
    (hdec : ∀ g, glyphs_ok g → dec (encode_all g) = g) (hcols : 0 < cols)
    (idx : Nat) (p : List Nat) (s s1 : rl_state_t) (hg1 : glyphs_ok s1.line)
    (t : term_t) (hs : screen_shows p s t) (outs : List rl_out_t)
    (hrun : history_pop RL_MAX_LENGTH junk idx s = some s1)
    (hout : history_pop_out RL_MAX_LENGTH cols junk idx s = some outs) :
    screen_shows p s1 (term_run dec cols t outs) := by
  unfold history_pop at hrun
  unfold history_pop_out at hout
  simp only at hrun hout
  cases hsel : (if idx = s.history.size then s.history.line else none) with
  | some l =>
    rw [hsel] at hrun hout
    simp only at hrun hout
    cases hst : rl_set_text RL_MAX_LENGTH junk l true s with
    | none => rw [hst] at hrun; simp at hrun
    | some s2 =>
      rw [hst] at hrun
      simp only [Option.map_some', Option.some.injEq] at hrun
      subst hrun
      exact screen_shows_congr p s2 _ _ rfl rfl rfl
        (screen_set_text dec RL_MAX_LENGTH cols junk hdec hcols l p s s2 hg1 t hs outs hst hout)
  | none =>
    rw [hsel] at hrun hout
    simp only at hrun hout
    by_cases hge : idx ≥ s.history.size
    · rw [if_pos hge] at hrun hout
      cases hrun
      cases hout
      exact hs
    · rw [if_neg hge] at hrun hout
      cases hl : s.history.line with
      | some l0 =>
        rw [hl] at hrun hout
        simp only at hrun hout
        exact screen_set_text dec RL_MAX_LENGTH cols junk hdec hcols _ p s s1 hg1 t hs outs
          hrun hout
      | none =>
        rw [hl] at hrun hout
        simp only at hrun hout
        cases he : rl_encode_raw RL_MAX_LENGTH s with
        | none => rw [he] at hrun; simp at hrun
        | some s2 =>
          rw [he] at hrun hout
          simp only [Option.map_some'] at hrun hout
          have hs2 : s2.line = s.line ∧ s2.cur_pos = s.cur_pos ∧
              s2.prompt_width = s.prompt_width := by
            unfold rl_encode_raw at he
            simp only at he
            split at he
            · simp only [Option.some.injEq] at he
              subst he
              exact ⟨rfl, rfl, rfl⟩
            · simp at he
          exact screen_set_text dec RL_MAX_LENGTH cols junk hdec hcols _ p
            { s2 with history := { s2.history with line := some s2.raw } } s1 hg1 t
            (screen_shows_congr p s _ t hs2.1 hs2.2.1 hs2.2.2 hs) outs hrun hout

/-! ## The screen after a dispatch -/

theorem screen_history_back (dec : List Nat → List Nat) (RL_MAX_LENGTH cols junk : Nat)
    (hdec : ∀ g, glyphs_ok g → dec (encode_all g) = g) (hcols : 0 < cols)
    (p : List Nat) (s s1 : rl_state_t) (hg1 : glyphs_ok s1.line)
    (t : term_t) (hs : screen_shows p s t) (outs : List rl_out_t)
    (hrun : rlc_history_back RL_MAX_LENGTH junk s = some s1)
    (hout : rlc_history_back_out RL_MAX_LENGTH cols junk s = some outs) :
    screen_shows p s1 (term_run dec cols t outs) := by
  unfold rlc_history_back at hrun
  unfold rlc_history_back_out at hout
  split at hrun
  · rw [if_pos (by assumption)] at hout
    exact screen_history_pop dec RL_MAX_LENGTH cols junk hdec hcols _ p
      { s with history := { s.history with current := s.history.current - 1 } } s1 hg1 t
      (screen_shows_congr p s _ t rfl rfl rfl hs) outs hrun hout
  · rw [if_neg (by assumption)] at hout
    cases hrun
    cases hout
    exact hs

theorem screen_history_forward (dec : List Nat → List Nat) (RL_MAX_LENGTH cols junk : Nat)
    (hdec : ∀ g, glyphs_ok g → dec (encode_all g) = g) (hcols : 0 < cols)
    (p : List Nat) (s s1 : rl_state_t) (hg1 : glyphs_ok s1.line)
    (t : term_t) (hs : screen_shows p s t) (outs : List rl_out_t)
    (hrun : rlc_history_forward RL_MAX_LENGTH junk s = some s1)
    (hout : rlc_history_forward_out RL_MAX_LENGTH cols junk s = some outs) :
    screen_shows p s1 (term_run dec cols t outs) := by
  unfold rlc_history_forward at hrun
  unfold rlc_history_forward_out at hout
  split at hrun
  · rw [if_pos (by assumption)] at hout
    exact screen_history_pop dec RL_MAX_LENGTH cols junk hdec hcols _ p
      { s with history := { s.history with current := s.history.current + 1 } } s1 hg1 t
      (screen_shows_congr p s _ t rfl rfl rfl hs) outs hrun hout
  · rw [if_neg (by assumption)] at hout
    cases hrun
    cases hout
    exact hs

theorem screen_history_begin (dec : List Nat → List Nat) (RL_MAX_LENGTH cols junk : Nat)
    (hdec : ∀ g, glyphs_ok g → dec (encode_all g) = g) (hcols : 0 < cols)
    (p : List Nat) (s s1 : rl_state_t) (hg1 : glyphs_ok s1.line)
    (t : term_t) (hs : screen_shows p s t) (outs : List rl_out_t)
    (hrun : rlc_history_begin RL_MAX_LENGTH junk s = some s1)
    (hout : rlc_history_begin_out RL_MAX_LENGTH cols junk s = some outs) :
    screen_shows p s1 (term_run dec cols t outs) := by
  unfold rlc_history_begin at hrun
  unfold rlc_history_begin_out at hout
  split at hrun
  · rw [if_pos (by assumption)] at hout
    exact screen_history_pop dec RL_MAX_LENGTH cols junk hdec hcols _ p
      { s with history := { s.history with current := 0 } } s1 hg1 t
      (screen_shows_congr p s _ t rfl rfl rfl hs) outs hrun hout
  · rw [if_neg (by assumption)] at hout
    cases hrun
    cases hout
    exact hs

theorem screen_history_end (dec : List Nat → List Nat) (RL_MAX_LENGTH cols junk : Nat)
    (hdec : ∀ g, glyphs_ok g → dec (encode_all g) = g) (hcols : 0 < cols)
    (p : List Nat) (s s1 : rl_state_t) (hg1 : glyphs_ok s1.line)
    (t : term_t) (hs : screen_shows p s t) (outs : List rl_out_t)
    (hrun : rlc_history_end RL_MAX_LENGTH junk s = some s1)
    (hout : rlc_history_end_out RL_MAX_LENGTH cols junk s = some outs) :
    screen_shows p s1 (term_run dec cols t outs) := by
  unfold rlc_history_end at hrun
  unfold rlc_history_end_out at hout
  split at hrun
  · rw [if_pos (by assumption)] at hout
    exact screen_history_pop dec RL_MAX_LENGTH cols junk hdec hcols _ p
      { s with history := { s.history with current := s.history.size } } s1 hg1 t
      (screen_shows_congr p s _ t rfl rfl rfl hs) outs hrun hout
  · rw [if_neg (by assumption)] at hout
    cases hrun
    cases hout
    exact hs

theorem screen_autocomplete (dec : List Nat → List Nat) (RL_MAX_LENGTH cols junk : Nat)
    (hdec : ∀ g, glyphs_ok g → dec (encode_all g) = g) (hcols : 0 < cols)
    (gc : Option rl_get_completion_fn)
    (p : List Nat) (s s1 : rl_state_t) (hg1 : glyphs_ok s1.line) (hc : s.cur_pos ≤ s.length)
    (t : term_t) (hs : screen_shows p s t) (outs : List rl_out_t)
    (hrun : rlc_autocomplete RL_MAX_LENGTH junk gc s = some s1)
    (hout : rlc_autocomplete_out RL_MAX_LENGTH cols junk gc s = some outs) :
    screen_shows p s1 (term_run dec cols t outs) := by
  unfold rlc_autocomplete at hrun
  unfold rlc_autocomplete_out at hout
  cases gc with
  | none =>
    simp only at hrun hout
    cases hrun
    cases hout
    exact hs
  | some f =>
    simp only at hrun hout
    split at hrun
    · rw [if_pos (by assumption)] at hout
      cases hf : f (cstr (gtoutf8 s.line s.cur_pos ++
          gtoutf8 (s.line.drop s.cur_pos) ((s.length : Int) - (s.cur_pos : Int))))
          (gtoutf8 s.line s.cur_pos).length with
      | none =>
        rw [hf] at hrun hout
        simp only [Option.some.injEq] at hrun hout
        subst hrun
        subst hout
        exact screen_shows_congr p s _ t rfl rfl rfl hs
      | some ins =>
        rw [hf] at hrun hout
        simp only at hrun hout
        exact screen_insert_seq dec RL_MAX_LENGTH cols junk hdec hcols ins p
          { s with raw := cstr (gtoutf8 s.line s.cur_pos ++
              gtoutf8 (s.line.drop s.cur_pos) ((s.length : Int) - (s.cur_pos : Int))) }
          s1 hg1 hc t (screen_shows_congr p s _ t rfl rfl rfl hs) outs hrun hout
    · simp at hrun

theorem screen_handler (dec : List Nat → List Nat) (RL_MAX_LENGTH cols junk : Nat)
    (hdec : ∀ g, glyphs_ok g → dec (encode_all g) = g) (hcols : 0 < cols)
    (gc : Option rl_get_completion_fn) (cmd : rl_handler)
    (p : List Nat) (s s1 : rl_state_t) (hg : glyphs_ok s.line) (hg1 : glyphs_ok s1.line)
    (hc : s.cur_pos ≤ s.length) (t : term_t) (hs : screen_shows p s t)
    (outs : List rl_out_t)
    (hrun : cmd.run RL_MAX_LENGTH junk gc s = some s1)
    (hout : cmd.out RL_MAX_LENGTH cols junk gc s = some outs) :
    screen_shows p s1 (term_run dec cols t outs) := by
  cases cmd
  case cursor_home =>
    cases hrun
    exact screen_cursor_home dec RL_MAX_LENGTH cols hcols p s t hs outs hout
  case cursor_left =>
    cases hrun
    exact screen_cursor_left dec RL_MAX_LENGTH cols hcols p s t hs outs hout
  case cursor_right =>
    cases hrun
    exact screen_cursor_right dec RL_MAX_LENGTH cols hdec p s hg t hs outs hout
  case cursor_end =>
    rw [rlc_cursor_end_some RL_MAX_LENGTH s s1 hrun]
    exact screen_cursor_end dec RL_MAX_LENGTH cols hdec p s hg hc t hs outs hout
  case cursor_word_left =>
    cases hrun
    exact screen_cursor_word_left dec RL_MAX_LENGTH cols hcols p s t hs outs hout
  case cursor_word_right =>
    exact screen_cursor_word_right dec RL_MAX_LENGTH cols hdec p s s1 hg t hs outs hrun hout
  case backspace =>
    cases hrun
    exact screen_backspace dec RL_MAX_LENGTH cols hdec hcols p s hg hc t hs outs hout
  case delete =>
    cases hrun
    exact screen_delete dec RL_MAX_LENGTH cols hdec hcols p s hg hc t hs outs hout
  case backword =>
    cases hrun
    exact screen_backword dec RL_MAX_LENGTH cols hdec hcols p s hg hc t hs outs hout
  case delete_word =>
    cases hrun
    exact screen_delete_word dec RL_MAX_LENGTH cols hdec hcols p s hg hc t hs outs hout
  case delete_to_end =>
    cases hrun
    exact screen_delete_to_end dec RL_MAX_LENGTH cols hdec hcols p s hg hc t hs outs hout
  case delete_to_begin =>
    cases hrun
    exact screen_delete_to_begin dec RL_MAX_LENGTH cols hdec hcols p s hg t hs outs hout
  case autocomplete =>
    exact screen_autocomplete dec RL_MAX_LENGTH cols junk hdec hcols gc p s s1 hg1 hc t hs
      outs hrun hout
  case history_back =>
    exact screen_history_back dec RL_MAX_LENGTH cols junk hdec hcols p s s1 hg1 t hs
      outs hrun hout
  case history_forward =>
    exact screen_history_forward dec RL_MAX_LENGTH cols junk hdec hcols p s s1 hg1 t hs
      outs hrun hout
  case history_begin =>
    exact screen_history_begin dec RL_MAX_LENGTH cols junk hdec hcols p s s1 hg1 t hs
      outs hrun hout
  case history_end =>
    exact screen_history_end dec RL_MAX_LENGTH cols junk hdec hcols p s s1 hg1 t hs
      outs hrun hout
  case enter =>
    cases hrun
    cases hout
    exact screen_shows_congr p s _ t rfl rfl rfl hs

theorem term_decode_encode_all (g : List Nat) (hg : glyphs_ok g) :
    term_decode (encode_all g) = g := by
  unfold term_decode utf8tog
  rw [utf8tog_loop_encode_all 0 g hg _ (Nat.lt_succ_self _)]
  rfl

/-- Screen-model equivalence, where the emitted bytes fit the buffers they
are formatted in.  The bytes the editor emits are interpreted on a grid of
cells with a cursor and a column count that is not zero, by a terminal that
decodes the encoding of the glyphs of one to three bytes.  After any
dispatch `rl_exec_seq(seq)` that starts with the cursor within the line and
from a screen showing the prompt and the line, that leaves the state `s1`
and emits `outs`, the lines before and after being made of such glyphs, the
screen shows the prompt and the line of `s1`: the glyphs of the prompt in the
first `prompt_width` cells, the glyphs of the line after them, blanks in all
cells beyond `prompt_width + length`, the cursor on the cell
`prompt_width + cur_pos`. -/
theorem screen_after_dispatch (dec : List Nat → List Nat) (RL_MAX_LENGTH cols junk : Nat)
    (gc : Option rl_get_completion_fn) (seq : List Nat)
    (p : List Nat) (s s1 : rl_state_t) (t : term_t) (outs : List rl_out_t)
    (hdec : ∀ g, glyphs_ok g → dec (encode_all g) = g) (hcols : 0 < cols)
    (hg : glyphs_ok s.line) (hg1 : glyphs_ok s1.line) (hc : s.cur_pos ≤ s.length)
    (hs : screen_shows p s t)
    (hrun : rl_exec_seq RL_MAX_LENGTH junk gc seq s = some s1)
    (hout : rl_exec_seq_out RL_MAX_LENGTH cols junk gc seq s = some outs) :
    screen_shows p s1 (term_run dec cols t outs) := by
  unfold rl_exec_seq at hrun
  unfold rl_exec_seq_out at hout
  cases hf : rl_find_command rl_commands (cstr seq) with
  | some cmd =>
    rw [hf] at hrun hout
    exact screen_handler dec RL_MAX_LENGTH cols junk hdec hcols gc cmd p s s1 hg hg1 hc t hs
      outs hrun hout
  | none =>
    rw [hf] at hrun hout
    simp only at hrun hout
    by_cases hb : seq.headD 0 &&& 0xE0 ≠ 0
    · rw [if_pos hb] at hrun hout
      exact screen_insert_seq dec RL_MAX_LENGTH cols junk hdec hcols seq p s s1 hg1 hc t hs
        outs hrun hout
    · rw [if_neg hb] at hrun hout
      cases hrun
      cases hout
      exact hs

set_option maxRecDepth 100000 in
/-- The prompt `>` and the line `ac` with the cursor on `c`, 80 columns: the
byte `b` is dispatched, `b` and `c` are written and the cursor is moved one
cell left, and the screen shows `>abc` with the cursor on `c`. -/
theorem screen_after_dispatch_witness :
    rl_exec_seq 8 0 none [0x62] ⟨[], [0x61, 0x63], 1, 0, ⟨none, [], 0⟩, [0x3E], 1⟩
      = some ⟨[], [0x61, 0x62, 0x63], 2, 0, ⟨none, [], 0⟩, [0x3E], 1⟩ ∧
    rl_exec_seq_out 8 80 0 none [0x62] ⟨[], [0x61, 0x63], 1, 0, ⟨none, [], 0⟩, [0x3E], 1⟩
      = some [rl_out_t.bytes [0x62], rl_out_t.bytes [0x63], rl_out_t.cur_left 1] ∧
    screen_shows [0x3E] ⟨[], [0x61, 0x62, 0x63], 2, 0, ⟨none, [], 0⟩, [0x3E], 1⟩
      (term_run term_decode 80 ⟨fun k => [0x3E, 0x61, 0x63].getD k 0x20, 2⟩
        [rl_out_t.bytes [0x62], rl_out_t.bytes [0x63], rl_out_t.cur_left 1]) :=
  ⟨by decide, by decide,
   screen_after_dispatch term_decode 8 80 0 none [0x62] [0x3E]
     ⟨[], [0x61, 0x63], 1, 0, ⟨none, [], 0⟩, [0x3E], 1⟩
     ⟨[], [0x61, 0x62, 0x63], 2, 0, ⟨none, [], 0⟩, [0x3E], 1⟩
     ⟨fun k => [0x3E, 0x61, 0x63].getD k 0x20, 2⟩
     [rl_out_t.bytes [0x62], rl_out_t.bytes [0x63], rl_out_t.cur_left 1]
     term_decode_encode_all (by decide) (by unfold glyphs_ok; decide)
     (by unfold glyphs_ok; decide) (by decide)
     ⟨rfl,
      fun i hi => by
        have h0 : i = 0 := by
          have : i < 1 := hi
          omega
        subst h0
        rfl,
      fun i hi => by
        have h2 : i < 2 := hi
        show [0x3E, 0x61, 0x63].getD (1 + i) 0x20 = [0x61, 0x63].getD i 0
        have h01 : i = 0 ∨ i = 1 := by omega
        rcases h01 with h | h <;> subst h <;> rfl,
      fun k hk => by
        have h3 : 1 + 2 ≤ k := hk
        show [0x3E, 0x61, 0x63].getD k 0x20 = 0x20
        exact List.getD_eq_default _ _ (by simp only [List.length_cons, List.length_nil]; omega)⟩
     (by decide) (by decide)⟩

/-! ## The display calls that the state functions leave out -/

set_option maxRecDepth 100000 in
theorem low_byte_lt : ∀ b < 256, b &&& 0x80 = 0 → b < 128 := by decide

/-- A glyph `utf8_to_glyph` decodes from `adv + 1` bytes is encoded in no
more than `adv + 1` bytes. -/
theorem glyph_reencode_le (junk b : Nat) (rest : List Nat) (gl adv : Nat) (hb : b < 256)
    (hdec : utf8_to_glyph junk (b :: rest) = some (gl, adv + 1)) :
    (glyph_bytes gl).length ≤ adv + 1 := by
  rw [utf8_to_glyph_cons] at hdec
  by_cases c1 : b &&& 0x80 = 0
  · simp only [if_pos c1] at hdec
    have he := Prod.mk.inj (Option.some.inj hdec)
    rw [← he.1, glyph_bytes_length_ascii b (low_byte_lt b hb c1)]
    omega
  · simp only [if_neg c1] at hdec
    by_cases c2 : b &&& 0xE0 = 0xC0
    · simp only [if_pos c2] at hdec
      by_cases c4 : rest.getD 0 0 &&& 0xC0 = 0x80
      · simp only [if_pos c4] at hdec
        have he := Prod.mk.inj (Option.some.inj hdec)
        have h1 : b &&& 0x1F ≤ 0x1F := Nat.and_le_right
        have h2 : rest.getD 0 0 &&& 0x3F ≤ 0x3F := Nat.and_le_right
        have hlt : gl < 2048 := by
          rw [← he.1, Nat.shiftLeft_eq]
          omega
        have := glyph_bytes_length_le_two gl hlt
        omega
      · simp only [if_neg c4] at hdec
        have he := Prod.mk.inj (Option.some.inj hdec)
        omega
    · simp only [if_neg c2] at hdec
      by_cases c3 : b &&& 0xF0 = 0xE0
      · simp only [if_pos c3] at hdec
        by_cases c4 : rest.getD 0 0 &&& 0xC0 = 0x80
        · simp only [if_pos c4] at hdec
          by_cases c5 : rest.getD 1 0 &&& 0xC0 = 0x80
          · simp only [if_pos c5] at hdec
            have he := Prod.mk.inj (Option.some.inj hdec)
            have := glyph_bytes_length_le gl
            omega
          · simp only [if_neg c5] at hdec
            have he := Prod.mk.inj (Option.some.inj hdec)
            omega
        · simp only [if_neg c4] at hdec
          have he := Prod.mk.inj (Option.some.inj hdec)
          omega
      · simp only [if_neg c3] at hdec
        have he := Prod.mk.inj (Option.some.inj hdec)
        omega

/-- What `utf8tog` decodes from bytes is encoded in no more bytes than it was
decoded from. -/
theorem utf8tog_loop_reencode_le (junk : Nat) (fuel : Nat) :
    ∀ (raw g : List Nat), (∀ x ∈ raw, x < 256) → utf8tog_loop junk fuel raw = some g →
      (encode_all g).length ≤ raw.length := by
  induction fuel with
  | zero => intro raw g _ h; simp [utf8tog_loop] at h
  | succ n ih =>
    intro raw g hlt h
    cases raw with
    | nil =>
      simp only [utf8tog_loop] at h
      rw [← Option.some.inj h]
      simp [encode_all]
    | cons b rest =>
      rw [utf8tog_loop] at h
      by_cases hb : b = 0
      · rw [if_pos hb] at h
        rw [← Option.some.inj h]; simp [encode_all]
      · rw [if_neg hb] at h
        cases hdec : utf8_to_glyph junk (b :: rest) with
        | none => rw [hdec] at h; simp at h
        | some p =>
          obtain ⟨gl, adv⟩ := p
          rw [hdec] at h
          simp only at h
          by_cases hgl : gl = 0
          · simp only [ne_eq, hgl, not_true_eq_false, if_false] at h
            by_cases hadv : adv + 1 ≤ (b :: rest).length
            · rw [if_pos hadv] at h
              have := ih _ _ (fun x hx => hlt x (List.mem_of_mem_drop hx)) h
              simp only [List.length_drop, List.length_cons] at this ⊢
              omega
            · rw [if_neg hadv] at h; simp at h
          · simp only [ne_eq, hgl, not_false_eq_true, if_true] at h
            cases adv with
            | zero =>
              have hs := utf8tog_loop_stuck junk gl b rest hb hgl hdec n
              simp only [List.drop_zero] at h
              rw [hs] at h; simp at h
            | succ a =>
              cases ht : utf8tog_loop junk n ((b :: rest).drop (a + 1)) with
              | none => rw [ht] at h; simp at h
              | some t =>
                rw [ht] at h
                simp only [Option.map_some'] at h
                have := ih _ _ (fun x hx => hlt x (List.mem_of_mem_drop hx)) ht
                have hgb := glyph_reencode_le junk b rest gl a (hlt b (List.mem_cons_self _ _)) hdec
                have hal := (utf8_to_glyph_append junk (b :: rest) [] gl (a + 1) hdec (by omega)
                  (by simp)).2
                rw [← Option.some.inj h]
                simp only [encode_all, List.length_append, List.length_drop,
                  List.length_cons] at this hal ⊢
                omega

/-- What `rl_update_tail(afterspace)` formats fits its buffers when the line
and the spaces together are no more than `RL_MAX_LENGTH - 1` cells. -/
theorem rl_update_tail_out_fits (RL_MAX_LENGTH cols a : Nat) (s : rl_state_t)
    (h : a + s.length + 1 ≤ RL_MAX_LENGTH) :
    ∃ o, rl_update_tail_out RL_MAX_LENGTH cols a s = some o := by
  have hL : s.length = s.line.length := rfl
  have h3 := gtoutf8_length_le_three (s.line.drop s.cur_pos) (-1)
  rw [List.length_drop] at h3
  exact rl_update_tail_out_some RL_MAX_LENGTH cols a s (by omega) (by omega)

theorem rlc_delete_n_out_fits (RL_MAX_LENGTH cols count : Nat) (s : rl_state_t)
    (hinv : cursor_inv RL_MAX_LENGTH s) :
    ∃ o, rlc_delete_n_out RL_MAX_LENGTH cols count s = some o := by
  obtain ⟨hc, hl⟩ := hinv
  unfold rlc_delete_n_out
  by_cases hcond : s.cur_pos < s.length ∧ count ≠ 0
  · rw [if_pos hcond]
    have hlen := rlc_delete_n_length count s hc
    apply rl_update_tail_out_fits
    rw [hlen]
    split <;> omega
  · rw [if_neg hcond]
    exact ⟨_, rfl⟩

theorem gtoutf8_one_length_le (l : List Nat) : (gtoutf8 l 1).length ≤ 3 := by
  cases l with
  | nil => simp [gtoutf8]
  | cons uc rest =>
    unfold gtoutf8
    split
    · simp
    · rw [if_neg (by decide)]
      have h0 : gtoutf8 rest (1 - 1) = [] := by
        cases rest with
        | nil => rfl
        | cons x t =>
          unfold gtoutf8
          split <;> simp
      rw [h0, List.append_nil]
      exact glyph_bytes_length_le uc

theorem out_seq_fits (a b : Option (List rl_out_t)) (ha : ∃ x, a = some x)
    (hb : ∃ y, b = some y) : ∃ o, out_seq a b = some o := by
  obtain ⟨x, hx⟩ := ha
  obtain ⟨y, hy⟩ := hb
  rw [hx, hy]
  exact ⟨_, rfl⟩

theorem rlc_cursor_word_left_out_fits (RL_MAX_LENGTH cols : Nat) (s : rl_state_t)
    (hinv : cursor_inv RL_MAX_LENGTH s) :
    ∃ o, rlc_cursor_word_left_out RL_MAX_LENGTH cols s = some o := by
  obtain ⟨hc, hl⟩ := hinv
  unfold rlc_cursor_word_left_out
  by_cases h0 : s.cur_pos = 0
  · rw [if_pos h0]
    exact ⟨_, rfl⟩
  · rw [if_neg h0]
    have hle := word_left_pos_le s.line s.cur_pos
    have e : (word_left_pos s.line s.cur_pos : Int) - (s.cur_pos : Int)
        = -((s.cur_pos - word_left_pos s.line s.cur_pos : Nat) : Int) := by omega
    rw [e]
    exact rl_move_left_some RL_MAX_LENGTH cols _ s (by omega)

theorem rlc_cursor_word_left_inv (RL_MAX_LENGTH : Nat) (s : rl_state_t)
    (hinv : cursor_inv RL_MAX_LENGTH s) : cursor_inv RL_MAX_LENGTH (rlc_cursor_word_left s) := by
  obtain ⟨hc, hl⟩ := hinv
  unfold rlc_cursor_word_left
  split
  · exact ⟨hc, hl⟩
  · have hle := word_left_pos_le s.line s.cur_pos
    exact ⟨by show word_left_pos s.line s.cur_pos ≤ s.length; omega, hl⟩

/-- The display calls that the state functions leave out format what they
send inside their buffers.  For every state within the cursor invariant and
every column count: each of the eleven handlers that are functions of the
state alone emits its output (`rl_move` in `buf[RL_MAX_LENGTH*2]` or by
`rl_printf`, `rl_write_part` of one glyph in `buf[RL_MAX_LENGTH*2]`,
`rl_update_tail` in `buf[RL_MAX_LENGTH*3]`); `rl_update_tail(afterspace)`
does whenever the line and the spaces are no more than `RL_MAX_LENGTH - 1`
cells, so `rl_update_tail(0)` does in the state `rl_insert_seq` returns; and
`rl_set_text` on bytes below 256, whenever its `utf8tog` returns, emits its
output, the line decoded from at most `RL_MAX_LENGTH - 1` bytes being
encoded again in no more bytes. -/
theorem display_fits_within_invariant (RL_MAX_LENGTH cols junk : Nat)
    (gc : Option rl_get_completion_fn) (s : rl_state_t) (hinv : cursor_inv RL_MAX_LENGTH s) :
    (∀ c : rl_handler,
      c ∈ [rl_handler.cursor_home, rl_handler.cursor_left, rl_handler.cursor_right,
        rl_handler.cursor_word_left, rl_handler.backspace, rl_handler.delete,
        rl_handler.backword, rl_handler.delete_word, rl_handler.delete_to_end,
        rl_handler.delete_to_begin, rl_handler.enter] →
      ∃ outs, c.out RL_MAX_LENGTH cols junk gc s = some outs) ∧
    (∀ a : Nat, a + s.length + 1 ≤ RL_MAX_LENGTH →
      ∃ outs, rl_update_tail_out RL_MAX_LENGTH cols a s = some outs) ∧
    (∀ (seq : List Nat) (s1 : rl_state_t), rl_insert_seq RL_MAX_LENGTH junk seq s = some s1 →
      ∃ outs, rl_update_tail_out RL_MAX_LENGTH cols 0 s1 = some outs) ∧
    (∀ (text : List Nat) (redraw : Bool) (s1 : rl_state_t), (∀ b ∈ text, b < 256) →
      rl_set_text RL_MAX_LENGTH junk text redraw s = some s1 →
      ∃ outs, rl_set_text_out RL_MAX_LENGTH cols junk text redraw s = some outs) := by
  obtain ⟨hc, hl⟩ := hinv
  have hinv : cursor_inv RL_MAX_LENGTH s := ⟨hc, hl⟩
  have hhome : ∃ o, rlc_cursor_home_out RL_MAX_LENGTH cols s = some o :=
    rl_move_left_some RL_MAX_LENGTH cols s.cur_pos s (by omega)
  have hleft : ∀ t : rl_state_t, ∃ o, rl_move RL_MAX_LENGTH cols (-1) t = some o := by
    intro t
    have := rl_move_left_some RL_MAX_LENGTH cols 1 t (by omega)
    simpa using this
  refine ⟨?_, fun a ha => rl_update_tail_out_fits RL_MAX_LENGTH cols a s ha, ?_, ?_⟩
  · intro c hmem
    simp only [List.mem_cons, List.mem_singleton, List.not_mem_nil, or_false] at hmem
    rcases hmem with h | h | h | h | h | h | h | h | h | h | h <;> subst h
    · exact hhome
    · show ∃ o, rlc_cursor_left_out RL_MAX_LENGTH cols s = some o
      unfold rlc_cursor_left_out
      split
      · exact hleft s
      · exact ⟨_, rfl⟩
    · show ∃ o, rlc_cursor_right_out RL_MAX_LENGTH s = some o
      unfold rlc_cursor_right_out
      by_cases hlt : s.cur_pos < s.length
      · rw [if_pos hlt]
        unfold rl_write_part_out rl_write_part
        have := gtoutf8_one_length_le (s.line.drop s.cur_pos)
        simp only
        rw [if_pos (by omega)]
        exact ⟨_, rfl⟩
      · rw [if_neg hlt]
        exact ⟨_, rfl⟩
    · exact rlc_cursor_word_left_out_fits RL_MAX_LENGTH cols s hinv
    · show ∃ o, rlc_backspace_out RL_MAX_LENGTH cols s = some o
      unfold rlc_backspace_out
      by_cases h0 : s.cur_pos ≠ 0
      · rw [if_pos h0]
        exact out_seq_fits _ _ (hleft s)
          (rlc_delete_n_out_fits RL_MAX_LENGTH cols 1 _
            ⟨by show s.cur_pos - 1 ≤ s.length; omega, hl⟩)
      · rw [if_neg h0]
        exact ⟨_, rfl⟩
    · exact rlc_delete_n_out_fits RL_MAX_LENGTH cols 1 s hinv
    · show ∃ o, rlc_backword_out RL_MAX_LENGTH cols s = some o
      exact out_seq_fits _ _ (rlc_cursor_word_left_out_fits RL_MAX_LENGTH cols s hinv)
        (rlc_delete_n_out_fits RL_MAX_LENGTH cols _ _
          (rlc_cursor_word_left_inv RL_MAX_LENGTH s hinv))
    · exact rlc_delete_n_out_fits RL_MAX_LENGTH cols _ s hinv
    · exact rlc_delete_n_out_fits RL_MAX_LENGTH cols _ s hinv
    · show ∃ o, rlc_delete_to_begin_out RL_MAX_LENGTH cols s = some o
      exact out_seq_fits _ _ hhome
        (rlc_delete_n_out_fits RL_MAX_LENGTH cols _ _
          ⟨by show 0 ≤ s.length; omega, hl⟩)
    · exact ⟨_, rfl⟩
  · intro seq s1 h
    have h1 := rl_insert_seq_inv RL_MAX_LENGTH junk seq s s1 hinv h
    exact rl_update_tail_out_fits RL_MAX_LENGTH cols 0 s1 (by have := h1.2; omega)
  · intro text redraw s1 hb h
    unfold rl_set_text_out
    rw [h]
    simp only
    cases redraw with
    | false => exact ⟨_, rfl⟩
    | true =>
      simp only [if_true]
      have h1 := rl_set_text_inv RL_MAX_LENGTH junk text true s s1 (by omega) h
      unfold rl_set_text at h
      simp only at h
      cases hg : utf8tog junk ((cstr text).take (RL_MAX_LENGTH - 1) ++
          List.replicate (RL_MAX_LENGTH - 1 - ((cstr text).take (RL_MAX_LENGTH - 1)).length) 0)
        with
      | none => rw [hg] at h; simp at h
      | some g =>
        rw [hg] at h
        have hs1 : s1.line = g := by rw [← Option.some.inj h]
        have hnz := utf8tog_ne_zero junk _ g hg
        have hre := utf8tog_loop_reencode_le junk _ _ g (by
          intro x hx
          rcases List.mem_append.1 hx with hx | hx
          · have hx1 := List.mem_of_mem_take hx
            unfold cstr at hx1
            exact hb x ((List.takeWhile_prefix _).subset hx1)
          · rw [List.eq_of_mem_replicate hx]; decide) hg
        simp only [List.length_append, List.length_replicate, List.length_take] at hre
        have hwp : ∃ o, rl_write_part_out RL_MAX_LENGTH 0 (s1.length : Int) s1 = some o := by
          unfold rl_write_part_out rl_write_part
          have he : gtoutf8 (s1.line.drop 0) (s1.length : Int) = encode_all g := by
            rw [List.drop_zero, hs1]
            exact gtoutf8_eq_encode_all g hnz _ (Or.inr (by
              show ((g.length : Nat) : Int) ≤ ((s1.line.length : Nat) : Int)
              rw [hs1]))
          simp only [he]
          rw [if_pos (by omega)]
          exact ⟨_, rfl⟩
        refine out_seq_fits _ _ hhome (out_seq_fits _ _ hwp ?_)
        by_cases hgt : s.length > s1.length
        · rw [if_pos hgt]
          exact rl_update_tail_out_fits RL_MAX_LENGTH cols _ s1 (by omega)
        · rw [if_neg hgt]
          exact ⟨_, rfl⟩

/-- With `RL_MAX_LENGTH = 4` and the line "a€b" full, `C-w` at the end emits
the move left by one cell and the tail with one space after it. -/
theorem display_fits_within_invariant_witness :
    cursor_inv 4 ⟨[], [0x61, 0x20AC, 0x62], 3, 0, ⟨none, [], 0⟩, [], 0⟩ ∧
    ∃ outs, rl_handler.backword.out 4 80 0 none
      ⟨[], [0x61, 0x20AC, 0x62], 3, 0, ⟨none, [], 0⟩, [], 0⟩ = some outs :=
  ⟨by decide,
   (display_fits_within_invariant 4 80 0 none
      ⟨[], [0x61, 0x20AC, 0x62], 3, 0, ⟨none, [], 0⟩, [], 0⟩ (by decide)).1
      rl_handler.backword (by decide)⟩

end Readline
